import Mathlib

/-! Scudo hardened allocator and LeakSanitizer core: a shallow embedding.

Definitions follow `lib/scudo/scudo_allocator.cpp` and `lib/lsan/lsan_common.cpp`
for the 64-bit target (`uptr` is a 64-bit word, `sizeof(uptr) = 8`).
Machine words are natural numbers; wrap-around is written out with `% 2 ^ 64`
where it can occur.
-/

namespace Scudo

/-! ## Chunk header codec -/

/-- Fatal terminations of the allocator (`dieWithMessage`, `CHECK`, `Die`). -/
inductive ScudoError where
  | CorruptedHeader
  | RaceOnHeader
  | InvalidChunkStateRecycle
  | MisalignedDeallocate
  | InvalidChunkStateDeallocate
  | AllocTypeMismatchDeallocate
  | InvalidSizedDelete
  | MisalignedReallocate
  | InvalidChunkStateReallocate
  | AllocTypeMismatchReallocate
  | CheckFailed
  | BadRequest
  | OutOfMemory
  | HardRssLimit
  deriving DecidableEq, Repr

/-- Chunk states. `COMPILER_CHECK(ChunkAvailable == 0)` fixes the first one. -/
def ChunkAvailable : Nat := 0

/-- State of a chunk handed to the user. -/
def ChunkAllocated : Nat := 1

/-- State of a chunk held in the quarantine. -/
def ChunkQuarantine : Nat := 2

/-- Allocation type tags (`enum AllocType`). -/
def FromMalloc : Nat := 0

/-- Tag of `operator new`. -/
def FromNew : Nat := 1

/-- Tag of `operator new[]`. -/
def FromNewArray : Nat := 2

/-- Tag of `memalign`, `posix_memalign`, `valloc`, `pvalloc`. -/
def FromMemalign : Nat := 3

/-- The unpacked chunk header (`struct UnpackedHeader`), a 64-bit bit-field record:
`Checksum : 16`, `ClassId : 8`, `SizeOrUnusedBytes : 20`, `State : 2`,
`AllocType : 2`, `Offset : 16`, in this order from the least significant bit.
The declaration lives in `scudo_allocator.h`; the widths are those of the
64-bit `PackedHeader` the source bit-casts to. -/
structure UnpackedHeader where
  Checksum : Nat
  ClassId : Nat
  SizeOrUnusedBytes : Nat
  State : Nat
  AllocType : Nat
  Offset : Nat
  deriving DecidableEq, Repr

/-- The zero-initialised header (`UnpackedHeader Header = {}`). -/
def UnpackedHeader.zero : UnpackedHeader := ⟨0, 0, 0, 0, 0, 0⟩

/-- Every field lies within its bit-field width. -/
def UnpackedHeader.InBounds (h : UnpackedHeader) : Prop :=
  h.Checksum < 2 ^ 16 ∧ h.ClassId < 2 ^ 8 ∧ h.SizeOrUnusedBytes < 2 ^ 20 ∧
  h.State < 2 ^ 2 ∧ h.AllocType < 2 ^ 2 ∧ h.Offset < 2 ^ 16

instance (h : UnpackedHeader) : Decidable h.InBounds := by
  unfold UnpackedHeader.InBounds; infer_instance

/-- The function `bit_cast<PackedHeader>(UnpackedHeader)`: the 64-bit word of the record. -/
def pack (h : UnpackedHeader) : Nat :=
  h.Checksum % 2 ^ 16 + 2 ^ 16 * (h.ClassId % 2 ^ 8) + 2 ^ 24 * (h.SizeOrUnusedBytes % 2 ^ 20) +
  2 ^ 44 * (h.State % 2 ^ 2) + 2 ^ 46 * (h.AllocType % 2 ^ 2) + 2 ^ 48 * (h.Offset % 2 ^ 16)

/-- The function `bit_cast<UnpackedHeader>(PackedHeader)`. -/
def unpack (p : Nat) : UnpackedHeader where
  Checksum := p % 2 ^ 16
  ClassId := p / 2 ^ 16 % 2 ^ 8
  SizeOrUnusedBytes := p / 2 ^ 24 % 2 ^ 20
  State := p / 2 ^ 44 % 2 ^ 2
  AllocType := p / 2 ^ 46 % 2 ^ 2
  Offset := p / 2 ^ 48 % 2 ^ 16

/-- The two checksum back ends selected by `HashAlgorithm`. -/
inductive HashAlgorithm where
  | CRC32Software
  | CRC32Hardware
  deriving DecidableEq, Repr

/-- One bit of the reflected CRC division by polynomial `poly`. -/
def crcShift (poly c : Nat) : Nat :=
  if c % 2 = 1 then (c >>> 1) ^^^ poly else c >>> 1

/-- Modelled from the spec: `CRC32Table` of `scudo_crc32.h` is not under `src/`.
The spec calls the checksum "a CRC-style rolling hash"; entry `i` is the
remainder of the byte `i` under the reflected polynomial, eight shift steps. -/
def CRC32Table (poly i : Nat) : Nat :=
  crcShift poly (crcShift poly (crcShift poly (crcShift poly
    (crcShift poly (crcShift poly (crcShift poly (crcShift poly i)))))))

/-- The byte loop of a CRC update over the low `n` bytes of `Data`:
`Crc = CRC32Table[(Crc ^ Data) & 0xff] ^ (Crc >> 8); Data >>= 8`. -/
def crcBytes (poly : Nat) : Nat → Nat → Nat → Nat
  | 0, Crc, _ => Crc
  | n + 1, Crc, Data =>
    crcBytes poly n (CRC32Table poly ((Crc ^^^ Data) &&& 0xff) ^^^ (Crc >>> 8)) (Data >>> 8)

/-- Modelled from the spec: `computeSoftwareCRC32` (`scudo_crc32.h`) is not under
`src/`. The "CRC-style rolling hash" of the spec, as the table-driven CRC-32
(reflected polynomial `0xEDB88320`) over the `sizeof(uptr) = 8` bytes of `Data`. -/
def computeSoftwareCRC32 (Crc Data : Nat) : Nat :=
  crcBytes 0xEDB88320 8 Crc Data

/-- Modelled from the spec: `computeHardwareCRC32` (`scudo_crc32.h`, the
`CRC32_INTRINSIC` instruction) is not under `src/`. The same rolling hash with
the CRC-32C polynomial (reflected `0x82F63B78`) that the instruction uses. -/
def computeHardwareCRC32 (Crc Data : Nat) : Nat :=
  crcBytes 0x82F63B78 8 Crc Data

/-- The function `computeCRC32(Crc, Value, Array, ArraySize)`: hash `Value`, then each array word. -/
def computeCRC32 (alg : HashAlgorithm) (Crc Value : Nat) (Array : List Nat) : Nat :=
  match alg with
  | .CRC32Hardware => Array.foldl computeHardwareCRC32 (computeHardwareCRC32 Crc Value)
  | .CRC32Software => Array.foldl computeSoftwareCRC32 (computeSoftwareCRC32 Crc Value)

/-- Process-wide checksum context: the global `Cookie` and `HashAlgorithm`. -/
structure HashCtx where
  Cookie : Nat
  alg : HashAlgorithm

/-- The method `ScudoChunk::computeChecksum`: the header with `Checksum = 0` is copied into
one `uptr`, hashed after the chunk address with the cookie as seed, and cut to
16 bits (`static_cast<u16>`). -/
def computeChecksum (ctx : HashCtx) (this : Nat) (Header : UnpackedHeader) : Nat :=
  let ZeroChecksumHeader := { Header with Checksum := 0 }
  let HeaderHolder := [pack ZeroChecksumHeader]
  computeCRC32 ctx.alg ctx.Cookie this HeaderHolder % 2 ^ 16

/-- Header memory: the 64-bit word stored at each chunk address. -/
abbrev HeaderMem := Nat → Nat

/-- An atomic load of one packed header: the 64-bit word at `addr`. -/
def HeaderMem.load (mem : HeaderMem) (addr : Nat) : Nat := mem addr % 2 ^ 64

/-- An atomic store of one packed header. -/
def HeaderMem.store (mem : HeaderMem) (addr v : Nat) : HeaderMem :=
  fun a => if a = addr then v else mem a

/-- The method `ScudoChunk::isValid`: checksum test without termination. -/
def isValid (ctx : HashCtx) (mem : HeaderMem) (this : Nat) : Bool :=
  let NewUnpackedHeader := unpack (mem.load this)
  decide (NewUnpackedHeader.Checksum = computeChecksum ctx this NewUnpackedHeader)

/-- The method `ScudoChunk::eraseHeader`: store the null packed header. -/
def eraseHeader (mem : HeaderMem) (this : Nat) : HeaderMem :=
  mem.store this 0

/-- The method `ScudoChunk::loadHeader`: load, unpack, die on a checksum mismatch. -/
def loadHeader (ctx : HashCtx) (mem : HeaderMem) (this : Nat) : Except ScudoError UnpackedHeader :=
  let NewUnpackedHeader := unpack (mem.load this)
  if NewUnpackedHeader.Checksum ≠ computeChecksum ctx this NewUnpackedHeader then
    .error .CorruptedHeader
  else
    .ok NewUnpackedHeader

/-- The method `ScudoChunk::storeHeader`: set the checksum, pack, store. -/
def storeHeader (ctx : HashCtx) (mem : HeaderMem) (this : Nat) (NewUnpackedHeader : UnpackedHeader) :
    HeaderMem :=
  let h := { NewUnpackedHeader with Checksum := computeChecksum ctx this NewUnpackedHeader }
  mem.store this (pack h)

/-- The method `ScudoChunk::compareExchangeHeader`: set the checksum of the new header and
swap it in if the stored word still equals the packed old header; die otherwise. -/
def compareExchangeHeader (ctx : HashCtx) (mem : HeaderMem) (this : Nat)
    (NewUnpackedHeader OldUnpackedHeader : UnpackedHeader) : Except ScudoError HeaderMem :=
  let h := { NewUnpackedHeader with Checksum := computeChecksum ctx this NewUnpackedHeader }
  let NewPackedHeader := pack h
  let OldPackedHeader := pack OldUnpackedHeader
  if mem.load this ≠ OldPackedHeader then
    .error .RaceOnHeader
  else
    .ok (mem.store this NewPackedHeader)

/-- A single-bit corruption of the stored packed header at `addr`. -/
def flipBit (mem : HeaderMem) (addr k : Nat) : HeaderMem :=
  mem.store addr (mem.load addr ^^^ 2 ^ k)

/-! ## Allocator front end -/

/-- Modulus of `uptr` arithmetic. -/
def W : Nat := 2 ^ 64

/-- Wrapping `uptr` addition. -/
def wadd (a b : Nat) : Nat := (a + b) % W

/-- Wrapping `uptr` subtraction. -/
def wsub (a b : Nat) : Nat := (a + W - b % W) % W

/-- Wrapping `uptr` left shift. -/
def wshl (a n : Nat) : Nat := (a * 2 ^ n) % W

/-- Constants and backend facts that the front end takes from headers that are
not under `src/` (`scudo_allocator.h`, the size class map, the combined
backend): they are parameters of the model. -/
structure Params where
  /-- `MinAlignmentLog`; `MinAlignment = 1 << MinAlignmentLog`. -/
  MinAlignmentLog : Nat
  /-- `MaxAlignmentLog`; `MaxAlignment = 1 << MaxAlignmentLog`. -/
  MaxAlignmentLog : Nat
  /-- `AlignedChunkHeaderSize`. -/
  AlignedChunkHeaderSize : Nat
  /-- `SizeClassMap::kMaxSize`. -/
  kMaxSize : Nat
  /-- `SizeClassMap::ClassID`. -/
  ClassID : Nat → Nat
  /-- `GetPageSizeCached()`. -/
  PageSize : Nat
  /-- `BackendAllocator.getActuallyAllocatedSize(Ptr, ClassId)`. -/
  getActuallyAllocatedSize : Nat → Nat → Nat

/-- The constant `MinAlignment`. -/
def Params.MinAlignment (cfg : Params) : Nat := 2 ^ cfg.MinAlignmentLog

/-- The constant `MaxAlignment`. -/
def Params.MaxAlignment (cfg : Params) : Nat := 2 ^ cfg.MaxAlignmentLog

/-- `MaxAllowedMallocSize = FIRST_32_SECOND_64(2UL << 30, 1ULL << 40)`, 64-bit value. -/
def MaxAllowedMallocSize : Nat := 2 ^ 40

/-- Modelled from the spec: `IsAligned` (`sanitizer_common.h`) is not under `src/`;
"pointer is minimally aligned" for a power-of-two alignment, `(a & (alignment - 1)) == 0`. -/
def IsAligned (a alignment : Nat) : Bool := decide (a &&& (alignment - 1) = 0)

/-- Modelled from the spec: `RoundUpTo` (`sanitizer_common.h`) is not under `src/`;
sizes are "rounded up" to a power-of-two boundary, `(size + boundary - 1) & ~(boundary - 1)`. -/
def RoundUpTo (size boundary : Nat) : Nat :=
  let t := wadd size (boundary - 1)
  t - (t &&& (boundary - 1))

/-- Modelled from the spec: `IsPowerOfTwo` (`sanitizer_common.h`) is not under `src/`;
"alignment is a power of two", `(x & (x - 1)) == 0`. -/
def IsPowerOfTwo (x : Nat) : Bool := decide (x &&& (x - 1) = 0)

/-- `PrimaryAllocator::CanAllocate` (`sanitizer_allocator_primary32.h`). -/
def CanAllocate (cfg : Params) (size alignment : Nat) : Bool :=
  decide (size ≤ cfg.kMaxSize) && decide (alignment ≤ cfg.kMaxSize)

/-- Operations on the backend and on user memory, recorded in program order. -/
inductive Event where
  | allocatePrimary (ClassId Ptr : Nat)
  | allocateSecondary (Size Alignment Ptr : Nat)
  | deallocatePrimary (Ptr ClassId : Nat)
  | deallocateSecondary (Ptr : Nat)
  | memset (Ptr Size : Nat)
  | memcpy (Dst Src Size : Nat)
  deriving DecidableEq, Repr

/-- Modelled from the spec: the quarantine (`sanitizer_quarantine.h`) is not under
`src/`. "Each thread owns a bounded local list of quarantined chunks" and there
is a global list; entries are `(chunk, size)` pairs, oldest first, and each
list has a byte cap. -/
structure Quarantine where
  /-- Cap of the global list (`GetSize()`). -/
  MaxSize : Nat
  /-- Cap of the thread-local cache (`GetCacheSize()`). -/
  MaxCacheSize : Nat
  cache : List (Nat × Nat)
  global : List (Nat × Nat)
  deriving DecidableEq, Repr

/-- Total bytes held by a list of quarantine entries. -/
def quarantinedBytes (l : List (Nat × Nat)) : Nat := (l.map Prod.snd).sum

/-- Modelled from the spec: eviction of `sanitizer_quarantine.h`, "if the global
total then exceeds its cap, the oldest entries are popped": returns the popped
entries and the kept ones. -/
def evictOldest (cap : Nat) : List (Nat × Nat) → List (Nat × Nat) × List (Nat × Nat)
  | [] => ([], [])
  | e :: rest =>
    if quarantinedBytes (e :: rest) > cap then
      ((e :: (evictOldest cap rest).1), (evictOldest cap rest).2)
    else ([], e :: rest)

/-- The `ScudoAllocator` instance together with the globals it reads: option
fields set by `init`, the RSS flags, the header words, the quarantine and the
trace of backend operations. -/
structure Allocator where
  ctx : HashCtx
  QuarantineChunksUpToSize : Nat
  DeallocationTypeMismatch : Bool
  ZeroContents : Bool
  DeleteSizeMismatch : Bool
  CheckRssLimit : Bool
  HardRssLimitMb : Nat
  SoftRssLimitMb : Nat
  AllocatorMayReturnNull : Bool
  RssLimitExceeded : Bool
  RssLastCheckedAtNS : Nat
  mem : HeaderMem
  AllocatorQuarantine : Quarantine
  events : List Event

/-- Append one operation to the trace. -/
def Allocator.emit (a : Allocator) (e : Event) : Allocator :=
  { a with events := a.events ++ [e] }

/-- The function `getScudoChunk(UserBeg)`. -/
def getScudoChunk (cfg : Params) (UserBeg : Nat) : Nat :=
  wsub UserBeg cfg.AlignedChunkHeaderSize

/-- The method `ScudoChunk::getBackendPtr`. -/
def getBackendPtr (cfg : Params) (this : Nat) (Header : UnpackedHeader) : Nat :=
  wsub this (wshl Header.Offset cfg.MinAlignmentLog)

/-- The method `ScudoChunk::getUsableSize`. -/
def getUsableSize (cfg : Params) (this : Nat) (Header : UnpackedHeader) : Nat :=
  let Size := cfg.getActuallyAllocatedSize (getBackendPtr cfg this Header) Header.ClassId
  if Size = 0 then 0
  else wsub (wsub Size cfg.AlignedChunkHeaderSize) (wshl Header.Offset cfg.MinAlignmentLog)

/-- The method `QuarantineCallback::Recycle`: check the header, erase it, release the
backend pointer to the Primary or the Secondary. -/
def Recycle (cfg : Params) (a : Allocator) (Chunk : Nat) : Except ScudoError Allocator :=
  match loadHeader a.ctx a.mem Chunk with
  | .error e => .error e
  | .ok Header =>
    if Header.State ≠ ChunkQuarantine then .error .InvalidChunkStateRecycle
    else
      let a1 := { a with mem := eraseHeader a.mem Chunk }
      let Ptr := getBackendPtr cfg Chunk Header
      if Header.ClassId ≠ 0 then .ok (a1.emit (.deallocatePrimary Ptr Header.ClassId))
      else .ok (a1.emit (.deallocateSecondary Ptr))

/-- Recycle the popped entries, oldest first. -/
def recycleAll (cfg : Params) : List (Nat × Nat) → Allocator → Except ScudoError Allocator
  | [], a => .ok a
  | e :: rest, a =>
    match Recycle cfg a e.1 with
    | .error err => .error err
    | .ok a1 => recycleAll cfg rest a1

/-- Modelled from the spec: `Quarantine::Put` (`sanitizer_quarantine.h`) is not
under `src/`. "`Put` appends; if thread-local total exceeds its cap, the whole
thread-local batch is transferred to a global list under a lock, and if the
global total then exceeds its cap, the oldest entries are popped and actually
recycled back to the Primary/Secondary allocator via the `Recycle` callback". -/
def QuarantinePut (cfg : Params) (a : Allocator) (Chunk Size : Nat) : Except ScudoError Allocator :=
  let q := a.AllocatorQuarantine
  let cache := q.cache ++ [(Chunk, Size)]
  if quarantinedBytes cache > q.MaxCacheSize then
    let global := q.global ++ cache
    if quarantinedBytes global > q.MaxSize then
      recycleAll cfg (evictOldest q.MaxSize global).1
        { a with AllocatorQuarantine := { q with cache := [], global := (evictOldest q.MaxSize global).2 } }
    else .ok { a with AllocatorQuarantine := { q with cache := [], global := global } }
  else .ok { a with AllocatorQuarantine := { q with cache := cache } }

/-- Readings the RSS check takes from the outside: the monotonic clock, the
resident set size, and whether the weak compare-and-swap on the timestamp wins. -/
structure RssProbe where
  now : Nat
  rss : Nat
  casSucceeds : Bool

/-- The method `ScudoAllocator::isRssLimitExceeded`. -/
def isRssLimitExceeded (a : Allocator) (probe : RssProbe) : Except ScudoError (Bool × Allocator) :=
  let LastCheck := a.RssLastCheckedAtNS
  let CurrentCheck := probe.now
  if CurrentCheck < wadd LastCheck (100 * 1000000) then .ok (a.RssLimitExceeded, a)
  else if !probe.casSucceeds then .ok (a.RssLimitExceeded, a)
  else
    let a1 := { a with RssLastCheckedAtNS := CurrentCheck }
    let CurrentRssMb := probe.rss >>> 20
    if a1.HardRssLimitMb ≠ 0 ∧ a1.HardRssLimitMb < CurrentRssMb then .error .HardRssLimit
    else if a1.SoftRssLimitMb ≠ 0 then
      if a1.RssLimitExceeded then
        if CurrentRssMb ≤ a1.SoftRssLimitMb then .ok (false, { a1 with RssLimitExceeded := false })
        else .ok (a1.RssLimitExceeded, a1)
      else
        if CurrentRssMb > a1.SoftRssLimitMb then .ok (true, { a1 with RssLimitExceeded := true })
        else .ok (a1.RssLimitExceeded, a1)
    else .ok (a1.RssLimitExceeded, a1)

/-- The handler `FailureHandler::OnBadRequest` of `ReturnNullOrDieOnFailure`: null, or death
when the allocator may not return null. -/
def OnBadRequest (a : Allocator) : Except ScudoError (Nat × Allocator) :=
  if a.AllocatorMayReturnNull then .ok (0, a) else .error .BadRequest

/-- The handler `FailureHandler::OnOOM` of `ReturnNullOrDieOnFailure`. -/
def OnOOM (a : Allocator) : Except ScudoError (Nat × Allocator) :=
  if a.AllocatorMayReturnNull then .ok (0, a) else .error .OutOfMemory

/-- Zeroing step of `allocate`: `memset` of the whole block for a Primary chunk when
`ForceZeroContents || ZeroContents`. -/
def zeroContents (cfg : Params) (a : Allocator) (ForceZeroContents : Bool) (Ptr ClassId : Nat) :
    Allocator :=
  if (ForceZeroContents || a.ZeroContents) && decide (ClassId ≠ 0) then
    a.emit (.memset Ptr (cfg.getActuallyAllocatedSize Ptr ClassId))
  else a

/-- The user pointer `allocate` derives from the backend pointer: header size added,
then rounded up to `Alignment` if not yet aligned. -/
def userBegOf (cfg : Params) (Ptr Alignment : Nat) : Nat :=
  let UserBeg := wadd Ptr cfg.AlignedChunkHeaderSize
  if !IsAligned UserBeg Alignment then RoundUpTo UserBeg Alignment else UserBeg

/-- The header `allocate` builds: `Offset` when the user pointer was moved, `State`,
`AllocType`, and either `ClassId` and `Size` (Primary) or the unused bytes up to
the next page boundary (Secondary). Each assignment truncates to the field width. -/
def headerOf (cfg : Params) (Size Alignment AllocType Ptr ClassId : Nat) : UnpackedHeader :=
  let Header := UnpackedHeader.zero
  let BackendPtr := Ptr
  let UserBeg := userBegOf cfg Ptr Alignment
  let Header := if !IsAligned (wadd BackendPtr cfg.AlignedChunkHeaderSize) Alignment then
      let Offset := wsub (wsub UserBeg cfg.AlignedChunkHeaderSize) BackendPtr
      { Header with Offset := (Offset >>> cfg.MinAlignmentLog) % 2 ^ 16 }
    else Header
  let Header := { Header with State := ChunkAllocated % 2 ^ 2, AllocType := AllocType % 2 ^ 2 }
  if ClassId ≠ 0 then
    { Header with ClassId := ClassId % 2 ^ 8, SizeOrUnusedBytes := Size % 2 ^ 20 }
  else
    let TrailingBytes := wadd UserBeg Size &&& (cfg.PageSize - 1)
    if TrailingBytes ≠ 0 then
      { Header with SizeOrUnusedBytes := (cfg.PageSize - TrailingBytes) % 2 ^ 20 }
    else Header

/-- The tail of `ScudoAllocator::allocate` once the backend has answered with `Ptr`:
optional zeroing, alignment of the user pointer, header construction and store.
The first `CheckFailed` is `CHECK(ClassId)` and the power-of-two check inside
`RoundUpTo`; the second is `CHECK_LE(UserBeg + Size, BackendPtr + AllocSize)`. -/
def allocateFinish (cfg : Params) (a : Allocator) (Size Alignment AllocType : Nat)
    (ForceZeroContents : Bool) (Ptr ClassId AllocSize : Nat) : Except ScudoError (Nat × Allocator) :=
  if Ptr = 0 then OnOOM a
  else if !IsAligned (wadd Ptr cfg.AlignedChunkHeaderSize) Alignment &&
      (decide (ClassId = 0) || !IsPowerOfTwo Alignment) then
    .error .CheckFailed
  else if ¬ (wadd (userBegOf cfg Ptr Alignment) Size ≤ wadd Ptr AllocSize) then .error .CheckFailed
  else
    .ok (userBegOf cfg Ptr Alignment,
      { zeroContents cfg a ForceZeroContents Ptr ClassId with
        mem := storeHeader a.ctx (zeroContents cfg a ForceZeroContents Ptr ClassId).mem
          (getScudoChunk cfg (userBegOf cfg Ptr Alignment))
          (headerOf cfg Size Alignment AllocType Ptr ClassId) })

/-- `NeededSize = RoundUpTo(Size, MinAlignment) + AlignedChunkHeaderSize`. -/
def neededSizeOf (cfg : Params) (Size : Nat) : Nat :=
  wadd (RoundUpTo Size cfg.MinAlignment) cfg.AlignedChunkHeaderSize

/-- `AlignedSize`: `NeededSize` plus the padding `Alignment - AlignedChunkHeaderSize`
when `Alignment > MinAlignment`. -/
def alignedSizeOf (cfg : Params) (Size Alignment : Nat) : Nat :=
  if Alignment > cfg.MinAlignment then
    wadd (neededSizeOf cfg Size) (wsub Alignment cfg.AlignedChunkHeaderSize)
  else neededSizeOf cfg Size

/-- The choice of backend in `allocate`: the Primary when `CanAllocate(AlignedSize,
MinAlignment)`, with `ClassId = ClassID(AlignedSize)` held in a `u8`; the
Secondary otherwise, with `AllocSize = NeededSize` and `ClassId = 0`. `Ptr` is
the backend's answer. -/
def allocateFromBackend (cfg : Params) (a : Allocator) (Size Alignment AllocType : Nat)
    (ForceZeroContents : Bool) (Ptr : Nat) : Except ScudoError (Nat × Allocator) :=
  if CanAllocate cfg (alignedSizeOf cfg Size Alignment) cfg.MinAlignment then
    allocateFinish cfg
      (a.emit (.allocatePrimary (cfg.ClassID (alignedSizeOf cfg Size Alignment) % 2 ^ 8) Ptr))
      Size Alignment AllocType ForceZeroContents Ptr
      (cfg.ClassID (alignedSizeOf cfg Size Alignment) % 2 ^ 8) (alignedSizeOf cfg Size Alignment)
  else
    allocateFinish cfg (a.emit (.allocateSecondary (neededSizeOf cfg Size) Alignment Ptr))
      Size Alignment AllocType ForceZeroContents Ptr 0 (neededSizeOf cfg Size)

/-- The RSS gate of `allocate`: `CheckRssLimit && isRssLimitExceeded()`. -/
def rssGate (a : Allocator) (probe : RssProbe) : Except ScudoError (Bool × Allocator) :=
  if a.CheckRssLimit then isRssLimitExceeded a probe else .ok (false, a)

/-- The method `ScudoAllocator::allocate`. `probe` is what the RSS check reads and
`backendPtr` is the pointer the backend returns when it is asked. The
adjustments `Alignment = MinAlignment` (when below it) and `Size = 1` (when
zero) are applied to every later use. -/
def allocate (cfg : Params) (a : Allocator) (Size Alignment AllocType : Nat)
    (ForceZeroContents : Bool) (probe : RssProbe) (backendPtr : Nat) :
    Except ScudoError (Nat × Allocator) :=
  if Alignment > cfg.MaxAlignment then OnBadRequest a
  else if Size ≥ MaxAllowedMallocSize then OnBadRequest a
  else if alignedSizeOf cfg (if Size = 0 then 1 else Size)
      (if Alignment < cfg.MinAlignment then cfg.MinAlignment else Alignment) ≥
      MaxAllowedMallocSize then OnBadRequest a
  else
    match rssGate a probe with
    | .error e => .error e
    | .ok (true, a1) => OnOOM a1
    | .ok (false, a1) =>
      allocateFromBackend cfg a1 (if Size = 0 then 1 else Size)
        (if Alignment < cfg.MinAlignment then cfg.MinAlignment else Alignment)
        AllocType ForceZeroContents backendPtr

/-- The method `ScudoAllocator::quarantineOrDeallocateChunk`. -/
def quarantineOrDeallocateChunk (cfg : Params) (a : Allocator) (Chunk : Nat)
    (Header : UnpackedHeader) (Size : Nat) : Except ScudoError Allocator :=
  let BypassQuarantine := decide (a.AllocatorQuarantine.MaxCacheSize = 0) ||
    decide (Size > a.QuarantineChunksUpToSize)
  if BypassQuarantine then
    let a1 := { a with mem := eraseHeader a.mem Chunk }
    let Ptr := getBackendPtr cfg Chunk Header
    if Header.ClassId ≠ 0 then .ok (a1.emit (.deallocatePrimary Ptr Header.ClassId))
    else .ok (a1.emit (.deallocateSecondary Ptr))
  else
    let EstimatedSize := wadd Size (wshl Header.Offset cfg.MinAlignmentLog)
    let NewHeader := { Header with State := ChunkQuarantine % 2 ^ 2 }
    match compareExchangeHeader a.ctx a.mem Chunk NewHeader Header with
    | .error e => .error e
    | .ok mem => QuarantinePut cfg { a with mem := mem } Chunk EstimatedSize

/-- The method `ScudoAllocator::deallocate`. -/
def deallocate (cfg : Params) (a : Allocator) (UserPtr DeleteSize AllocType : Nat) :
    Except ScudoError Allocator :=
  if UserPtr = 0 then .ok a
  else
    let UserBeg := UserPtr
    if !IsAligned UserBeg cfg.MinAlignment then .error .MisalignedDeallocate
    else
      let Chunk := getScudoChunk cfg UserBeg
      match loadHeader a.ctx a.mem Chunk with
      | .error e => .error e
      | .ok Header =>
        if Header.State ≠ ChunkAllocated then .error .InvalidChunkStateDeallocate
        else if a.DeallocationTypeMismatch ∧ Header.AllocType ≠ AllocType ∧
            (Header.AllocType ≠ FromMemalign ∨ AllocType ≠ FromMalloc) then
          .error .AllocTypeMismatchDeallocate
        else
          let Size := if Header.ClassId ≠ 0 then Header.SizeOrUnusedBytes
            else wsub (getUsableSize cfg Chunk Header) Header.SizeOrUnusedBytes
          if a.DeleteSizeMismatch ∧ DeleteSize ≠ 0 ∧ DeleteSize ≠ Size then
            .error .InvalidSizedDelete
          else quarantineOrDeallocateChunk cfg a Chunk Header Size

/-- The method `ScudoAllocator::reallocate`. -/
def reallocate (cfg : Params) (a : Allocator) (OldPtr NewSize : Nat) (probe : RssProbe)
    (backendPtr : Nat) : Except ScudoError (Nat × Allocator) :=
  let UserBeg := OldPtr
  if !IsAligned UserBeg cfg.MinAlignment then .error .MisalignedReallocate
  else
    let Chunk := getScudoChunk cfg UserBeg
    match loadHeader a.ctx a.mem Chunk with
    | .error e => .error e
    | .ok OldHeader =>
      if OldHeader.State ≠ ChunkAllocated then .error .InvalidChunkStateReallocate
      else if a.DeallocationTypeMismatch ∧ OldHeader.AllocType ≠ FromMalloc then
        .error .AllocTypeMismatchReallocate
      else
        let UsableSize := getUsableSize cfg Chunk OldHeader
        if NewSize ≤ UsableSize ∧ wsub UsableSize NewSize < cfg.kMaxSize / 2 then
          let NewHeader := { OldHeader with SizeOrUnusedBytes :=
            (if OldHeader.ClassId ≠ 0 then NewSize else wsub UsableSize NewSize) % 2 ^ 20 }
          match compareExchangeHeader a.ctx a.mem Chunk NewHeader OldHeader with
          | .error e => .error e
          | .ok mem => .ok (OldPtr, { a with mem := mem })
        else
          match allocate cfg a NewSize cfg.MinAlignment FromMalloc false probe backendPtr with
          | .error e => .error e
          | .ok (NewPtr, a1) =>
            if NewPtr ≠ 0 then
              let OldSize := if OldHeader.ClassId ≠ 0 then OldHeader.SizeOrUnusedBytes
                else wsub UsableSize OldHeader.SizeOrUnusedBytes
              match quarantineOrDeallocateChunk cfg (a1.emit (.memcpy NewPtr OldPtr (min NewSize UsableSize)))
                  Chunk OldHeader OldSize with
              | .error e => .error e
              | .ok a2 => .ok (NewPtr, a2)
            else .ok (NewPtr, a1)

/-- The size a header records for its chunk, as `deallocate` and `reallocate`
compute it: `SizeOrUnusedBytes` for a Primary chunk, the usable size minus the
unused bytes for a Secondary one. -/
def recordedSize (cfg : Params) (this : Nat) (Header : UnpackedHeader) : Nat :=
  if Header.ClassId ≠ 0 then Header.SizeOrUnusedBytes
  else wsub (getUsableSize cfg this Header) Header.SizeOrUnusedBytes

/-- Events that release a block to the backend. -/
def Event.isRelease : Event → Bool
  | .deallocatePrimary _ _ => true
  | .deallocateSecondary _ => true
  | _ => false

/-- Events that ask the backend for memory. -/
def Event.isRequest : Event → Bool
  | .allocatePrimary _ _ => true
  | .allocateSecondary _ _ _ => true
  | _ => false

/-- A concrete 64-bit configuration for evaluating the model: 16-byte minimal
alignment and header, classes of 16-byte granularity up to 4064 bytes. -/
def exampleParams : Params where
  MinAlignmentLog := 4
  MaxAlignmentLog := 24
  AlignedChunkHeaderSize := 16
  kMaxSize := 4064
  ClassID := fun s => (s + 15) / 16
  PageSize := 4096
  getActuallyAllocatedSize := fun _ c => if c = 0 then 8192 else c * 16

/-- A fresh allocator with cookie 7, software CRC, all checks enabled, empty header
memory, and a quarantine with the given thread-local and global caps. -/
def exampleAllocator (cacheCap globalCap : Nat) : Allocator where
  ctx := ⟨7, .CRC32Software⟩
  QuarantineChunksUpToSize := 2048
  DeallocationTypeMismatch := true
  ZeroContents := false
  DeleteSizeMismatch := true
  CheckRssLimit := false
  HardRssLimitMb := 0
  SoftRssLimitMb := 0
  AllocatorMayReturnNull := true
  RssLimitExceeded := false
  RssLastCheckedAtNS := 0
  mem := fun _ => 0
  AllocatorQuarantine := ⟨globalCap, cacheCap, [], []⟩
  events := []

/-- A probe for runs in which the RSS check is off. -/
def exampleProbe : RssProbe := ⟨0, 0, true⟩

/-- The example allocator holding one Allocated Primary chunk: backend block
`0x10000`, user pointer `0x10010`, class 8 (128 bytes), 100 bytes requested
with allocation type `t`. -/
def exampleHeap (cacheCap globalCap t : Nat) : Allocator :=
  { exampleAllocator cacheCap globalCap with
    mem := storeHeader ⟨7, .CRC32Software⟩ (fun _ => 0) 0x10000 ⟨0, 8, 100, 1, t, 0⟩
    events := [.allocatePrimary 8 0x10000] }

/-! ## Vocabulary of the allocator statements -/

/-- Bounds that hold for the constants of `scudo_allocator.h` on the 64-bit target
(`MinAlignmentLog = 4`, `MaxAlignmentLog = 24`, `AlignedChunkHeaderSize = 16`);
`kMaxSize` is a `uptr`. -/
def Params.Sane (cfg : Params) : Prop :=
  4 ≤ cfg.MinAlignmentLog ∧ cfg.MinAlignmentLog ≤ cfg.MaxAlignmentLog ∧
  cfg.MaxAlignmentLog ≤ 32 ∧ 0 < cfg.AlignedChunkHeaderSize ∧
  cfg.AlignedChunkHeaderSize ≤ 2 ^ 32 ∧ cfg.kMaxSize < 2 ^ 64

instance (cfg : Params) : Decidable cfg.Sane := by
  unfold Params.Sane; infer_instance

/-- Index loop of `MostSignificantSetBitIndex`. -/
def msbLoop : Nat → Nat → Nat
  | 0, _ => 0
  | fuel + 1, x => if x ≥ 2 then msbLoop fuel (x / 2) + 1 else 0

/-- Modelled from the spec: `MostSignificantSetBitIndex` (`sanitizer_common.h`) is
not under `src/`; the index of the highest set bit of a 64-bit word. -/
def MostSignificantSetBitIndex (x : Nat) : Nat := msbLoop 64 x

/-- The method `ScudoAllocator::performSanityChecks`: the largest offset, the
largest size and the largest class id must survive the assignment to their
header bit-fields. `kLargestClassID` is `SizeClassMap::kLargestClassID`. -/
def performSanityChecks (cfg : Params) (kLargestClassID : Nat) : Except ScudoError Unit :=
  let MaxPrimaryAlignment :=
    wshl 1 (MostSignificantSetBitIndex (wsub cfg.kMaxSize cfg.MinAlignment))
  let MaxOffset := wsub MaxPrimaryAlignment cfg.AlignedChunkHeaderSize >>> cfg.MinAlignmentLog
  if MaxOffset % 2 ^ 16 ≠ MaxOffset then .error .CheckFailed
  else
    let MaxSizeOrUnusedBytes := wsub cfg.kMaxSize 1
    if MaxSizeOrUnusedBytes % 2 ^ 20 ≠ MaxSizeOrUnusedBytes then .error .CheckFailed
    else if kLargestClassID % 2 ^ 8 ≠ kLargestClassID then .error .CheckFailed
    else .ok ()

/-- A call of `isRssLimitExceeded` that really checks: 100 ms have passed since
the last check and the compare-and-swap on the timestamp wins. -/
def checkPerformed (a : Allocator) (probe : RssProbe) : Prop :=
  ¬ probe.now < wadd a.RssLastCheckedAtNS (100 * 1000000) ∧ probe.casSucceeds = true

instance (a : Allocator) (probe : RssProbe) : Decidable (checkPerformed a probe) := by
  unfold checkPerformed; infer_instance

/-- The request passes the size and alignment checks at the head of `allocate`. -/
def requestAccepted (cfg : Params) (Size Alignment : Nat) : Prop :=
  ¬ Alignment > cfg.MaxAlignment ∧ ¬ Size ≥ MaxAllowedMallocSize ∧
  ¬ alignedSizeOf cfg (if Size = 0 then 1 else Size)
      (if Alignment < cfg.MinAlignment then cfg.MinAlignment else Alignment) ≥ MaxAllowedMallocSize

instance (cfg : Params) (Size Alignment : Nat) : Decidable (requestAccepted cfg Size Alignment) := by
  unfold requestAccepted; infer_instance

/-- The header `quarantineOrDeallocateChunk` swaps in: the loaded header with
`State = ChunkQuarantine` and the checksum `compareExchangeHeader` computes. -/
def quarantinedHeader (ctx : HashCtx) (Chunk : Nat) (Header : UnpackedHeader) : UnpackedHeader :=
  { Header with
    State := ChunkQuarantine
    Checksum := computeChecksum ctx Chunk { Header with State := ChunkQuarantine } }

/-- The example allocator with the RSS check on, a soft limit of `soft` MB and a hard
limit of `hard` MB (0 for none), last checked at time 0. -/
def rssLimitedAllocator (soft hard : Nat) (exceeded : Bool) : Allocator :=
  { exampleAllocator 1024 4096 with
    CheckRssLimit := true
    SoftRssLimitMb := soft
    HardRssLimitMb := hard
    RssLimitExceeded := exceeded }

/-- A reading one second after the last check: 5 MB resident, compare-and-swap won. -/
def fiveMbProbe : RssProbe := ⟨1000000000, 5 * 2 ^ 20, true⟩

end Scudo

namespace Lsan

/-! ## LeakSanitizer: classification of chunks

Addresses are natural numbers (no wrap-around: every range handed to the scanner
ends below `2 ^ 64 - 8`). The world is stopped while chunks are classified, so
memory, the set of chunks and the thread snapshots are fixed inputs; only the
chunk tags and the frontier change. -/

/-- Chunk tags (`enum ChunkTag`). -/
inductive ChunkTag where
  | kDirectlyLeaked
  | kIndirectlyLeaked
  | kReachable
  | kIgnored
  deriving DecidableEq, Repr

/-- The tags `ScanRangeForPointers` accepts: its first statement is
`CHECK(tag == kReachable || tag == kIndirectlyLeaked)`, and every caller passes
one of the two. -/
inductive ScanTag where
  | kReachable
  | kIndirectlyLeaked
  deriving DecidableEq, Repr

/-- The chunk tag a scan writes. -/
def ScanTag.toTag : ScanTag → ChunkTag
  | .kReachable => .kReachable
  | .kIndirectlyLeaked => .kIndirectlyLeaked

/-- Fatal outcomes of the leak checker in the model: a failed `CHECK`, the
exhaustion of the step budget given to a loop, and the failure to stop the
world (after which `CheckForLeaks` dies). -/
inductive LsanError where
  | CheckFailed
  | OutOfFuel
  | StopTheWorldFailed
  deriving DecidableEq, Repr

/-- The flags of `lsan_flags.inc` (not under `src/`) that the code reads. -/
structure Flags where
  use_unaligned : Bool
  use_poisoned : Bool
  use_registers : Bool
  use_stacks : Bool
  use_tls : Bool
  use_globals : Bool
  use_root_regions : Bool
  use_ld_allocations : Bool
  report_objects : Bool
  resolution : Nat

/-- The method `Flags::pointer_alignment`: `use_unaligned ? 1 : sizeof(uptr)`. -/
def Flags.pointer_alignment (f : Flags) : Nat := if f.use_unaligned then 1 else 8

/-- Result of `GetRegistersAndSP` (`enum PtraceRegistersStatus`). -/
inductive PtraceRegistersStatus where
  | REGISTERS_UNAVAILABLE_FATAL
  | REGISTERS_UNAVAILABLE
  | REGISTERS_AVAILABLE
  deriving DecidableEq, Repr

/-- One dynamic TLS block (`DTLS::DTV`). -/
structure DTV where
  beg : Nat
  size : Nat
  deriving DecidableEq, Repr

/-- What `ProcessThreads` learns about one suspended thread: the answer of
`GetThreadRangesLocked`, the register buffer and stack pointer of
`GetRegistersAndSP`, the extra stack ranges of `ForEachExtraStackRange`, and
the DTLS blocks (`none` when `dtls` is null or in destruction). -/
structure SuspendedThread where
  os_id : Nat
  thread_found : Bool
  stack_begin : Nat
  stack_end : Nat
  tls_begin : Nat
  tls_end : Nat
  cache_begin : Nat
  cache_end : Nat
  dtls : Option (List DTV)
  have_registers : PtraceRegistersStatus
  registers_begin : Nat
  registers_end : Nat
  sp : Nat
  extra_stack_ranges : List (Nat × Nat)

/-- A registered root region (`struct RootRegion`). -/
structure RootRegion where
  begin_ : Nat
  size : Nat
  deriving DecidableEq, Repr

/-- One entry of the process memory map (`MemoryMappedSegment`). -/
structure MemoryMappedSegment where
  start : Nat
  end_ : Nat
  readable : Bool
  deriving DecidableEq, Repr

/-- Everything that is fixed while the world is stopped. The function fields are
the interfaces `lsan_common.h` declares as "implemented in the parent tool" or
takes from `sanitizer_common`; they are parameters of the model. -/
structure World where
  flags : Flags
  /-- The pointer-sized word stored at an address (`*reinterpret_cast<void **>(pp)`). -/
  mem : Nat → Nat
  /-- The chunks `ForEachChunk` passes to its callback, in order. -/
  chunks : List Nat
  /-- `GetUserBegin`: user-visible address of an allocator chunk. -/
  GetUserBegin : Nat → Nat
  /-- `LsanMetadata::allocated`. -/
  allocated : Nat → Bool
  /-- `LsanMetadata::requested_size`. -/
  requested_size : Nat → Nat
  /-- `LsanMetadata::stack_trace_id`. -/
  stack_trace_id : Nat → Nat
  /-- `PointsIntoChunk`: "If p points into a chunk that has been allocated to the
  user, returns its user-visible address. Otherwise, returns 0." -/
  PointsIntoChunk : Nat → Nat
  /-- `WordIsPoisoned`. -/
  WordIsPoisoned : Nat → Bool
  /-- `GetAllocatorGlobalRange`. -/
  allocator_begin : Nat
  allocator_end : Nat
  /-- The global ranges the platform's `ProcessGlobalRegions` hands to `ScanGlobalRange`. -/
  global_ranges : List (Nat × Nat)
  /-- The suspended threads. -/
  threads : List SuspendedThread
  /-- The pointers `GetAdditionalThreadContextPtrs` collects. -/
  thread_context_ptrs : List Nat
  /-- `IsAccessibleMemoryRange(addr, 1)`. -/
  IsAccessibleMemoryRange : Nat → Bool
  /-- `GetPageSizeCached()`. -/
  PageSize : Nat
  /-- The registered root regions. -/
  root_regions : List RootRegion
  /-- The segments `MemoryMappingLayout::Next` yields. -/
  proc_maps : List MemoryMappedSegment
  /-- Ranges scanned by the platform's `ProcessPlatformSpecificAllocations`. -/
  platform_ranges : List (Nat × Nat)
  /-- `StackDepotGet`: the frames of a stack trace id. -/
  StackDepotGet : Nat → List Nat
  /-- `StackDepotPut`: the id of a stack trace. -/
  StackDepotPut : List Nat → Nat
  /-- `GetLinker()`, as the `containsAddress` test of the linker module, if any. -/
  linker : Option (Nat → Bool)
  /-- `StackTrace::GetPreviousInstructionPc`. -/
  GetPreviousInstructionPc : Nat → Nat
  /-- `LeakSuppressionContext::GetSuppressionForAddr`: the matching rule, if any. -/
  GetSuppressionForAddr : Nat → Option Nat
  /-- The weak hook `__lsan_is_turned_off`, when defined and returning non-zero. -/
  is_turned_off : Bool
  /-- Whether `LockStuffAndStopTheWorld` manages to stop the world and run its callback. -/
  StopTheWorld : Bool

/-- The mutable part of a classification: the tag of every chunk
(`LsanMetadata::tag` / `set_tag`) and the frontier. The frontier is a stack:
its head is `frontier->back()`. -/
structure ScanState where
  tag : Nat → ChunkTag
  frontier : List Nat

/-- `LsanMetadata::set_tag`. -/
def ScanState.set_tag (s : ScanState) (chunk : Nat) (t : ChunkTag) : ScanState :=
  { s with tag := fun c => if c = chunk then t else s.tag c }

/-- `frontier->push_back(chunk)`. -/
def ScanState.push_back (s : ScanState) (chunk : Nat) : ScanState :=
  { s with frontier := chunk :: s.frontier }

/-- `CanBeAHeapPointer`, x86-64 variant. -/
def CanBeAHeapPointer (p : Nat) : Bool :=
  let kMinAddress := 4 * 4096
  if p < kMinAddress then false
  else decide (p >>> 47 = 0)

/-- The body of the loop of `ScanRangeForPointers` for the word at `pp`. -/
def scanWord (W : World) (begin_ : Nat) (frontier : Bool) (tag : ScanTag) (pp : Nat)
    (s : ScanState) : ScanState :=
  let p := W.mem pp
  if !CanBeAHeapPointer p then s
  else
    let chunk := W.PointsIntoChunk p
    if chunk = 0 then s
    else if chunk = begin_ then s
    else if s.tag chunk = .kReachable ∨ s.tag chunk = .kIgnored then s
    else if !W.flags.use_poisoned && W.WordIsPoisoned pp then s
    else if frontier then (s.set_tag chunk tag.toTag).push_back chunk
    else s.set_tag chunk tag.toTag

/-- The loop `for (; pp + sizeof(void *) <= end; pp += alignment)`; `fuel` bounds the
number of iterations. -/
def scanLoop (W : World) (begin_ end_ : Nat) (frontier : Bool) (tag : ScanTag) :
    Nat → Nat → ScanState → ScanState
  | 0, _, s => s
  | fuel + 1, pp, s =>
    if pp + 8 ≤ end_ then
      scanLoop W begin_ end_ frontier tag fuel (pp + W.flags.pointer_alignment)
        (scanWord W begin_ frontier tag pp s)
    else s

/-- The first address the scan reads: `begin` rounded up to the alignment. -/
def scanStart (W : World) (begin_ : Nat) : Nat :=
  if begin_ % W.flags.pointer_alignment ≠ 0 then
    begin_ + W.flags.pointer_alignment - begin_ % W.flags.pointer_alignment
  else begin_

/-- `ScanRangeForPointers(begin, end, frontier, region_type, tag)`. `frontier = false`
stands for the null frontier. The loop runs at most `end - pp` times since the
alignment is at least 1. -/
def ScanRangeForPointers (W : World) (begin_ end_ : Nat) (frontier : Bool) (tag : ScanTag)
    (s : ScanState) : ScanState :=
  scanLoop W begin_ end_ frontier tag (end_ - scanStart W begin_) (scanStart W begin_) s

/-- A sequence of `ScanRangeForPointers(begin, end, frontier, _, kReachable)` calls. -/
def scanRanges (W : World) : List (Nat × Nat) → ScanState → ScanState
  | [], s => s
  | r :: rest, s => scanRanges W rest (ScanRangeForPointers W r.1 r.2 true .kReachable s)

/-- `ScanGlobalRange`: the range without the allocator's own global range. -/
def ScanGlobalRange (W : World) (begin_ end_ : Nat) (s : ScanState) : Except LsanError ScanState :=
  if begin_ ≤ W.allocator_begin ∧ W.allocator_begin < end_ then
    if ¬ W.allocator_begin ≤ W.allocator_end then .error .CheckFailed
    else if ¬ W.allocator_end ≤ end_ then .error .CheckFailed
    else
      let s1 := if begin_ < W.allocator_begin then
          ScanRangeForPointers W begin_ W.allocator_begin true .kReachable s else s
      let s2 := if W.allocator_end < end_ then
          ScanRangeForPointers W W.allocator_end end_ true .kReachable s1 else s1
      .ok s2
  else .ok (ScanRangeForPointers W begin_ end_ true .kReachable s)

/-- Modelled from the spec: `ProcessGlobalRegions` is platform code that is not
under `src/`. "Collect root pointers from: global variable memory ranges
(excluding the allocator's own internal bookkeeping range)": each global range
goes through `ScanGlobalRange` when `use_globals` is set. -/
def ProcessGlobalRegions (W : World) (s : ScanState) : Except LsanError ScanState :=
  if !W.flags.use_globals then .ok s
  else W.global_ranges.foldlM (fun st r => ScanGlobalRange W r.1 r.2 st) s

/-- The body of the loop of `ProcessThreadRegistry` for one thread-context pointer. -/
def registryStep (W : World) (s : ScanState) (ptr : Nat) : ScanState :=
  let chunk := W.PointsIntoChunk ptr
  if chunk = 0 then s
  else if !W.allocated chunk then s
  else (s.set_tag chunk .kReachable).push_back chunk

/-- `ProcessThreadRegistry`: chunks pointed to by the thread contexts are tagged
reachable and pushed. -/
def ProcessThreadRegistry (W : World) (s : ScanState) : ScanState :=
  W.thread_context_ptrs.foldl (registryStep W) s

/-- The guard-page loop of `ProcessThreads`:
`while (stack_begin < stack_end && !IsAccessibleMemoryRange(stack_begin, 1)) stack_begin += page_size`. -/
def skipGuardPages (W : World) : Nat → Nat → Nat → Nat
  | 0, stack_begin, _ => stack_begin
  | fuel + 1, stack_begin, stack_end =>
    if stack_begin < stack_end ∧ W.IsAccessibleMemoryRange stack_begin = false then
      skipGuardPages W fuel (stack_begin + W.PageSize) stack_end
    else stack_begin

/-- The stack range `ProcessThreads` scans for a thread with stack pointer `sp`: the
whole stack after its guard pages when `sp` is outside the stack, else the part
from `sp`. -/
def stackRange (W : World) (t : SuspendedThread) (sp : Nat) : Nat × Nat :=
  if sp < t.stack_begin ∨ sp ≥ t.stack_end then
    (skipGuardPages W (t.stack_end - t.stack_begin) t.stack_begin t.stack_end, t.stack_end)
  else (sp, t.stack_end)

/-- The static TLS ranges `ProcessThreads` scans: the TLS block without the part that
overlaps the allocator cache. -/
def tlsRanges (t : SuspendedThread) : List (Nat × Nat) :=
  if t.tls_begin ≠ 0 then
    if t.cache_begin = t.cache_end ∨ t.tls_end < t.cache_begin ∨ t.tls_begin > t.cache_end then
      [(t.tls_begin, t.tls_end)]
    else
      (if t.tls_begin < t.cache_begin then [(t.tls_begin, t.cache_begin)] else []) ++
      (if t.tls_end > t.cache_end then [(t.cache_end, t.tls_end)] else [])
  else []

/-- The dynamic TLS ranges `ProcessThreads` scans (the non-Android branch). -/
def dtlsRanges (t : SuspendedThread) : List (Nat × Nat) :=
  match t.dtls with
  | none => []
  | some dtvs => (dtvs.filter (fun d => decide (d.beg < d.beg + d.size))).map
      (fun d => (d.beg, d.beg + d.size))

/-- The ranges the body of the loop of `ProcessThreads` scans for one thread, in
order: registers, stack and extra stack ranges, static and dynamic TLS. A
thread that is not in the registry, or whose registers are unavailable with
`REGISTERS_UNAVAILABLE_FATAL`, is skipped. -/
def threadRanges (W : World) (t : SuspendedThread) : List (Nat × Nat) :=
  if !t.thread_found then []
  else if t.have_registers = .REGISTERS_UNAVAILABLE_FATAL then []
  else
    let sp := if t.have_registers ≠ .REGISTERS_AVAILABLE then t.stack_begin else t.sp
    (if W.flags.use_registers ∧ t.have_registers ≠ .REGISTERS_UNAVAILABLE then
      [(t.registers_begin, t.registers_end)] else []) ++
    (if W.flags.use_stacks then stackRange W t sp :: t.extra_stack_ranges else []) ++
    (if W.flags.use_tls then tlsRanges t ++ dtlsRanges t else [])

/-- `ProcessThreads`: every thread's ranges are scanned with `kReachable`, then
`ProcessThreadRegistry` runs. -/
def ProcessThreads (W : World) (s : ScanState) : ScanState :=
  ProcessThreadRegistry W (scanRanges W (W.threads.flatMap (threadRanges W)) s)

/-- `ScanRootRegion`: the readable intersection of a root region and a mapped segment.
The sum `root_region.begin + root_region.size` is `uptr` arithmetic and wraps at `2 ^ 64`. -/
def ScanRootRegion (W : World) (root_region : RootRegion) (region_begin region_end : Nat)
    (is_readable : Bool) (s : ScanState) : ScanState :=
  let intersection_begin := max root_region.begin_ region_begin
  let intersection_end := min region_end ((root_region.begin_ + root_region.size) % 2 ^ 64)
  if intersection_begin ≥ intersection_end then s
  else if is_readable then
    ScanRangeForPointers W intersection_begin intersection_end true .kReachable s
  else s

/-- `ProcessRootRegion`: one root region against every mapped segment. -/
def ProcessRootRegion (W : World) (root_region : RootRegion) (s : ScanState) : ScanState :=
  W.proc_maps.foldl (fun st seg => ScanRootRegion W root_region seg.start seg.end_ seg.readable st) s

/-- `ProcessRootRegions`. -/
def ProcessRootRegions (W : World) (s : ScanState) : ScanState :=
  if !W.flags.use_root_regions then s
  else W.root_regions.foldl (fun st r => ProcessRootRegion W r st) s

/-- `FloodFillTag`: pop a chunk, scan its body, until the frontier is empty. `fuel`
bounds the number of pops; `OutOfFuel` means the bound was too small. -/
def FloodFillTag (W : World) (tag : ScanTag) : Nat → ScanState → Except LsanError ScanState
  | 0, s => if s.frontier = [] then .ok s else .error .OutOfFuel
  | fuel + 1, s =>
    match s.frontier with
    | [] => .ok s
    | next_chunk :: rest =>
      FloodFillTag W tag fuel
        (ScanRangeForPointers W next_chunk (next_chunk + W.requested_size next_chunk) true tag
          { s with frontier := rest })

/-- `ForEachChunk(callback, arg)`. -/
def ForEachChunk {σ : Type} (W : World) (callback : Nat → σ → σ) (s : σ) : σ :=
  W.chunks.foldl (fun st chunk => callback chunk st) s

/-- `MarkIndirectlyLeakedCb`. -/
def MarkIndirectlyLeakedCb (W : World) (chunk : Nat) (s : ScanState) : ScanState :=
  let chunk := W.GetUserBegin chunk
  if W.allocated chunk ∧ s.tag chunk ≠ .kReachable then
    ScanRangeForPointers W chunk (chunk + W.requested_size chunk) false .kIndirectlyLeaked s
  else s

/-- Modelled from the spec: `InternalLowerBound` (`sanitizer_common.h`) is not under
`src/`; on a sorted vector it is the index of the first element that is not
below `val`. -/
def InternalLowerBound : List Nat → Nat → Nat
  | [], _ => 0
  | x :: xs, val => if x < val then 1 + InternalLowerBound xs val else 0

/-- `IgnoredSuppressedCb`: tag the chunk ignored when its stack trace id is in the
sorted vector of suppressed stacks. -/
def IgnoredSuppressedCb (W : World) (suppressed : List Nat) (chunk : Nat) (s : ScanState) :
    ScanState :=
  let chunk := W.GetUserBegin chunk
  if !W.allocated chunk ∨ s.tag chunk = .kIgnored then s
  else
    let idx := InternalLowerBound suppressed (W.stack_trace_id chunk)
    if idx ≥ suppressed.length ∨ W.stack_trace_id chunk ≠ suppressed.getD idx 0 then s
    else s.set_tag chunk .kIgnored

/-- `CollectIgnoredCb`. -/
def CollectIgnoredCb (W : World) (chunk : Nat) (s : ScanState) : ScanState :=
  let chunk := W.GetUserBegin chunk
  if W.allocated chunk ∧ s.tag chunk = .kIgnored then s.push_back chunk else s

/-- `GetCallerPC`. -/
def GetCallerPC (stack : List Nat) : Nat :=
  if stack.length ≥ 2 then stack.getD 1 0 else 0

/-- The test of `MarkInvalidPCCb` on the caller pc of a stack trace id. -/
def invalidPC (W : World) (skip_linker_allocations : Bool) (stack_id : Nat) : Bool :=
  let caller_pc := if stack_id > 0 then GetCallerPC (W.StackDepotGet stack_id) else 0
  decide (caller_pc = 0) ||
    (skip_linker_allocations && (match W.linker with
      | some containsAddress => containsAddress caller_pc
      | none => false))

/-- `MarkInvalidPCCb`. -/
def MarkInvalidPCCb (W : World) (skip_linker_allocations : Bool) (chunk : Nat) (s : ScanState) :
    ScanState :=
  let chunk := W.GetUserBegin chunk
  if W.allocated chunk ∧ s.tag chunk ≠ .kReachable ∧ s.tag chunk ≠ .kIgnored then
    if invalidPC W skip_linker_allocations (W.stack_trace_id chunk) then
      (s.set_tag chunk .kIgnored).push_back chunk
    else s
  else s

/-- `ProcessPC`. -/
def ProcessPC (W : World) (s : ScanState) : ScanState :=
  let skip_linker_allocations :=
    W.flags.use_tls && W.flags.use_ld_allocations && W.linker.isSome
  ForEachChunk W (MarkInvalidPCCb W skip_linker_allocations) s

/-- Modelled from the spec: `ProcessPlatformSpecificAllocations` is platform code
that is not under `src/`. "Platform-allocation pass": the ranges the platform
names are scanned like roots (none on Linux). -/
def ProcessPlatformSpecificAllocations (W : World) (s : ScanState) : ScanState :=
  scanRanges W W.platform_ranges s

/-- The part of `ClassifyAllChunks` that finds the reachable chunks: everything up to
and including the second flood fill. -/
def findReachable (W : World) (suppressed_stacks : List Nat) (fuel : Nat) (s : ScanState) :
    Except LsanError ScanState :=
  let s1 := if !suppressed_stacks.isEmpty then
      ForEachChunk W (IgnoredSuppressedCb W suppressed_stacks) s else s
  let s2 := ForEachChunk W (CollectIgnoredCb W) s1
  match ProcessGlobalRegions W s2 with
  | .error e => .error e
  | .ok s3 =>
    let s4 := ProcessThreads W s3
    let s5 := ProcessRootRegions W s4
    match FloodFillTag W .kReachable fuel s5 with
    | .error e => .error e
    | .ok s6 =>
      if s6.frontier.length ≠ 0 then .error .CheckFailed
      else
        let s7 := ProcessPC W s6
        let s8 := ProcessPlatformSpecificAllocations W s7
        FloodFillTag W .kReachable fuel s8

/-- `ClassifyAllChunks`: the reachable chunks are found, then the chunks reachable
from leaked chunks are tagged indirectly leaked. -/
def ClassifyAllChunks (W : World) (suppressed_stacks : List Nat) (fuel : Nat) (s : ScanState) :
    Except LsanError ScanState :=
  match findReachable W suppressed_stacks fuel s with
  | .error e => .error e
  | .ok s9 => .ok (ForEachChunk W (MarkIndirectlyLeakedCb W) s9)

/-- `ResetTagsCb`. -/
def ResetTagsCb (W : World) (chunk : Nat) (s : ScanState) : ScanState :=
  let chunk := W.GetUserBegin chunk
  if W.allocated chunk ∧ s.tag chunk ≠ .kIgnored then s.set_tag chunk .kDirectlyLeaked else s

/-- One collected leak (`struct LeakedChunk`). -/
structure LeakedChunk where
  chunk : Nat
  stack_trace_id : Nat
  leaked_size : Nat
  tag : ChunkTag
  deriving DecidableEq, Repr

/-- `CollectLeaksCb`; the vector of leaks is kept in push order. -/
def CollectLeaksCb (W : World) (tag : Nat → ChunkTag) (chunk : Nat) (leaks : List LeakedChunk) :
    List LeakedChunk :=
  let chunk := W.GetUserBegin chunk
  if !W.allocated chunk then leaks
  else if tag chunk = .kDirectlyLeaked ∨ tag chunk = .kIndirectlyLeaked then
    leaks ++ [⟨chunk, W.stack_trace_id chunk, W.requested_size chunk, tag chunk⟩]
  else leaks

/-- `CheckForLeaksCallback` with a fresh `CheckForLeaksParam` (empty frontier):
classify, collect the leaks, reset the tags. Returns the tags left behind and
the leaks. -/
def CheckForLeaksCallback (W : World) (suppressed_stacks : List Nat) (fuel : Nat)
    (tag : Nat → ChunkTag) : Except LsanError ((Nat → ChunkTag) × List LeakedChunk) :=
  match ClassifyAllChunks W suppressed_stacks fuel ⟨tag, []⟩ with
  | .error e => .error e
  | .ok s =>
    let leaks := ForEachChunk W (CollectLeaksCb W s.tag) []
    .ok ((ForEachChunk W (ResetTagsCb W) s).tag, leaks)

/-! ### Vocabulary of the statements -/

/-- A chunk counts as reached when it is tagged `kReachable` or `kIgnored`. -/
def Reached (t : ChunkTag) : Prop := t = .kReachable ∨ t = .kIgnored

instance (t : ChunkTag) : Decidable (Reached t) := by unfold Reached; infer_instance

/-- A live chunk: a user-visible address that `ForEachChunk` enumerates (through
`GetUserBegin`) and whose metadata says allocated. -/
def Live (W : World) (c : Nat) : Prop :=
  c ∈ W.chunks.map W.GetUserBegin ∧ W.allocated c = true

instance (W : World) (c : Nat) : Decidable (Live W c) := by unfold Live; infer_instance

/-- The word at `pp` is one the scan of `[begin, end)` reads: aligned, at or after
`begin`, and wholly below `end`. -/
def Visits (W : World) (begin_ end_ pp : Nat) : Prop :=
  begin_ ≤ pp ∧ pp + 8 ≤ end_ ∧ pp % W.flags.pointer_alignment = 0

instance (W : World) (b e pp : Nat) : Decidable (Visits W b e pp) := by
  unfold Visits; infer_instance

/-- The word at `pp`, read in a scan that began at `begin`, counts as a pointer to
chunk `c`: its value is plausible, `PointsIntoChunk` resolves it to `c`, `c` is
not the chunk at `begin`, and the word is not poisoned unless `use_poisoned`. -/
def PointsTo (W : World) (begin_ pp c : Nat) : Prop :=
  CanBeAHeapPointer (W.mem pp) = true ∧ W.PointsIntoChunk (W.mem pp) = c ∧ c ≠ 0 ∧ c ≠ begin_ ∧
  (W.flags.use_poisoned = true ∨ W.WordIsPoisoned pp = false)

instance (W : World) (b pp c : Nat) : Decidable (PointsTo W b pp c) := by
  unfold PointsTo; infer_instance

/-- Some word of the range `[begin, end)` counts as a pointer to chunk `c`. -/
def RangePointsTo (W : World) (begin_ end_ c : Nat) : Prop :=
  ∃ pp, Visits W begin_ end_ pp ∧ PointsTo W begin_ pp c

/-- The sub-ranges of a global range that `ScanGlobalRange` scans. -/
def globalSubranges (W : World) (r : Nat × Nat) : List (Nat × Nat) :=
  if r.1 ≤ W.allocator_begin ∧ W.allocator_begin < r.2 then
    (if r.1 < W.allocator_begin then [(r.1, W.allocator_begin)] else []) ++
    (if W.allocator_end < r.2 then [(W.allocator_end, r.2)] else [])
  else [r]

/-- The `CHECK`s of `ScanGlobalRange` hold for every global range. -/
def GlobalChecksPass (W : World) : Prop :=
  W.flags.use_globals = true → ∀ r ∈ W.global_ranges,
    r.1 ≤ W.allocator_begin ∧ W.allocator_begin < r.2 →
      W.allocator_begin ≤ W.allocator_end ∧ W.allocator_end ≤ r.2

/-- The range `ScanRootRegion` scans for a root region and a mapped segment, if any. -/
def rootRegionSubrange (r : RootRegion) (seg : MemoryMappedSegment) : List (Nat × Nat) :=
  if max r.begin_ seg.start ≥ min seg.end_ ((r.begin_ + r.size) % 2 ^ 64) then []
  else if seg.readable then
    [(max r.begin_ seg.start, min seg.end_ ((r.begin_ + r.size) % 2 ^ 64))]
  else []

/-- Every range that `ClassifyAllChunks` scans as a root: globals, thread registers,
stacks and TLS, root regions, and the platform's ranges. -/
def rootRanges (W : World) : List (Nat × Nat) :=
  (if W.flags.use_globals then W.global_ranges.flatMap (globalSubranges W) else []) ++
  W.threads.flatMap (threadRanges W) ++
  (if W.flags.use_root_regions then
    W.root_regions.flatMap (fun r => W.proc_maps.flatMap (rootRegionSubrange r)) else []) ++
  W.platform_ranges

/-- Chunks reachable from the scanned roots: pointed to by a word of a root range,
or by a word in the body of a chunk that is reachable. -/
inductive RootReachable (W : World) : Nat → Prop where
  | root (r : Nat × Nat) (c : Nat) (hr : r ∈ rootRanges W) (hp : RangePointsTo W r.1 r.2 c) :
      RootReachable W c
  | body (c' c : Nat) (hc : RootReachable W c')
      (hp : RangePointsTo W c' (c' + W.requested_size c') c) : RootReachable W c

/-- The state of the tags between two leak checks: every chunk is tagged
`kDirectlyLeaked` or `kIgnored`. -/
def TagsReset (tag : Nat → ChunkTag) : Prop :=
  ∀ c, tag c = .kDirectlyLeaked ∨ tag c = .kIgnored

/-- `PointsIntoChunk` only returns live chunks. -/
def PointsIntoLive (W : World) : Prop :=
  ∀ p, W.PointsIntoChunk p ≠ 0 → Live W (W.PointsIntoChunk p)

/-- The number of flood-fill steps that always suffices. -/
def enoughFuel (W : World) : Nat := 2 * W.chunks.length + W.thread_context_ptrs.length

/-- What a hit of `scanWord` does to the state. -/
def tagAndPush (fr : Bool) (tag : ScanTag) (c : Nat) (s : ScanState) : ScanState :=
  if fr then (s.set_tag c tag.toTag).push_back c else s.set_tag c tag.toTag

/-- All pointers found in the body of chunk `c` lead to reached chunks. -/
def Closed (W : World) (s : ScanState) (c : Nat) : Prop :=
  ∀ t, RangePointsTo W c (c + W.requested_size c) t → Reached (s.tag t)

/-- The flood-fill invariant: a live reached chunk is pending (`P`), waits in the
frontier, or has had its body scanned. -/
def FillInv (W : World) (P : Nat → Prop) (s : ScanState) : Prop :=
  ∀ x, Live W x → Reached (s.tag x) → P x ∨ x ∈ s.frontier ∨ Closed W s x

/-- The number of enumerated chunks that are allocated and not reached. -/
def unreachedCount (W : World) (s : ScanState) : Nat :=
  (W.chunks.map W.GetUserBegin).countP (fun c => W.allocated c && !decide (Reached (s.tag c)))

/-- The termination measure of the flood fill. -/
def fillMeasure (W : World) (s : ScanState) : Nat := s.frontier.length + unreachedCount W s

/-- A chunk that a thread-context pointer points into. -/
def CtxTarget (W : World) (x : Nat) : Prop :=
  ∃ ptr ∈ W.thread_context_ptrs, W.PointsIntoChunk ptr = x ∧ x ≠ 0

/-- What the classification maintains relative to the tags `tag0` it started from
and a set `K` of chunks that may be reached: a tag is either unchanged or that
of a live chunk of `K` that is now reached (and a chunk that was reached at the
start changes its tag only through a thread-context pointer), and the frontier
holds live chunks of `K`. -/
def Justified (W : World) (K : Nat → Prop) (tag0 : Nat → ChunkTag) (s : ScanState) : Prop :=
  (∀ x, s.tag x = tag0 x ∨
    (Live W x ∧ K x ∧ Reached (s.tag x) ∧ (Reached (tag0 x) → CtxTarget W x))) ∧
  (∀ n ∈ s.frontier, Live W n ∧ K n)

/-- The flag `skip_linker_allocations` that `ProcessPC` computes. -/
def skipLinkerAllocations (W : World) : Bool :=
  W.flags.use_tls && W.flags.use_ld_allocations && W.linker.isSome

/-- A set `K` of chunks admits everything the classification may reach: targets of
root words, of thread-context pointers and of words in bodies of live chunks of
`K`, live chunks with a suppressed stack, live chunks ignored at the start, and
live chunks with an invalid caller pc. -/
structure Admits (W : World) (suppressed : List Nat) (tag0 : Nat → ChunkTag) (K : Nat → Prop) :
    Prop where
  roots : ∀ r ∈ rootRanges W, ∀ c, RangePointsTo W r.1 r.2 c → K c
  body : ∀ n c, Live W n → K n → RangePointsTo W n (n + W.requested_size n) c → K c
  ctx : ∀ ptr ∈ W.thread_context_ptrs, W.PointsIntoChunk ptr ≠ 0 → K (W.PointsIntoChunk ptr)
  supp : ∀ c, Live W c → W.stack_trace_id c ∈ suppressed → K c
  init : ∀ c, Live W c → tag0 c = .kIgnored → K c
  pc : ∀ c, Live W c → invalidPC W (skipLinkerAllocations W) (W.stack_trace_id c) = true → K c

/-- The lookup of `IgnoredSuppressedCb` finds the stack trace id in the vector. -/
def suppressedHit (suppressed : List Nat) (id : Nat) : Prop :=
  ¬ (InternalLowerBound suppressed id ≥ suppressed.length ∨
    id ≠ suppressed.getD (InternalLowerBound suppressed id) 0)

instance (suppressed : List Nat) (id : Nat) : Decidable (suppressedHit suppressed id) := by
  unfold suppressedHit; infer_instance

/-- What `findReachable` guarantees about its final state `s`, relative to the tags
`tag0` at the start and a set `K` that admits everything reachable. -/
structure ReachableSpec (W : World) (suppressed : List Nat) (tag0 : Nat → ChunkTag)
    (K : Nat → Prop) (s : ScanState) : Prop where
  frontier_nil : s.frontier = []
  closed : FillInv W (fun _ => False) s
  justified : Justified W K tag0 s
  roots : ∀ r ∈ rootRanges W, ∀ c, RangePointsTo W r.1 r.2 c → Reached (s.tag c)
  ctx : ∀ ptr ∈ W.thread_context_ptrs, W.PointsIntoChunk ptr ≠ 0 →
    Reached (s.tag (W.PointsIntoChunk ptr))
  supp : ∀ c, Live W c → suppressed.isEmpty = false →
    suppressedHit suppressed (W.stack_trace_id c) → Reached (s.tag c)
  init : ∀ x, Reached (tag0 x) → Reached (s.tag x)
  pc : ∀ c, Live W c → invalidPC W (skipLinkerAllocations W) (W.stack_trace_id c) = true →
    Reached (s.tag c)

/-! ### The leak report and the suppression context -/

/-- One record of the report (`struct Leak`). -/
structure Leak where
  id : Nat
  hit_count : Nat
  total_size : Nat
  stack_trace_id : Nat
  is_directly_leaked : Bool
  is_suppressed : Bool
  deriving DecidableEq, Repr

/-- One leaked object of the report (`struct LeakedObject`). -/
structure LeakedObject where
  leak_id : Nat
  addr : Nat
  size : Nat
  deriving DecidableEq, Repr

/-- The mutable fields of `class LeakReport`. -/
structure LeakReport where
  next_id_ : Nat
  leaks_ : List Leak
  leaked_objects_ : List LeakedObject
  deriving DecidableEq, Repr

/-- A freshly constructed `LeakReport`. -/
def LeakReport.empty : LeakReport := ⟨0, [], []⟩

/-- The hard limit on the number of distinct leaks. -/
def kMaxLeaksConsidered : Nat := 5000

/-- The index at which the inner loop of `AddLeakedChunks` stops: the first record
with the same stack trace id and directness, or the size of the vector. -/
def findLeak (leaks : List Leak) (stack_trace_id : Nat) (is_directly_leaked : Bool) : Nat :=
  leaks.findIdx (fun l =>
    decide (l.stack_trace_id = stack_trace_id) && (l.is_directly_leaked == is_directly_leaked))

/-- The update of the record at index `i`: `hit_count++` and `total_size += leaked_size`
(both `uptr`). -/
def bumpLeak : List Leak → Nat → Nat → List Leak
  | [], _, _ => []
  | l :: ls, 0, leaked_size =>
    { l with hit_count := (l.hit_count + 1) % 2 ^ 64,
             total_size := (l.total_size + leaked_size) % 2 ^ 64 } :: ls
  | l :: ls, i + 1, leaked_size => l :: bumpLeak ls i leaked_size

/-- The stack trace id a leaked chunk is filed under: with a non-zero `resolution`
the id of the stack cut to `resolution` frames. -/
def resolvedStackId (W : World) (stack_trace_id : Nat) : Nat :=
  if W.flags.resolution ≠ 0 then
    W.StackDepotPut ((W.StackDepotGet stack_trace_id).take
      (min (W.StackDepotGet stack_trace_id).length W.flags.resolution))
  else stack_trace_id

/-- The `report_objects` step of `AddLeakedChunks` for the record at index `i`. -/
def addLeakedObject (W : World) (r : LeakReport) (i chunk leaked_size : Nat) : LeakReport :=
  if W.flags.report_objects then
    { r with leaked_objects_ := r.leaked_objects_ ++
        [⟨((r.leaks_.get? i).map (fun l => l.id)).getD 0, chunk, leaked_size⟩] }
  else r

/-- `LeakReport::AddLeakedChunks`. The `CHECK` on the tag is fatal; when a new record
is needed and the vector holds `kMaxLeaksConsidered` records, the function
returns. -/
def AddLeakedChunks (W : World) : List LeakedChunk → LeakReport → Except LsanError LeakReport
  | [], r => .ok r
  | leak :: rest, r =>
    if ¬ (leak.tag = .kDirectlyLeaked ∨ leak.tag = .kIndirectlyLeaked) then .error .CheckFailed
    else
      let stack_trace_id := resolvedStackId W leak.stack_trace_id
      let is_directly_leaked := decide (leak.tag = .kDirectlyLeaked)
      let i := findLeak r.leaks_ stack_trace_id is_directly_leaked
      if i = r.leaks_.length then
        if r.leaks_.length = kMaxLeaksConsidered then .ok r
        else
          AddLeakedChunks W rest (addLeakedObject W
            { r with next_id_ := (r.next_id_ + 1) % 2 ^ 32,
                     leaks_ := r.leaks_ ++
                       [⟨r.next_id_, 1, leak.leaked_size, stack_trace_id, is_directly_leaked, false⟩] }
            i leak.chunk leak.leaked_size)
      else
        AddLeakedChunks W rest (addLeakedObject W
          { r with leaks_ := bumpLeak r.leaks_ i leak.leaked_size } i leak.chunk leak.leaked_size)

/-- The mutable fields of `class LeakSuppressionContext`; `weight` and `hit_count` are
the counters of the rules of its `SuppressionContext`, by rule. -/
structure LeakSuppressionContext where
  parsed : Bool
  suppressed_stacks_sorted : Bool
  suppressed_stacks : List Nat
  weight : Nat → Nat
  hit_count : Nat → Nat

/-- `LeakSuppressionContext::LazyInit`; what the parse yields is the interface
`GetSuppressionForAddr` of the world. -/
def LazyInit (ctx : LeakSuppressionContext) : LeakSuppressionContext :=
  if !ctx.parsed then { ctx with parsed := true } else ctx

/-- `LeakSuppressionContext::SuppressByRule`: the first frame with a matching rule
charges that rule. -/
def SuppressByRule (W : World) (ctx : LeakSuppressionContext) :
    List Nat → Nat → Nat → Bool × LeakSuppressionContext
  | [], _, _ => (false, ctx)
  | pc :: rest, hit_count, total_size =>
    match W.GetSuppressionForAddr (W.GetPreviousInstructionPc pc) with
    | some rule =>
      (true, { ctx with
        weight := fun r => if r = rule then (ctx.weight r + total_size) % 2 ^ 64 else ctx.weight r,
        hit_count := fun r =>
          if r = rule then (ctx.hit_count r + hit_count) % 2 ^ 64 else ctx.hit_count r })
    | none => SuppressByRule W ctx rest hit_count total_size

/-- `LeakSuppressionContext::Suppress`. -/
def Suppress (W : World) (ctx : LeakSuppressionContext) (stack_trace_id hit_count total_size : Nat) :
    Bool × LeakSuppressionContext :=
  let r := SuppressByRule W (LazyInit ctx) (W.StackDepotGet stack_trace_id) hit_count total_size
  if !r.1 then (false, r.2)
  else (true, { r.2 with suppressed_stacks_sorted := false,
                         suppressed_stacks := r.2.suppressed_stacks ++ [stack_trace_id] })

/-- Modelled from the spec: `SortAndDedup` (`sanitizer_common.h`) is not under
`src/`; it sorts the vector in increasing order and keeps one copy of each
value. -/
def SortAndDedup (v : List Nat) : List Nat :=
  (v.insertionSort (fun a b => a ≤ b)).dedup

/-- `LeakSuppressionContext::GetSortedSuppressedStacks`: the vector, and the context
after the call. -/
def GetSortedSuppressedStacks (ctx : LeakSuppressionContext) :
    List Nat × LeakSuppressionContext :=
  if !ctx.suppressed_stacks_sorted then
    (SortAndDedup ctx.suppressed_stacks,
      { ctx with suppressed_stacks_sorted := true,
                 suppressed_stacks := SortAndDedup ctx.suppressed_stacks })
  else (ctx.suppressed_stacks, ctx)

/-- The loop of `LeakReport::ApplySuppressions` over the records: the number of
records newly suppressed, the records, and the context. -/
def applySuppressionsLoop (W : World) :
    List Leak → LeakSuppressionContext → Nat × List Leak × LeakSuppressionContext
  | [], ctx => (0, [], ctx)
  | l :: ls, ctx =>
    let r := Suppress W ctx l.stack_trace_id l.hit_count l.total_size
    let rest := applySuppressionsLoop W ls r.2
    if r.1 then (rest.1 + 1, { l with is_suppressed := true } :: rest.2.1, rest.2.2)
    else (rest.1, l :: rest.2.1, rest.2.2)

/-- `LeakReport::ApplySuppressions`. -/
def ApplySuppressions (W : World) (report : LeakReport) (ctx : LeakSuppressionContext) :
    Nat × LeakReport × LeakSuppressionContext :=
  let r := applySuppressionsLoop W report.leaks_ ctx
  (r.1, { report with leaks_ := r.2.1 }, r.2.2)

/-- `LeakReport::UnsuppressedLeakCount`. -/
def UnsuppressedLeakCount (report : LeakReport) : Nat :=
  report.leaks_.countP (fun l => !l.is_suppressed)

/-- `LeakReport::IndirectUnsuppressedLeakCount`. -/
def IndirectUnsuppressedLeakCount (report : LeakReport) : Nat :=
  report.leaks_.countP (fun l => !l.is_suppressed && !l.is_directly_leaked)

/-- The value `PrintResults` returns: whether there is an unsuppressed leak. -/
def PrintResults (report : LeakReport) : Bool :=
  decide (UnsuppressedLeakCount report > 0)

/-- The state that outlives a leak check: the chunk tags and the suppression context. -/
structure LsanState where
  tag : Nat → ChunkTag
  ctx : LeakSuppressionContext

/-- What a leak check yields: the value `CheckForLeaks` returns, the report it
printed from (none when leak checking is turned off), and the state it leaves. -/
structure CheckOutcome where
  have_leaks : Bool
  report : Option LeakReport
  state : LsanState

/-- The loop `for (int i = 0;; ++i)` of `CheckForLeaks`; `n` bounds the number of
iterations that remain. A failure to stop the world and a failed `CHECK` in
the callback are fatal. -/
def checkForLeaksLoop (W : World) (fuel : Nat) :
    Nat → Nat → LsanState → Except LsanError CheckOutcome
  | 0, _, _ => .error .OutOfFuel
  | n + 1, i, st =>
    if !W.StopTheWorld then .error .StopTheWorldFailed
    else
      let sorted := GetSortedSuppressedStacks st.ctx
      match CheckForLeaksCallback W sorted.1 fuel st.tag with
      | .error e => .error e
      | .ok (tag1, leaks) =>
        match AddLeakedChunks W leaks LeakReport.empty with
        | .error e => .error e
        | .ok leak_report =>
          let applied := ApplySuppressions W leak_report sorted.2
          let out : CheckOutcome :=
            ⟨PrintResults applied.2.1, some applied.2.1, ⟨tag1, applied.2.2⟩⟩
          if applied.1 = 0 then .ok out
          else if IndirectUnsuppressedLeakCount applied.2.1 = 0 then .ok out
          else if i ≥ 8 then .ok out
          else checkForLeaksLoop W fuel n (i + 1) ⟨tag1, applied.2.2⟩

/-- `CheckForLeaks`. The loop returns at the latest in the iteration with `i = 8`,
the ninth. -/
def CheckForLeaks (W : World) (fuel : Nat) (st : LsanState) : Except LsanError CheckOutcome :=
  if W.is_turned_off then .ok ⟨false, none, st⟩
  else checkForLeaksLoop W fuel 9 0 st

/-- The tags a classification pass leaves behind when its reachability phase ended in
state `s9`: indirect leaks are marked, then `ResetTagsCb` runs. -/
def tagsAfterCheck (W : World) (s9 : ScanState) : Nat → ChunkTag :=
  (ForEachChunk W (ResetTagsCb W) (ForEachChunk W (MarkIndirectlyLeakedCb W) s9)).tag

/-- A small world for evaluating the model: two allocated 16-byte chunks at 20000
and 30000, one readable mapping, no threads and no globals. The stack trace of
id `i > 0` has the three frames `1000 + i`, `2000 + i`, `3000 + i`; the id
`100 + i` is its one-frame prefix. -/
def exampleWorld (mem : Nat → Nat) (poisoned : Nat → Bool) (root_regions : List RootRegion)
    (stack_trace_id : Nat → Nat) (resolution : Nat) (rule : Nat → Option Nat) : World where
  flags := {
    use_unaligned := false, use_poisoned := false, use_registers := true, use_stacks := true,
    use_tls := true, use_globals := true, use_root_regions := true, use_ld_allocations := true,
    report_objects := false, resolution := resolution }
  mem := mem
  chunks := [20000, 30000]
  GetUserBegin := fun c => c
  allocated := fun c => c == 20000 || c == 30000
  requested_size := fun _ => 16
  stack_trace_id := stack_trace_id
  PointsIntoChunk := fun p =>
    if 20000 ≤ p ∧ p < 20016 then 20000 else if 30000 ≤ p ∧ p < 30016 then 30000 else 0
  WordIsPoisoned := poisoned
  allocator_begin := 0
  allocator_end := 0
  global_ranges := []
  threads := []
  thread_context_ptrs := []
  IsAccessibleMemoryRange := fun _ => true
  PageSize := 4096
  root_regions := root_regions
  proc_maps := [⟨16384, 65536, true⟩]
  platform_ranges := []
  StackDepotGet := fun id =>
    if id = 0 then [] else if id < 100 then [1000 + id, 2000 + id, 3000 + id]
    else [1000 + (id - 100)]
  StackDepotPut := fun st =>
    match st with
    | [] => 0
    | [a] => a - 1000 + 100
    | a :: _ => a - 1000
  linker := none
  GetPreviousInstructionPc := fun pc => pc - 1
  GetSuppressionForAddr := rule
  is_turned_off := false
  StopTheWorld := true

/-- The leaks of one classification pass, when it returns. -/
def leaksOf (r : Except LsanError ((Nat → ChunkTag) × List LeakedChunk)) :
    Option (List LeakedChunk) :=
  match r with
  | .ok (_, leaks) => some leaks
  | .error _ => none

/-- The tags before the first leak check: every chunk has the default tag. -/
def freshTags : Nat → ChunkTag := fun _ => .kDirectlyLeaked

/-- The tag of a chunk after `ClassifyAllChunks` and the leaks `CollectLeaksCb` then
collects, when the classification returns. -/
def classifyAndCollect (W : World) (suppressed : List Nat) (fuel : Nat) (tag0 : Nat → ChunkTag)
    (c : Nat) : Option (ChunkTag × List LeakedChunk) :=
  match ClassifyAllChunks W suppressed fuel ⟨tag0, []⟩ with
  | .ok s => some (s.tag c, ForEachChunk W (CollectLeaksCb W s.tag) [])
  | .error _ => none

/-- The chunk at 20000 is registered as a root region and its first word points
into the chunk itself; every allocation has stack trace id 1. -/
def selfRootWorld : World :=
  exampleWorld (fun a => if a = 20000 then 20008 else 0) (fun _ => false) [⟨20000, 16⟩]
    (fun _ => 1) 0 (fun _ => none)

/-- A root region at 40000 points to the chunk at 20000, whose first word points to
the chunk at 30000. -/
def chainWorld : World :=
  exampleWorld (fun a => if a = 40000 then 20000 else if a = 20000 then 30000 else 0)
    (fun _ => false) [⟨40000, 8⟩] (fun _ => 1) 0 (fun _ => none)

/-- Nothing points anywhere; the allocations have the stack trace id `sid`. -/
def orphanWorld (sid : Nat) : World :=
  exampleWorld (fun _ => 0) (fun _ => false) [] (fun _ => sid) 0 (fun _ => none)

/-- The first word of the chunk at 20000 points to the chunk at 30000 and nothing
points to the chunk at 20000; `poisoned` says whether that word is poisoned. -/
def pairWorld (poisoned : Bool) : World :=
  exampleWorld (fun a => if a = 20000 then 30000 else 0) (fun a => poisoned && a == 20000) []
    (fun _ => 1) 0 (fun _ => none)

/-- The chunk at 30000 is referenced from a root region at 40000 and the chunk at
20000 is not referenced. Both were allocated with the stack trace of id 1,
whose third frame matches the suppression rule 0. -/
def suppressedWorld (resolution : Nat) : World :=
  exampleWorld (fun a => if a = 40000 then 30000 else 0) (fun _ => false) [⟨40000, 8⟩]
    (fun _ => 1) resolution (fun pc => if pc = 3000 then some 0 else none)

/-- The suppression context before any leak was suppressed. -/
def freshContext : LeakSuppressionContext := ⟨false, true, [], fun _ => 0, fun _ => 0⟩

/-- What a leak check returned, the report it printed from, and the suppressed stacks
it leaves, when it does not die. -/
def outcomeOf (r : Except LsanError CheckOutcome) : Option (Bool × Option LeakReport × List Nat) :=
  match r with
  | .ok o => some (o.have_leaks, o.report, o.state.ctx.suppressed_stacks)
  | .error _ => none

/-! ### Filing leaked chunks: the pair of a chunk, the pair of a record -/

/-- The pair under which `AddLeakedChunks` files a leaked chunk: the stack trace id
after the `resolution` cut, and whether the tag is `kDirectlyLeaked`. -/
def leakKey (W : World) (leak : LeakedChunk) : Nat × Bool :=
  (resolvedStackId W leak.stack_trace_id, decide (leak.tag = .kDirectlyLeaked))

/-- The pair a record of the report stands for. -/
def Leak.key (l : Leak) : Nat × Bool := (l.stack_trace_id, l.is_directly_leaked)

/-- The body of the loop of `AddLeakedChunks` for one chunk on the paths that go on to
the next chunk: a new record is pushed, or the record found is bumped. -/
def fileLeak (W : World) (r : LeakReport) (leak : LeakedChunk) : LeakReport :=
  let stack_trace_id := resolvedStackId W leak.stack_trace_id
  let is_directly_leaked := decide (leak.tag = .kDirectlyLeaked)
  let i := findLeak r.leaks_ stack_trace_id is_directly_leaked
  if i = r.leaks_.length then
    addLeakedObject W
      { r with next_id_ := (r.next_id_ + 1) % 2 ^ 32,
               leaks_ := r.leaks_ ++
                 [⟨r.next_id_, 1, leak.leaked_size, stack_trace_id, is_directly_leaked, false⟩] }
      i leak.chunk leak.leaked_size
  else
    addLeakedObject W
      { r with leaks_ := bumpLeak r.leaks_ i leak.leaked_size } i leak.chunk leak.leaked_size

/-- The leaked chunks of a pair among the chunks handed in. -/
def chunksOf (W : World) (leaks : List LeakedChunk) (k : Nat × Bool) : List LeakedChunk :=
  leaks.filter (fun c => decide (leakKey W c = k))

/-- The sum of the sizes of a list of leaked chunks. -/
def sizeSum (leaks : List LeakedChunk) : Nat := (leaks.map (fun c => c.leaked_size)).sum

/-- The tags `AddLeakedChunks` accepts. -/
def LeakedTag (leak : LeakedChunk) : Prop :=
  leak.tag = .kDirectlyLeaked ∨ leak.tag = .kIndirectlyLeaked

/-- One bump of a record. -/
def Leak.bump (l : Leak) (leaked_size : Nat) : Leak :=
  { l with hit_count := (l.hit_count + 1) % 2 ^ 64,
           total_size := (l.total_size + leaked_size) % 2 ^ 64 }

/-- The records `ls` account for the chunks `done`: one record per pair that occurs,
with the number and the total size of the chunks of that pair. -/
def Filed (W : World) (done : List LeakedChunk) (ls : List Leak) : Prop :=
  (ls.map Leak.key).Nodup ∧
  (∀ k, k ∈ ls.map Leak.key ↔ k ∈ done.map (leakKey W)) ∧
  ∀ l ∈ ls, l.hit_count = (chunksOf W done l.key).length ∧
    l.total_size = sizeSum (chunksOf W done l.key) ∧ l.is_suppressed = false

/-- Three leaked chunks of two pairs: two direct leaks of the stack trace 1 and an
indirect leak of the stack trace 2. -/
def sampleLeaks : List LeakedChunk :=
  [⟨20000, 1, 16, .kDirectlyLeaked⟩, ⟨30000, 1, 24, .kDirectlyLeaked⟩,
   ⟨40000, 2, 8, .kIndirectlyLeaked⟩]

/-- Direct leaks of 16 bytes with the stack trace ids 1 to `n`, at consecutive
addresses from 65536. -/
def distinctLeaks (n : Nat) : List LeakedChunk :=
  (List.range n).map (fun i => ⟨65536 + 16 * i, i + 1, 16, .kDirectlyLeaked⟩)

/-- As many direct leaks with pairwise different stack traces as the report holds
records, then a leak with one more stack trace, then a second leak with the
stack trace 1. -/
def cappedLeaks : List LeakedChunk :=
  distinctLeaks kMaxLeaksConsidered ++
    [⟨65536 + 16 * kMaxLeaksConsidered, kMaxLeaksConsidered + 1, 16, .kDirectlyLeaked⟩,
     ⟨65536 + 16 * (kMaxLeaksConsidered + 1), 1, 16, .kDirectlyLeaked⟩]

/-- A heap as in `orphanWorld`, with `resolution = 1` and a stack depot in which
the stack traces of the ids below 100 share their first frame; the one-frame
stack has the id 100. -/
def sharedFrameWorld : World :=
  { exampleWorld (fun _ => 0) (fun _ => false) [] (fun _ => 1) 1 (fun _ => none) with
    StackDepotGet := fun id => if id = 100 then [1000] else [1000, 2000 + id]
    StackDepotPut := fun st =>
      match st with
      | [_] => 100
      | [_, b] => b - 2000
      | _ => 0 }

/-- Two direct leaks with the stack trace ids 1 and 2. -/
def twoStackLeaks : List LeakedChunk :=
  [⟨20000, 1, 16, .kDirectlyLeaked⟩, ⟨30000, 2, 16, .kDirectlyLeaked⟩]

/-- The report of a run of `AddLeakedChunks`, when it returns. -/
def reportOf (r : Except LsanError LeakReport) : Option LeakReport :=
  match r with
  | .ok v => some v
  | .error _ => none

/-- The tag of chunk `c` that a run of `CheckForLeaksCallback` leaves behind, when it
returns. -/
def tagLeftOf (r : Except LsanError ((Nat → ChunkTag) × List LeakedChunk)) (c : Nat) :
    Option ChunkTag :=
  match r with
  | .ok (tags, _) => some (tags c)
  | .error _ => none

/-- The loop of `CheckForLeaks` with a counter of the stop-the-world
classifications it runs: the outcome of `checkForLeaksLoop` and the number of
calls of `LockStuffAndStopTheWorld(CheckForLeaksCallback, ...)`. -/
def checkForLeaksPasses (W : World) (fuel : Nat) :
    Nat → Nat → LsanState → Except LsanError (CheckOutcome × Nat)
  | 0, _, _ => .error .OutOfFuel
  | n + 1, i, st =>
    if !W.StopTheWorld then .error .StopTheWorldFailed
    else
      let sorted := GetSortedSuppressedStacks st.ctx
      match CheckForLeaksCallback W sorted.1 fuel st.tag with
      | .error e => .error e
      | .ok (tag1, leaks) =>
        match AddLeakedChunks W leaks LeakReport.empty with
        | .error e => .error e
        | .ok leak_report =>
          let applied := ApplySuppressions W leak_report sorted.2
          let out : CheckOutcome :=
            ⟨PrintResults applied.2.1, some applied.2.1, ⟨tag1, applied.2.2⟩⟩
          if applied.1 = 0 then .ok (out, 1)
          else if IndirectUnsuppressedLeakCount applied.2.1 = 0 then .ok (out, 1)
          else if i ≥ 8 then .ok (out, 1)
          else
            match checkForLeaksPasses W fuel n (i + 1) ⟨tag1, applied.2.2⟩ with
            | .error e => .error e
            | .ok (o, k) => .ok (o, k + 1)

/-- Two unreferenced chunks whose first words point to each other. -/
def cycleWorld : World :=
  exampleWorld (fun a => if a = 20000 then 30000 else if a = 30000 then 20000 else 0)
    (fun _ => false) [] (fun _ => 1) 0 (fun _ => none)

/-- The first word of the chunk at 20000 points to the chunk itself and nothing else
points anywhere; the allocations have the stack trace id `sid`. -/
def selfPointerWorld (sid : Nat) : World :=
  exampleWorld (fun a => if a = 20000 then 20000 else 0) (fun _ => false) []
    (fun _ => sid) 0 (fun _ => none)

/-- A heap as in `orphanWorld 1` in which a thread context holds a pointer into the
chunk at 20000. -/
def ctxWorld : World :=
  { orphanWorld 1 with thread_context_ptrs := [20008] }

/-- The chunk at 20000 is tagged `kIgnored` (as `__lsan_ignore_object` leaves it),
every other chunk has the default tag. -/
def ignoredFirst : Nat → ChunkTag := fun c => if c = 20000 then .kIgnored else .kDirectlyLeaked

/-! ### The words a scan reads -/

/-- The addresses for which the body of the loop of `ScanRangeForPointers` runs, in
order: the successive values of `pp`. Same loop as `scanLoop`, collecting `pp`. -/
def scanLoopReads (W : World) (end_ : Nat) : Nat → Nat → List Nat
  | 0, _ => []
  | fuel + 1, pp =>
    if pp + 8 ≤ end_ then pp :: scanLoopReads W end_ fuel (pp + W.flags.pointer_alignment)
    else []

/-- The words `ScanRangeForPointers(begin, end, ...)` reads, each paired with the
`begin` of its scan (the loop body compares the chunk with `begin`). -/
def ScanRangeReads (W : World) (begin_ end_ : Nat) : List (Nat × Nat) :=
  (scanLoopReads W end_ (end_ - scanStart W begin_) (scanStart W begin_)).map
    (fun pp => (begin_, pp))

/-- The words `ScanGlobalRange(begin, end, frontier)` reads: the control flow of
`ScanGlobalRange` with each `ScanRangeForPointers` call replaced by its reads. -/
def ScanGlobalRangeReads (W : World) (begin_ end_ : Nat) : Except LsanError (List (Nat × Nat)) :=
  if begin_ ≤ W.allocator_begin ∧ W.allocator_begin < end_ then
    if ¬ W.allocator_begin ≤ W.allocator_end then .error .CheckFailed
    else if ¬ W.allocator_end ≤ end_ then .error .CheckFailed
    else
      let r1 := if begin_ < W.allocator_begin then
          ScanRangeReads W begin_ W.allocator_begin else []
      let r2 := if W.allocator_end < end_ then
          ScanRangeReads W W.allocator_end end_ else []
      .ok (r1 ++ r2)
  else .ok (ScanRangeReads W begin_ end_)

/-- The words `ScanRootRegion` reads: the control flow of `ScanRootRegion` with the
`ScanRangeForPointers` call replaced by its reads. -/
def ScanRootRegionReads (W : World) (root_region : RootRegion) (region_begin region_end : Nat)
    (is_readable : Bool) : List (Nat × Nat) :=
  let intersection_begin := max root_region.begin_ region_begin
  let intersection_end := min region_end ((root_region.begin_ + root_region.size) % 2 ^ 64)
  if intersection_begin ≥ intersection_end then []
  else if is_readable then ScanRangeReads W intersection_begin intersection_end
  else []

/-- The loop body of a root scan (`frontier` given, tag `kReachable`) run on a list of
reads. -/
def replayReads (W : World) (reads : List (Nat × Nat)) (s : ScanState) : ScanState :=
  reads.foldl (fun st r => scanWord W r.1 true .kReachable r.2 st) s

/-- The addresses of the reads of a run, none when the run ends in a failed `CHECK`. -/
def readsOf : Except LsanError (List (Nat × Nat)) → List Nat
  | .ok reads => reads.map Prod.snd
  | .error _ => []

/-- The tag a chunk has after a run, `none` when the run ends in a failed `CHECK`. -/
def tagAfter (c : Nat) : Except LsanError ScanState → Option ChunkTag
  | .ok s => some (s.tag c)
  | .error _ => none

/-- A world whose allocator range `[1000, 2000)` starts below the global range
`[1504, 1600)` and covers it; the word at 1504 holds a pointer to the chunk
at 20000. -/
def overlapWorld : World :=
  { exampleWorld (fun a => if a = 1504 then 20000 else 0) (fun _ => false) [] (fun _ => 0) 0
      (fun _ => none) with
    allocator_begin := 1000, allocator_end := 2000, global_ranges := [(1504, 1600)] }

/-- A world whose allocator range `[1520, 1560)` lies inside the global range
`[1504, 1600)`. -/
def insideWorld : World :=
  { overlapWorld with allocator_begin := 1520, allocator_end := 1560 }

/-- A state in which every chunk is tagged `kDirectlyLeaked` and the frontier is empty. -/
def leakedState : ScanState := ⟨fun _ => .kDirectlyLeaked, []⟩

/-- A root region that ends exactly at the top of the 64-bit address space. -/
def topRegion : RootRegion := ⟨2 ^ 64 - 65536, 65536⟩

end Lsan

namespace Primary32

/-! ## The 32-bit size-class allocator: regions and size classes -/

/-- Outcomes of the allocator in the model that are not a return: a failed `CHECK`, a
division by zero (undefined in C++), and a loop of the model that ran out of fuel. -/
inductive PrimaryError where
  | CheckFailed
  | DivisionByZero
  | OutOfFuel
  deriving DecidableEq, Repr

/-- The template parameters of `SizeClassAllocator32` that the region arithmetic
reads, with the macro `SANITIZER_SIGN_EXTENDED_ADDRESSES` and the constant
`SizeClassMap::kNumClasses`. -/
structure PrimaryParams where
  kSpaceBeg : Nat
  kSpaceSize : Nat
  kRegionSizeLog : Nat
  SANITIZER_SIGN_EXTENDED_ADDRESSES : Bool
  kNumClasses : Nat

/-- The constant `kRegionSize = 1 << kRegionSizeLog`. -/
def PrimaryParams.kRegionSize (P : PrimaryParams) : Nat := 2 ^ P.kRegionSizeLog

/-- The constant `kNumPossibleRegions = kSpaceSize / kRegionSize`. -/
def PrimaryParams.kNumPossibleRegions (P : PrimaryParams) : Nat := P.kSpaceSize / P.kRegionSize

/-- Modelled from the spec: `FlatByteMap` and `TwoLevelByteMap`
(`sanitizer_allocator_bytemap.h`) are not under `src/`; "a byte-indexed table
maps region id → class id (0 = unused)". -/
structure ByteMap where
  map_ : Nat → Nat

/-- Modelled from the spec: the read `possible_regions[idx]` of the byte-indexed table. -/
def ByteMap.get (m : ByteMap) (idx : Nat) : Nat := m.map_ idx

/-- Modelled from the spec: the write `possible_regions.set(idx, val)` of the
byte-indexed table; `val` is a `u8`. -/
def ByteMap.set (m : ByteMap) (idx val : Nat) : ByteMap :=
  ⟨fun i => if i = idx then val else m.map_ i⟩

/-- The fields of `SizeClassAllocator32` and of `AllocatorStats` that
`AllocateRegion` writes. -/
structure SizeClassAllocator32 where
  possible_regions : ByteMap
  AllocatorStatMapped : Nat

/-- Modelled from the spec: `RoundDownTo` (`sanitizer_common.h`) is not under
`src/`; "region lookup from any contained address via shift/mask of the
address", `x & ~(boundary - 1)`. -/
def RoundDownTo (x boundary : Nat) : Nat := x - (x &&& (boundary - 1))

/-- The normalisation `if (SANITIZER_SIGN_EXTENDED_ADDRESSES) mem &= (kSpaceSize - 1)`
at the head of `PointerIsMine` and `ComputeRegionId`. -/
def maskAddress (P : PrimaryParams) (mem : Nat) : Nat :=
  if P.SANITIZER_SIGN_EXTENDED_ADDRESSES then mem &&& (P.kSpaceSize - 1) else mem

/-- `ComputeRegionId`; the `CHECK_LT` is fatal. -/
def ComputeRegionId (P : PrimaryParams) (mem : Nat) : Except PrimaryError Nat :=
  let mem := maskAddress P mem
  let res := mem >>> P.kRegionSizeLog
  if ¬ res < P.kNumPossibleRegions then .error .CheckFailed else .ok res

/-- `ComputeRegionBeg`. -/
def ComputeRegionBeg (P : PrimaryParams) (mem : Nat) : Nat := RoundDownTo mem P.kRegionSize

/-- `GetSizeClass`. -/
def GetSizeClass (P : PrimaryParams) (a : SizeClassAllocator32) (p : Nat) : Except PrimaryError Nat :=
  match ComputeRegionId P p with
  | .error e => .error e
  | .ok id => .ok (a.possible_regions.get id)

/-- `PointerIsMine`. -/
def PointerIsMine (P : PrimaryParams) (a : SizeClassAllocator32) (p : Nat) : Except PrimaryError Bool :=
  let mem := maskAddress P p
  if mem < P.kSpaceBeg ∨ mem ≥ P.kSpaceBeg + P.kSpaceSize then .ok false
  else
    match GetSizeClass P a p with
    | .error e => .error e
    | .ok c => .ok (decide (c ≠ 0))

/-- `AllocateRegion`. `res` is what `MmapAlignedOrDieOnFatalError(kRegionSize,
kRegionSize, ...)` answers; the class id is stored as a `u8`. -/
def AllocateRegion (P : PrimaryParams) (a : SizeClassAllocator32) (res class_id : Nat) :
    Except PrimaryError (Nat × SizeClassAllocator32) :=
  if res = 0 then .ok (0, a)
  else if ¬ Scudo.IsAligned res P.kRegionSize then .error .CheckFailed
  else
    match ComputeRegionId P res with
    | .error e => .error e
    | .ok id =>
      .ok (res, { possible_regions := a.possible_regions.set id (class_id % 2 ^ 8)
                  AllocatorStatMapped := (a.AllocatorStatMapped + P.kRegionSize) % 2 ^ 64 })

/-- Modelled from the spec: `SizeClassMap` (`sanitizer_allocator_size_class_map.h`) is
not under `src/`; a size class "maps a byte size to `class_id` via a monotonic
size-class table", and the "largest class bounds the primary allocator's
ceiling". `sizes` holds the size of every class from class 0 (size 0) to the
largest class. -/
structure SizeClassMap where
  sizes : List Nat
  kBatchClassID : Nat

/-- Modelled from the spec: `SizeClassMap::kMaxSize`, the size of the largest class. -/
def SizeClassMap.kMaxSize (M : SizeClassMap) : Nat := M.sizes.getLastD 0

/-- Modelled from the spec: `SizeClassMap::Size`, the entry of the table. -/
def SizeClassMap.Size (M : SizeClassMap) (class_id : Nat) : Nat := M.sizes.getD class_id 0

/-- Modelled from the spec: `SizeClassMap::ClassID`, the first class of the table
that holds `size`; 0 for a size above the largest class. -/
def SizeClassMap.ClassID (M : SizeClassMap) (size : Nat) : Nat :=
  if size > M.kMaxSize then 0 else M.sizes.findIdx (fun c => decide (size ≤ c))

/-- `SizeClassAllocator32::ClassID`. -/
def ClassID (M : SizeClassMap) (size : Nat) : Nat := M.ClassID size

/-- `SizeClassAllocator32::ClassIdToSize`; `kBatchSize` is `sizeof(TransferBatch)`. -/
def ClassIdToSize (M : SizeClassMap) (kBatchSize class_id : Nat) : Nat :=
  if class_id = M.kBatchClassID then kBatchSize else M.Size class_id

/-- A 32-bit address space with 1 MiB regions and 54 classes. -/
def examplePrimary : PrimaryParams := ⟨0, 2 ^ 32, 20, false, 54⟩

/-- A fresh allocator: no region in use. -/
def emptyAllocator : SizeClassAllocator32 := ⟨⟨fun _ => 0⟩, 0⟩

/-- A table of classes of 16, 32, 48, 64, 96 and 128 bytes; the batch class follows
the largest class. -/
def exampleMap : SizeClassMap := ⟨[0, 16, 32, 48, 64, 96, 128], 7⟩

/-! ## Blocks, metadata slots and the free list -/

/-- `GetBlockBegin`. `offset`, `n` and the product `n * (u32)size` are `u32`; the
dividend and divisor of the "32-bit division" are the truncated values. -/
def GetBlockBegin (P : PrimaryParams) (M : SizeClassMap) (kBatchSize : Nat)
    (a : SizeClassAllocator32) (p : Nat) : Except PrimaryError Nat :=
  match PointerIsMine P a p with
  | .error e => .error e
  | .ok mine =>
    if !mine then .error .CheckFailed
    else
      match GetSizeClass P a p with
      | .error e => .error e
      | .ok class_id =>
        let mem := p
        let beg := ComputeRegionBeg P mem
        let size := ClassIdToSize M kBatchSize class_id
        let offset := (mem - beg) % 2 ^ 32
        if size % 2 ^ 32 = 0 then .error .DivisionByZero
        else
          let n := offset / (size % 2 ^ 32)
          let res := (beg + (n * (size % 2 ^ 32)) % 2 ^ 32) % 2 ^ 64
          .ok res

/-- `GetMetaData`. `offset` is a `u32` and the division is 32-bit; `n` and the product
`(n + 1) * kMetadataSize` are `usize`, the difference is `uptr` arithmetic. -/
def GetMetaData (P : PrimaryParams) (M : SizeClassMap) (kBatchSize kMetadataSize : Nat)
    (a : SizeClassAllocator32) (p : Nat) : Except PrimaryError Nat :=
  if kMetadataSize = 0 then .error .CheckFailed
  else
    match PointerIsMine P a p with
    | .error e => .error e
    | .ok mine =>
      if !mine then .error .CheckFailed
      else
        match GetSizeClass P a p with
        | .error e => .error e
        | .ok class_id =>
          let mem := p
          let beg := ComputeRegionBeg P mem
          let size := ClassIdToSize M kBatchSize class_id
          let offset := (mem - beg) % 2 ^ 32
          if size % 2 ^ 32 = 0 then .error .DivisionByZero
          else
            let n := offset / (size % 2 ^ 32)
            let meta := ((beg + P.kRegionSize) % 2 ^ 64 + 2 ^ 64 -
              ((n + 1) * kMetadataSize) % 2 ^ 64) % 2 ^ 64
            .ok meta

/-- `TransferBatch`: the pointers `batch_[0 .. count_)`, oldest first; `addr` is the
address of the batch object. -/
structure TransferBatch where
  addr : Nat
  batch_ : List Nat
  deriving DecidableEq, Repr

/-- `TransferBatch::Count`. -/
def TransferBatch.Count (b : TransferBatch) : Nat := b.batch_.length

/-- `TransferBatch::Clear`. -/
def TransferBatch.Clear (b : TransferBatch) : TransferBatch := { b with batch_ := [] }

/-- `TransferBatch::Add`: `batch_[count_++] = ptr`. The `DCHECK_LE(count_, kMaxNumCached)`
is compiled out of release builds and is not modelled. -/
def TransferBatch.Add (b : TransferBatch) (ptr : Nat) : TransferBatch :=
  { b with batch_ := b.batch_ ++ [ptr] }

/-- The fields of `SizeClassInfo` that the free-list code uses; `free_list` in list
order, `push_back` appends. -/
structure SizeClassInfo where
  free_list : List TransferBatch
  rand_state : Nat

/-- Template parameters and collaborators of `PopulateFreeList` that are not under
`src/`. -/
structure PopulateEnv where
  kMetadataSize : Nat
  kRandomShuffleChunks : Bool
  kUseSeparateSizeClassForBatch : Bool
  /-- `sizeof(TransferBatch)`. -/
  kBatchSize : Nat
  /-- `TransferBatch::MaxCached`. -/
  MaxCached : Nat → Nat
  /-- `RandomShuffle(array, count, &rand_state)`: the shuffled array and the new state. -/
  RandomShuffle : List Nat → Nat → List Nat × Nat
  /-- `AllocatorCache::CreateBatch(class_id, allocator, b)`: the address of the batch
  object, `none` for a null result. -/
  CreateBatch : Nat → Nat → Option Nat
  /-- The seed `reinterpret_cast<vaddr>(sci) ^ NanoTime()`. -/
  seed : Nat

/-- The constant `kShuffleArraySize`. -/
def kShuffleArraySize : Nat := 48

/-- The head of the loop body of `PopulateBatches`: the current batch, or a new cleared
one from `CreateBatch` when there is none; `none` when `CreateBatch` returns null. -/
def currentBatch (E : PopulateEnv) (class_id : Nat) (b : Option TransferBatch) (ptr : Nat) :
    Option TransferBatch :=
  match b with
  | some b => some b
  | none =>
    match E.CreateBatch class_id ptr with
    | some addr => some (TransferBatch.Clear ⟨addr, []⟩)
    | none => none

/-- The tail of the loop body of `PopulateBatches`: a batch that has reached `max_count`
goes to the back of the free list. -/
def pushIfFull (max_count : Nat) (free_list : List TransferBatch) (b : TransferBatch) :
    List TransferBatch × Option TransferBatch :=
  if b.Count = max_count then (free_list ++ [b], none) else (free_list, some b)

/-- The loop of `PopulateBatches` over `pointers_array`: the return value, the free list
and the current batch. -/
def batchLoop (E : PopulateEnv) (class_id max_count : Nat) :
    List Nat → List TransferBatch → Option TransferBatch →
      Bool × List TransferBatch × Option TransferBatch
  | [], free_list, b => (true, free_list, b)
  | ptr :: rest, free_list, b =>
    match currentBatch E class_id b ptr with
    | none => (false, free_list, b)
    | some b1 =>
      batchLoop E class_id max_count rest (pushIfFull max_count free_list (b1.Add ptr)).1
        (pushIfFull max_count free_list (b1.Add ptr)).2

/-- `PopulateBatches`: the return value, the size class info and `*current_batch`. -/
def PopulateBatches (E : PopulateEnv) (kBatchClassID : Nat) (sci : SizeClassInfo)
    (class_id : Nat) (current_batch : Option TransferBatch) (max_count : Nat)
    (pointers_array : List Nat) : Bool × SizeClassInfo × Option TransferBatch :=
  let sh := if E.kRandomShuffleChunks &&
      (!E.kUseSeparateSizeClassForBatch || decide (class_id ≠ kBatchClassID)) then
      E.RandomShuffle pointers_array sci.rand_state
    else (pointers_array, sci.rand_state)
  let r := batchLoop E class_id max_count sh.1 sci.free_list current_batch
  (r.1, ⟨r.2.1, sh.2⟩, r.2.2)

/-- The `for` loop of `PopulateFreeList`: the return value so far (`false` when
`PopulateBatches` failed), the shuffle array, the current batch and the size class
info. `fuel` bounds the number of iterations. -/
def fillLoop (E : PopulateEnv) (kBatchClassID class_id max_count size end_ : Nat) :
    Nat → Nat → List Nat → Option TransferBatch → SizeClassInfo →
      Except PrimaryError (Bool × List Nat × Option TransferBatch × SizeClassInfo)
  | 0, i, shuffle_array, b, sci =>
    if i < end_ then .error .OutOfFuel else .ok (true, shuffle_array, b, sci)
  | fuel + 1, i, shuffle_array, b, sci =>
    if i < end_ then
      if (shuffle_array ++ [i]).length = kShuffleArraySize then
        if !(PopulateBatches E kBatchClassID sci class_id b max_count (shuffle_array ++ [i])).1 then
          .ok (false, [],
            (PopulateBatches E kBatchClassID sci class_id b max_count (shuffle_array ++ [i])).2.2,
            (PopulateBatches E kBatchClassID sci class_id b max_count (shuffle_array ++ [i])).2.1)
        else
          fillLoop E kBatchClassID class_id max_count size end_ fuel ((i + size) % 2 ^ 64) []
            (PopulateBatches E kBatchClassID sci class_id b max_count (shuffle_array ++ [i])).2.2
            (PopulateBatches E kBatchClassID sci class_id b max_count (shuffle_array ++ [i])).2.1
      else
        fillLoop E kBatchClassID class_id max_count size end_ fuel ((i + size) % 2 ^ 64)
          (shuffle_array ++ [i]) b sci
    else .ok (true, shuffle_array, b, sci)

/-- The end of `PopulateFreeList`: the rest of the shuffle array goes through
`PopulateBatches`, then a non-empty current batch is pushed. -/
def fillFinish (E : PopulateEnv) (kBatchClassID class_id max_count : Nat)
    (shuffle_array : List Nat) (b : Option TransferBatch) (sci : SizeClassInfo) :
    Except PrimaryError (Bool × SizeClassInfo) :=
  let r := if shuffle_array.length ≠ 0 then
      PopulateBatches E kBatchClassID sci class_id b max_count shuffle_array
    else (true, sci, b)
  if !r.1 then .ok (false, r.2.1)
  else
    match r.2.2 with
    | none => .ok (true, r.2.1)
    | some b =>
      if ¬ b.Count > 0 then .error .CheckFailed
      else .ok (true, { r.2.1 with free_list := r.2.1.free_list ++ [b] })

/-- `PopulateFreeList`. `res` is what the `mmap` inside `AllocateRegion` answers. The
loop runs once per chunk, so `n_chunks` iterations are enough fuel. -/
def PopulateFreeList (P : PrimaryParams) (M : SizeClassMap) (E : PopulateEnv)
    (a : SizeClassAllocator32) (sci : SizeClassInfo) (res class_id : Nat) :
    Except PrimaryError (Bool × SizeClassInfo × SizeClassAllocator32) :=
  match AllocateRegion P a res class_id with
  | .error e => .error e
  | .ok ra =>
    let region := ra.1
    if region = 0 then .ok (false, sci, ra.2)
    else
      let sci := if E.kRandomShuffleChunks && decide (sci.rand_state = 0) then
          { sci with rand_state := E.seed } else sci
      let size := ClassIdToSize M E.kBatchSize class_id
      if size + E.kMetadataSize = 0 then .error .DivisionByZero
      else
        let n_chunks := P.kRegionSize / (size + E.kMetadataSize)
        let max_count := E.MaxCached size
        match fillLoop E M.kBatchClassID class_id max_count size
            ((region + n_chunks * size) % 2 ^ 64) n_chunks region [] none sci with
        | .error e => .error e
        | .ok r =>
          if !r.1 then .ok (false, r.2.2.2, ra.2)
          else
            match fillFinish E M.kBatchClassID class_id max_count r.2.1 r.2.2.1 r.2.2.2 with
            | .error e => .error e
            | .ok f => .ok (f.1, f.2, ra.2)

/-- The pointers of a list of batches, in free-list order. -/
def batchPointers (l : List TransferBatch) : List Nat := l.flatMap (fun b => b.batch_)

/-- The chunk addresses `region + i * size` for `i < n_chunks`. -/
def chunkAddresses (region size n_chunks : Nat) : List Nat :=
  (List.range n_chunks).map (fun i => region + i * size)

/-- The pointers of the current batch, none when there is no current batch. -/
def pendingOf (b : Option TransferBatch) : List Nat :=
  match b with
  | some b => b.batch_
  | none => []

/-- The current batch, if any, holds at least one pointer and fewer than `max_count`. -/
def OpenBatch (max_count : Nat) (b : Option TransferBatch) : Prop :=
  ∀ x, b = some x → 1 ≤ x.Count ∧ x.Count < max_count

/-- A 16-bit address space with 1 KiB regions. -/
def smallPrimary : PrimaryParams := ⟨0, 2 ^ 16, 10, false, 54⟩

/-- An environment with 8 bytes of metadata per chunk, batches of at most 14 pointers
stored in the first chunk of the batch, and a shuffle that reverses the array. -/
def exampleEnv : PopulateEnv where
  kMetadataSize := 8
  kRandomShuffleChunks := true
  kUseSeparateSizeClassForBatch := false
  kBatchSize := 128
  MaxCached := fun _ => 14
  RandomShuffle := fun l st => (l.reverse, st + 1)
  CreateBatch := fun _ b => some b
  seed := 1

/-- The free list after a run of `PopulateFreeList`, empty for other outcomes. -/
def freeListOf : Except PrimaryError (Bool × SizeClassInfo × SizeClassAllocator32) →
    List TransferBatch
  | .ok r => r.2.1.free_list
  | .error _ => []

/-- The result of a run of `PopulateFreeList`, `none` for a fatal outcome. -/
def populatedOf : Except PrimaryError (Bool × SizeClassInfo × SizeClassAllocator32) →
    Option (Bool × SizeClassInfo × SizeClassAllocator32)
  | .ok r => some r
  | .error _ => none

/-- The address a run of `GetBlockBegin` or `GetMetaData` returns, `none` for a fatal
outcome. -/
def addressOf : Except PrimaryError Nat → Option Nat
  | .ok r => some r
  | .error _ => none

/-- The small allocator after the region at 2048 has been given to the class 1. -/
def smallAllocator : SizeClassAllocator32 := ⟨emptyAllocator.possible_regions.set 2 1, 2 ^ 10⟩

end Primary32

namespace StackDepot

/-! ## The stack depot: values to ids and back

A sequential model of `StackDepotBase`: a bucket is the list of its nodes, newest
first; `lock` answers the list that was just read, so the second `find` of `Put` is
not taken. -/

/-- Fatal outcomes of the depot in the model: a failed `CHECK`. -/
inductive DepotError where
  | CheckFailed
  deriving DecidableEq, Repr

/-- The template parameters `kReservedBits` and `kTabSizeLog` of `StackDepotBase`. -/
structure DepotParams where
  kReservedBits : Nat
  kTabSizeLog : Nat

/-- The constant `kTabSize = 1 << kTabSizeLog`. -/
def DepotParams.kTabSize (P : DepotParams) : Nat := 2 ^ P.kTabSizeLog

/-- The constant `kPartBits = 8`. -/
def kPartBits : Nat := 8

/-- The constant `kPartShift = sizeof(u32) * 8 - kPartBits - kReservedBits`. -/
def DepotParams.kPartShift (P : DepotParams) : Nat := 4 * 8 - kPartBits - P.kReservedBits

/-- The constant `kPartCount = 1 << kPartBits`. -/
def kPartCount : Nat := 2 ^ kPartBits

/-- The constant `kPartSize = kTabSize / kPartCount`. -/
def DepotParams.kPartSize (P : DepotParams) : Nat := P.kTabSize / kPartCount

/-- The constant `kMaxId = 1 << kPartShift`. -/
def DepotParams.kMaxId (P : DepotParams) : Nat := 2 ^ P.kPartShift

/-- The static members of the template parameter `Node` that `Put` and `Get` call;
`Node` is not under `src/`. `eq` is `s->eq(hash, args)` as a function of what
the node stores; `empty` is `args_type()`. -/
structure NodeOps (α : Type) where
  is_valid : α → Bool
  hash : α → Nat
  eq : Nat → α → Nat → α → Bool
  empty : α

/-- A node of the depot: its id, and the hash and the value that `store(args, h)` put
there; `load()` answers the value. -/
structure Node (α : Type) where
  id : Nat
  hash : Nat
  args : α

/-- The fields of `StackDepotBase`: the table of buckets, the id generators of the
parts, and the statistics counter. -/
structure Depot (α : Type) where
  tab : Nat → List (Node α)
  seq : Nat → Nat
  n_uniq_ids : Nat

/-- A depot in its initial, zeroed state. -/
def Depot.empty (α : Type) : Depot α := ⟨fun _ => [], fun _ => 0, 0⟩

/-- `find`: the first node of the list that `eq` accepts. -/
def find {α : Type} (ops : NodeOps α) (s : List (Node α)) (args : α) (hash : Nat) :
    Option (Node α) :=
  s.find? (fun n => ops.eq n.hash n.args hash args)

/-- `Put`, with the id of the handle it returns (0 for `handle_type()`) and the depot
it leaves. The three `CHECK`s are fatal. -/
def Put {α : Type} (P : DepotParams) (ops : NodeOps α) (d : Depot α) (args : α) :
    Except DepotError (Nat × Depot α) :=
  if !ops.is_valid args then .ok (0, d)
  else
    let h := ops.hash args
    let s := d.tab (h % P.kTabSize)
    match find ops s args h with
    | some node => .ok (node.id, d)
    | none =>
      let part := (h % P.kTabSize) / P.kPartSize
      let id := (d.seq part + 1) % 2 ^ 32
      if ¬ id < P.kMaxId then .error .CheckFailed
      else
        let id := (id ||| (part <<< P.kPartShift)) % 2 ^ 32
        if id = 0 then .error .CheckFailed
        else if id &&& ((2 ^ 32 - 1) >>> P.kReservedBits) ≠ id then .error .CheckFailed
        else
          .ok (id,
            { tab := fun i => if i = h % P.kTabSize then ⟨id, h, args⟩ :: s else d.tab i
              seq := fun p => if p = part then (d.seq part + 1) % 2 ^ 32 else d.seq p
              n_uniq_ids := (d.n_uniq_ids + 1) % 2 ^ 64 })

/-- The loop `for (int i = 0; i != kPartSize; i++)` of `Get`, with `n` iterations left:
the first node with the id in the buckets of the part. -/
def getLoop {α : Type} (P : DepotParams) (ops : NodeOps α) (d : Depot α) (id part : Nat) :
    Nat → Nat → Except DepotError α
  | 0, _ => .ok ops.empty
  | n + 1, i =>
    let idx := part * P.kPartSize + i
    if ¬ idx < P.kTabSize then .error .CheckFailed
    else
      match (d.tab idx).find? (fun s => decide (s.id = id)) with
      | some s => .ok s.args
      | none => getLoop P ops d id part n (i + 1)

/-- `Get`. -/
def Get {α : Type} (P : DepotParams) (ops : NodeOps α) (d : Depot α) (id : Nat) : Except DepotError α :=
  if id = 0 then .ok ops.empty
  else if id &&& ((2 ^ 32 - 1) >>> P.kReservedBits) ≠ id then .error .CheckFailed
  else getLoop P ops d id (id >>> P.kPartShift) P.kPartSize 0

/-- A sequence of `Put` calls whose results are dropped. -/
def putAll {α : Type} (P : DepotParams) (ops : NodeOps α) : List α → Depot α → Except DepotError (Depot α)
  | [], d => .ok d
  | args :: rest, d =>
    match Put P ops d args with
    | .error e => .error e
    | .ok r => putAll P ops rest r.2

/-- What the depot maintains: a node sits in a bucket of the table, its id is not 0,
has no reserved bit, names the part of its bucket and was handed out by the
generator of that part; two nodes with the same id hold the same value; and
the generators have not run past `kMaxId`. -/
structure Inv {α : Type} (P : DepotParams) (d : Depot α) : Prop where
  node : ∀ idx n, n ∈ d.tab idx → idx < P.kTabSize ∧ n.id ≠ 0 ∧
    n.id &&& ((2 ^ 32 - 1) >>> P.kReservedBits) = n.id ∧
    n.id >>> P.kPartShift = idx / P.kPartSize ∧ n.id % 2 ^ P.kPartShift ≤ d.seq (idx / P.kPartSize)
  uniq : ∀ i j n m, n ∈ d.tab i → m ∈ d.tab j → n.id = m.id → n.args = m.args
  seq : ∀ p, d.seq p < P.kMaxId

/-- Stack traces as lists of pcs: a trace is valid when it is not empty, hashed by the
sum of its pcs, and `eq` compares the hash and the frames. -/
def traceOps : NodeOps (List Nat) where
  is_valid := fun t => !t.isEmpty
  hash := fun t => t.sum
  eq := fun sh sa h a => decide (sh = h) && decide (sa = a)
  empty := []

/-- A depot with 4096 buckets and one reserved bit. -/
def exampleDepot : DepotParams := ⟨1, 12⟩

/-- The depot a run leaves, the empty depot when the run dies. -/
def depotOf {α : Type} (r : Except DepotError (Depot α)) : Depot α :=
  match r with
  | .ok d => d
  | .error _ => Depot.empty α

/-- The id a `Put` returns, 0 when it dies. -/
def idOf {α : Type} (r : Except DepotError (Nat × Depot α)) : Nat :=
  match r with
  | .ok v => v.1
  | .error _ => 0

/-- The depot a `Put` leaves, the empty depot when it dies. -/
def afterPut {α : Type} (r : Except DepotError (Nat × Depot α)) : Depot α :=
  match r with
  | .ok v => v.2
  | .error _ => Depot.empty α

/-- The value a `Get` returns, if it returns. -/
def valueOf {α : Type} (r : Except DepotError α) : Option α :=
  match r with
  | .ok v => some v
  | .error _ => none

/-- The values put before the value under test: two traces. -/
def exampleBefore : List (List Nat) := [[1001, 2001], [7]]

/-- The value under test: a trace of three frames. -/
def exampleTrace : List Nat := [1002, 2002, 3002]

/-- The values put afterwards: a trace that is already stored, a trace that falls in
the bucket of the value under test, and another one. -/
def exampleAfter : List (List Nat) := [[1001, 2001], [6006], [9]]

/-- The depot after the first values. -/
def exampleD1 : Depot (List Nat) :=
  depotOf (putAll exampleDepot traceOps exampleBefore (Depot.empty (List Nat)))

/-- The id that `Put` of the value under test returns. -/
def exampleId : Nat := idOf (Put exampleDepot traceOps exampleD1 exampleTrace)

/-- The depot after `Put` of the value under test. -/
def exampleD2 : Depot (List Nat) := afterPut (Put exampleDepot traceOps exampleD1 exampleTrace)

/-- The depot after the later values. -/
def exampleD3 : Depot (List Nat) := depotOf (putAll exampleDepot traceOps exampleAfter exampleD2)

end StackDepot

namespace Asan

/-! ## AddressSanitizer: the scariness of a deadly signal -/

/-- `SignalContext::WriteFlag`. -/
inductive WriteFlag where
  | UNKNOWN
  | READ
  | WRITE
  deriving DecidableEq, Repr

/-- The fields of `SignalContext` (`sanitizer_common.h`, not under `src/`) that the
constructor reads. -/
structure SignalContext where
  context : Nat
  addr : Nat
  pc : Nat
  sp : Nat
  bp : Nat
  is_memory_access : Bool
  write_flag : WriteFlag

/-- `ScarinessScoreBase` (`asan_scariness_score.h`) is not under `src/`: the scariness
is kept as the calls `Scare(add_to_score, reason)` made since the last `Clear()`,
in order. -/
structure ScarinessScoreBase where
  scares : List (Nat × String)
  deriving DecidableEq, Repr

/-- `scariness.Clear()`. -/
def ScarinessScoreBase.Clear (_ : ScarinessScoreBase) : ScarinessScoreBase := ⟨[]⟩

/-- `scariness.Scare(add_to_score, reason)`. -/
def ScarinessScoreBase.Scare (s : ScarinessScoreBase) (add_to_score : Nat) (reason : String) :
    ScarinessScoreBase :=
  ⟨s.scares ++ [(add_to_score, reason)]⟩

/-- `struct ErrorDeadlySignal`. -/
structure ErrorDeadlySignal where
  scariness : ScarinessScoreBase
  tid : Nat
  addr : Nat
  pc : Nat
  bp : Nat
  sp : Nat
  signo : Int
  write_flag : WriteFlag
  is_memory_access : Bool
  context : Nat

/-- The constructor `ErrorDeadlySignal(int signo_, const SignalContext &sig, u32 tid_)`;
`PageSize` is `GetPageSizeCached()` and `scariness0` is the member before the
body runs. -/
def ErrorDeadlySignal.new (PageSize : Nat) (scariness0 : ScarinessScoreBase)
    (signo_ : Int) (sig : SignalContext) (tid_ : Nat) : ErrorDeadlySignal :=
  let scariness := scariness0.Clear
  let scariness :=
    if sig.is_memory_access then
      if sig.addr < PageSize then scariness.Scare 10 "null-deref"
      else if sig.addr = sig.pc then scariness.Scare 60 "wild-jump"
      else if sig.write_flag = .WRITE then scariness.Scare 30 "wild-addr-write"
      else if sig.write_flag = .READ then scariness.Scare 20 "wild-addr-read"
      else scariness.Scare 25 "wild-addr"
    else scariness.Scare 10 "signal"
  { scariness := scariness, tid := tid_, addr := sig.addr, pc := sig.pc, bp := sig.bp,
    sp := sig.sp, signo := signo_, write_flag := sig.write_flag,
    is_memory_access := sig.is_memory_access, context := sig.context }

end Asan

namespace FpLib

/-! ## Soft-float helpers: the wide right shift with sticky bit -/

/-- An operation whose behaviour the C standard leaves undefined. -/
inductive ShiftError where
  | UndefinedShift
  deriving DecidableEq, Repr

/-- The expression `x << n` on a `rep_t` of `typeWidth` bits (32 or 64, none
narrower than `int`): the low `typeWidth` bits of the product, undefined for a shift
count of `typeWidth` or more. -/
def shl (typeWidth x n : Nat) : Except ShiftError Nat :=
  if n < typeWidth then .ok ((x <<< n) % 2 ^ typeWidth) else .error .UndefinedShift

/-- The expression `x >> n` on a `rep_t` of `typeWidth` bits, undefined for a shift
count of `typeWidth` or more. -/
def shr (typeWidth x n : Nat) : Except ShiftError Nat :=
  if n < typeWidth then .ok (x >>> n) else .error .UndefinedShift

/-- The conversion of a `rep_t` to `bool`. -/
def toBool (x : Nat) : Nat := if x ≠ 0 then 1 else 0

/-- `wideRightShiftWithSticky(&hi, &lo, count)` for `count >= 0`: the new `hi` and `lo`. -/
def wideRightShiftWithSticky (typeWidth hi lo count : Nat) : Except ShiftError (Nat × Nat) :=
  if count < typeWidth then
    match shl typeWidth lo (typeWidth - count) with
    | .error e => .error e
    | .ok s =>
      let sticky := toBool s
      match shl typeWidth hi (typeWidth - count) with
      | .error e => .error e
      | .ok a =>
        match shr typeWidth lo count with
        | .error e => .error e
        | .ok b =>
          match shr typeWidth hi count with
          | .error e => .error e
          | .ok c => .ok (c, a ||| b ||| sticky)
  else if count < 2 * typeWidth then
    match shl typeWidth hi (2 * typeWidth - count) with
    | .error e => .error e
    | .ok s =>
      let sticky := toBool (s ||| lo)
      match shr typeWidth hi (count - typeWidth) with
      | .error e => .error e
      | .ok a => .ok (0, a ||| sticky)
  else
    let sticky := toBool (hi ||| lo)
    .ok (0, sticky)

/-- The double-width value `hi:lo`. -/
def wide (typeWidth hi lo : Nat) : Nat := hi * 2 ^ typeWidth + lo

/-- The value shifted right by `count` bits, with the lowest bit OR-ed with 1 when a
bit shifted out was 1. -/
def shiftedWithSticky (v count : Nat) : Nat := (v >>> count) ||| toBool (v % 2 ^ count)

/-- The result of a run as a double-width value, `none` for an undefined run. -/
def wideOf (typeWidth : Nat) : Except ShiftError (Nat × Nat) → Option Nat
  | .ok r => some (wide typeWidth r.1 r.2)
  | .error _ => none

end FpLib

namespace Linux

/-! ## Stack and TLS ranges of a thread -/

/-- Fatal outcomes of the model: a failed `CHECK`. -/
inductive LinuxError where
  | CheckFailed
  deriving DecidableEq, Repr

/-- The four values `GetThreadStackAndTls` stores through its pointer arguments. -/
structure StackAndTls where
  stk_addr : Nat
  stk_size : Nat
  tls_addr : Nat
  tls_size : Nat
  deriving DecidableEq, Repr

/-- `GetThreadStackAndTls` (the branch for `!SANITIZER_GO`). `tls_addr` and `tls_size` are
what `GetTls` reports, `stack_top` and `stack_bottom` what `GetThreadStackTopAndBottom`
reports; sums and differences are 64-bit. -/
def GetThreadStackAndTls (main : Bool) (tls_addr tls_size stack_top stack_bottom : Nat) :
    Except LinuxError StackAndTls :=
  let stk_addr := stack_bottom
  let stk_size := (stack_top + 2 ^ 64 - stack_bottom) % 2 ^ 64
  if !main then
    if tls_addr > stk_addr ∧ tls_addr < (stk_addr + stk_size) % 2 ^ 64 then
      if ¬ (tls_addr + tls_size) % 2 ^ 64 > stk_addr then .error .CheckFailed
      else if ¬ (tls_addr + tls_size) % 2 ^ 64 ≤ (stk_addr + stk_size) % 2 ^ 64 then
        .error .CheckFailed
      else
        .ok ⟨stk_addr, (stk_size + 2 ^ 64 - tls_size) % 2 ^ 64,
          (stk_addr + (stk_size + 2 ^ 64 - tls_size) % 2 ^ 64) % 2 ^ 64, tls_size⟩
    else .ok ⟨stk_addr, stk_size, tls_addr, tls_size⟩
  else .ok ⟨stk_addr, stk_size, tls_addr, tls_size⟩

/-- The ranges `[a, a + n)` and `[b, b + m)` have an address in common. -/
def Intersect (a n b m : Nat) : Prop := max a b < min (a + n) (b + m)

instance (a n b m : Nat) : Decidable (Intersect a n b m) := by
  unfold Intersect; infer_instance

/-- The reported stack and TLS ranges have an address in common; false for a fatal run. -/
def reportedIntersect : Except LinuxError StackAndTls → Bool
  | .ok r => decide (Intersect r.stk_addr r.stk_size r.tls_addr r.tls_size)
  | .error _ => false

/-- The reported values of a run, `none` for a fatal run. -/
def reportedOf : Except LinuxError StackAndTls → Option StackAndTls
  | .ok r => some r
  | .error _ => none

end Linux

namespace Tsan

/-! ## The set of mutexes a thread holds -/

/-- Outcomes of the model that are not a return: a failed `CHECK`, and a write to
`descs_` at an index that is not below `kMaxSize`. -/
inductive MutexSetError where
  | CheckFailed
  | OutOfBounds
  deriving DecidableEq, Repr

/-- The constants and integer widths that `tsan_mutexset.h` (not under `src/`) declares:
`kMaxSize`, `kInvalidStackID`, and the widths in bits of the fields `count` and `seq`. -/
structure MutexSetParams where
  kMaxSize : Nat
  kInvalidStackID : Nat
  countBits : Nat
  seqBits : Nat

/-- The struct `MutexSet::Desc`. -/
structure Desc where
  addr : Nat
  stack_id : Nat
  id : Nat
  write : Bool
  epoch : Nat
  seq : Nat
  count : Nat
  deriving DecidableEq, Repr

/-- The class `MutexSet`: `descs_` holds the entries `descs_[0 .. size_)` of the array, so
`size_` is its length; `seq_` is the sequence counter. -/
structure MutexSet where
  descs_ : List Desc
  seq_ : Nat
  deriving DecidableEq, Repr

/-- The constructor `MutexSet::MutexSet`: no descriptor. -/
def MutexSet.empty : MutexSet := ⟨[], 0⟩

/-- `MutexSet::Size`. -/
def MutexSet.Size (s : MutexSet) : Nat := s.descs_.length

/-- A descriptor with all fields zero, the value read for an index outside the model's
list. -/
def Desc.zero : Desc := ⟨0, 0, 0, false, 0, 0, 0⟩

/-- `MutexSet::RemovePos`: `CHECK_LT(i, size_)`, then the last descriptor is copied to
position `i` and `size_` decreases. -/
def RemovePos (s : MutexSet) (i : Nat) : Except MutexSetError MutexSet :=
  if ¬ i < s.descs_.length then .error .CheckFailed
  else .ok ⟨(s.descs_.set i (s.descs_.getD (s.descs_.length - 1) Desc.zero)).dropLast, s.seq_⟩

/-- The loop of `Add` that looks for the smallest epoch: `minepoch` and `mini` after the
descriptors from index `i` on. -/
def minEpochLoop : List Desc → Nat → Nat × Nat → Nat × Nat
  | [], _, acc => acc
  | d :: rest, i, acc =>
    if d.epoch < acc.1 then minEpochLoop rest (i + 1) (d.epoch, i)
    else minEpochLoop rest (i + 1) acc

/-- The loop of `AddAddr` that looks for the smallest `seq`: `min` after the indices from
`i` on; `fuel` is the number of indices left. -/
def minSeqLoop (descs : List Desc) : Nat → Nat → Nat → Nat
  | 0, _, min => min
  | fuel + 1, i, min =>
    if (descs.getD i Desc.zero).seq < (descs.getD min Desc.zero).seq then
      minSeqLoop descs fuel (i + 1) i
    else minSeqLoop descs fuel (i + 1) min

/-- The tail of `Add` and `AddAddr`: the new descriptor is written at index `size_`, which
has to be below `kMaxSize`, and `size_` and `seq_` increase. -/
def pushDesc (P : MutexSetParams) (s : MutexSet) (d : Desc) : Except MutexSetError MutexSet :=
  if ¬ s.descs_.length < P.kMaxSize then .error .OutOfBounds
  else .ok ⟨s.descs_ ++ [{ d with seq := s.seq_, count := 1 }], (s.seq_ + 1) % 2 ^ P.seqBits⟩

/-- `MutexSet::Add`. -/
def Add (P : MutexSetParams) (s : MutexSet) (id : Nat) (write : Bool) (epoch : Nat) :
    Except MutexSetError MutexSet :=
  match s.descs_.findIdx? (fun d => d.id == id) with
  | some i =>
    .ok ⟨s.descs_.set i { s.descs_.getD i Desc.zero with
      count := ((s.descs_.getD i Desc.zero).count + 1) % 2 ^ P.countBits, epoch := epoch }, s.seq_⟩
  | none =>
    if s.descs_.length = P.kMaxSize then
      match RemovePos s (minEpochLoop s.descs_ 0 (2 ^ 64 - 1, 2 ^ 64 - 1)).2 with
      | .error e => .error e
      | .ok s1 =>
        if s1.descs_.length ≠ P.kMaxSize - 1 then .error .CheckFailed
        else pushDesc P s1 ⟨0, P.kInvalidStackID, id, write, epoch, 0, 0⟩
    else pushDesc P s ⟨0, P.kInvalidStackID, id, write, epoch, 0, 0⟩

/-- `MutexSet::Del`. -/
def Del (P : MutexSetParams) (s : MutexSet) (id : Nat) (_write : Bool) :
    Except MutexSetError MutexSet :=
  match s.descs_.findIdx? (fun d => d.id == id) with
  | some i =>
    if ((s.descs_.getD i Desc.zero).count + 2 ^ P.countBits - 1) % 2 ^ P.countBits = 0 then
      RemovePos ⟨s.descs_.set i { s.descs_.getD i Desc.zero with count := 0 }, s.seq_⟩ i
    else
      .ok ⟨s.descs_.set i { s.descs_.getD i Desc.zero with
        count := ((s.descs_.getD i Desc.zero).count + 2 ^ P.countBits - 1) % 2 ^ P.countBits },
        s.seq_⟩
  | none => .ok s

/-- `MutexSet::Remove`. -/
def Remove (s : MutexSet) (id : Nat) : Except MutexSetError MutexSet :=
  match s.descs_.findIdx? (fun d => d.id == id) with
  | some i => RemovePos s i
  | none => .ok s

/-- `MutexSet::AddAddr`. -/
def AddAddr (P : MutexSetParams) (s : MutexSet) (addr stack_id : Nat) (write : Bool) :
    Except MutexSetError MutexSet :=
  match s.descs_.findIdx? (fun d => d.addr == addr) with
  | some i =>
    .ok ⟨s.descs_.set i { s.descs_.getD i Desc.zero with
      count := ((s.descs_.getD i Desc.zero).count + 1) % 2 ^ P.countBits, seq := s.seq_ },
      (s.seq_ + 1) % 2 ^ P.seqBits⟩
  | none =>
    if s.descs_.length = P.kMaxSize then
      match RemovePos s (minSeqLoop s.descs_ s.descs_.length 0 0) with
      | .error e => .error e
      | .ok s1 =>
        if s1.descs_.length ≠ P.kMaxSize - 1 then .error .CheckFailed
        else pushDesc P s1 ⟨addr, stack_id, 0, write, 0, 0, 0⟩
    else pushDesc P s ⟨addr, stack_id, 0, write, 0, 0, 0⟩

/-- `MutexSet::DelAddr`; the count is decremented only when `destroy` is false. -/
def DelAddr (P : MutexSetParams) (s : MutexSet) (addr : Nat) (destroy : Bool) :
    Except MutexSetError MutexSet :=
  match s.descs_.findIdx? (fun d => d.addr == addr) with
  | some i =>
    if destroy then RemovePos s i
    else if ((s.descs_.getD i Desc.zero).count + 2 ^ P.countBits - 1) % 2 ^ P.countBits = 0 then
      RemovePos ⟨s.descs_.set i { s.descs_.getD i Desc.zero with count := 0 }, s.seq_⟩ i
    else
      .ok ⟨s.descs_.set i { s.descs_.getD i Desc.zero with
        count := ((s.descs_.getD i Desc.zero).count + 2 ^ P.countBits - 1) % 2 ^ P.countBits },
        s.seq_⟩
  | none => .ok s

/-- A call of one of the five mutating methods. -/
inductive Op where
  | Add (id : Nat) (write : Bool) (epoch : Nat)
  | Del (id : Nat) (write : Bool)
  | Remove (id : Nat)
  | AddAddr (addr stack_id : Nat) (write : Bool)
  | DelAddr (addr : Nat) (destroy : Bool)
  deriving DecidableEq, Repr

/-- One call on a set. -/
def step (P : MutexSetParams) (s : MutexSet) : Op → Except MutexSetError MutexSet
  | .Add id write epoch => Add P s id write epoch
  | .Del id write => Del P s id write
  | .Remove id => Remove s id
  | .AddAddr addr stack_id write => AddAddr P s addr stack_id write
  | .DelAddr addr destroy => DelAddr P s addr destroy

/-- A sequence of calls, in order, starting from a given set. -/
def run (P : MutexSetParams) : List Op → MutexSet → Except MutexSetError MutexSet
  | [], s => .ok s
  | op :: rest, s =>
    match step P s op with
    | .error e => .error e
    | .ok s1 => run P rest s1

/-- The epoch an `Add` call passes is below the `u64` maximum, the start value of
`minepoch`. -/
def Op.epochOk : Op → Prop
  | .Add _ _ epoch => epoch < 2 ^ 64 - 1
  | _ => True

instance (op : Op) : Decidable op.epochOk := by
  cases op <;> unfold Op.epochOk <;> infer_instance

/-- The set holds at most `kMaxSize` descriptors, each with a count between 1 and `k` and
an epoch below the `u64` maximum. -/
def Held (P : MutexSetParams) (k : Nat) (s : MutexSet) : Prop :=
  s.descs_.length ≤ P.kMaxSize ∧
  ∀ d ∈ s.descs_, 1 ≤ d.count ∧ d.count ≤ k ∧ d.epoch < 2 ^ 64 - 1

/-- The descriptors left when `RemovePos(i)` has dropped the one at index `i`. -/
def without (descs : List Desc) (i : Nat) : List Desc :=
  (descs.set i (descs.getD (descs.length - 1) Desc.zero)).dropLast

/-- A set with at most 4 descriptors and 32-bit `count` and `seq`. -/
def smallSet : MutexSetParams := ⟨4, 0, 32, 32⟩

/-- A set with at most 16 descriptors and 32-bit `count` and `seq`. -/
def sixteenSet : MutexSetParams := ⟨16, 0, 32, 32⟩

/-- Five locks taken in turn, then the second one released. -/
def exampleOps : List Op :=
  [.Add 1 true 10, .Add 2 false 20, .AddAddr 4096 7 true, .Add 3 true 5, .Add 5 true 50,
   .Del 2 false]

/-- The set a run ends with, `none` for a run that does not return. -/
def setOf : Except MutexSetError MutexSet → Option MutexSet
  | .ok s => some s
  | .error _ => none

end Tsan

namespace Sanitizer

/-! ## The stack store: a bump allocator over mapped blocks -/

/-- Outcomes of the model that are not a return: the list of `mmap` answers given to the
model ran out. -/
inductive StoreError where
  | OutOfFuel
  deriving DecidableEq, Repr

/-- The sizes the stack store reads from its environment: `sizeof(uptr)`,
`sizeof(BlockInfo)` and `GetPageSizeCached()`. -/
structure StoreParams where
  sizeofUptr : Nat
  sizeofBlockInfo : Nat
  PageSize : Nat

/-- The struct `StackStore::BlockInfo` without its `next` pointer: the list `curr` of the
store holds the records in `next` order. -/
structure BlockInfo where
  ptr : Nat
  size : Nat
  deriving DecidableEq, Repr

/-- The fields of `StackStore`. -/
structure StackStore where
  region_pos : Nat
  region_end : Nat
  mapped_size : Nat
  curr : List BlockInfo
  deriving DecidableEq, Repr

/-- A zero-initialised store. -/
def StackStore.empty : StackStore := ⟨0, 0, 0, []⟩

/-- `StackStore::allocated`. -/
def allocated (s : StackStore) : Nat := s.mapped_size

/-- `StackStore::tryAlloc` in a sequential run, where the compare-and-swap succeeds: the
pointer, `none` for null, and the store. -/
def tryAlloc (P : StoreParams) (s : StackStore) (count : Nat) : Option Nat × StackStore :=
  let cmp := s.region_pos
  let end_ := s.region_end
  let size := (count * P.sizeofUptr) % 2 ^ 64
  if cmp = 0 ∨ (cmp + size) % 2 ^ 64 > end_ then (none, s)
  else (some cmp, { s with region_pos := (cmp + size) % 2 ^ 64 })

/-- The size `allocsz` of the block `refillAndAlloc` maps for `count` words. -/
def allocszOf (P : StoreParams) (count : Nat) : Nat :=
  Scudo.RoundUpTo (max ((count * P.sizeofUptr + P.sizeofBlockInfo) % 2 ^ 64) (64 * 1024))
    P.PageSize

/-- The store after `refillAndAlloc` has mapped a block at `mem` for `count` words. -/
def mapBlock (P : StoreParams) (s : StackStore) (count mem : Nat) : StackStore :=
  { region_pos := mem
    region_end := (mem + (allocszOf P count + 2 ^ 64 - P.sizeofBlockInfo) % 2 ^ 64) % 2 ^ 64
    mapped_size := (s.mapped_size + allocszOf P count) % 2 ^ 64
    curr := ⟨mem, allocszOf P count⟩ :: s.curr }

/-- `StackStore::refillAndAlloc`. `mems` holds the answers of the coming `MmapOrDie` calls;
the loop takes one per round. Result: the pointer, the store, and the answers left. -/
def refillAndAlloc (P : StoreParams) : List Nat → StackStore → Nat →
    Except StoreError (Nat × StackStore × List Nat)
  | [], s, count =>
    match (tryAlloc P s count).1 with
    | some p => .ok (p, (tryAlloc P s count).2, [])
    | none => .error .OutOfFuel
  | mem :: rest, s, count =>
    match (tryAlloc P s count).1 with
    | some p => .ok (p, (tryAlloc P s count).2, mem :: rest)
    | none => refillAndAlloc P rest (mapBlock P s count mem) count

/-- `StackStore::alloc`. -/
def alloc (P : StoreParams) (mems : List Nat) (s : StackStore) (count : Nat) :
    Except StoreError (Nat × StackStore × List Nat) :=
  match (tryAlloc P s count).1 with
  | some p => .ok (p, (tryAlloc P s count).2, mems)
  | none => refillAndAlloc P mems s count

/-- Successive `alloc` calls with the given counts: the returned `(pointer, count)` pairs
in call order, the store, and the `mmap` answers left. -/
def allocAll (P : StoreParams) : List Nat → List Nat → StackStore →
    Except StoreError (List (Nat × Nat) × StackStore × List Nat)
  | [], mems, s => .ok ([], s, mems)
  | count :: counts, mems, s =>
    match alloc P mems s count with
    | .error e => .error e
    | .ok r =>
      match allocAll P counts r.2.2 r.2.1 with
      | .error e => .error e
      | .ok out => .ok ((r.1, count) :: out.1, out.2.1, out.2.2)

/-- The byte ranges `[a.1, a.1 + a.2 * w)` and `[b.1, b.1 + b.2 * w)` of two allocations
of `a.2` and `b.2` words do not overlap. -/
def Apart (w : Nat) (a b : Nat × Nat) : Prop :=
  a.1 + a.2 * w ≤ b.1 ∨ b.1 + b.2 * w ≤ a.1

instance (w : Nat) (a b : Nat × Nat) : Decidable (Apart w a b) := by
  unfold Apart; infer_instance

/-- The allocation `r` lies in block `b`, below the trailing `BlockInfo` record. -/
def InBlock (P : StoreParams) (r : Nat × Nat) (b : BlockInfo) : Prop :=
  b.ptr ≤ r.1 ∧ r.1 + r.2 * P.sizeofUptr + P.sizeofBlockInfo ≤ b.ptr + b.size

/-- Two block addresses are at least `B` bytes apart. -/
def Spaced (B a b : Nat) : Prop := a + B ≤ b ∨ b + B ≤ a

instance (B a b : Nat) : Decidable (Spaced B a b) := by
  unfold Spaced; infer_instance

/-- The state of a sequential run with `n` calls to come: `hist` holds the allocations
handed out so far, `mems` the `mmap` answers left, `B` bounds the size of every block.
The blocks are apart from each other and from the answers left, the region is the free
part of the newest block, and every allocation handed out lies in a block, below the
region when it lies in the newest block. -/
structure StoreInv (P : StoreParams) (B n : Nat) (s : StackStore) (hist : List (Nat × Nat))
    (mems : List Nat) : Prop where
  total : (s.curr.length + n) * B < 2 ^ 64
  sum_le : (s.curr.map BlockInfo.size).sum ≤ s.curr.length * B
  mapped : s.mapped_size = (s.curr.map BlockInfo.size).sum
  blocks : ∀ b ∈ s.curr, b.size ≤ B ∧ b.ptr ≠ 0 ∧ b.ptr + 2 * B < 2 ^ 64 ∧
    ∀ m ∈ mems, Spaced B b.ptr m
  spaced : s.curr.Pairwise (fun a b => Spaced B a.ptr b.ptr)
  region : (s.curr = [] ∧ s.region_pos = 0) ∨
    ∃ b rest, s.curr = b :: rest ∧ b.ptr ≤ s.region_pos ∧ s.region_pos ≤ s.region_end ∧
      s.region_end + P.sizeofBlockInfo = b.ptr + b.size
  handed : ∀ r ∈ hist, ∃ b ∈ s.curr, InBlock P r b ∧
    ∀ rest, s.curr = b :: rest → r.1 + r.2 * P.sizeofUptr ≤ s.region_pos
  apart : hist.Pairwise (Apart P.sizeofUptr)
  supply : mems.Pairwise (Spaced B) ∧ (∀ m ∈ mems, m ≠ 0 ∧ m + 2 * B < 2 ^ 64) ∧
    n ≤ mems.length

/-- The sizes of a 64-bit target: 8-byte words, a 24-byte `BlockInfo`, 4 KiB pages. -/
def exampleStore : StoreParams := ⟨8, 24, 4096⟩

/-- Four calls: the third does not fit the rest of the first block. -/
def exampleCounts : List Nat := [3, 8000, 8000, 5]

/-- Four `mmap` answers, 1 MiB apart. -/
def exampleMems : List Nat := [1048576, 2097152, 3145728, 4194304]

/-- The result of a run, `none` when the run did not return. -/
def storeOf : Except StoreError (List (Nat × Nat) × StackStore × List Nat) →
    Option (List (Nat × Nat) × StackStore × List Nat)
  | .ok r => some r
  | .error _ => none

end Sanitizer

namespace Scudo

/-! ### Codec lemmas -/

theorem unpack_pack (h : UnpackedHeader) (hb : h.InBounds) : unpack (pack h) = h := by
  obtain ⟨h1, h2, h3, h4, h5, h6⟩ := hb
  cases h with
  | mk c k s st t o =>
    simp only [unpack, pack, UnpackedHeader.mk.injEq] at *
    norm_num at *
    refine ⟨?_, ?_, ?_, ?_, ?_, ?_⟩ <;> omega

theorem shiftRight_xor (a b n : Nat) : (a ^^^ b) >>> n = a >>> n ^^^ b >>> n := by
  apply Nat.eq_of_testBit_eq
  intro i
  simp only [Nat.testBit_shiftRight, Nat.testBit_xor]

theorem crcShift_xor (poly a b : Nat) :
    crcShift poly (a ^^^ b) = crcShift poly a ^^^ crcShift poly b := by
  unfold crcShift
  have hx : (a ^^^ b) % 2 = (a + b) % 2 := Nat.xor_mod_two_eq
  have hs : (a ^^^ b) >>> 1 = a >>> 1 ^^^ b >>> 1 := shiftRight_xor _ _ _
  rw [hs]
  rcases Nat.mod_two_eq_zero_or_one a with ha | ha <;>
  rcases Nat.mod_two_eq_zero_or_one b with hb | hb
  · have : (a ^^^ b) % 2 = 0 := by omega
    simp [ha, hb, this]
  · have : (a ^^^ b) % 2 = 1 := by omega
    simp [ha, hb, this, Nat.xor_assoc]
  · have : (a ^^^ b) % 2 = 1 := by omega
    simp only [ha, hb, this, if_true, one_ne_zero, if_false]
    simp
    rw [Nat.xor_assoc, Nat.xor_assoc, Nat.xor_comm poly]
  · have : (a ^^^ b) % 2 = 0 := by omega
    simp only [ha, hb, this, if_true, if_false]
    simp
    rw [Nat.xor_assoc, ← Nat.xor_assoc poly, Nat.xor_comm poly (b >>> 1), Nat.xor_assoc (b >>> 1),
      Nat.xor_self, Nat.xor_zero]

theorem CRC32Table_xor (poly a b : Nat) :
    CRC32Table poly (a ^^^ b) = CRC32Table poly a ^^^ CRC32Table poly b := by
  simp only [CRC32Table, crcShift_xor]

theorem crcBytes_xor (poly n : Nat) : ∀ c1 c2 d1 d2 : Nat,
    crcBytes poly n (c1 ^^^ c2) (d1 ^^^ d2) = crcBytes poly n c1 d1 ^^^ crcBytes poly n c2 d2 := by
  induction n with
  | zero => intro c1 c2 d1 d2; rfl
  | succ n ih =>
    intro c1 c2 d1 d2
    simp only [crcBytes]
    have h1 : (c1 ^^^ c2 ^^^ (d1 ^^^ d2)) &&& 0xff = ((c1 ^^^ d1) &&& 0xff) ^^^ ((c2 ^^^ d2) &&& 0xff) := by
      rw [← Nat.and_xor_distrib_right]
      congr 1
      rw [Nat.xor_assoc, Nat.xor_assoc, ← Nat.xor_assoc c2, Nat.xor_comm c2 d1, Nat.xor_assoc d1]
    rw [h1, CRC32Table_xor, shiftRight_xor _ _ _, shiftRight_xor _ _ _, ← ih]
    congr 1
    rw [Nat.xor_assoc, Nat.xor_assoc, ← Nat.xor_assoc (CRC32Table poly _) (c1 >>> 8),
      Nat.xor_comm (CRC32Table poly _) (c1 >>> 8), Nat.xor_assoc (c1 >>> 8)]

theorem crcBytes_flip (poly n c d e : Nat) :
    crcBytes poly n c (d ^^^ e) = crcBytes poly n c d ^^^ crcBytes poly n 0 e := by
  have := crcBytes_xor poly n c 0 d e
  rwa [Nat.xor_zero] at this

theorem xor_mod_two_pow_ne (x y n : Nat) (hy : y % 2 ^ n ≠ 0) :
    (x ^^^ y) % 2 ^ n ≠ x % 2 ^ n := by
  intro h
  apply hy
  have h2 : (x ^^^ y) % 2 ^ n = (x % 2 ^ n) ^^^ (y % 2 ^ n) := by
    apply Nat.eq_of_testBit_eq
    intro i
    simp only [Nat.testBit_mod_two_pow, Nat.testBit_xor]
    by_cases hi : i < n <;> simp [hi]
  rw [h2] at h
  have h3 : (x % 2 ^ n) ^^^ ((x % 2 ^ n) ^^^ (y % 2 ^ n)) = (x % 2 ^ n) ^^^ (x % 2 ^ n) := by rw [h]
  rwa [← Nat.xor_assoc, Nat.xor_self, Nat.zero_xor] at h3

set_option maxRecDepth 100000 in
theorem crc_bit_delta_soft : ∀ k < 64, 16 ≤ k → crcBytes 0xEDB88320 8 0 (2 ^ k) % 2 ^ 16 ≠ 0 := by
  decide

set_option maxRecDepth 100000 in
theorem crc_bit_delta_hard : ∀ k < 64, 16 ≤ k → crcBytes 0x82F63B78 8 0 (2 ^ k) % 2 ^ 16 ≠ 0 := by
  decide



theorem pack_lt (h : UnpackedHeader) : pack h < 2 ^ 64 := by
  simp only [pack]
  norm_num
  omega

theorem pack_zero_checksum (h : UnpackedHeader) (c : Nat) :
    pack { h with Checksum := 0 } = (pack { h with Checksum := c } >>> 16) <<< 16 := by
  simp only [pack, Nat.shiftRight_eq_div_pow, Nat.shiftLeft_eq]
  norm_num
  omega

theorem pack_unpack_zero_checksum (q : Nat) (hq : q < 2 ^ 64) :
    pack { unpack q with Checksum := 0 } = (q >>> 16) <<< 16 := by
  simp only [pack, unpack, Nat.shiftRight_eq_div_pow, Nat.shiftLeft_eq]
  norm_num at *
  omega

theorem pack_checksum (h : UnpackedHeader) : pack h % 2 ^ 16 = h.Checksum % 2 ^ 16 := by
  simp only [pack]
  norm_num
  omega

theorem computeCRC32_single (alg : HashAlgorithm) (c v d : Nat) :
    computeCRC32 alg c v [d] =
      match alg with
      | .CRC32Hardware => crcBytes 0x82F63B78 8 (crcBytes 0x82F63B78 8 c v) d
      | .CRC32Software => crcBytes 0xEDB88320 8 (crcBytes 0xEDB88320 8 c v) d := by
  cases alg <;> rfl

theorem computeCRC32_flip (alg : HashAlgorithm) (c v d k : Nat) (hk : k < 64) (hk16 : 16 ≤ k) :
    computeCRC32 alg c v [d ^^^ 2 ^ k] % 2 ^ 16 ≠ computeCRC32 alg c v [d] % 2 ^ 16 := by
  rw [computeCRC32_single, computeCRC32_single]
  cases alg
  · simp only
    rw [crcBytes_flip]
    exact xor_mod_two_pow_ne _ _ _ (crc_bit_delta_soft k hk hk16)
  · simp only
    rw [crcBytes_flip]
    exact xor_mod_two_pow_ne _ _ _ (crc_bit_delta_hard k hk hk16)

theorem flip_low_mod (p k : Nat) (hk : k < 16) : (p ^^^ 2 ^ k) % 2 ^ 16 ≠ p % 2 ^ 16 := by
  apply xor_mod_two_pow_ne
  have : 2 ^ k < 2 ^ 16 := Nat.pow_lt_pow_right (by norm_num) hk
  rw [Nat.mod_eq_of_lt this]
  positivity

theorem flip_low_high (p k : Nat) (hk : k < 16) :
    ((p ^^^ 2 ^ k) >>> 16) <<< 16 = (p >>> 16) <<< 16 := by
  apply Nat.eq_of_testBit_eq
  intro i
  simp only [Nat.testBit_shiftLeft, Nat.testBit_shiftRight, Nat.testBit_xor, Nat.testBit_two_pow]
  by_cases hi : 16 ≤ i
  · have e : 16 + (i - 16) = i := by omega
    have : ¬ (k = i) := by omega
    simp [hi, this, e]
  · simp [hi]

theorem flip_high_mod (p k : Nat) (hk : 16 ≤ k) : (p ^^^ 2 ^ k) % 2 ^ 16 = p % 2 ^ 16 := by
  apply Nat.eq_of_testBit_eq
  intro i
  simp only [Nat.testBit_mod_two_pow, Nat.testBit_xor, Nat.testBit_two_pow]
  by_cases hi : i < 16
  · have : ¬ (k = i) := by omega
    simp [hi, this]
  · simp [hi]

theorem flip_high_high (p k : Nat) (hk : 16 ≤ k) :
    ((p ^^^ 2 ^ k) >>> 16) <<< 16 = ((p >>> 16) <<< 16) ^^^ 2 ^ k := by
  apply Nat.eq_of_testBit_eq
  intro i
  simp only [Nat.testBit_shiftLeft, Nat.testBit_shiftRight, Nat.testBit_xor, Nat.testBit_two_pow]
  by_cases hi : 16 ≤ i
  · have : 16 + (i - 16) = i := by omega
    simp [hi, this]
  · have : ¬ (k = i) := by omega
    simp [hi, this]

/-- C1: storing a header whose five fields are within their bit-field widths and
loading it back at the same address does not die and returns the same five
fields, with `Checksum` equal to `computeChecksum` of them. -/
theorem storeHeader_loadHeader_roundtrip (ctx : HashCtx) (mem : HeaderMem) (addr : Nat)
    (h : UnpackedHeader) (hk : h.ClassId < 2 ^ 8) (hs : h.SizeOrUnusedBytes < 2 ^ 20)
    (hst : h.State < 2 ^ 2) (ht : h.AllocType < 2 ^ 2) (ho : h.Offset < 2 ^ 16) :
    loadHeader ctx (storeHeader ctx mem addr h) addr =
      .ok { h with Checksum := computeChecksum ctx addr h } := by
  have hc : computeChecksum ctx addr h < 2 ^ 16 := Nat.mod_lt _ (by norm_num)
  have hb : ({ h with Checksum := computeChecksum ctx addr h } : UnpackedHeader).InBounds :=
    ⟨hc, hk, hs, hst, ht, ho⟩
  simp only [loadHeader, storeHeader, HeaderMem.store, HeaderMem.load, if_true]
  rw [Nat.mod_eq_of_lt (pack_lt _), unpack_pack _ hb]
  have : computeChecksum ctx addr { h with Checksum := computeChecksum ctx addr h } =
      computeChecksum ctx addr h := rfl
  simp [this]

/-- Witness for C1 at a concrete header and address. -/
theorem storeHeader_loadHeader_roundtrip_witness :
    loadHeader ⟨7, .CRC32Software⟩ (storeHeader ⟨7, .CRC32Software⟩ (fun _ => 0) 4096 ⟨0, 3, 100, 1, 0, 2⟩) 4096 =
      .ok { (⟨0, 3, 100, 1, 0, 2⟩ : UnpackedHeader) with
        Checksum := computeChecksum ⟨7, .CRC32Software⟩ 4096 ⟨0, 3, 100, 1, 0, 2⟩ } :=
  storeHeader_loadHeader_roundtrip ⟨7, .CRC32Software⟩ (fun _ => 0) 4096 ⟨0, 3, 100, 1, 0, 2⟩
    (by decide) (by decide) (by decide) (by decide) (by decide)

/-- C2: after `storeHeader`, flipping any single bit of the stored 64-bit packed
header makes the next `loadHeader` at that address die with the
corrupted-chunk-header error, for every address, cookie and hash back end. -/
theorem flipBit_loadHeader_corrupted (ctx : HashCtx) (mem : HeaderMem) (addr : Nat)
    (h : UnpackedHeader) (k : Nat) (hk : k < 64) :
    loadHeader ctx (flipBit (storeHeader ctx mem addr h) addr k) addr =
      .error .CorruptedHeader := by
  set h' : UnpackedHeader := { h with Checksum := computeChecksum ctx addr h } with hh'
  have hp : pack h' < 2 ^ 64 := pack_lt h'
  have hq : pack h' ^^^ 2 ^ k < 2 ^ 64 :=
    Nat.xor_lt_two_pow hp (Nat.pow_lt_pow_right (by norm_num) hk)
  have hc : computeChecksum ctx addr h < 2 ^ 16 := Nat.mod_lt _ (by norm_num)
  have hsum : pack h' % 2 ^ 16 = computeChecksum ctx addr h := by
    rw [pack_checksum]; exact Nat.mod_eq_of_lt hc
  have hold : computeChecksum ctx addr h =
      computeCRC32 ctx.alg ctx.Cookie addr [(pack h' >>> 16) <<< 16] % 2 ^ 16 := by
    simp only [computeChecksum]
    rw [pack_zero_checksum h (computeChecksum ctx addr h)]
  have hnew : computeChecksum ctx addr (unpack (pack h' ^^^ 2 ^ k)) =
      computeCRC32 ctx.alg ctx.Cookie addr [((pack h' ^^^ 2 ^ k) >>> 16) <<< 16] % 2 ^ 16 := by
    simp only [computeChecksum]
    rw [pack_unpack_zero_checksum _ hq]
  have hstored : (unpack (pack h' ^^^ 2 ^ k)).Checksum = (pack h' ^^^ 2 ^ k) % 2 ^ 16 := rfl
  have hmem : (flipBit (storeHeader ctx mem addr h) addr k).load addr = pack h' ^^^ 2 ^ k := by
    simp only [flipBit, storeHeader, HeaderMem.store, HeaderMem.load, if_true]
    rw [Nat.mod_eq_of_lt hp, Nat.mod_eq_of_lt hq]
  unfold loadHeader
  simp only [hmem]
  rw [if_pos]
  rw [hstored, hnew]
  by_cases hk16 : k < 16
  · rw [flip_low_high _ _ hk16, ← hold, ← hsum]
    exact flip_low_mod _ _ hk16
  · have hk16' : 16 ≤ k := by omega
    rw [flip_high_high _ _ hk16', flip_high_mod _ _ hk16', hsum, hold]
    exact fun e => computeCRC32_flip ctx.alg ctx.Cookie addr _ k hk hk16' e.symm

/-- Witness for C2: bit 44 (the low bit of `State`) of a stored header is flipped. -/
theorem flipBit_loadHeader_corrupted_witness :
    loadHeader ⟨7, .CRC32Software⟩
      (flipBit (storeHeader ⟨7, .CRC32Software⟩ (fun _ => 0) 4096 ⟨0, 3, 100, 1, 0, 2⟩) 4096 44) 4096 =
      .error .CorruptedHeader :=
  flipBit_loadHeader_corrupted ⟨7, .CRC32Software⟩ (fun _ => 0) 4096 ⟨0, 3, 100, 1, 0, 2⟩ 44 (by decide)

end Scudo

namespace Scudo

/-! ### Deallocation lemmas -/

theorem loadHeader_error (ctx : HashCtx) (mem : HeaderMem) (c : Nat) (e : ScudoError)
    (h : loadHeader ctx mem c = .error e) : e = .CorruptedHeader := by
  simp only [loadHeader] at h
  split at h
  · cases h; rfl
  · cases h

theorem loadHeader_ok (ctx : HashCtx) (mem : HeaderMem) (c : Nat) (H : UnpackedHeader)
    (h : loadHeader ctx mem c = .ok H) :
    H = unpack (mem.load c) ∧ H.Checksum = computeChecksum ctx c H := by
  simp only [loadHeader] at h
  split at h
  · cases h
  · rename_i hne
    cases h
    exact ⟨rfl, not_not.mp hne⟩

theorem loadHeader_eq_of_mem (ctx : HashCtx) (m1 m2 : HeaderMem) (c : Nat) (h : m1 c = m2 c) :
    loadHeader ctx m1 c = loadHeader ctx m2 c := by
  simp only [loadHeader, HeaderMem.load, h]

theorem Recycle_error (cfg : Params) (a : Allocator) (c : Nat) (e : ScudoError)
    (h : Recycle cfg a c = .error e) : e = .CorruptedHeader ∨ e = .InvalidChunkStateRecycle := by
  unfold Recycle at h
  split at h
  · rename_i e' he
    cases h
    exact Or.inl (loadHeader_error _ _ _ _ he)
  · split at h
    · cases h; exact Or.inr rfl
    · split at h <;> cases h

theorem recycleAll_error (cfg : Params) : ∀ (l : List (Nat × Nat)) (a : Allocator) (e : ScudoError),
    recycleAll cfg l a = .error e → e = .CorruptedHeader ∨ e = .InvalidChunkStateRecycle := by
  intro l
  induction l with
  | nil => intro a e h; cases h
  | cons x rest ih =>
    intro a e h
    simp only [recycleAll] at h
    split at h
    · rename_i err he
      cases h
      exact Recycle_error _ _ _ _ he
    · exact ih _ _ h

theorem QuarantinePut_error (cfg : Params) (a : Allocator) (c sz : Nat) (e : ScudoError)
    (h : QuarantinePut cfg a c sz = .error e) :
    e = .CorruptedHeader ∨ e = .InvalidChunkStateRecycle := by
  unfold QuarantinePut at h
  simp only at h
  split at h
  · split at h
    · exact recycleAll_error _ _ _ _ h
    · cases h
  · cases h

theorem quarantineOrDeallocateChunk_error (cfg : Params) (a : Allocator) (c : Nat)
    (H : UnpackedHeader) (sz : Nat) (e : ScudoError)
    (h : quarantineOrDeallocateChunk cfg a c H sz = .error e) :
    e = .CorruptedHeader ∨ e = .InvalidChunkStateRecycle ∨ e = .RaceOnHeader := by
  unfold quarantineOrDeallocateChunk at h
  simp only at h
  split at h
  · split at h <;> cases h
  · split at h
    · rename_i e' he
      cases h
      unfold compareExchangeHeader at he
      simp only at he
      split at he
      · cases he; exact Or.inr (Or.inr rfl)
      · cases he
    · rcases QuarantinePut_error _ _ _ _ _ h with h | h
      · exact Or.inl h
      · exact Or.inr (Or.inl h)

theorem deallocate_unfold (cfg : Params) (a : Allocator)
    (UserPtr DeleteSize AllocType : Nat) (H : UnpackedHeader)
    (hnull : UserPtr ≠ 0) (halign : IsAligned UserPtr cfg.MinAlignment = true)
    (hload : loadHeader a.ctx a.mem (getScudoChunk cfg UserPtr) = .ok H)
    (hstate : H.State = ChunkAllocated) :
    deallocate cfg a UserPtr DeleteSize AllocType =
      if a.DeallocationTypeMismatch = true ∧ H.AllocType ≠ AllocType ∧
          (H.AllocType ≠ FromMemalign ∨ AllocType ≠ FromMalloc) then
        .error .AllocTypeMismatchDeallocate
      else if a.DeleteSizeMismatch = true ∧ DeleteSize ≠ 0 ∧ DeleteSize ≠
          (if H.ClassId ≠ 0 then H.SizeOrUnusedBytes
            else wsub (getUsableSize cfg (getScudoChunk cfg UserPtr) H) H.SizeOrUnusedBytes) then
        .error .InvalidSizedDelete
      else quarantineOrDeallocateChunk cfg a (getScudoChunk cfg UserPtr) H
        (if H.ClassId ≠ 0 then H.SizeOrUnusedBytes
          else wsub (getUsableSize cfg (getScudoChunk cfg UserPtr) H) H.SizeOrUnusedBytes) := by
  unfold deallocate
  rw [if_neg hnull]
  simp only [halign, Bool.not_true, Bool.false_eq_true, if_false, hload]
  rw [if_neg (not_not.mpr hstate)]

/-- C10: for an aligned, non-null pointer to a chunk whose header loads with
`State = ChunkAllocated`: with `DeallocationTypeMismatch` enabled `deallocate`
dies with the allocation-type-mismatch error exactly when the header's
`AllocType` differs from the deallocation type, except for a `FromMemalign`
chunk freed as `FromMalloc`; with the option disabled it never dies with that
error. -/
theorem deallocate_type_mismatch_iff (cfg : Params) (a : Allocator)
    (UserPtr DeleteSize AllocType : Nat) (H : UnpackedHeader)
    (hnull : UserPtr ≠ 0) (halign : IsAligned UserPtr cfg.MinAlignment = true)
    (hload : loadHeader a.ctx a.mem (getScudoChunk cfg UserPtr) = .ok H)
    (hstate : H.State = ChunkAllocated) :
    (a.DeallocationTypeMismatch = true →
      (deallocate cfg a UserPtr DeleteSize AllocType = .error .AllocTypeMismatchDeallocate ↔
        (H.AllocType ≠ AllocType ∧ ¬ (H.AllocType = FromMemalign ∧ AllocType = FromMalloc)))) ∧
    (a.DeallocationTypeMismatch = false →
      deallocate cfg a UserPtr DeleteSize AllocType ≠ .error .AllocTypeMismatchDeallocate) := by
  have key : ∀ sz, quarantineOrDeallocateChunk cfg a (getScudoChunk cfg UserPtr) H sz ≠
      .error .AllocTypeMismatchDeallocate := by
    intro sz hq
    rcases quarantineOrDeallocateChunk_error _ _ _ _ _ _ hq with h | h | h <;> cases h
  have hother : ∀ (c : Prop) [Decidable c] (sz : Nat),
      (if c then (.error .InvalidSizedDelete : Except ScudoError Allocator)
        else quarantineOrDeallocateChunk cfg a (getScudoChunk cfg UserPtr) H sz) ≠
      .error .AllocTypeMismatchDeallocate := by
    intro c _ sz h
    split at h
    · cases h
    · exact key _ h
  rw [deallocate_unfold cfg a UserPtr DeleteSize AllocType H hnull halign hload hstate]
  constructor
  · intro hflag
    constructor
    · intro h
      by_contra hcon
      have hc : ¬ (a.DeallocationTypeMismatch = true ∧ H.AllocType ≠ AllocType ∧
          (H.AllocType ≠ FromMemalign ∨ AllocType ≠ FromMalloc)) := by
        intro ⟨_, h1, h2⟩
        apply hcon
        refine ⟨h1, ?_⟩
        intro ⟨h3, h4⟩
        rcases h2 with h2 | h2
        · exact h2 h3
        · exact h2 h4
      rw [if_neg hc] at h
      exact hother _ _ h
    · intro ⟨h1, h2⟩
      have hc : (a.DeallocationTypeMismatch = true ∧ H.AllocType ≠ AllocType ∧
          (H.AllocType ≠ FromMemalign ∨ AllocType ≠ FromMalloc)) := by
        refine ⟨hflag, h1, ?_⟩
        by_contra hcon
        push_neg at hcon
        exact h2 hcon
      rw [if_pos hc]
  · intro hflag h
    have hc : ¬ (a.DeallocationTypeMismatch = true ∧ H.AllocType ≠ AllocType ∧
        (H.AllocType ≠ FromMemalign ∨ AllocType ≠ FromMalloc)) := by
      intro ⟨h0, _⟩
      rw [hflag] at h0
      cases h0
    rw [if_neg hc] at h
    exact hother _ _ h

theorem unpack_inBounds (w : Nat) : (unpack w).InBounds := by
  simp only [UnpackedHeader.InBounds, unpack]
  norm_num
  refine ⟨?_, ?_, ?_, ?_, ?_, ?_⟩ <;> exact Nat.mod_lt _ (by norm_num)

theorem Recycle_mem (cfg : Params) (a a' : Allocator) (c : Nat) (h : Recycle cfg a c = .ok a') :
    a'.ctx = a.ctx ∧ ∀ x, a'.mem x = a.mem x ∨ a'.mem x = 0 := by
  unfold Recycle at h
  split at h
  · cases h
  · split at h
    · cases h
    · have hm : ∀ x, eraseHeader a.mem c x = a.mem x ∨ eraseHeader a.mem c x = 0 := by
        intro x
        simp only [eraseHeader, HeaderMem.store]
        by_cases hx : x = c <;> simp [hx]
      split at h <;> (cases h; exact ⟨rfl, hm⟩)

theorem recycleAll_mem (cfg : Params) : ∀ (l : List (Nat × Nat)) (a a' : Allocator),
    recycleAll cfg l a = .ok a' → a'.ctx = a.ctx ∧ ∀ x, a'.mem x = a.mem x ∨ a'.mem x = 0 := by
  intro l
  induction l with
  | nil => intro a a' h; cases h; exact ⟨rfl, fun _ => Or.inl rfl⟩
  | cons e rest ih =>
    intro a a' h
    simp only [recycleAll] at h
    split at h
    · cases h
    · rename_i a1 h1
      obtain ⟨hc1, hm1⟩ := Recycle_mem _ _ _ _ h1
      obtain ⟨hc2, hm2⟩ := ih _ _ h
      refine ⟨hc2.trans hc1, fun x => ?_⟩
      rcases hm2 x with h2 | h2
      · rcases hm1 x with h3 | h3
        · exact Or.inl (h2.trans h3)
        · exact Or.inr (h2.trans h3)
      · exact Or.inr h2

theorem QuarantinePut_mem (cfg : Params) (a a' : Allocator) (c sz : Nat)
    (h : QuarantinePut cfg a c sz = .ok a') :
    a'.ctx = a.ctx ∧ ∀ x, a'.mem x = a.mem x ∨ a'.mem x = 0 := by
  unfold QuarantinePut at h
  simp only at h
  split at h
  · split at h
    · have := recycleAll_mem cfg _ _ _ h
      exact this
    · cases h; exact ⟨rfl, fun _ => Or.inl rfl⟩
  · cases h; exact ⟨rfl, fun _ => Or.inl rfl⟩

theorem quarantineOrDeallocateChunk_mem (cfg : Params) (a a' : Allocator) (c : Nat)
    (H : UnpackedHeader) (sz : Nat) (h : quarantineOrDeallocateChunk cfg a c H sz = .ok a') :
    a'.ctx = a.ctx ∧ (a'.mem c = 0 ∨ a'.mem c =
      pack { H with State := ChunkQuarantine % 2 ^ 2,
                    Checksum := computeChecksum a.ctx c { H with State := ChunkQuarantine % 2 ^ 2 } }) := by
  unfold quarantineOrDeallocateChunk at h
  simp only at h
  split at h
  · have hm : eraseHeader a.mem c c = 0 := by simp [eraseHeader, HeaderMem.store]
    split at h <;> (cases h; exact ⟨rfl, Or.inl hm⟩)
  · split at h
    · cases h
    · rename_i mem' hcas
      obtain ⟨hc, hm⟩ := QuarantinePut_mem _ _ _ _ _ h
      refine ⟨hc, ?_⟩
      unfold compareExchangeHeader at hcas
      simp only at hcas
      split at hcas
      · cases hcas
      · cases hcas
        rcases hm c with h1 | h1
        · right
          rw [h1]
          simp [HeaderMem.store]
        · exact Or.inl h1

theorem ite_error_ok {ε α : Type} (c : Prop) [Decidable c] (e : ε) (x : Except ε α) (y : α)
    (h : (if c then .error e else x) = .ok y) : x = .ok y := by
  by_cases hc : c
  · rw [if_pos hc] at h; cases h
  · rw [if_neg hc] at h; exact h

theorem deallocate_ok_inv (cfg : Params) (a a' : Allocator) (p ds t : Nat) (hp : p ≠ 0)
    (h : deallocate cfg a p ds t = .ok a') :
    IsAligned p cfg.MinAlignment = true ∧ ∃ H, loadHeader a.ctx a.mem (getScudoChunk cfg p) = .ok H ∧
      H.State = ChunkAllocated ∧
      ∃ sz, quarantineOrDeallocateChunk cfg a (getScudoChunk cfg p) H sz = .ok a' := by
  by_cases hal : IsAligned p cfg.MinAlignment = true
  swap
  · unfold deallocate at h
    rw [if_neg hp] at h
    simp only [hal, Bool.not_false, if_true] at h
    simp at h
  refine ⟨hal, ?_⟩
  cases hl : loadHeader a.ctx a.mem (getScudoChunk cfg p) with
  | error e =>
    unfold deallocate at h
    rw [if_neg hp] at h
    simp only [hal, Bool.not_true, Bool.false_eq_true, if_false, hl] at h
    cases h
  | ok H =>
    by_cases hs : H.State = ChunkAllocated
    swap
    · unfold deallocate at h
      rw [if_neg hp] at h
      simp only [hal, Bool.not_true, Bool.false_eq_true, if_false, hl] at h
      rw [if_pos hs] at h
      cases h
    refine ⟨H, rfl, hs, ?_⟩
    rw [deallocate_unfold cfg a p ds t H hp hal hl hs] at h
    exact ⟨_, ite_error_ok _ _ _ _ (ite_error_ok _ _ _ _ h)⟩

theorem deallocate_dead_header (cfg : Params) (a : Allocator) (p ds t : Nat) (H : UnpackedHeader)
    (hp : p ≠ 0) (hal : IsAligned p cfg.MinAlignment = true) (hH : H.InBounds)
    (hm : a.mem (getScudoChunk cfg p) = 0 ∨ a.mem (getScudoChunk cfg p) =
      pack { H with State := ChunkQuarantine % 2 ^ 2,
                    Checksum := computeChecksum a.ctx (getScudoChunk cfg p)
                      { H with State := ChunkQuarantine % 2 ^ 2 } }) :
    deallocate cfg a p ds t =
        .error (if isValid a.ctx a.mem (getScudoChunk cfg p) then .InvalidChunkStateDeallocate
          else .CorruptedHeader) ∧
      (a.mem (getScudoChunk cfg p) ≠ 0 → isValid a.ctx a.mem (getScudoChunk cfg p) = true) := by
  unfold deallocate
  rw [if_neg hp]
  simp only [hal, Bool.not_true, Bool.false_eq_true, if_false]
  rcases hm with hm | hm
  · refine ⟨?_, fun h => absurd hm h⟩
    simp only [loadHeader, isValid, HeaderMem.load, hm, Nat.zero_mod]
    by_cases hv : (unpack 0).Checksum = computeChecksum a.ctx (getScudoChunk cfg p) (unpack 0)
    · simp only [ne_eq, hv, not_true_eq_false, if_false, decide_True, if_true]
      rw [if_pos (by decide)]
    · simp only [ne_eq, hv, not_false_eq_true, if_true, decide_False, Bool.false_eq_true, if_false]
  · set c := getScudoChunk cfg p with hc
    set Hq : UnpackedHeader := { H with State := ChunkQuarantine % 2 ^ 2 } with hHq
    have hb : ({ Hq with Checksum := computeChecksum a.ctx c Hq } : UnpackedHeader).InBounds := by
      obtain ⟨_, h2, h3, _, h5, h6⟩ := hH
      exact ⟨Nat.mod_lt _ (by norm_num), h2, h3, Nat.mod_lt _ (by norm_num), h5, h6⟩
    have hun : unpack (a.mem.load c) = { Hq with Checksum := computeChecksum a.ctx c Hq } := by
      rw [HeaderMem.load, hm, Nat.mod_eq_of_lt (pack_lt _)]; exact unpack_pack _ hb
    have hsum : computeChecksum a.ctx c { Hq with Checksum := computeChecksum a.ctx c Hq } =
        computeChecksum a.ctx c Hq := rfl
    have hv : isValid a.ctx a.mem c = true := by
      simp only [isValid, hun, hsum, decide_True]
    refine ⟨?_, fun _ => hv⟩
    simp only [loadHeader, hun, hsum, ne_eq, not_true_eq_false, if_false, hv, if_true]
    rw [if_pos (by decide)]

/-- C3 (amended): after a successful `allocate` of a non-null pointer and a first
`deallocate` that returns, a second `deallocate` of the same pointer always
dies before reaching the quarantine or the backend: with the
invalid-chunk-state error when the stored header passes the checksum (the chunk
is still quarantined, or the zeroed header happens to be valid), and with the
corrupted-chunk-header error when the first call erased the header and zero is
not its checksum. A header left non-zero by the first call always passes. -/
theorem deallocate_twice_dies (cfg : Params) (a0 a1 a2 : Allocator)
    (Size Alignment AllocType : Nat) (fz : Bool) (probe : RssProbe) (backendPtr p : Nat)
    (ds1 t1 ds2 t2 : Nat)
    (halloc : allocate cfg a0 Size Alignment AllocType fz probe backendPtr = .ok (p, a1))
    (hp : p ≠ 0) (hfirst : deallocate cfg a1 p ds1 t1 = .ok a2) :
    deallocate cfg a2 p ds2 t2 =
        .error (if isValid a2.ctx a2.mem (getScudoChunk cfg p) then .InvalidChunkStateDeallocate
          else .CorruptedHeader) ∧
      (a2.mem (getScudoChunk cfg p) ≠ 0 → isValid a2.ctx a2.mem (getScudoChunk cfg p) = true) := by
  have _ := halloc
  obtain ⟨hal, H, hH, _, sz, hq⟩ := deallocate_ok_inv cfg a1 a2 p ds1 t1 hp hfirst
  obtain ⟨hctx, hm⟩ := quarantineOrDeallocateChunk_mem cfg a1 a2 _ H sz hq
  have hHb : H.InBounds := by
    rw [(loadHeader_ok _ _ _ _ hH).1]; exact unpack_inBounds _
  rw [← hctx] at hm
  exact deallocate_dead_header cfg a2 p ds2 t2 H hp hal hHb hm

/-! ### Reallocation lemmas -/

theorem OnBadRequest_ok (a a' : Allocator) (p : Nat) (h : OnBadRequest a = .ok (p, a')) :
    p = 0 ∧ a' = a := by
  unfold OnBadRequest at h
  split at h
  · cases h; exact ⟨rfl, rfl⟩
  · cases h

theorem OnOOM_ok (a a' : Allocator) (p : Nat) (h : OnOOM a = .ok (p, a')) : p = 0 ∧ a' = a := by
  unfold OnOOM at h
  split at h
  · cases h; exact ⟨rfl, rfl⟩
  · cases h

theorem isRssLimitExceeded_events (a a' : Allocator) (probe : RssProbe) (b : Bool)
    (h : isRssLimitExceeded a probe = .ok (b, a')) : a'.events = a.events := by
  unfold isRssLimitExceeded at h
  simp only at h
  repeat' split at h
  all_goals first
    | (cases h; rfl)
    | cases h

theorem zeroContents_events (cfg : Params) (a : Allocator) (fz : Bool) (Ptr ClassId : Nat) :
    a.events.length ≤ (zeroContents cfg a fz Ptr ClassId).events.length := by
  unfold zeroContents
  split
  · simp [Allocator.emit]
  · exact le_refl _

theorem allocateFinish_events (cfg : Params) (a a' : Allocator) (Size Alignment T : Nat)
    (fz : Bool) (Ptr ClassId AllocSize p : Nat)
    (h : allocateFinish cfg a Size Alignment T fz Ptr ClassId AllocSize = .ok (p, a')) :
    p = 0 ∨ a.events.length ≤ a'.events.length := by
  unfold allocateFinish at h
  by_cases hP : Ptr = 0
  · rw [if_pos hP] at h
    exact Or.inl (OnOOM_ok _ _ _ h).1
  · rw [if_neg hP] at h
    have h2 := ite_error_ok _ _ _ _ (ite_error_ok _ _ _ _ h)
    simp only [Except.ok.injEq, Prod.mk.injEq] at h2
    right
    rw [← h2.2]
    exact zeroContents_events cfg a fz Ptr ClassId

theorem ite_ok_cases {ε α : Type} (c : Prop) [Decidable c] (x y : Except ε α) (r : α)
    (h : (if c then x else y) = .ok r) : x = .ok r ∨ y = .ok r := by
  by_cases hc : c
  · rw [if_pos hc] at h; exact Or.inl h
  · rw [if_neg hc] at h; exact Or.inr h

theorem rssGate_events (a a' : Allocator) (probe : RssProbe) (b : Bool)
    (h : rssGate a probe = .ok (b, a')) : a'.events = a.events := by
  unfold rssGate at h
  split at h
  · exact isRssLimitExceeded_events _ _ _ _ h
  · cases h; rfl

theorem allocateFromBackend_events (cfg : Params) (a a' : Allocator) (Size Alignment T : Nat)
    (fz : Bool) (Ptr p : Nat)
    (h : allocateFromBackend cfg a Size Alignment T fz Ptr = .ok (p, a')) :
    p = 0 ∨ a.events.length < a'.events.length := by
  unfold allocateFromBackend at h
  rcases ite_ok_cases _ _ _ _ h with h1 | h1 <;>
  · rcases allocateFinish_events _ _ _ _ _ _ _ _ _ _ _ h1 with h2 | h2
    · exact Or.inl h2
    · right
      simp only [Allocator.emit, List.length_append, List.length_singleton] at h2
      omega

theorem allocate_events (cfg : Params) (a a' : Allocator) (Size Alignment T : Nat) (fz : Bool)
    (probe : RssProbe) (bptr p : Nat)
    (h : allocate cfg a Size Alignment T fz probe bptr = .ok (p, a')) :
    p = 0 ∨ a.events.length < a'.events.length := by
  unfold allocate at h
  rcases ite_ok_cases _ _ _ _ h with h1 | h1
  · exact Or.inl (OnBadRequest_ok _ _ _ h1).1
  rcases ite_ok_cases _ _ _ _ h1 with h2 | h2
  · exact Or.inl (OnBadRequest_ok _ _ _ h2).1
  rcases ite_ok_cases _ _ _ _ h2 with h3 | h3
  · exact Or.inl (OnBadRequest_ok _ _ _ h3).1
  cases hr : rssGate a probe with
  | error e => rw [hr] at h3; cases h3
  | ok r =>
    obtain ⟨b, a1⟩ := r
    have he := rssGate_events _ _ _ _ hr
    rw [hr] at h3
    cases b with
    | true => exact Or.inl (OnOOM_ok _ _ _ h3).1
    | false =>
      simp only at h3
      rcases allocateFromBackend_events _ _ _ _ _ _ _ _ _ h3 with h4 | h4
      · exact Or.inl h4
      · right; rw [he] at h4; exact h4

theorem Recycle_events (cfg : Params) (a a' : Allocator) (c : Nat) (h : Recycle cfg a c = .ok a') :
    ∃ rest, a'.events = a.events ++ rest ∧ ∀ e ∈ rest, e.isRelease = true := by
  unfold Recycle at h
  split at h
  · cases h
  · split at h
    · cases h
    · split at h <;>
        (cases h; exact ⟨[_], rfl, by intro e he; simp at he; subst he; rfl⟩)

theorem recycleAll_events (cfg : Params) : ∀ (l : List (Nat × Nat)) (a a' : Allocator),
    recycleAll cfg l a = .ok a' →
    ∃ rest, a'.events = a.events ++ rest ∧ ∀ e ∈ rest, e.isRelease = true := by
  intro l
  induction l with
  | nil => intro a a' h; cases h; exact ⟨[], by simp, by simp⟩
  | cons x rest ih =>
    intro a a' h
    simp only [recycleAll] at h
    split at h
    · cases h
    · rename_i a1 h1
      obtain ⟨r1, he1, hr1⟩ := Recycle_events _ _ _ _ h1
      obtain ⟨r2, he2, hr2⟩ := ih _ _ h
      refine ⟨r1 ++ r2, by rw [he2, he1, List.append_assoc], ?_⟩
      intro e he
      rcases List.mem_append.mp he with h3 | h3
      · exact hr1 e h3
      · exact hr2 e h3

theorem QuarantinePut_events (cfg : Params) (a a' : Allocator) (c sz : Nat)
    (h : QuarantinePut cfg a c sz = .ok a') :
    ∃ rest, a'.events = a.events ++ rest ∧ ∀ e ∈ rest, e.isRelease = true := by
  unfold QuarantinePut at h
  simp only at h
  split at h
  · split at h
    · have := recycleAll_events cfg _ _ _ h
      exact this
    · cases h; exact ⟨[], by simp, by simp⟩
  · cases h; exact ⟨[], by simp, by simp⟩

theorem quarantineOrDeallocateChunk_events (cfg : Params) (a a' : Allocator) (c : Nat)
    (H : UnpackedHeader) (sz : Nat) (h : quarantineOrDeallocateChunk cfg a c H sz = .ok a') :
    ∃ rest, a'.events = a.events ++ rest ∧ ∀ e ∈ rest, e.isRelease = true := by
  unfold quarantineOrDeallocateChunk at h
  simp only at h
  split at h
  · split at h <;>
      (cases h; exact ⟨[_], rfl, by intro e he; simp at he; subst he; rfl⟩)
  · split at h
    · cases h
    · have := QuarantinePut_events cfg _ _ _ _ h
      exact this

theorem reallocate_unfold (cfg : Params) (a : Allocator) (OldPtr NewSize : Nat) (probe : RssProbe)
    (bptr : Nat) (H : UnpackedHeader)
    (halign : IsAligned OldPtr cfg.MinAlignment = true)
    (hload : loadHeader a.ctx a.mem (getScudoChunk cfg OldPtr) = .ok H)
    (hstate : H.State = ChunkAllocated)
    (htype : ¬ (a.DeallocationTypeMismatch = true ∧ H.AllocType ≠ FromMalloc)) :
    reallocate cfg a OldPtr NewSize probe bptr =
      if NewSize ≤ getUsableSize cfg (getScudoChunk cfg OldPtr) H ∧
          wsub (getUsableSize cfg (getScudoChunk cfg OldPtr) H) NewSize < cfg.kMaxSize / 2 then
        match compareExchangeHeader a.ctx a.mem (getScudoChunk cfg OldPtr)
            { H with SizeOrUnusedBytes :=
              (if H.ClassId ≠ 0 then NewSize
                else wsub (getUsableSize cfg (getScudoChunk cfg OldPtr) H) NewSize) % 2 ^ 20 } H with
        | .error e => .error e
        | .ok mem => .ok (OldPtr, { a with mem := mem })
      else
        match allocate cfg a NewSize cfg.MinAlignment FromMalloc false probe bptr with
        | .error e => .error e
        | .ok (NewPtr, a1) =>
          if NewPtr ≠ 0 then
            match quarantineOrDeallocateChunk cfg
                (a1.emit (.memcpy NewPtr OldPtr
                  (min NewSize (getUsableSize cfg (getScudoChunk cfg OldPtr) H))))
                (getScudoChunk cfg OldPtr) H (recordedSize cfg (getScudoChunk cfg OldPtr) H) with
            | .error e => .error e
            | .ok a2 => .ok (NewPtr, a2)
          else .ok (NewPtr, a1) := by
  unfold reallocate
  simp only [halign, Bool.not_true, Bool.false_eq_true, if_false, hload]
  rw [if_neg (not_not.mpr hstate), if_neg htype]
  rfl

theorem pack_unpack (w : Nat) (hw : w < 2 ^ 64) : pack (unpack w) = w := by
  simp only [pack, unpack]
  norm_num at *
  omega

theorem compareExchangeHeader_after_load (ctx : HashCtx) (mem : HeaderMem) (c : Nat)
    (H New : UnpackedHeader) (hload : loadHeader ctx mem c = .ok H) :
    compareExchangeHeader ctx mem c New H =
      .ok (mem.store c (pack { New with Checksum := computeChecksum ctx c New })) := by
  have hH := (loadHeader_ok _ _ _ _ hload).1
  have hp : pack H = mem.load c := by
    rw [hH]; exact pack_unpack _ (Nat.mod_lt _ (by norm_num))
  unfold compareExchangeHeader
  simp only [hp, ne_eq, not_true_eq_false, if_false]

theorem wsub_lt (a b : Nat) : wsub a b < W := Nat.mod_lt _ (by unfold W; positivity)

theorem getUsableSize_lt (cfg : Params) (c : Nat) (H : UnpackedHeader) :
    getUsableSize cfg c H < W := by
  unfold getUsableSize
  simp only
  split
  · unfold W; positivity
  · exact wsub_lt _ _

theorem wsub_of_le (a b : Nat) (hab : b ≤ a) (ha : a < W) : wsub a b = a - b := by
  unfold wsub W at *
  have hb : b % 2 ^ 64 = b := Nat.mod_eq_of_lt (by omega)
  rw [hb]
  omega

theorem wsub_wsub_cancel (u n : Nat) (hn : n ≤ u) (hu : u < W) : wsub u (wsub u n) = n := by
  rw [wsub_of_le u n hn hu, wsub_of_le u (u - n) (by omega) hu]
  omega

/-- C8 (amended): for a non-null, aligned pointer to an Allocated chunk that passes
the allocation-type check of `reallocate` (`DeallocationTypeMismatch` off or
`AllocType = FromMalloc`), under the bounds `performSanityChecks` enforces
(`kMaxSize` fits the 20-bit size field, Primary blocks are smaller than
`kMaxSize`): `reallocate` returns the old pointer with no backend operation
exactly when `NewSize <= UsableSize` and `UsableSize - NewSize < kMaxSize / 2`;
then the stored header is replaced by compare-and-swap with one that differs
only in `SizeOrUnusedBytes` and `Checksum`, loads back, and records `NewSize`. -/
theorem reallocate_in_place_iff (cfg : Params) (a : Allocator) (OldPtr NewSize : Nat)
    (probe : RssProbe) (bptr : Nat) (H : UnpackedHeader)
    (hnull : OldPtr ≠ 0) (halign : IsAligned OldPtr cfg.MinAlignment = true)
    (hload : loadHeader a.ctx a.mem (getScudoChunk cfg OldPtr) = .ok H)
    (hstate : H.State = ChunkAllocated)
    (htype : ¬ (a.DeallocationTypeMismatch = true ∧ H.AllocType ≠ FromMalloc))
    (hk : cfg.kMaxSize ≤ 2 ^ 20)
    (hprim : H.ClassId ≠ 0 → getUsableSize cfg (getScudoChunk cfg OldPtr) H < cfg.kMaxSize) :
    ((∃ a', reallocate cfg a OldPtr NewSize probe bptr = .ok (OldPtr, a') ∧ a'.events = a.events) ↔
      (NewSize ≤ getUsableSize cfg (getScudoChunk cfg OldPtr) H ∧
        wsub (getUsableSize cfg (getScudoChunk cfg OldPtr) H) NewSize < cfg.kMaxSize / 2)) ∧
    ((NewSize ≤ getUsableSize cfg (getScudoChunk cfg OldPtr) H ∧
        wsub (getUsableSize cfg (getScudoChunk cfg OldPtr) H) NewSize < cfg.kMaxSize / 2) →
      ∃ s cs, a.mem.load (getScudoChunk cfg OldPtr) = pack H ∧
        reallocate cfg a OldPtr NewSize probe bptr =
          .ok (OldPtr, { a with mem := (a.mem.store (getScudoChunk cfg OldPtr)
            (pack { H with SizeOrUnusedBytes := s, Checksum := cs })) }) ∧
        loadHeader a.ctx (a.mem.store (getScudoChunk cfg OldPtr)
            (pack { H with SizeOrUnusedBytes := s, Checksum := cs })) (getScudoChunk cfg OldPtr) =
          .ok { H with SizeOrUnusedBytes := s, Checksum := cs } ∧
        recordedSize cfg (getScudoChunk cfg OldPtr) { H with SizeOrUnusedBytes := s, Checksum := cs } =
          NewSize) := by
  set c := getScudoChunk cfg OldPtr with hc
  set U := getUsableSize cfg c H with hU
  have hUlt : U < W := getUsableSize_lt cfg c H
  have hHb : H.InBounds := by
    rw [(loadHeader_ok _ _ _ _ hload).1]; exact unpack_inBounds _
  have hpH : a.mem.load c = pack H := by
    rw [(loadHeader_ok _ _ _ _ hload).1]
    exact (pack_unpack _ (Nat.mod_lt _ (by norm_num))).symm
  have hfit : (NewSize ≤ U ∧ wsub U NewSize < cfg.kMaxSize / 2) →
      ∃ s cs, a.mem.load c = pack H ∧
        reallocate cfg a OldPtr NewSize probe bptr =
          .ok (OldPtr, { a with mem := (a.mem.store c
            (pack { H with SizeOrUnusedBytes := s, Checksum := cs })) }) ∧
        loadHeader a.ctx (a.mem.store c (pack { H with SizeOrUnusedBytes := s, Checksum := cs })) c =
          .ok { H with SizeOrUnusedBytes := s, Checksum := cs } ∧
        recordedSize cfg c { H with SizeOrUnusedBytes := s, Checksum := cs } = NewSize := by
    intro hf
    refine ⟨(if H.ClassId ≠ 0 then NewSize else wsub U NewSize) % 2 ^ 20,
      computeChecksum a.ctx c { H with SizeOrUnusedBytes :=
        (if H.ClassId ≠ 0 then NewSize else wsub U NewSize) % 2 ^ 20 }, hpH, ?_, ?_, ?_⟩
    · rw [reallocate_unfold cfg a OldPtr NewSize probe bptr H halign hload hstate htype,
        if_pos hf, compareExchangeHeader_after_load _ _ _ _ _ hload]
    · obtain ⟨_, h2, _, h4, h5, h6⟩ := hHb
      exact storeHeader_loadHeader_roundtrip a.ctx a.mem c
        { H with SizeOrUnusedBytes := (if H.ClassId ≠ 0 then NewSize else wsub U NewSize) % 2 ^ 20 }
        h2 (Nat.mod_lt _ (by norm_num)) h4 h5 h6
    · unfold recordedSize
      by_cases hcl : H.ClassId ≠ 0
      · simp only [hcl, ne_eq, not_false_eq_true, if_true]
        have := hprim hcl
        apply Nat.mod_eq_of_lt
        omega
      · simp only [hcl, ne_eq, if_false]
        have hU' : getUsableSize cfg c
            { H with SizeOrUnusedBytes := wsub U NewSize % 2 ^ 20,
                     Checksum := computeChecksum a.ctx c
                       { H with SizeOrUnusedBytes := wsub U NewSize % 2 ^ 20 } } = U := rfl
        rw [hU']
        have hsm : wsub U NewSize % 2 ^ 20 = wsub U NewSize := by
          apply Nat.mod_eq_of_lt
          omega
        rw [hsm]
        exact wsub_wsub_cancel U NewSize hf.1 hUlt
  refine ⟨⟨?_, ?_⟩, hfit⟩
  · rintro ⟨a', hr, hev⟩
    by_contra hnf
    rw [reallocate_unfold cfg a OldPtr NewSize probe bptr H halign hload hstate htype,
      if_neg hnf] at hr
    cases hal : allocate cfg a NewSize cfg.MinAlignment FromMalloc false probe bptr with
    | error e => rw [hal] at hr; cases hr
    | ok r =>
      obtain ⟨NewPtr, a1⟩ := r
      rw [hal] at hr
      simp only at hr
      by_cases hnp : NewPtr ≠ 0
      · rw [if_pos hnp] at hr
        rcases allocate_events _ _ _ _ _ _ _ _ _ _ hal with h0 | hlen
        · exact hnp h0
        · cases hq : quarantineOrDeallocateChunk cfg
              (a1.emit (.memcpy NewPtr OldPtr (min NewSize U))) c H (recordedSize cfg c H) with
          | error e => rw [hq] at hr; cases hr
          | ok a2 =>
            rw [hq] at hr
            simp only [Except.ok.injEq, Prod.mk.injEq] at hr
            obtain ⟨rest, he, _⟩ := quarantineOrDeallocateChunk_events _ _ _ _ _ _ hq
            rw [hr.2, hev] at he
            have := congrArg List.length he
            simp only [Allocator.emit, List.length_append, List.length_singleton] at this
            omega
      · rw [if_neg hnp] at hr
        simp only [Except.ok.injEq, Prod.mk.injEq] at hr
        exact hnull (hr.1 ▸ (not_not.mp hnp))
  · intro hf
    obtain ⟨s, cs, _, hr, _⟩ := hfit hf
    exact ⟨_, hr, rfl⟩

theorem quarantineOrDeallocateChunk_bypass (cfg : Params) (a a' : Allocator) (c : Nat)
    (H : UnpackedHeader) (sz : Nat)
    (hb : a.AllocatorQuarantine.MaxCacheSize = 0 ∨ sz > a.QuarantineChunksUpToSize)
    (h : quarantineOrDeallocateChunk cfg a c H sz = .ok a') :
    a'.mem c = 0 ∧ a'.events = a.events ++
      [if H.ClassId ≠ 0 then Event.deallocatePrimary (getBackendPtr cfg c H) H.ClassId
        else Event.deallocateSecondary (getBackendPtr cfg c H)] := by
  unfold quarantineOrDeallocateChunk at h
  have hb' : (decide (a.AllocatorQuarantine.MaxCacheSize = 0) ||
      decide (sz > a.QuarantineChunksUpToSize)) = true := by
    rcases hb with hb | hb <;> simp [hb]
  simp only [hb', if_true] at h
  have hm : eraseHeader a.mem c c = 0 := by simp [eraseHeader, HeaderMem.store]
  by_cases hcl : H.ClassId ≠ 0
  · rw [if_pos hcl] at h
    cases h
    exact ⟨hm, by simp [Allocator.emit, hcl]⟩
  · rw [if_neg hcl] at h
    cases h
    exact ⟨hm, by simp [Allocator.emit, hcl]⟩

/-- C9 (amended): when `reallocate` cannot resize in place, the fresh allocation
returns a non-null pointer and `reallocate` returns, the result is the new
pointer, exactly one copy is made, of `min(NewSize, UsableSize)` bytes (the
usable size of the old chunk, not its requested size), and after it the old
chunk goes through `quarantineOrDeallocateChunk` with its recorded size: only
releases follow the copy in the trace; when the quarantine is bypassed the old
header is zeroed and the old block released, otherwise the old header is
Quarantined (or already zeroed by an eviction). -/
theorem reallocate_copy_then_quarantine (cfg : Params) (a a1 a2 : Allocator)
    (OldPtr NewSize : Nat) (probe : RssProbe) (bptr : Nat) (H : UnpackedHeader) (NewPtr q : Nat)
    (halign : IsAligned OldPtr cfg.MinAlignment = true)
    (hload : loadHeader a.ctx a.mem (getScudoChunk cfg OldPtr) = .ok H)
    (hstate : H.State = ChunkAllocated)
    (htype : ¬ (a.DeallocationTypeMismatch = true ∧ H.AllocType ≠ FromMalloc))
    (hnofit : ¬ (NewSize ≤ getUsableSize cfg (getScudoChunk cfg OldPtr) H ∧
      wsub (getUsableSize cfg (getScudoChunk cfg OldPtr) H) NewSize < cfg.kMaxSize / 2))
    (halloc : allocate cfg a NewSize cfg.MinAlignment FromMalloc false probe bptr = .ok (NewPtr, a1))
    (hnn : NewPtr ≠ 0)
    (hret : reallocate cfg a OldPtr NewSize probe bptr = .ok (q, a2)) :
    q = NewPtr ∧
    quarantineOrDeallocateChunk cfg
      (a1.emit (.memcpy NewPtr OldPtr (min NewSize (getUsableSize cfg (getScudoChunk cfg OldPtr) H))))
      (getScudoChunk cfg OldPtr) H (recordedSize cfg (getScudoChunk cfg OldPtr) H) = .ok a2 ∧
    (∃ rest, a2.events = a1.events ++
        Event.memcpy NewPtr OldPtr (min NewSize (getUsableSize cfg (getScudoChunk cfg OldPtr) H)) :: rest ∧
      ∀ e ∈ rest, e.isRelease = true) ∧
    (if a1.AllocatorQuarantine.MaxCacheSize = 0 ∨
        recordedSize cfg (getScudoChunk cfg OldPtr) H > a1.QuarantineChunksUpToSize then
      a2.mem (getScudoChunk cfg OldPtr) = 0 ∧
      a2.events = a1.events ++
        [Event.memcpy NewPtr OldPtr (min NewSize (getUsableSize cfg (getScudoChunk cfg OldPtr) H)),
         if H.ClassId ≠ 0 then
           Event.deallocatePrimary (getBackendPtr cfg (getScudoChunk cfg OldPtr) H) H.ClassId
         else Event.deallocateSecondary (getBackendPtr cfg (getScudoChunk cfg OldPtr) H)]
    else
      a2.mem (getScudoChunk cfg OldPtr) = 0 ∨
      a2.mem (getScudoChunk cfg OldPtr) =
        pack { H with State := ChunkQuarantine % 2 ^ 2,
                      Checksum := computeChecksum a1.ctx (getScudoChunk cfg OldPtr)
                        { H with State := ChunkQuarantine % 2 ^ 2 } }) := by
  set c := getScudoChunk cfg OldPtr with hc
  set U := getUsableSize cfg c H with hU
  rw [reallocate_unfold cfg a OldPtr NewSize probe bptr H halign hload hstate htype,
    if_neg hnofit, halloc] at hret
  simp only at hret
  rw [if_pos hnn] at hret
  cases hq : quarantineOrDeallocateChunk cfg (a1.emit (.memcpy NewPtr OldPtr (min NewSize U))) c H
      (recordedSize cfg c H) with
  | error e => rw [hq] at hret; cases hret
  | ok a2' =>
    rw [hq] at hret
    simp only [Except.ok.injEq, Prod.mk.injEq] at hret
    obtain ⟨hq1, hq2⟩ := hret
    subst hq2
    refine ⟨hq1.symm, rfl, ?_, ?_⟩
    · obtain ⟨rest, he, hr⟩ := quarantineOrDeallocateChunk_events _ _ _ _ _ _ hq
      refine ⟨rest, ?_, hr⟩
      rw [he]
      simp [Allocator.emit]
    · split
      · rename_i hb
        have hb' : (a1.emit (.memcpy NewPtr OldPtr (min NewSize U))).AllocatorQuarantine.MaxCacheSize = 0 ∨
            recordedSize cfg c H >
              (a1.emit (.memcpy NewPtr OldPtr (min NewSize U))).QuarantineChunksUpToSize := hb
        obtain ⟨hm, he⟩ := quarantineOrDeallocateChunk_bypass cfg
          (a1.emit (.memcpy NewPtr OldPtr (min NewSize U))) _ c H _ hb' hq
        refine ⟨hm, ?_⟩
        rw [he]
        simp [Allocator.emit]
      · exact (quarantineOrDeallocateChunk_mem cfg _ _ c H _ hq).2

/-! ### Concrete runs -/

set_option maxRecDepth 100000 in
/-- C3, counterexample to the claim as stated: with the quarantine bypassed (cap 0),
allocate, free, free again: the second `deallocate` dies with the
corrupted-chunk-header error, not with the invalid-chunk-state error. -/
theorem double_free_bypass_counterexample :
    ∃ p a1 a2,
      allocate exampleParams (exampleAllocator 0 0) 100 16 FromMalloc false exampleProbe 0x10000 =
        .ok (p, a1) ∧ p ≠ 0 ∧
      deallocate exampleParams a1 p 0 FromMalloc = .ok a2 ∧
      deallocate exampleParams a2 p 0 FromMalloc = .error .CorruptedHeader :=
  ⟨_, _, _, rfl, by decide, rfl, rfl⟩

set_option maxRecDepth 100000 in
/-- Witness for C3 (amended): a quarantined run, allocate, free, free again. -/
theorem deallocate_twice_dies_witness :
    ∃ a1 a2,
      allocate exampleParams (exampleAllocator 1024 4096) 100 16 FromMalloc false exampleProbe
        0x10000 = .ok (0x10010, a1) ∧
      deallocate exampleParams a1 0x10010 0 FromMalloc = .ok a2 ∧
      (deallocate exampleParams a2 0x10010 0 FromMalloc =
        .error (if isValid a2.ctx a2.mem (getScudoChunk exampleParams 0x10010) then
          .InvalidChunkStateDeallocate else .CorruptedHeader) ∧
      (a2.mem (getScudoChunk exampleParams 0x10010) ≠ 0 →
        isValid a2.ctx a2.mem (getScudoChunk exampleParams 0x10010) = true)) :=
  ⟨_, _, rfl, rfl,
    deallocate_twice_dies exampleParams (exampleAllocator 1024 4096) _ _ 100 16 FromMalloc false
      exampleProbe 0x10000 0x10010 0 FromMalloc 0 FromMalloc rfl (by decide) rfl⟩

set_option maxRecDepth 100000 in
/-- Witness for C10: a chunk allocated by `operator new` is freed as `malloc` memory
with `DeallocationTypeMismatch` on. -/
theorem deallocate_type_mismatch_iff_witness :
    deallocate exampleParams (exampleHeap 1024 4096 FromNew) 0x10010 0 FromMalloc =
      .error .AllocTypeMismatchDeallocate :=
  ((deallocate_type_mismatch_iff exampleParams (exampleHeap 1024 4096 FromNew) 0x10010 0 FromMalloc
    (unpack ((exampleHeap 1024 4096 FromNew).mem.load 0x10000)) (by decide) (by decide) rfl rfl).1
      rfl).2 ⟨by decide, by decide⟩

set_option maxRecDepth 100000 in
/-- C8, counterexample to the claim as stated: an Allocated `memalign` chunk whose
usable size (112) holds the new size 50; with `DeallocationTypeMismatch` on,
`reallocate` dies instead of returning the same pointer. -/
theorem reallocate_memalign_counterexample :
    ∃ H, loadHeader (exampleHeap 1024 4096 FromMemalign).ctx (exampleHeap 1024 4096 FromMemalign).mem
        (getScudoChunk exampleParams 0x10010) = .ok H ∧ H.State = ChunkAllocated ∧
      50 ≤ getUsableSize exampleParams (getScudoChunk exampleParams 0x10010) H ∧
      wsub (getUsableSize exampleParams (getScudoChunk exampleParams 0x10010) H) 50 <
        exampleParams.kMaxSize / 2 ∧
      reallocate exampleParams (exampleHeap 1024 4096 FromMemalign) 0x10010 50 exampleProbe 0x20000 =
        .error .AllocTypeMismatchReallocate :=
  ⟨_, rfl, rfl, by decide, by decide, rfl⟩

set_option maxRecDepth 100000 in
/-- Witness for C8 (amended): shrinking the 100-byte `malloc` chunk to 50 bytes in place. -/
theorem reallocate_in_place_iff_witness :
    ∃ a', reallocate exampleParams (exampleHeap 1024 4096 FromMalloc) 0x10010 50 exampleProbe 0x20000 =
      .ok (0x10010, a') ∧ a'.events = (exampleHeap 1024 4096 FromMalloc).events :=
  (reallocate_in_place_iff exampleParams (exampleHeap 1024 4096 FromMalloc) 0x10010 50 exampleProbe
    0x20000 (unpack ((exampleHeap 1024 4096 FromMalloc).mem.load 0x10000)) (by decide) (by decide)
    rfl rfl (by decide) (by decide) (fun _ => by decide)).1.2 ⟨by decide, by decide⟩

set_option maxRecDepth 100000 in
/-- C9, counterexample to the claim as stated: growing a chunk of requested size 100
(usable size 112) to 4000 bytes copies 112 bytes, not `min(100, 4000) = 100`. -/
theorem reallocate_copy_size_counterexample :
    ∃ a2, reallocate exampleParams (exampleHeap 1024 4096 FromMalloc) 0x10010 4000 exampleProbe
        0x20000 = .ok (0x20010, a2) ∧
      recordedSize exampleParams 0x10000 (unpack ((exampleHeap 1024 4096 FromMalloc).mem.load 0x10000)) =
        100 ∧
      a2.events = [.allocatePrimary 8 0x10000, .allocatePrimary 251 0x20000,
        .memcpy 0x20010 0x10010 112] :=
  ⟨_, rfl, rfl, rfl⟩

set_option maxRecDepth 100000 in
/-- Witness for C9 (amended): the same run, through the theorem. -/
theorem reallocate_copy_then_quarantine_witness :
    ∃ a1 a2,
      allocate exampleParams (exampleHeap 1024 4096 FromMalloc) 4000 exampleParams.MinAlignment
        FromMalloc false exampleProbe 0x20000 = .ok (0x20010, a1) ∧
      reallocate exampleParams (exampleHeap 1024 4096 FromMalloc) 0x10010 4000 exampleProbe 0x20000 =
        .ok (0x20010, a2) ∧
      ∃ rest, a2.events = a1.events ++ Event.memcpy 0x20010 0x10010 (min 4000
          (getUsableSize exampleParams (getScudoChunk exampleParams 0x10010)
            (unpack ((exampleHeap 1024 4096 FromMalloc).mem.load 0x10000)))) :: rest ∧
        ∀ e ∈ rest, e.isRelease = true :=
  ⟨_, _, rfl, rfl,
    (reallocate_copy_then_quarantine exampleParams (exampleHeap 1024 4096 FromMalloc) _ _ 0x10010 4000
      exampleProbe 0x20000 (unpack ((exampleHeap 1024 4096 FromMalloc).mem.load 0x10000)) 0x20010
      0x20010 (by decide) rfl rfl (by decide) (by decide) rfl (by decide) rfl).2.2.1⟩

/-! ### Size checks, RSS limit, recycling and the backend pointer -/

theorem pow_two_of_and_pred : ∀ n : Nat, 0 < n → n &&& (n - 1) = 0 → ∃ k, n = 2 ^ k := by
  intro n
  induction n using Nat.strong_induction_on with
  | _ n ih =>
    intro hn h
    have hd : n / 2 &&& (n - 1) / 2 = 0 := by
      rw [← Nat.and_div_two, h]
    rcases Nat.mod_two_eq_zero_or_one n with he | ho
    · have hn2 : 0 < n / 2 := by omega
      have e : (n - 1) / 2 = n / 2 - 1 := by omega
      rw [e] at hd
      obtain ⟨k, hk⟩ := ih (n / 2) (by omega) hn2 hd
      refine ⟨k + 1, ?_⟩
      rw [pow_succ, ← hk]
      omega
    · have e : (n - 1) / 2 = n / 2 := by omega
      rw [e, Nat.and_self] at hd
      exact ⟨0, by omega⟩

theorem IsPowerOfTwo_pow (x : Nat) (h : IsPowerOfTwo x = true) (hx : 0 < x) : ∃ k, x = 2 ^ k := by
  unfold IsPowerOfTwo at h
  exact pow_two_of_and_pred x hx (of_decide_eq_true h)

theorem IsAligned_pow (a k : Nat) : IsAligned a (2 ^ k) = true ↔ a % 2 ^ k = 0 := by
  unfold IsAligned
  rw [Nat.and_pow_two_sub_one_eq_mod]
  simp

theorem RoundUpTo_pow (size k : Nat) :
    RoundUpTo size (2 ^ k) = wadd size (2 ^ k - 1) - wadd size (2 ^ k - 1) % 2 ^ k := by
  unfold RoundUpTo
  simp only
  rw [Nat.and_pow_two_sub_one_eq_mod]

theorem RoundUpTo_mod (size k : Nat) : RoundUpTo size (2 ^ k) % 2 ^ k = 0 := by
  rw [RoundUpTo_pow]
  exact Nat.sub_mod_eq_zero_of_mod_eq (Nat.mod_mod _ _).symm

theorem RoundUpTo_bounds (size k : Nat) (h : size + 2 ^ k ≤ 2 ^ 64) :
    size ≤ RoundUpTo size (2 ^ k) ∧ RoundUpTo size (2 ^ k) < size + 2 ^ k := by
  rw [RoundUpTo_pow]
  have hp : 0 < 2 ^ k := by positivity
  have hw : wadd size (2 ^ k - 1) = size + (2 ^ k - 1) := by
    unfold wadd W
    exact Nat.mod_eq_of_lt (by omega)
  rw [hw]
  have hm : (size + (2 ^ k - 1)) % 2 ^ k < 2 ^ k := Nat.mod_lt _ hp
  have hle : (size + (2 ^ k - 1)) % 2 ^ k ≤ size + (2 ^ k - 1) := Nat.mod_le _ _
  omega

theorem zeroContents_mem (cfg : Params) (a : Allocator) (fz : Bool) (Ptr ClassId : Nat) :
    (zeroContents cfg a fz Ptr ClassId).mem = a.mem ∧
    (zeroContents cfg a fz Ptr ClassId).ctx = a.ctx := by
  unfold zeroContents
  split <;> exact ⟨rfl, rfl⟩

theorem allocateFinish_ok (cfg : Params) (a a1 : Allocator) (Size Alignment T : Nat) (fz : Bool)
    (Ptr ClassId AllocSize p : Nat)
    (h : allocateFinish cfg a Size Alignment T fz Ptr ClassId AllocSize = .ok (p, a1))
    (hp : p ≠ 0) :
    Ptr ≠ 0 ∧
    (IsAligned (wadd Ptr cfg.AlignedChunkHeaderSize) Alignment = true ∨
      (ClassId ≠ 0 ∧ IsPowerOfTwo Alignment = true)) ∧
    wadd (userBegOf cfg Ptr Alignment) Size ≤ wadd Ptr AllocSize ∧
    p = userBegOf cfg Ptr Alignment ∧ a1.ctx = a.ctx ∧
    a1.mem = storeHeader a.ctx a.mem (getScudoChunk cfg p)
      (headerOf cfg Size Alignment T Ptr ClassId) := by
  unfold allocateFinish at h
  by_cases hP : Ptr = 0
  · rw [if_pos hP] at h
    exact absurd (OnOOM_ok _ _ _ h).1 hp
  rw [if_neg hP] at h
  by_cases hg : (!IsAligned (wadd Ptr cfg.AlignedChunkHeaderSize) Alignment &&
      (decide (ClassId = 0) || !IsPowerOfTwo Alignment)) = true
  · rw [if_pos hg] at h
    cases h
  rw [if_neg hg] at h
  by_cases hc : ¬ (wadd (userBegOf cfg Ptr Alignment) Size ≤ wadd Ptr AllocSize)
  · rw [if_pos hc] at h
    cases h
  rw [if_neg hc] at h
  simp only [Except.ok.injEq, Prod.mk.injEq] at h
  obtain ⟨h1, h2⟩ := h
  obtain ⟨z1, z2⟩ := zeroContents_mem cfg a fz Ptr ClassId
  refine ⟨hP, ?_, not_not.mp hc, h1.symm, ?_, ?_⟩
  · cases hal : IsAligned (wadd Ptr cfg.AlignedChunkHeaderSize) Alignment with
    | true => exact Or.inl rfl
    | false =>
      right
      rw [hal] at hg
      simp only [Bool.not_false, Bool.true_and, Bool.or_eq_true, decide_eq_true_eq,
        Bool.not_eq_true', not_or, Bool.not_eq_false] at hg
      exact hg
  · rw [← h2]
    exact z2
  · rw [← h2, ← h1]
    simp only [z1]

theorem isRssLimitExceeded_ctx (a a1 : Allocator) (probe : RssProbe) (b : Bool)
    (h : isRssLimitExceeded a probe = .ok (b, a1)) : a1.ctx = a.ctx := by
  unfold isRssLimitExceeded at h
  simp only at h
  repeat' split at h
  all_goals first
    | (cases h; rfl)
    | cases h

theorem isRssLimitExceeded_mem (a a1 : Allocator) (probe : RssProbe) (b : Bool)
    (h : isRssLimitExceeded a probe = .ok (b, a1)) : a1.mem = a.mem := by
  unfold isRssLimitExceeded at h
  simp only at h
  repeat' split at h
  all_goals first
    | (cases h; rfl)
    | cases h

theorem rssGate_keeps (a a1 : Allocator) (probe : RssProbe) (b : Bool)
    (h : rssGate a probe = .ok (b, a1)) : a1.ctx = a.ctx ∧ a1.mem = a.mem := by
  unfold rssGate at h
  by_cases hc : a.CheckRssLimit = true
  · rw [if_pos hc] at h
    exact ⟨isRssLimitExceeded_ctx _ _ _ _ h, isRssLimitExceeded_mem _ _ _ _ h⟩
  · rw [if_neg hc] at h
    cases h
    exact ⟨rfl, rfl⟩

/-- What a successful `allocate` did: the request passed the size checks, the RSS
gate was open, the backend answered with a non-null pointer, both `CHECK`s
held, and the header was stored at the chunk of the returned pointer. -/
theorem allocate_ok_inv (cfg : Params) (a a1 : Allocator) (Size Alignment T : Nat) (fz : Bool)
    (probe : RssProbe) (bp p : Nat)
    (h : allocate cfg a Size Alignment T fz probe bp = .ok (p, a1)) (hp : p ≠ 0) :
    ¬ Alignment > cfg.MaxAlignment ∧ ¬ Size ≥ MaxAllowedMallocSize ∧
    ¬ alignedSizeOf cfg (if Size = 0 then 1 else Size)
        (if Alignment < cfg.MinAlignment then cfg.MinAlignment else Alignment) ≥
        MaxAllowedMallocSize ∧
    ∃ ClassId AllocSize,
      ((CanAllocate cfg (alignedSizeOf cfg (if Size = 0 then 1 else Size)
          (if Alignment < cfg.MinAlignment then cfg.MinAlignment else Alignment))
          cfg.MinAlignment = true ∧
        ClassId = cfg.ClassID (alignedSizeOf cfg (if Size = 0 then 1 else Size)
          (if Alignment < cfg.MinAlignment then cfg.MinAlignment else Alignment)) % 2 ^ 8 ∧
        AllocSize = alignedSizeOf cfg (if Size = 0 then 1 else Size)
          (if Alignment < cfg.MinAlignment then cfg.MinAlignment else Alignment)) ∨
       (CanAllocate cfg (alignedSizeOf cfg (if Size = 0 then 1 else Size)
          (if Alignment < cfg.MinAlignment then cfg.MinAlignment else Alignment))
          cfg.MinAlignment = false ∧
        ClassId = 0 ∧ AllocSize = neededSizeOf cfg (if Size = 0 then 1 else Size))) ∧
      bp ≠ 0 ∧
      (IsAligned (wadd bp cfg.AlignedChunkHeaderSize)
          (if Alignment < cfg.MinAlignment then cfg.MinAlignment else Alignment) = true ∨
        (ClassId ≠ 0 ∧
          IsPowerOfTwo (if Alignment < cfg.MinAlignment then cfg.MinAlignment else Alignment) =
            true)) ∧
      wadd (userBegOf cfg bp (if Alignment < cfg.MinAlignment then cfg.MinAlignment else Alignment))
          (if Size = 0 then 1 else Size) ≤ wadd bp AllocSize ∧
      p = userBegOf cfg bp (if Alignment < cfg.MinAlignment then cfg.MinAlignment else Alignment) ∧
      a1.ctx = a.ctx ∧
      a1.mem = storeHeader a.ctx a.mem (getScudoChunk cfg p)
        (headerOf cfg (if Size = 0 then 1 else Size)
          (if Alignment < cfg.MinAlignment then cfg.MinAlignment else Alignment) T bp ClassId) := by
  unfold allocate at h
  by_cases h1 : Alignment > cfg.MaxAlignment
  · rw [if_pos h1] at h
    exact absurd (OnBadRequest_ok _ _ _ h).1 hp
  rw [if_neg h1] at h
  by_cases h2 : Size ≥ MaxAllowedMallocSize
  · rw [if_pos h2] at h
    exact absurd (OnBadRequest_ok _ _ _ h).1 hp
  rw [if_neg h2] at h
  by_cases h3 : alignedSizeOf cfg (if Size = 0 then 1 else Size)
      (if Alignment < cfg.MinAlignment then cfg.MinAlignment else Alignment) ≥ MaxAllowedMallocSize
  · rw [if_pos h3] at h
    exact absurd (OnBadRequest_ok _ _ _ h).1 hp
  rw [if_neg h3] at h
  refine ⟨h1, h2, h3, ?_⟩
  cases hr : rssGate a probe with
  | error e => rw [hr] at h; cases h
  | ok r =>
    obtain ⟨b, ag⟩ := r
    obtain ⟨k1, k2⟩ := rssGate_keeps _ _ _ _ hr
    rw [hr] at h
    cases b with
    | true => exact absurd (OnOOM_ok _ _ _ h).1 hp
    | false =>
      simp only at h
      unfold allocateFromBackend at h
      by_cases hc : CanAllocate cfg (alignedSizeOf cfg (if Size = 0 then 1 else Size)
          (if Alignment < cfg.MinAlignment then cfg.MinAlignment else Alignment))
          cfg.MinAlignment = true
      · rw [if_pos hc] at h
        obtain ⟨f1, f2, f3, f4, f5, f6⟩ := allocateFinish_ok _ _ _ _ _ _ _ _ _ _ _ h hp
        refine ⟨_, _, Or.inl ⟨hc, rfl, rfl⟩, f1, f2, f3, f4, ?_, ?_⟩
        · rw [f5]; exact k1
        · rw [f6]
          show storeHeader ag.ctx ag.mem _ _ = _
          rw [k1, k2]
      · rw [if_neg hc] at h
        obtain ⟨f1, f2, f3, f4, f5, f6⟩ := allocateFinish_ok _ _ _ _ _ _ _ _ _ _ _ h hp
        refine ⟨_, _, Or.inr ⟨by simpa using hc, rfl, rfl⟩, f1, f2, f3, f4, ?_, ?_⟩
        · rw [f5]; exact k1
        · rw [f6]
          show storeHeader ag.ctx ag.mem _ _ = _
          rw [k1, k2]

theorem loadHeader_store_pack (ctx : HashCtx) (mem : HeaderMem) (c : Nat) (H : UnpackedHeader)
    (hb : H.InBounds) :
    loadHeader ctx (mem.store c (pack { H with Checksum := computeChecksum ctx c H })) c =
      .ok { H with Checksum := computeChecksum ctx c H } := by
  have hc : computeChecksum ctx c H < 2 ^ 16 := Nat.mod_lt _ (by norm_num)
  obtain ⟨_, h2, h3, h4, h5, h6⟩ := hb
  have hb' : ({ H with Checksum := computeChecksum ctx c H } : UnpackedHeader).InBounds :=
    ⟨hc, h2, h3, h4, h5, h6⟩
  simp only [loadHeader, HeaderMem.store, HeaderMem.load, if_true]
  rw [Nat.mod_eq_of_lt (pack_lt _), unpack_pack _ hb']
  have : computeChecksum ctx c { H with Checksum := computeChecksum ctx c H } =
      computeChecksum ctx c H := rfl
  simp [this]

theorem performSanityChecks_kMaxSize (cfg : Params) (k : Nat) (hs : cfg.Sane)
    (h : performSanityChecks cfg k = .ok ()) : cfg.kMaxSize ≤ 2 ^ 20 := by
  have hk := hs.2.2.2.2.2
  unfold performSanityChecks at h
  simp only at h
  by_cases h1 : (wsub (wshl 1 (MostSignificantSetBitIndex (wsub cfg.kMaxSize cfg.MinAlignment)))
      cfg.AlignedChunkHeaderSize >>> cfg.MinAlignmentLog) % 2 ^ 16 ≠
      wsub (wshl 1 (MostSignificantSetBitIndex (wsub cfg.kMaxSize cfg.MinAlignment)))
      cfg.AlignedChunkHeaderSize >>> cfg.MinAlignmentLog
  · rw [if_pos h1] at h; cases h
  rw [if_neg h1] at h
  by_cases h2 : wsub cfg.kMaxSize 1 % 2 ^ 20 ≠ wsub cfg.kMaxSize 1
  · rw [if_pos h2] at h; cases h
  have h3 : wsub cfg.kMaxSize 1 < 2 ^ 20 := by
    have := not_not.mp h2
    rw [← this]
    exact Nat.mod_lt _ (by norm_num)
  unfold wsub W at h3
  omega

theorem Sane_pow (cfg : Params) (hs : cfg.Sane) :
    2 ^ 4 ≤ cfg.MinAlignment ∧ cfg.MinAlignment ≤ cfg.MaxAlignment ∧ cfg.MaxAlignment ≤ 2 ^ 32 := by
  obtain ⟨h1, h2, h3, _⟩ := hs
  unfold Params.MinAlignment Params.MaxAlignment
  exact ⟨Nat.pow_le_pow_right (by norm_num) h1, Nat.pow_le_pow_right (by norm_num) h2,
    Nat.pow_le_pow_right (by norm_num) h3⟩

theorem alignedSizeOf_gt (cfg : Params) (hs : cfg.Sane) (S A : Nat) (hS : S < 2 ^ 40)
    (hA : A ≤ cfg.MaxAlignment) : S < alignedSizeOf cfg S A := by
  obtain ⟨p1, p2, p3⟩ := Sane_pow cfg hs
  have hh := hs.2.2.2.1
  have hh2 := hs.2.2.2.2.1
  have hM : cfg.MinAlignment = 2 ^ cfg.MinAlignmentLog := rfl
  have hb := RoundUpTo_bounds S cfg.MinAlignmentLog (by rw [← hM]; omega)
  rw [← hM] at hb
  unfold alignedSizeOf neededSizeOf wadd wsub W
  by_cases hc : A > cfg.MinAlignment
  · rw [if_pos hc]
    omega
  · rw [if_neg hc]
    omega

theorem headerOf_inBounds (cfg : Params) (S A T Ptr ClassId : Nat) :
    (headerOf cfg S A T Ptr ClassId).InBounds := by
  unfold headerOf UnpackedHeader.InBounds UnpackedHeader.zero
  simp only
  have m16 : ∀ x, x % 2 ^ 16 < 2 ^ 16 := fun x => Nat.mod_lt _ (by norm_num)
  have m20 : ∀ x, x % 2 ^ 20 < 2 ^ 20 := fun x => Nat.mod_lt _ (by norm_num)
  have m8 : ∀ x, x % 2 ^ 8 < 2 ^ 8 := fun x => Nat.mod_lt _ (by norm_num)
  have m2 : ∀ x, x % 2 ^ 2 < 2 ^ 2 := fun x => Nat.mod_lt _ (by norm_num)
  split <;> split <;> (try split) <;>
    exact ⟨by norm_num, by first | exact m8 _ | norm_num, by first | exact m20 _ | norm_num,
      m2 _, m2 _, by first | exact m16 _ | norm_num⟩

theorem headerOf_primary (cfg : Params) (S A T Ptr ClassId : Nat) (hc : ClassId ≠ 0) :
    (headerOf cfg S A T Ptr ClassId).ClassId = ClassId % 2 ^ 8 ∧
    (headerOf cfg S A T Ptr ClassId).SizeOrUnusedBytes = S % 2 ^ 20 ∧
    (headerOf cfg S A T Ptr ClassId).State = ChunkAllocated ∧
    (headerOf cfg S A T Ptr ClassId).AllocType = T % 2 ^ 2 := by
  unfold headerOf
  simp only
  rw [if_pos hc]
  exact ⟨rfl, rfl, rfl, rfl⟩

theorem headerOf_offset (cfg : Params) (S A T Ptr ClassId : Nat) :
    (headerOf cfg S A T Ptr ClassId).Offset =
      if IsAligned (wadd Ptr cfg.AlignedChunkHeaderSize) A = true then 0
      else (wsub (wsub (userBegOf cfg Ptr A) cfg.AlignedChunkHeaderSize) Ptr >>>
        cfg.MinAlignmentLog) % 2 ^ 16 := by
  unfold headerOf
  simp only
  cases hal : IsAligned (wadd Ptr cfg.AlignedChunkHeaderSize) A <;>
    simp only [Bool.not_false, Bool.not_true, if_true, Bool.false_eq_true, if_false] <;>
    split <;> (try split) <;> rfl

/-- After a successful `allocate` of a non-null pointer, the header at its chunk
loads as the header `allocate` built, with its checksum. -/
theorem allocate_header_loads (ctx : HashCtx) (mem : HeaderMem) (c : Nat) (H : UnpackedHeader)
    (hb : H.InBounds) :
    loadHeader ctx (storeHeader ctx mem c H) c = .ok { H with Checksum := computeChecksum ctx c H } := by
  unfold storeHeader
  exact loadHeader_store_pack ctx mem c H hb

theorem adjustedAlignment_pow (cfg : Params) (Alignment : Nat)
    (hpow : IsPowerOfTwo Alignment = true) :
    ∃ k, cfg.MinAlignmentLog ≤ k ∧
      (if Alignment < cfg.MinAlignment then cfg.MinAlignment else Alignment) = 2 ^ k := by
  by_cases h : Alignment < cfg.MinAlignment
  · rw [if_pos h]
    exact ⟨cfg.MinAlignmentLog, le_refl _, rfl⟩
  · rw [if_neg h]
    have hpos : 0 < cfg.MinAlignment := by unfold Params.MinAlignment; positivity
    obtain ⟨k, hk⟩ := IsPowerOfTwo_pow Alignment hpow (by omega)
    refine ⟨k, ?_, hk⟩
    by_contra hlt
    apply h
    rw [hk]
    unfold Params.MinAlignment
    exact Nat.pow_lt_pow_right (by norm_num) (by omega)

theorem userBegOf_aligned (cfg : Params) (Ptr k : Nat) (hk : cfg.MinAlignmentLog ≤ k) :
    IsAligned (userBegOf cfg Ptr (2 ^ k)) cfg.MinAlignment = true := by
  have hdvd : 2 ^ cfg.MinAlignmentLog ∣ 2 ^ k := Nat.pow_dvd_pow 2 hk
  have key : userBegOf cfg Ptr (2 ^ k) % 2 ^ k = 0 := by
    unfold userBegOf
    simp only
    cases hal : IsAligned (wadd Ptr cfg.AlignedChunkHeaderSize) (2 ^ k) with
    | true =>
      simp only [Bool.not_true, Bool.false_eq_true, if_false]
      exact (IsAligned_pow _ _).mp hal
    | false =>
      simp only [Bool.not_false, if_true]
      exact RoundUpTo_mod _ _
  show IsAligned _ (2 ^ cfg.MinAlignmentLog) = true
  rw [IsAligned_pow]
  exact Nat.mod_eq_zero_of_dvd (dvd_trans hdvd (Nat.dvd_of_mod_eq_zero key))

theorem backendPtr_aligned_case (cfg : Params) (hs : cfg.Sane) (bp : Nat) (hbp : bp < 2 ^ 63) :
    wsub (wsub (wadd bp cfg.AlignedChunkHeaderSize) cfg.AlignedChunkHeaderSize)
      (wshl 0 cfg.MinAlignmentLog) = bp := by
  have hh := hs.2.2.2.2.1
  have e : wshl 0 cfg.MinAlignmentLog = 0 := by
    unfold wshl
    simp
  rw [e]
  unfold wsub wadd W
  omega

theorem backendPtr_offset_case (cfg : Params) (hs : cfg.Sane) (bp k S AllocSize : Nat)
    (hbp : bp < 2 ^ 63) (hkL : cfg.MinAlignmentLog ≤ k) (hk32 : 2 ^ k ≤ 2 ^ 32)
    (hbal : (bp + cfg.AlignedChunkHeaderSize) % cfg.MinAlignment = 0)
    (hAlloc : AllocSize ≤ 2 ^ 20) (hS : S < 2 ^ 40)
    (hcheck : wadd (RoundUpTo (wadd bp cfg.AlignedChunkHeaderSize) (2 ^ k)) S ≤ wadd bp AllocSize) :
    wsub (wsub (RoundUpTo (wadd bp cfg.AlignedChunkHeaderSize) (2 ^ k)) cfg.AlignedChunkHeaderSize)
      (wshl ((wsub (wsub (RoundUpTo (wadd bp cfg.AlignedChunkHeaderSize) (2 ^ k))
        cfg.AlignedChunkHeaderSize) bp >>> cfg.MinAlignmentLog) % 2 ^ 16) cfg.MinAlignmentLog) =
      bp := by
  obtain ⟨s1, _, _, s4, s5, _⟩ := hs
  have hU0 : wadd bp cfg.AlignedChunkHeaderSize = bp + cfg.AlignedChunkHeaderSize := by
    unfold wadd W
    exact Nat.mod_eq_of_lt (by omega)
  rw [hU0] at hcheck ⊢
  set U0 := bp + cfg.AlignedChunkHeaderSize with hU0d
  set UB := RoundUpTo U0 (2 ^ k) with hUB
  have hb := RoundUpTo_bounds U0 k (by omega)
  rw [← hUB] at hb
  have hmodk : UB % 2 ^ k = 0 := RoundUpTo_mod U0 k
  have hM : cfg.MinAlignment = 2 ^ cfg.MinAlignmentLog := rfl
  have hdvd : 2 ^ cfg.MinAlignmentLog ∣ 2 ^ k := Nat.pow_dvd_pow 2 hkL
  have hUBm : 2 ^ cfg.MinAlignmentLog ∣ UB := dvd_trans hdvd (Nat.dvd_of_mod_eq_zero hmodk)
  have hU0m : 2 ^ cfg.MinAlignmentLog ∣ U0 := by
    rw [← hM]; exact Nat.dvd_of_mod_eq_zero hbal
  have hoffd : 2 ^ cfg.MinAlignmentLog ∣ UB - U0 := Nat.dvd_sub' hUBm hU0m
  have hcheck' : UB + S ≤ bp + AllocSize := by
    unfold wadd W at hcheck
    rw [Nat.mod_eq_of_lt (by omega), Nat.mod_eq_of_lt (by omega)] at hcheck
    exact hcheck
  have hoff : wsub (wsub UB cfg.AlignedChunkHeaderSize) bp = UB - U0 := by
    unfold wsub W
    omega
  rw [hoff]
  have hlt : UB - U0 < 2 ^ 20 := by omega
  have h16 : (2 : Nat) ^ 4 ≤ 2 ^ cfg.MinAlignmentLog := Nat.pow_le_pow_right (by norm_num) s1
  have hdiv : (UB - U0) / 2 ^ cfg.MinAlignmentLog < 2 ^ 16 := by
    have := Nat.div_le_div_left (a := UB - U0) h16 (by norm_num)
    omega
  rw [Nat.shiftRight_eq_div_pow, Nat.mod_eq_of_lt hdiv]
  have hsh : wshl ((UB - U0) / 2 ^ cfg.MinAlignmentLog) cfg.MinAlignmentLog = UB - U0 := by
    unfold wshl W
    rw [Nat.div_mul_cancel hoffd]
    exact Nat.mod_eq_of_lt (by omega)
  rw [hsh]
  unfold wsub W
  omega

theorem isValid_iff_loadHeader (ctx : HashCtx) (mem : HeaderMem) (c : Nat) :
    (isValid ctx mem c = true → loadHeader ctx mem c = .ok (unpack (mem.load c))) ∧
    (isValid ctx mem c = false → loadHeader ctx mem c = .error .CorruptedHeader) := by
  unfold isValid loadHeader
  simp only
  by_cases h : (unpack (mem.load c)).Checksum = computeChecksum ctx c (unpack (mem.load c))
  · rw [if_neg (not_not.mpr h)]
    simp [h]
  · rw [if_pos h]
    simp [h]

/-- C13: `Recycle` returns exactly when the stored header passes the checksum and
its `State` is `ChunkQuarantine`; it then stores the null header at the chunk
and releases the backend pointer recomputed from the header, to the Primary
when `ClassId` is non-zero and to the Secondary when it is zero, and touches
nothing else. Otherwise it dies, with the corrupted-header or the
invalid-chunk-state error. -/
theorem Recycle_checks_then_releases (cfg : Params) (a : Allocator) (Chunk : Nat) :
    ((∃ a', Recycle cfg a Chunk = .ok a') ↔
      (isValid a.ctx a.mem Chunk = true ∧
        (unpack (a.mem.load Chunk)).State = ChunkQuarantine)) ∧
    (isValid a.ctx a.mem Chunk = false → Recycle cfg a Chunk = .error .CorruptedHeader) ∧
    (isValid a.ctx a.mem Chunk = true → (unpack (a.mem.load Chunk)).State ≠ ChunkQuarantine →
      Recycle cfg a Chunk = .error .InvalidChunkStateRecycle) ∧
    (∀ a', Recycle cfg a Chunk = .ok a' →
      a' = { a with
        mem := a.mem.store Chunk 0
        events := a.events ++
          [if (unpack (a.mem.load Chunk)).ClassId ≠ 0 then
            Event.deallocatePrimary (getBackendPtr cfg Chunk (unpack (a.mem.load Chunk)))
              (unpack (a.mem.load Chunk)).ClassId
          else Event.deallocateSecondary (getBackendPtr cfg Chunk (unpack (a.mem.load Chunk)))] }) := by
  obtain ⟨hv1, hv2⟩ := isValid_iff_loadHeader a.ctx a.mem Chunk
  cases hv : isValid a.ctx a.mem Chunk with
  | false =>
    have hr : Recycle cfg a Chunk = .error .CorruptedHeader := by
      unfold Recycle
      rw [hv2 hv]
    refine ⟨⟨?_, ?_⟩, fun _ => hr, ?_, ?_⟩
    · rintro ⟨a', h⟩
      rw [hr] at h
      cases h
    · rintro ⟨h, _⟩
      cases h
    · intro h
      cases h
    · intro a' h
      rw [hr] at h
      cases h
  | true =>
    by_cases hs : (unpack (a.mem.load Chunk)).State = ChunkQuarantine
    · have hr : Recycle cfg a Chunk = .ok { a with
          mem := a.mem.store Chunk 0
          events := a.events ++
            [if (unpack (a.mem.load Chunk)).ClassId ≠ 0 then
              Event.deallocatePrimary (getBackendPtr cfg Chunk (unpack (a.mem.load Chunk)))
                (unpack (a.mem.load Chunk)).ClassId
            else Event.deallocateSecondary (getBackendPtr cfg Chunk (unpack (a.mem.load Chunk)))] } := by
        unfold Recycle
        rw [hv1 hv]
        simp only
        rw [if_neg (not_not.mpr hs)]
        by_cases hc : (unpack (a.mem.load Chunk)).ClassId ≠ 0
        · rw [if_pos hc, if_pos hc]
          rfl
        · rw [if_neg hc, if_neg hc]
          rfl
      refine ⟨⟨fun _ => ⟨rfl, hs⟩, fun _ => ⟨_, hr⟩⟩, ?_, fun _ h => absurd hs h, ?_⟩
      · intro h
        cases h
      · intro a' h
        rw [hr] at h
        cases h
        rfl
    · have hr : Recycle cfg a Chunk = .error .InvalidChunkStateRecycle := by
        unfold Recycle
        rw [hv1 hv]
        simp only
        rw [if_pos hs]
      refine ⟨⟨?_, ?_⟩, ?_, fun _ _ => hr, ?_⟩
      · rintro ⟨a', h⟩
        rw [hr] at h
        cases h
      · rintro ⟨_, h⟩
        exact absurd h hs
      · intro h
        cases h
      · intro a' h
        rw [hr] at h
        cases h

/-- C15: when `Alignment` is above `MaxAlignment`, `Size` is at or above
`MaxAllowedMallocSize`, or `AlignedSize` (the size after rounding and alignment
padding) is at or above `MaxAllowedMallocSize`, `allocate` is
`FailureHandler::OnBadRequest()`: null with the allocator untouched (no backend
request, no header written), or death when the allocator may not return
null. -/
theorem allocate_bad_request (cfg : Params) (a : Allocator) (Size Alignment AllocType : Nat)
    (fz : Bool) (probe : RssProbe) (backendPtr : Nat)
    (h : Alignment > cfg.MaxAlignment ∨ Size ≥ MaxAllowedMallocSize ∨
      alignedSizeOf cfg (if Size = 0 then 1 else Size)
        (if Alignment < cfg.MinAlignment then cfg.MinAlignment else Alignment) ≥
        MaxAllowedMallocSize) :
    allocate cfg a Size Alignment AllocType fz probe backendPtr = OnBadRequest a ∧
    (a.AllocatorMayReturnNull = true →
      allocate cfg a Size Alignment AllocType fz probe backendPtr = .ok (0, a)) ∧
    (a.AllocatorMayReturnNull = false →
      allocate cfg a Size Alignment AllocType fz probe backendPtr = .error .BadRequest) := by
  have h1 : allocate cfg a Size Alignment AllocType fz probe backendPtr = OnBadRequest a := by
    unfold allocate
    by_cases ha : Alignment > cfg.MaxAlignment
    · rw [if_pos ha]
    · rw [if_neg ha]
      by_cases hs : Size ≥ MaxAllowedMallocSize
      · rw [if_pos hs]
      · rw [if_neg hs]
        rcases h with h | h | h
        · exact absurd h ha
        · exact absurd h hs
        · rw [if_pos h]
  refine ⟨h1, ?_, ?_⟩
  · intro hn
    rw [h1]
    unfold OnBadRequest
    rw [if_pos hn]
  · intro hn
    rw [h1]
    unfold OnBadRequest
    rw [if_neg (by rw [hn]; exact Bool.false_ne_true)]

theorem isRssLimitExceeded_skipped (a : Allocator) (probe : RssProbe)
    (h : ¬ checkPerformed a probe) : isRssLimitExceeded a probe = .ok (a.RssLimitExceeded, a) := by
  unfold isRssLimitExceeded
  simp only
  by_cases h1 : probe.now < wadd a.RssLastCheckedAtNS (100 * 1000000)
  · rw [if_pos h1]
  · rw [if_neg h1]
    have h2 : probe.casSucceeds = false := by
      cases hc : probe.casSucceeds with
      | false => rfl
      | true => exact absurd ⟨h1, hc⟩ h
    rw [h2]
    rfl

theorem isRssLimitExceeded_performed (a : Allocator) (probe : RssProbe)
    (hsoft : a.SoftRssLimitMb ≠ 0) (h : checkPerformed a probe)
    (hhard : ¬ (a.HardRssLimitMb ≠ 0 ∧ a.HardRssLimitMb < probe.rss >>> 20)) :
    isRssLimitExceeded a probe =
      .ok (decide (probe.rss >>> 20 > a.SoftRssLimitMb),
        { a with RssLastCheckedAtNS := probe.now
                 RssLimitExceeded := decide (probe.rss >>> 20 > a.SoftRssLimitMb) }) := by
  unfold isRssLimitExceeded
  simp only
  rw [if_neg h.1, h.2]
  simp only [Bool.not_true, Bool.false_eq_true, if_false]
  rw [if_neg hhard, if_pos hsoft]
  cases hf : a.RssLimitExceeded with
  | true =>
    simp only [if_true]
    by_cases hle : probe.rss >>> 20 ≤ a.SoftRssLimitMb
    · rw [if_pos hle]
      have : decide (probe.rss >>> 20 > a.SoftRssLimitMb) = false := by
        simp only [gt_iff_lt, decide_eq_false_iff_not, not_lt]; exact hle
      rw [this]
    · rw [if_neg hle]
      have : decide (probe.rss >>> 20 > a.SoftRssLimitMb) = true := by
        simp only [gt_iff_lt, decide_eq_true_eq]; omega
      rw [this, ← hf]
  | false =>
    simp only [Bool.false_eq_true, if_false]
    by_cases hgt : probe.rss >>> 20 > a.SoftRssLimitMb
    · rw [if_pos hgt]
      have : decide (probe.rss >>> 20 > a.SoftRssLimitMb) = true := by
        simp only [decide_eq_true_eq]; exact hgt
      rw [this]
    · rw [if_neg hgt]
      have : decide (probe.rss >>> 20 > a.SoftRssLimitMb) = false := by
        simp only [decide_eq_false_iff_not]; exact hgt
      rw [this, ← hf]

theorem allocate_gate_oom (cfg : Params) (a a1 : Allocator) (Size Alignment AllocType : Nat)
    (fz : Bool) (probe : RssProbe) (backendPtr : Nat) (h : requestAccepted cfg Size Alignment)
    (hg : rssGate a probe = .ok (true, a1)) :
    allocate cfg a Size Alignment AllocType fz probe backendPtr = OnOOM a1 := by
  unfold allocate
  rw [if_neg h.1, if_neg h.2.1, if_neg h.2.2, hg]

theorem allocate_gate_open (cfg : Params) (a a1 : Allocator) (Size Alignment AllocType : Nat)
    (fz : Bool) (probe : RssProbe) (backendPtr : Nat) (h : requestAccepted cfg Size Alignment)
    (hg : rssGate a probe = .ok (false, a1)) :
    allocate cfg a Size Alignment AllocType fz probe backendPtr =
      allocateFromBackend cfg a1 (if Size = 0 then 1 else Size)
        (if Alignment < cfg.MinAlignment then cfg.MinAlignment else Alignment)
        AllocType fz backendPtr := by
  unfold allocate
  rw [if_neg h.1, if_neg h.2.1, if_neg h.2.2, hg]

theorem allocate_gate_error (cfg : Params) (a : Allocator) (Size Alignment AllocType : Nat)
    (fz : Bool) (probe : RssProbe) (backendPtr : Nat) (e : ScudoError)
    (h : requestAccepted cfg Size Alignment) (hg : rssGate a probe = .error e) :
    allocate cfg a Size Alignment AllocType fz probe backendPtr = .error e := by
  unfold allocate
  rw [if_neg h.1, if_neg h.2.1, if_neg h.2.2, hg]

theorem allocate_rejected (cfg : Params) (a : Allocator) (Size Alignment AllocType : Nat)
    (fz : Bool) (probe : RssProbe) (backendPtr : Nat) (h : ¬ requestAccepted cfg Size Alignment) :
    allocate cfg a Size Alignment AllocType fz probe backendPtr = OnBadRequest a := by
  unfold allocate
  by_cases h1 : Alignment > cfg.MaxAlignment
  · rw [if_pos h1]
  · rw [if_neg h1]
    by_cases h2 : Size ≥ MaxAllowedMallocSize
    · rw [if_pos h2]
    · rw [if_neg h2]
      by_cases h3 : alignedSizeOf cfg (if Size = 0 then 1 else Size)
          (if Alignment < cfg.MinAlignment then cfg.MinAlignment else Alignment) ≥
          MaxAllowedMallocSize
      · rw [if_pos h3]
      · exact absurd ⟨h1, h2, h3⟩ h

/-- C16: with a soft RSS limit configured, a call of `isRssLimitExceeded` that
does not check (less than 100 ms since the last check, or the timestamp
compare-and-swap lost) leaves `RssLimitExceeded` as it is; a call that checks,
and does not die on the hard limit, sets the flag exactly when the resident
size in MB is above the soft limit, so the flag turns true at a check above
the limit and stays true until a check at or below it. An `allocate` whose
limit check reports the flag set returns no chunk: it is
`FailureHandler::OnOOM()` for a request that passes the size checks. -/
theorem soft_rss_limit_sticky (cfg : Params) (a : Allocator) (probe : RssProbe)
    (hsoft : a.SoftRssLimitMb ≠ 0) :
    (¬ checkPerformed a probe →
      isRssLimitExceeded a probe = .ok (a.RssLimitExceeded, a)) ∧
    (checkPerformed a probe → ¬ (a.HardRssLimitMb ≠ 0 ∧ a.HardRssLimitMb < probe.rss >>> 20) →
      ∃ a1, isRssLimitExceeded a probe = .ok (a1.RssLimitExceeded, a1) ∧
        a1.SoftRssLimitMb = a.SoftRssLimitMb ∧
        (a1.RssLimitExceeded = true ↔ probe.rss >>> 20 > a.SoftRssLimitMb)) ∧
    (∀ a1 Size Alignment AllocType fz backendPtr, a.CheckRssLimit = true →
      isRssLimitExceeded a probe = .ok (true, a1) →
      (requestAccepted cfg Size Alignment →
        allocate cfg a Size Alignment AllocType fz probe backendPtr = OnOOM a1) ∧
      ∀ p a2, allocate cfg a Size Alignment AllocType fz probe backendPtr = .ok (p, a2) →
        p = 0 ∧ a2.events = a.events ∧ a2.mem = a.mem) := by
  refine ⟨isRssLimitExceeded_skipped a probe, ?_, ?_⟩
  · intro h hhard
    refine ⟨{ a with RssLastCheckedAtNS := probe.now
                     RssLimitExceeded := decide (probe.rss >>> 20 > a.SoftRssLimitMb) },
      isRssLimitExceeded_performed a probe hsoft h hhard, rfl, ?_⟩
    simp
  · intro a1 Size Alignment AllocType fz backendPtr hcheck hrss
    have hg : rssGate a probe = .ok (true, a1) := by
      unfold rssGate
      rw [if_pos hcheck, hrss]
    have hkeep : a1.events = a.events ∧ a1.mem = a.mem :=
      ⟨isRssLimitExceeded_events a a1 probe true hrss, isRssLimitExceeded_mem a a1 probe true hrss⟩
    refine ⟨fun h => allocate_gate_oom cfg a a1 Size Alignment AllocType fz probe backendPtr h hg, ?_⟩
    intro p a2 h
    by_cases hacc : requestAccepted cfg Size Alignment
    · rw [allocate_gate_oom cfg a a1 Size Alignment AllocType fz probe backendPtr hacc hg] at h
      obtain ⟨h1, h2⟩ := OnOOM_ok a1 a2 p h
      rw [h2]
      exact ⟨h1, hkeep⟩
    · rw [allocate_rejected cfg a Size Alignment AllocType fz probe backendPtr hacc] at h
      obtain ⟨h1, h2⟩ := OnBadRequest_ok a a2 p h
      rw [h2]
      exact ⟨h1, rfl, rfl⟩

/-- C17 (amended): an `allocate` of a request that passes the size checks, whose
limit check finds the resident size above the soft limit and not above the
hard limit, sets `RssLimitExceeded` and returns no chunk: it is
`FailureHandler::OnOOM()`, null without any backend request or header write
when the allocator may return null, death otherwise. -/
theorem soft_limit_refuses_allocation (cfg : Params) (a : Allocator) (probe : RssProbe)
    (Size Alignment AllocType : Nat) (fz : Bool) (backendPtr : Nat)
    (hcheck : a.CheckRssLimit = true) (hsoft : a.SoftRssLimitMb ≠ 0)
    (hperf : checkPerformed a probe) (habove : probe.rss >>> 20 > a.SoftRssLimitMb)
    (hhard : ¬ (a.HardRssLimitMb ≠ 0 ∧ a.HardRssLimitMb < probe.rss >>> 20))
    (hacc : requestAccepted cfg Size Alignment) :
    allocate cfg a Size Alignment AllocType fz probe backendPtr =
      OnOOM { a with RssLastCheckedAtNS := probe.now, RssLimitExceeded := true } ∧
    (a.AllocatorMayReturnNull = true →
      allocate cfg a Size Alignment AllocType fz probe backendPtr =
        .ok (0, { a with RssLastCheckedAtNS := probe.now, RssLimitExceeded := true })) ∧
    (a.AllocatorMayReturnNull = false →
      allocate cfg a Size Alignment AllocType fz probe backendPtr = .error .OutOfMemory) := by
  have hrss := isRssLimitExceeded_performed a probe hsoft hperf hhard
  have hd : decide (probe.rss >>> 20 > a.SoftRssLimitMb) = true := by
    simp only [decide_eq_true_eq]; exact habove
  rw [hd] at hrss
  have hg : rssGate a probe =
      .ok (true, { a with RssLastCheckedAtNS := probe.now, RssLimitExceeded := true }) := by
    unfold rssGate
    rw [if_pos hcheck, hrss]
  have h1 := allocate_gate_oom cfg a _ Size Alignment AllocType fz probe backendPtr hacc hg
  refine ⟨h1, ?_, ?_⟩
  · intro hn
    rw [h1]
    unfold OnOOM
    rw [if_pos hn]
  · intro hn
    rw [h1]
    unfold OnOOM
    rw [if_neg (by simp only [hn]; exact Bool.false_ne_true)]

/-- C11 (amended): let `allocate` have returned the non-null pointer `p` for a
request served by the Primary (non-zero class id), under a configuration that
passes `performSanityChecks`, and let the deallocation type pass the
allocation-type check. With `DeleteSizeMismatch` enabled, `deallocate` of `p`
dies with the invalid-sized-delete error exactly when `DeleteSize` is non-zero
and differs from the size passed to `allocate` (1 for a request of 0); with the
option disabled it never dies with that error. -/
theorem deallocate_size_mismatch_iff (cfg : Params) (kLargestClassID : Nat) (a a1 : Allocator)
    (Size Alignment T : Nat) (fz : Bool) (probe : RssProbe) (bp p DeleteSize DType : Nat)
    (hs : cfg.Sane) (hsanity : performSanityChecks cfg kLargestClassID = .ok ())
    (hpow : IsPowerOfTwo Alignment = true)
    (halloc : allocate cfg a Size Alignment T fz probe bp = .ok (p, a1)) (hp : p ≠ 0)
    (hprimary : CanAllocate cfg (alignedSizeOf cfg (if Size = 0 then 1 else Size)
      (if Alignment < cfg.MinAlignment then cfg.MinAlignment else Alignment))
      cfg.MinAlignment = true)
    (hclass : cfg.ClassID (alignedSizeOf cfg (if Size = 0 then 1 else Size)
      (if Alignment < cfg.MinAlignment then cfg.MinAlignment else Alignment)) % 2 ^ 8 ≠ 0)
    (htype : ¬ (a1.DeallocationTypeMismatch = true ∧ T % 2 ^ 2 ≠ DType ∧
      (T % 2 ^ 2 ≠ FromMemalign ∨ DType ≠ FromMalloc))) :
    (a1.DeleteSizeMismatch = true →
      (deallocate cfg a1 p DeleteSize DType = .error .InvalidSizedDelete ↔
        (DeleteSize ≠ 0 ∧ DeleteSize ≠ (if Size = 0 then 1 else Size)))) ∧
    (a1.DeleteSizeMismatch = false →
      deallocate cfg a1 p DeleteSize DType ≠ .error .InvalidSizedDelete) := by
  obtain ⟨r1, r2, r3, ClassId, AllocSize, hbr, _, _, _, hpe, hctx, hmem⟩ :=
    allocate_ok_inv cfg a a1 Size Alignment T fz probe bp p halloc hp
  have hk := performSanityChecks_kMaxSize cfg kLargestClassID hs hsanity
  obtain ⟨k, hkL, hA⟩ := adjustedAlignment_pow cfg Alignment hpow
  -- the class id and the size
  have hcid : ClassId = cfg.ClassID (alignedSizeOf cfg (if Size = 0 then 1 else Size)
      (if Alignment < cfg.MinAlignment then cfg.MinAlignment else Alignment)) % 2 ^ 8 := by
    rcases hbr with ⟨_, h, _⟩ | ⟨h, _, _⟩
    · exact h
    · rw [hprimary] at h; cases h
  have hcne : ClassId ≠ 0 := by rw [hcid]; exact hclass
  have hS40 : (if Size = 0 then 1 else Size) < 2 ^ 40 := by
    have : ¬ Size ≥ 2 ^ 40 := r2
    split <;> omega
  have hAle : (if Alignment < cfg.MinAlignment then cfg.MinAlignment else Alignment) ≤
      cfg.MaxAlignment := by
    obtain ⟨_, p2, _⟩ := Sane_pow cfg hs
    split <;> omega
  have hS20 : (if Size = 0 then 1 else Size) < 2 ^ 20 := by
    have h1 := alignedSizeOf_gt cfg hs _ _ hS40 hAle
    unfold CanAllocate at hprimary
    simp only [Bool.and_eq_true, decide_eq_true_eq] at hprimary
    have h2 := hprimary.1
    omega
  -- the pointer and the header
  have hal : IsAligned p cfg.MinAlignment = true := by
    rw [hpe, hA]
    exact userBegOf_aligned cfg bp k hkL
  set Hd := headerOf cfg (if Size = 0 then 1 else Size)
      (if Alignment < cfg.MinAlignment then cfg.MinAlignment else Alignment) T bp ClassId with hHd
  obtain ⟨f1, f2, f3, f4⟩ := headerOf_primary cfg (if Size = 0 then 1 else Size)
    (if Alignment < cfg.MinAlignment then cfg.MinAlignment else Alignment) T bp ClassId hcne
  rw [← hHd] at f1 f2 f3 f4
  have hload : loadHeader a1.ctx a1.mem (getScudoChunk cfg p) =
      .ok { Hd with Checksum := computeChecksum a.ctx (getScudoChunk cfg p) Hd } := by
    rw [hctx, hmem]
    exact allocate_header_loads a.ctx a.mem _ Hd (headerOf_inBounds _ _ _ _ _ _)
  have hsz : Hd.SizeOrUnusedBytes = (if Size = 0 then 1 else Size) := by
    rw [f2]
    exact Nat.mod_eq_of_lt hS20
  have hcl : Hd.ClassId ≠ 0 := by
    rw [f1, hcid, Nat.mod_mod]
    exact hclass
  have key : ∀ H sz, quarantineOrDeallocateChunk cfg a1 (getScudoChunk cfg p) H sz ≠
      .error .InvalidSizedDelete := by
    intro H sz hq
    rcases quarantineOrDeallocateChunk_error _ _ _ _ _ _ hq with h | h | h <;> cases h
  rw [deallocate_unfold cfg a1 p DeleteSize DType _ hp hal hload f3]
  have htype' : ¬ (a1.DeallocationTypeMismatch = true ∧ Hd.AllocType ≠ DType ∧
      (Hd.AllocType ≠ FromMemalign ∨ DType ≠ FromMalloc)) := by
    rw [f4]; exact htype
  rw [if_neg htype']
  simp only [if_pos hcl, hsz]
  constructor
  · intro hflag
    constructor
    · intro h
      by_contra hcon
      rw [if_neg (fun hc => hcon hc.2)] at h
      exact key _ _ h
    · intro hc
      rw [if_pos ⟨hflag, hc⟩]
  · intro hflag h
    rw [if_neg (by rw [hflag]; exact fun hc => Bool.false_ne_true hc.1)] at h
    exact key _ _ h

/-- C14: under a configuration that passes `performSanityChecks`, when the backend
answers with a block whose user area is `MinAlignment`-aligned, every `allocate`
that returns a non-null pointer leaves at its chunk a header that loads and
from which `getBackendPtr` recomputes the pointer the backend returned; a
`deallocate` that bypasses the quarantine therefore releases exactly that
block. -/
theorem allocate_backend_pointer_recovered (cfg : Params) (kLargestClassID : Nat)
    (a a1 : Allocator) (Size Alignment T : Nat) (fz : Bool) (probe : RssProbe) (bp p : Nat)
    (hs : cfg.Sane) (hsanity : performSanityChecks cfg kLargestClassID = .ok ())
    (hbp : bp < 2 ^ 63) (hbal : (bp + cfg.AlignedChunkHeaderSize) % cfg.MinAlignment = 0)
    (halloc : allocate cfg a Size Alignment T fz probe bp = .ok (p, a1)) (hp : p ≠ 0) :
    ∃ H, loadHeader a1.ctx a1.mem (getScudoChunk cfg p) = .ok H ∧
      getBackendPtr cfg (getScudoChunk cfg p) H = bp ∧
      ∀ a2 ds t, a1.AllocatorQuarantine.MaxCacheSize = 0 → deallocate cfg a1 p ds t = .ok a2 →
        a2.events = a1.events ++
          [if H.ClassId ≠ 0 then Event.deallocatePrimary bp H.ClassId
            else Event.deallocateSecondary bp] := by
  obtain ⟨r1, r2, r3, ClassId, AllocSize, hbr, _, hguard, hcheck, hpe, hctx, hmem⟩ :=
    allocate_ok_inv cfg a a1 Size Alignment T fz probe bp p halloc hp
  have hk := performSanityChecks_kMaxSize cfg kLargestClassID hs hsanity
  obtain ⟨p1, p2, p3⟩ := Sane_pow cfg hs
  have hS40 : (if Size = 0 then 1 else Size) < 2 ^ 40 := by
    have : ¬ Size ≥ 2 ^ 40 := r2
    split <;> omega
  have hAle : (if Alignment < cfg.MinAlignment then cfg.MinAlignment else Alignment) ≤
      cfg.MaxAlignment := by
    split <;> omega
  have hAge : cfg.MinAlignment ≤
      (if Alignment < cfg.MinAlignment then cfg.MinAlignment else Alignment) := by
    split <;> omega
  generalize hSd : (if Size = 0 then 1 else Size) = S at *
  generalize hAd : (if Alignment < cfg.MinAlignment then cfg.MinAlignment else Alignment) = A at *
  set Hd := headerOf cfg S A T bp ClassId with hHd
  have hload : loadHeader a1.ctx a1.mem (getScudoChunk cfg p) =
      .ok { Hd with Checksum := computeChecksum a.ctx (getScudoChunk cfg p) Hd } := by
    rw [hctx, hmem]
    exact allocate_header_loads a.ctx a.mem _ Hd (headerOf_inBounds _ _ _ _ _ _)
  have hptr : getBackendPtr cfg (getScudoChunk cfg p)
      { Hd with Checksum := computeChecksum a.ctx (getScudoChunk cfg p) Hd } = bp := by
    unfold getBackendPtr getScudoChunk
    simp only
    rw [hHd, headerOf_offset, hpe]
    cases hal : IsAligned (wadd bp cfg.AlignedChunkHeaderSize) A with
    | true =>
      simp only [if_true]
      have e : userBegOf cfg bp A = wadd bp cfg.AlignedChunkHeaderSize := by
        unfold userBegOf
        simp only [hal, Bool.not_true, Bool.false_eq_true, if_false]
      rw [e]
      exact backendPtr_aligned_case cfg hs bp hbp
    | false =>
      simp only [Bool.false_eq_true, if_false]
      rw [hal] at hguard
      rcases hguard with hg | ⟨hcne, hpw⟩
      · cases hg
      have hApos : 0 < A := by
        have : 0 < cfg.MinAlignment := by omega
        omega
      obtain ⟨k, hk2⟩ := IsPowerOfTwo_pow A hpw hApos
      have hkL : cfg.MinAlignmentLog ≤ k := by
        by_contra hlt
        have : 2 ^ k < 2 ^ cfg.MinAlignmentLog :=
          Nat.pow_lt_pow_right (by norm_num) (by omega)
        have hM : cfg.MinAlignment = 2 ^ cfg.MinAlignmentLog := rfl
        omega
      have hAlloc : AllocSize ≤ 2 ^ 20 := by
        rcases hbr with ⟨hc, _, h3⟩ | ⟨_, h2, _⟩
        · unfold CanAllocate at hc
          simp only [Bool.and_eq_true, decide_eq_true_eq] at hc
          rw [h3]
          omega
        · exact absurd h2 hcne
      have e : userBegOf cfg bp A = RoundUpTo (wadd bp cfg.AlignedChunkHeaderSize) A := by
        unfold userBegOf
        simp only [hal, Bool.not_false, if_true]
      rw [e] at hcheck ⊢
      rw [hk2] at hcheck ⊢
      exact backendPtr_offset_case cfg hs bp k S AllocSize hbp hkL (by rw [← hk2]; omega) hbal
        hAlloc hS40 hcheck
  refine ⟨_, hload, hptr, ?_⟩
  intro a2 ds t hcap hd
  obtain ⟨_, H2, hH2, _, sz, hq⟩ := deallocate_ok_inv cfg a1 a2 p ds t hp hd
  rw [hload] at hH2
  cases hH2
  have := (quarantineOrDeallocateChunk_bypass cfg a1 a2 _ _ sz (Or.inl hcap) hq).2
  rw [hptr] at this
  exact this

/-! ### Concrete runs of the later checks -/

set_option maxRecDepth 100000 in
/-- C11, counterexample to the claim as stated: a 100-byte chunk from `operator new`
is freed as `malloc` memory with `DeleteSize = 50`. `DeleteSizeMismatch` is on,
the size is non-zero and wrong, but `deallocate` dies on the allocation-type
check, which comes first. -/
theorem sized_delete_type_first_counterexample :
    ∃ a1, allocate exampleParams (exampleAllocator 1024 4096) 100 16 FromNew false exampleProbe
        0x10000 = .ok (0x10010, a1) ∧ a1.DeleteSizeMismatch = true ∧
      deallocate exampleParams a1 0x10010 50 FromMalloc = .error .AllocTypeMismatchDeallocate :=
  ⟨_, rfl, rfl, rfl⟩

set_option maxRecDepth 100000 in
/-- Witness for C11 (amended): the same chunk deleted with the right type and the
wrong size. -/
theorem deallocate_size_mismatch_iff_witness :
    ∃ a1, allocate exampleParams (exampleAllocator 1024 4096) 100 16 FromNew false exampleProbe
        0x10000 = .ok (0x10010, a1) ∧
      deallocate exampleParams a1 0x10010 50 FromNew = .error .InvalidSizedDelete :=
  ⟨_, rfl,
    ((deallocate_size_mismatch_iff exampleParams 255 (exampleAllocator 1024 4096) _ 100 16 FromNew
      false exampleProbe 0x10000 0x10010 50 FromNew (by decide) rfl (by decide) rfl (by decide)
      (by decide) (by decide) (by decide)).1 rfl).2 ⟨by decide, by decide⟩⟩

set_option maxRecDepth 100000 in
/-- Witness for C14: a 64-byte aligned request moves the user pointer by 48 bytes
(`Offset = 3`), and the header still leads back to the block at `0x10000`. -/
theorem allocate_backend_pointer_recovered_witness :
    ∃ a1, allocate exampleParams (exampleAllocator 0 0) 100 64 FromMemalign false exampleProbe
        0x10000 = .ok (0x10040, a1) ∧
      ∃ H, loadHeader a1.ctx a1.mem (getScudoChunk exampleParams 0x10040) = .ok H ∧
        getBackendPtr exampleParams (getScudoChunk exampleParams 0x10040) H = 0x10000 ∧
        ∀ a2 ds t, a1.AllocatorQuarantine.MaxCacheSize = 0 →
          deallocate exampleParams a1 0x10040 ds t = .ok a2 →
          a2.events = a1.events ++
            [if H.ClassId ≠ 0 then Event.deallocatePrimary 0x10000 H.ClassId
              else Event.deallocateSecondary 0x10000] :=
  ⟨_, rfl,
    allocate_backend_pointer_recovered exampleParams 255 (exampleAllocator 0 0) _ 100 64
      FromMemalign false exampleProbe 0x10000 0x10040 (by decide) rfl (by decide) (by decide) rfl
      (by decide)⟩

/-- Witness for C15: a request of `2 ^ 40` bytes returns null and leaves the allocator
as it was. -/
theorem allocate_bad_request_witness :
    allocate exampleParams (exampleAllocator 1024 4096) (2 ^ 40) 16 FromMalloc false exampleProbe
      0x10000 = .ok (0, exampleAllocator 1024 4096) :=
  (allocate_bad_request exampleParams (exampleAllocator 1024 4096) (2 ^ 40) 16 FromMalloc false
    exampleProbe 0x10000 (Or.inr (Or.inl (by decide)))).2.1 rfl

/-- Witness for C16: with a soft limit of 1 MB, a check that reads 5 MB sets the flag. -/
theorem soft_rss_limit_sticky_witness :
    ∃ a1, isRssLimitExceeded (rssLimitedAllocator 1 0 false) fiveMbProbe =
        .ok (a1.RssLimitExceeded, a1) ∧
      a1.SoftRssLimitMb = (rssLimitedAllocator 1 0 false).SoftRssLimitMb ∧
      (a1.RssLimitExceeded = true ↔
        fiveMbProbe.rss >>> 20 > (rssLimitedAllocator 1 0 false).SoftRssLimitMb) :=
  (soft_rss_limit_sticky exampleParams (rssLimitedAllocator 1 0 false) fiveMbProbe
    (by decide)).2.1 (by decide) (by decide)

/-- C17, counterexample to the claim as stated: only the soft limit is configured
(1 MB, no hard limit) and 5 MB are resident. The `allocate` call returns null:
no chunk, no backend request. -/
theorem soft_limit_counterexample :
    (rssLimitedAllocator 1 0 false).HardRssLimitMb = 0 ∧
    ∃ a1, allocate exampleParams (rssLimitedAllocator 1 0 false) 100 16 FromMalloc false
        fiveMbProbe 0x10000 = .ok (0, a1) ∧ a1.events = [] ∧ a1.RssLimitExceeded = true :=
  ⟨rfl, _, rfl, rfl, rfl⟩

/-- Witness for C17 (amended): the same call, through the theorem. -/
theorem soft_limit_refuses_allocation_witness :
    allocate exampleParams (rssLimitedAllocator 1 0 false) 100 16 FromMalloc false fiveMbProbe
        0x10000 =
      .ok (0, { rssLimitedAllocator 1 0 false with
        RssLastCheckedAtNS := fiveMbProbe.now, RssLimitExceeded := true }) :=
  (soft_limit_refuses_allocation exampleParams (rssLimitedAllocator 1 0 false) fiveMbProbe 100 16
    FromMalloc false 0x10000 rfl (by decide) (by decide) (by decide) (by decide)
    (by decide)).2.1 rfl

/-! ### The size test of the Primary -/

/-- Claim C24 (amended). `CanAllocate(size, alignment)` is false exactly when `size`
is above `SizeClassMap::kMaxSize` or `alignment` is above it, and true in
every other case: a size equal to `kMaxSize` is accepted. -/
theorem CanAllocate_false_iff (cfg : Params) (size alignment : Nat) :
    (CanAllocate cfg size alignment = false ↔ size > cfg.kMaxSize ∨ alignment > cfg.kMaxSize) ∧
    (CanAllocate cfg size alignment = true ↔ size ≤ cfg.kMaxSize ∧ alignment ≤ cfg.kMaxSize) := by
  unfold CanAllocate
  constructor
  · rw [Bool.and_eq_false_iff, decide_eq_false_iff_not, decide_eq_false_iff_not]
    constructor
    · rintro (h | h)
      · exact Or.inl (by omega)
      · exact Or.inr (by omega)
    · rintro (h | h)
      · exact Or.inl (by omega)
      · exact Or.inr (by omega)
  · rw [Bool.and_eq_true, decide_eq_true_eq, decide_eq_true_eq]

/-- Claim C24, counterexample to the claim as stated: a request whose size is the
largest class size, which is "at or above" it, with a small alignment is
accepted. -/
theorem CanAllocate_at_kMaxSize_counterexample :
    exampleParams.kMaxSize = 4064 ∧ 4064 ≥ exampleParams.kMaxSize ∧
    CanAllocate exampleParams 4064 16 = true :=
  ⟨rfl, by decide, by decide⟩

/-! ### Placement of the user pointer in a Primary block -/

theorem wadd_of_lt (a b : Nat) (h : a + b < 2 ^ 64) : wadd a b = a + b := by
  unfold wadd W
  exact Nat.mod_eq_of_lt h

theorem IsPowerOfTwo_two_pow (k : Nat) : IsPowerOfTwo (2 ^ k) = true := by
  unfold IsPowerOfTwo
  rw [Nat.and_pow_two_sub_one_eq_mod]
  simp

/-- The user pointer derived from a `2 ^ L`-aligned backend pointer with a `2 ^ L`-byte
header, for the alignment `2 ^ k`, `L ≤ k`: aligned, at or after the end of the header,
and moved by at most `2 ^ k - 2 ^ L`. -/
theorem userBegOf_placement (cfg : Params) (Ptr k : Nat)
    (hH : cfg.AlignedChunkHeaderSize = cfg.MinAlignment)
    (hk1 : cfg.MinAlignmentLog ≤ k) (hk32 : k ≤ 32)
    (hpa : Ptr % cfg.MinAlignment = 0) (hpb : Ptr < 2 ^ 63) :
    userBegOf cfg Ptr (2 ^ k) % 2 ^ k = 0 ∧
    Ptr + cfg.MinAlignment ≤ userBegOf cfg Ptr (2 ^ k) ∧
    userBegOf cfg Ptr (2 ^ k) + cfg.MinAlignment ≤ Ptr + cfg.MinAlignment + 2 ^ k ∧
    (IsAligned (wadd Ptr cfg.AlignedChunkHeaderSize) (2 ^ k) = true →
      userBegOf cfg Ptr (2 ^ k) = Ptr + cfg.MinAlignment) ∧
    (IsAligned (wadd Ptr cfg.AlignedChunkHeaderSize) (2 ^ k) = false →
      cfg.MinAlignment < 2 ^ k) := by
  have hM : cfg.MinAlignment = 2 ^ cfg.MinAlignmentLog := rfl
  have hdvd : 2 ^ cfg.MinAlignmentLog ∣ 2 ^ k := Nat.pow_dvd_pow 2 hk1
  have hM1 : 2 ^ cfg.MinAlignmentLog ≤ 2 ^ k := Nat.pow_le_pow_right (by norm_num) hk1
  have hk : 2 ^ k ≤ 2 ^ 32 := Nat.pow_le_pow_right (by norm_num) hk32
  have hMpos : 0 < 2 ^ cfg.MinAlignmentLog := Nat.two_pow_pos _
  unfold userBegOf
  simp only
  rw [hH]
  rw [hM] at hpa ⊢
  generalize hMM : 2 ^ cfg.MinAlignmentLog = M at *
  have hU0 : wadd Ptr M = Ptr + M := wadd_of_lt _ _ (by omega)
  have hU0m : (Ptr + M) % M = 0 := by
    rw [Nat.add_mod_right]; exact hpa
  rw [hU0]
  cases hal : IsAligned (Ptr + M) (2 ^ k) with
  | true =>
    simp only [Bool.not_true, Bool.false_eq_true, if_false]
    have := (IsAligned_pow _ _).mp hal
    refine ⟨this, le_refl _, by omega, ?_, ?_⟩ <;> simp
  | false =>
    simp only [Bool.not_false, if_true]
    have hb := RoundUpTo_bounds (Ptr + M) k (by omega)
    have hm := RoundUpTo_mod (Ptr + M) k
    generalize RoundUpTo (Ptr + M) (2 ^ k) = U at *
    have hlt : M < 2 ^ k := by
      rcases Nat.lt_or_ge M (2 ^ k) with h | h
      · exact h
      · exfalso
        have e : 2 ^ k = M := le_antisymm h hM1
        rw [e] at hal
        have : IsAligned (Ptr + M) (2 ^ cfg.MinAlignmentLog) = true :=
          (IsAligned_pow _ _).mpr (by rw [hMM]; exact hU0m)
        rw [hMM] at this
        rw [this] at hal
        cases hal
    refine ⟨hm, hb.1, ?_, fun h => (by cases h), fun _ => hlt⟩
    obtain ⟨q, hq⟩ := hdvd
    have hUM : M ∣ U := Dvd.dvd.trans ⟨q, hq⟩ (Nat.dvd_of_mod_eq_zero hm)
    obtain ⟨u, hu⟩ := hUM
    obtain ⟨u0, hu0⟩ := Nat.dvd_of_mod_eq_zero hU0m
    have h1 : M * u < M * (u0 + q) := by
      rw [Nat.mul_add, ← hu, ← hu0, ← hq]; exact hb.2
    have h2 : u < u0 + q := Nat.lt_of_mul_lt_mul_left h1
    have h3 : M * (u + 1) ≤ M * (u0 + q) := Nat.mul_le_mul_left _ h2
    rw [Nat.mul_add, Nat.mul_add, ← hu, ← hu0, ← hq, Nat.mul_one] at h3
    omega

/-- Claim C37. For a request that passes the checks of `allocate` and is served by the
Primary (`CanAllocate(AlignedSize, MinAlignment)`, with a non-zero class id), with
`Alignment = 2 ^ k` between `MinAlignment` and `MaxAlignment` and a non-null backend
pointer aligned to `MinAlignment`: `allocate` returns the user pointer (no `CHECK` fails),
the user pointer is aligned to `Alignment`, the offset in units of `MinAlignment` is below
`2 ^ 16` and is the `Offset` stored in the header, and the user region
`[UserBeg, UserBeg + Size)` lies inside `[BackendPtr, BackendPtr + AllocSize)`. The
constants satisfy `Params.Sane`, `AlignedChunkHeaderSize = MinAlignment`, and
`performSanityChecks` has passed. -/
theorem allocate_primary_placement (cfg : Params) (a a0 : Allocator) (Size k T : Nat) (fz : Bool)
    (probe : RssProbe) (Ptr kLargestClassID : Nat)
    (hs : cfg.Sane) (hH : cfg.AlignedChunkHeaderSize = cfg.MinAlignment)
    (hsan : performSanityChecks cfg kLargestClassID = .ok ())
    (hk1 : cfg.MinAlignmentLog ≤ k) (hk2 : k ≤ cfg.MaxAlignmentLog)
    (hS : Size < MaxAllowedMallocSize)
    (hgate : rssGate a probe = .ok (false, a0))
    (hprim : CanAllocate cfg (alignedSizeOf cfg (if Size = 0 then 1 else Size) (2 ^ k))
      cfg.MinAlignment = true)
    (hcls : cfg.ClassID (alignedSizeOf cfg (if Size = 0 then 1 else Size) (2 ^ k)) % 2 ^ 8 ≠ 0)
    (hp0 : Ptr ≠ 0) (hpa : Ptr % cfg.MinAlignment = 0) (hpb : Ptr < 2 ^ 63) :
    ∃ a1, allocate cfg a Size (2 ^ k) T fz probe Ptr = .ok (userBegOf cfg Ptr (2 ^ k), a1) ∧
      userBegOf cfg Ptr (2 ^ k) % 2 ^ k = 0 ∧
      (userBegOf cfg Ptr (2 ^ k) - cfg.AlignedChunkHeaderSize - Ptr) >>> cfg.MinAlignmentLog <
        2 ^ 16 ∧
      (headerOf cfg (if Size = 0 then 1 else Size) (2 ^ k) T Ptr
        (cfg.ClassID (alignedSizeOf cfg (if Size = 0 then 1 else Size) (2 ^ k)) % 2 ^ 8)).Offset =
        (userBegOf cfg Ptr (2 ^ k) - cfg.AlignedChunkHeaderSize - Ptr) >>> cfg.MinAlignmentLog ∧
      Ptr ≤ userBegOf cfg Ptr (2 ^ k) ∧
      userBegOf cfg Ptr (2 ^ k) + (if Size = 0 then 1 else Size) ≤
        Ptr + alignedSizeOf cfg (if Size = 0 then 1 else Size) (2 ^ k) := by
  have hkm := performSanityChecks_kMaxSize cfg kLargestClassID hs hsan
  obtain ⟨s1, s2, s3, s4, s5, s6⟩ := hs
  obtain ⟨p1, p2, p3, p4, p5⟩ := userBegOf_placement cfg Ptr k hH hk1 (by omega) hpa hpb
  have hM : cfg.MinAlignment = 2 ^ cfg.MinAlignmentLog := rfl
  have hML : cfg.MinAlignment ≤ 2 ^ 32 := Nat.pow_le_pow_right (by norm_num) (by omega)
  have hM16 : 2 ^ 4 ≤ cfg.MinAlignment := Nat.pow_le_pow_right (by norm_num) s1
  have hkA : 2 ^ k ≤ 2 ^ cfg.MaxAlignmentLog := Nat.pow_le_pow_right (by norm_num) hk2
  have hkA32 : 2 ^ k ≤ 2 ^ 32 := Nat.pow_le_pow_right (by norm_num) (by omega)
  have hkM : cfg.MinAlignment ≤ 2 ^ k := Nat.pow_le_pow_right (by norm_num) hk1
  have hMax : MaxAllowedMallocSize = 2 ^ 40 := rfl
  generalize hSS : (if Size = 0 then 1 else Size) = S at *
  have hS1 : 0 < S ∧ S < 2 ^ 40 := by
    rw [← hSS]
    by_cases h0 : Size = 0
    · rw [if_pos h0]; omega
    · rw [if_neg h0]; omega
  -- the sizes, without wrap-around
  have hR : S ≤ RoundUpTo S cfg.MinAlignment ∧ RoundUpTo S cfg.MinAlignment < S + cfg.MinAlignment :=
    RoundUpTo_bounds S cfg.MinAlignmentLog (by rw [← hM]; omega)
  have hN : neededSizeOf cfg S = RoundUpTo S cfg.MinAlignment + cfg.MinAlignment := by
    unfold neededSizeOf
    rw [hH]
    exact wadd_of_lt _ _ (by omega)
  have hA : alignedSizeOf cfg S (2 ^ k) =
      if 2 ^ k > cfg.MinAlignment then RoundUpTo S cfg.MinAlignment + 2 ^ k
      else RoundUpTo S cfg.MinAlignment + cfg.MinAlignment := by
    unfold alignedSizeOf
    rw [hN, hH]
    by_cases hgt : 2 ^ k > cfg.MinAlignment
    · rw [if_pos hgt, if_pos hgt, wsub_of_le _ _ (le_of_lt hgt) (by unfold W; omega),
        wadd_of_lt _ _ (by omega)]
      omega
    · rw [if_neg hgt, if_neg hgt]
  have hle : alignedSizeOf cfg S (2 ^ k) ≤ cfg.kMaxSize := by
    unfold CanAllocate at hprim
    simp only [Bool.and_eq_true, decide_eq_true_eq] at hprim
    exact hprim.1
  -- the inclusion of the user region
  have hincl : userBegOf cfg Ptr (2 ^ k) + S ≤ Ptr + alignedSizeOf cfg S (2 ^ k) := by
    rw [hA]
    by_cases hgt : 2 ^ k > cfg.MinAlignment
    · rw [if_pos hgt]; omega
    · rw [if_neg hgt]
      cases hal : IsAligned (wadd Ptr cfg.AlignedChunkHeaderSize) (2 ^ k) with
      | true => have := p4 hal; omega
      | false => have := p5 hal; omega
  have hoff : userBegOf cfg Ptr (2 ^ k) - cfg.MinAlignment - Ptr < 2 ^ 20 := by
    rw [hA] at hle
    by_cases hgt : 2 ^ k > cfg.MinAlignment
    · rw [if_pos hgt] at hle; omega
    · omega
  have hfit : (userBegOf cfg Ptr (2 ^ k) - cfg.MinAlignment - Ptr) >>> cfg.MinAlignmentLog <
      2 ^ 16 := by
    rw [Nat.shiftRight_eq_div_pow]
    apply Nat.div_lt_of_lt_mul
    calc userBegOf cfg Ptr (2 ^ k) - cfg.MinAlignment - Ptr < 2 ^ 20 := hoff
      _ = 2 ^ 4 * 2 ^ 16 := by norm_num
      _ ≤ 2 ^ cfg.MinAlignmentLog * 2 ^ 16 := Nat.mul_le_mul_right _ hM16
  have hwsub : wsub (wsub (userBegOf cfg Ptr (2 ^ k)) cfg.AlignedChunkHeaderSize) Ptr =
      userBegOf cfg Ptr (2 ^ k) - cfg.MinAlignment - Ptr := by
    rw [hH, wsub_of_le (userBegOf cfg Ptr (2 ^ k)) cfg.MinAlignment (by omega)
      (by unfold W; omega), wsub_of_le _ _ (by omega) (by unfold W; omega)]
  have hrun : ∃ a1, allocate cfg a Size (2 ^ k) T fz probe Ptr =
      .ok (userBegOf cfg Ptr (2 ^ k), a1) := by
    have hadj : (if 2 ^ k < cfg.MinAlignment then cfg.MinAlignment else 2 ^ k) = 2 ^ k :=
      if_neg (by omega)
    unfold allocate
    rw [hadj, hSS, if_neg (by unfold Params.MaxAlignment; omega), if_neg (by omega),
      if_neg (by omega), hgate]
    simp only
    unfold allocateFromBackend
    rw [if_pos hprim]
    unfold allocateFinish
    rw [if_neg hp0]
    have hc2 : (!IsAligned (wadd Ptr cfg.AlignedChunkHeaderSize) (2 ^ k) &&
        (decide (cfg.ClassID (alignedSizeOf cfg S (2 ^ k)) % 2 ^ 8 = 0) ||
          !IsPowerOfTwo (2 ^ k))) = false := by
      rw [IsPowerOfTwo_two_pow, decide_eq_false hcls]
      simp
    rw [hc2]
    have hc3 : wadd (userBegOf cfg Ptr (2 ^ k)) S ≤ wadd Ptr (alignedSizeOf cfg S (2 ^ k)) := by
      rw [wadd_of_lt _ _ (by omega), wadd_of_lt _ _ (by omega)]
      exact hincl
    simp only [Bool.false_eq_true, if_false, not_not.mpr hc3]
    exact ⟨_, rfl⟩
  obtain ⟨a1, ha1⟩ := hrun
  rw [hH]
  refine ⟨a1, ha1, p1, hfit, ?_, by omega, hincl⟩
  · rw [headerOf_offset, hwsub, Nat.mod_eq_of_lt hfit]
    cases hal : IsAligned (wadd Ptr cfg.AlignedChunkHeaderSize) (2 ^ k) with
    | true =>
      rw [if_pos rfl, p4 hal]
      have : Ptr + cfg.MinAlignment - cfg.MinAlignment - Ptr = 0 := by omega
      rw [this]
      simp
    | false => rw [if_neg (by simp)]

/-- Witness for C37: 100 bytes aligned to 64 in the Primary block at 0x10000; the user
pointer moves from 0x10010 to 0x10040. -/
theorem allocate_primary_placement_witness :
    (exampleParams.Sane ∧ performSanityChecks exampleParams 255 = .ok () ∧
      CanAllocate exampleParams (alignedSizeOf exampleParams 100 (2 ^ 6))
        exampleParams.MinAlignment = true) ∧
    ∃ a1, allocate exampleParams (exampleAllocator 0 0) 100 (2 ^ 6) FromMemalign false
        exampleProbe 65536 = .ok (65600, a1) ∧
      65600 % 2 ^ 6 = 0 ∧ 65600 + 100 ≤ 65536 + alignedSizeOf exampleParams 100 (2 ^ 6) := by
  obtain ⟨a1, h, h1, _, _, _, h2⟩ := allocate_primary_placement exampleParams
    (exampleAllocator 0 0) (exampleAllocator 0 0) 100 6 FromMemalign false exampleProbe 65536 255
    (by decide) rfl rfl (by decide) (by decide) (by decide) rfl (by decide) (by decide)
    (by decide) (by decide) (by decide)
  have e : userBegOf exampleParams 65536 (2 ^ 6) = 65600 := by decide
  rw [e] at h h1 h2
  exact ⟨⟨by decide, rfl, by decide⟩, a1, h, h1, h2⟩

end Scudo

namespace Lsan

/-! ### One word, one range -/

theorem scanWord_hit (W : World) (b : Nat) (fr : Bool) (tag : ScanTag) (pp : Nat)
    (s : ScanState) (c : Nat) (hp : PointsTo W b pp c) (hr : ¬ Reached (s.tag c)) :
    scanWord W b fr tag pp s = tagAndPush fr tag c s := by
  obtain ⟨h1, h2, h3, h4, h5⟩ := hp
  unfold scanWord tagAndPush
  simp only [h1, Bool.not_true, Bool.false_eq_true, if_false, h2, h3, h4]
  have hr' : ¬ (s.tag c = .kReachable ∨ s.tag c = .kIgnored) := hr
  rw [if_neg hr']
  have h6 : (!W.flags.use_poisoned && W.WordIsPoisoned pp) = false := by
    rcases h5 with h5 | h5 <;> simp [h5]
  simp only [h6, Bool.false_eq_true, if_false]

theorem scanWord_cases (W : World) (b : Nat) (fr : Bool) (tag : ScanTag) (pp : Nat)
    (s : ScanState) :
    scanWord W b fr tag pp s = s ∨
    ∃ c, PointsTo W b pp c ∧ ¬ Reached (s.tag c) ∧ scanWord W b fr tag pp s = tagAndPush fr tag c s := by
  by_cases h1 : CanBeAHeapPointer (W.mem pp) = true
  swap
  · left; unfold scanWord; simp [h1]
  by_cases h3 : W.PointsIntoChunk (W.mem pp) = 0
  · left; unfold scanWord; simp [h1, h3]
  by_cases h4 : W.PointsIntoChunk (W.mem pp) = b
  · left; unfold scanWord; simp [h1, h3, h4]
  by_cases hr : Reached (s.tag (W.PointsIntoChunk (W.mem pp)))
  · left
    unfold scanWord
    have hr' : s.tag (W.PointsIntoChunk (W.mem pp)) = .kReachable ∨
        s.tag (W.PointsIntoChunk (W.mem pp)) = .kIgnored := hr
    simp only [h1, Bool.not_true, Bool.false_eq_true, if_false, h3, h4]
    rw [if_pos hr']
  by_cases h6 : (!W.flags.use_poisoned && W.WordIsPoisoned pp) = true
  · left
    unfold scanWord
    have hr' : ¬ (s.tag (W.PointsIntoChunk (W.mem pp)) = .kReachable ∨
        s.tag (W.PointsIntoChunk (W.mem pp)) = .kIgnored) := hr
    simp only [h1, Bool.not_true, Bool.false_eq_true, if_false, h3, h4]
    rw [if_neg hr', if_pos h6]
  · right
    have h5 : W.flags.use_poisoned = true ∨ W.WordIsPoisoned pp = false := by
      cases hu : W.flags.use_poisoned <;> cases hw : W.WordIsPoisoned pp <;> simp [hu, hw] at h6 ⊢
    have hp : PointsTo W b pp (W.PointsIntoChunk (W.mem pp)) := ⟨h1, rfl, h3, h4, h5⟩
    exact ⟨_, hp, hr, scanWord_hit W b fr tag pp s _ hp hr⟩

theorem tagAndPush_tag (fr : Bool) (tag : ScanTag) (c : Nat) (s : ScanState) (x : Nat) :
    (tagAndPush fr tag c s).tag x = if x = c then tag.toTag else s.tag x := by
  unfold tagAndPush
  split <;> rfl

theorem tagAndPush_frontier (fr : Bool) (tag : ScanTag) (c : Nat) (s : ScanState) :
    (tagAndPush fr tag c s).frontier = if fr then c :: s.frontier else s.frontier := by
  unfold tagAndPush
  split <;> rfl

theorem scanWord_tag_of_reached (W : World) (b : Nat) (fr : Bool) (tag : ScanTag) (pp : Nat)
    (s : ScanState) (c : Nat) (h : Reached (s.tag c)) :
    (scanWord W b fr tag pp s).tag c = s.tag c := by
  rcases scanWord_cases W b fr tag pp s with h1 | ⟨c', _, hr, h1⟩
  · rw [h1]
  · rw [h1, tagAndPush_tag]
    split
    · rename_i hc; subst hc; exact absurd h hr
    · rfl

/-- The loop of a scan keeps every property that each of its words keeps. -/
theorem scanLoop_induct (W : World) (b e : Nat) (fr : Bool) (tag : ScanTag)
    (P : ScanState → Prop) (pp0 : Nat)
    (hstep : ∀ pp s, pp0 ≤ pp → pp + 8 ≤ e → (pp - pp0) % W.flags.pointer_alignment = 0 →
      P s → P (scanWord W b fr tag pp s)) :
    ∀ (fuel pp : Nat) (s : ScanState), pp0 ≤ pp → (pp - pp0) % W.flags.pointer_alignment = 0 →
      P s → P (scanLoop W b e fr tag fuel pp s) := by
  intro fuel
  induction fuel with
  | zero => intro pp s _ _ h; exact h
  | succ n ih =>
    intro pp s h1 h2 h
    simp only [scanLoop]
    split
    · rename_i hle
      apply ih
      · omega
      · have : pp + W.flags.pointer_alignment - pp0 = (pp - pp0) + W.flags.pointer_alignment := by
          omega
        rw [this, Nat.add_mod_right]
        exact h2
      · exact hstep pp s h1 hle h2 h
    · exact h

theorem pointer_alignment_cases (W : World) :
    W.flags.pointer_alignment = 1 ∨ W.flags.pointer_alignment = 8 := by
  unfold Flags.pointer_alignment
  split
  · exact Or.inl rfl
  · exact Or.inr rfl

theorem scanStart_spec (W : World) (b : Nat) :
    b ≤ scanStart W b ∧ scanStart W b % W.flags.pointer_alignment = 0 ∧
      scanStart W b < b + W.flags.pointer_alignment := by
  unfold scanStart
  rcases pointer_alignment_cases W with h | h <;> rw [h] <;> split <;> omega

theorem visits_iff (W : World) (b e pp : Nat) :
    Visits W b e pp ↔ scanStart W b ≤ pp ∧ pp + 8 ≤ e ∧
      (pp - scanStart W b) % W.flags.pointer_alignment = 0 := by
  obtain ⟨h1, h2, h3⟩ := scanStart_spec W b
  unfold Visits
  rcases pointer_alignment_cases W with h | h <;> rw [h] at h2 h3 ⊢ <;> constructor <;>
    intro ⟨a1, a2, a3⟩ <;> refine ⟨?_, ?_, ?_⟩ <;> omega

/-- A scan keeps every property that each word it reads keeps. -/
theorem scan_induct (W : World) (b e : Nat) (fr : Bool) (tag : ScanTag)
    (P : ScanState → Prop)
    (hstep : ∀ pp s, Visits W b e pp → P s → P (scanWord W b fr tag pp s))
    (s : ScanState) (h : P s) : P (ScanRangeForPointers W b e fr tag s) := by
  unfold ScanRangeForPointers
  apply scanLoop_induct W b e fr tag P (scanStart W b)
  · intro pp s h1 h2 h3 hs
    exact hstep pp s ((visits_iff W b e pp).mpr ⟨h1, h2, h3⟩) hs
  · exact le_refl _
  · simp
  · exact h

/-! ### Marking steps -/

theorem reached_toTag : Reached (ScanTag.toTag .kReachable) := Or.inl rfl

theorem countP_lt_of_imp {α : Type} (p q : α → Bool) (l : List α)
    (himp : ∀ x ∈ l, q x = true → p x = true) (c : α) (hc : c ∈ l) (hp : p c = true)
    (hq : q c = false) : l.countP q < l.countP p := by
  induction l with
  | nil => cases hc
  | cons a rest ih =>
    have hle : rest.countP q ≤ rest.countP p :=
      List.countP_mono_left (fun x hx h => himp x (List.mem_cons_of_mem _ hx) h)
    rcases List.mem_cons.mp hc with h | h
    · subst h
      rw [List.countP_cons_of_pos _ _ hp, List.countP_cons_of_neg _ _ (by simp [hq])]
      omega
    · have ih' := ih (fun x hx h' => himp x (List.mem_cons_of_mem _ hx) h') h
      by_cases hqa : q a = true
      · have hpa := himp a (List.mem_cons_self _ _) hqa
        rw [List.countP_cons_of_pos _ _ hpa, List.countP_cons_of_pos _ _ hqa]
        omega
      · rw [List.countP_cons_of_neg _ _ hqa]
        by_cases hpa : p a = true
        · rw [List.countP_cons_of_pos _ _ hpa]; omega
        · rw [List.countP_cons_of_neg _ _ hpa]; exact ih'

/-- Tagging a chunk with a reached tag never raises the count of unreached chunks. -/
theorem unreachedCount_set_tag_le (W : World) (s : ScanState) (c : Nat) (t : ChunkTag)
    (ht : Reached t) : unreachedCount W (s.set_tag c t) ≤ unreachedCount W s := by
  unfold unreachedCount
  apply List.countP_mono_left
  intro x _ hx
  simp only [ScanState.set_tag, Bool.and_eq_true, Bool.not_eq_true', decide_eq_false_iff_not] at hx ⊢
  refine ⟨hx.1, ?_⟩
  intro hr
  apply hx.2
  split
  · exact ht
  · exact hr

/-- Tagging a live unreached chunk with a reached tag lowers the count. -/
theorem unreachedCount_set_tag_lt (W : World) (s : ScanState) (c : Nat) (t : ChunkTag)
    (ht : Reached t) (hl : Live W c) (hn : ¬ Reached (s.tag c)) :
    unreachedCount W (s.set_tag c t) < unreachedCount W s := by
  unfold unreachedCount
  apply countP_lt_of_imp _ _ _ _ c hl.1
  · simp [hl.2, hn]
  · simp [ScanState.set_tag, ht]
  · intro x _ hx
    simp only [ScanState.set_tag, Bool.and_eq_true, Bool.not_eq_true', decide_eq_false_iff_not] at hx ⊢
    refine ⟨hx.1, ?_⟩
    intro hr
    apply hx.2
    split
    · exact ht
    · exact hr

theorem unreachedCount_le (W : World) (s : ScanState) : unreachedCount W s ≤ W.chunks.length := by
  unfold unreachedCount
  have := List.countP_le_length (fun c => W.allocated c && !decide (Reached (s.tag c)))
    (l := W.chunks.map W.GetUserBegin)
  simpa using this

theorem justified_unreached (W : World) (K : Nat → Prop) (tag0 : Nat → ChunkTag) (s : ScanState)
    (h : Justified W K tag0 s) (c : Nat) (hn : ¬ Reached (s.tag c)) : ¬ Reached (tag0 c) := by
  rcases h.1 c with h1 | ⟨_, _, h1, _⟩
  · rw [← h1]; exact hn
  · exact absurd h1 hn

theorem closed_mono (W : World) (s s' : ScanState) (c : Nat)
    (hm : ∀ x, Reached (s.tag x) → Reached (s'.tag x)) (h : Closed W s c) : Closed W s' c :=
  fun t ht => hm t (h t ht)

/-- The mark-and-push step keeps the flood-fill invariant. -/
theorem fillInv_mark (W : World) (P : Nat → Prop) (s : ScanState) (c : Nat) (t : ChunkTag)
    (ht : Reached t) (h : FillInv W P s) :
    FillInv W P ((s.set_tag c t).push_back c) := by
  intro x hx hr
  by_cases hxc : x = c
  · right; left
    subst hxc
    simp [ScanState.push_back]
  · have htag : ((s.set_tag c t).push_back c).tag x = s.tag x := by
      simp [ScanState.push_back, ScanState.set_tag, hxc]
    rw [htag] at hr
    rcases h x hx hr with h1 | h1 | h1
    · exact Or.inl h1
    · right; left
      simp only [ScanState.push_back, ScanState.set_tag, List.mem_cons]
      exact Or.inr h1
    · right; right
      apply closed_mono W s _ x _ h1
      intro y hy
      simp only [ScanState.push_back, ScanState.set_tag]
      split
      · exact ht
      · exact hy

/-- The mark-and-push step of a live chunk of `K` keeps the tags justified. -/
theorem justified_mark (W : World) (K : Nat → Prop) (tag0 : Nat → ChunkTag) (s : ScanState)
    (c : Nat) (t : ChunkTag) (ht : Reached t) (hl : Live W c) (hk : K c)
    (hx : Reached (tag0 c) → CtxTarget W c)
    (h : Justified W K tag0 s) : Justified W K tag0 ((s.set_tag c t).push_back c) := by
  refine ⟨fun x => ?_, fun n hn => ?_⟩
  · simp only [ScanState.push_back, ScanState.set_tag]
    split
    · rename_i hxc
      subst hxc
      exact Or.inr ⟨hl, hk, ht, hx⟩
    · exact h.1 x
  · simp only [ScanState.push_back, ScanState.set_tag, List.mem_cons] at hn
    rcases hn with hn | hn
    · subst hn; exact ⟨hl, hk⟩
    · exact h.2 n hn

/-! ### Scans that mark reachable chunks -/

theorem fillMeasure_mark (W : World) (s : ScanState) (c : Nat) (t : ChunkTag) (ht : Reached t)
    (hl : Live W c) (hn : ¬ Reached (s.tag c)) :
    fillMeasure W ((s.set_tag c t).push_back c) ≤ fillMeasure W s := by
  have h := unreachedCount_set_tag_lt W s c t ht hl hn
  have e : unreachedCount W ((s.set_tag c t).push_back c) = unreachedCount W (s.set_tag c t) := rfl
  have e2 : ((s.set_tag c t).push_back c).frontier.length = s.frontier.length + 1 := rfl
  unfold fillMeasure
  rw [e, e2]
  omega

theorem pointsTo_live (W : World) (hPIC : PointsIntoLive W) (b pp c : Nat)
    (hp : PointsTo W b pp c) : Live W c := by
  obtain ⟨_, h2, h3, _, _⟩ := hp
  have := hPIC (W.mem pp)
  rw [h2] at this
  exact this h3

/-- A scan with `kReachable` and a frontier keeps the flood-fill invariant and the
justification of the tags, and does not raise the termination measure. -/
theorem scan_reach_keeps (W : World) (hPIC : PointsIntoLive W) (K : Nat → Prop)
    (tag0 : Nat → ChunkTag) (P : Nat → Prop) (b e : Nat)
    (hK : ∀ c, RangePointsTo W b e c → K c) (s : ScanState) (n : Nat)
    (h1 : FillInv W P s) (h2 : Justified W K tag0 s) (h3 : fillMeasure W s ≤ n) :
    FillInv W P (ScanRangeForPointers W b e true .kReachable s) ∧
    Justified W K tag0 (ScanRangeForPointers W b e true .kReachable s) ∧
    fillMeasure W (ScanRangeForPointers W b e true .kReachable s) ≤ n := by
  apply scan_induct W b e true .kReachable
    (fun s' => FillInv W P s' ∧ Justified W K tag0 s' ∧ fillMeasure W s' ≤ n)
  · intro pp s' hv ⟨a1, a2, a3⟩
    rcases scanWord_cases W b true .kReachable pp s' with h | ⟨c, hp, hr, h⟩
    · rw [h]; exact ⟨a1, a2, a3⟩
    · rw [h]
      have hl := pointsTo_live W hPIC b pp c hp
      have hk : K c := hK c ⟨pp, hv, hp⟩
      have e : tagAndPush true .kReachable c s' = (s'.set_tag c .kReachable).push_back c := rfl
      rw [e]
      exact ⟨fillInv_mark W P s' c _ (Or.inl rfl) a1,
        justified_mark W K tag0 s' c _ (Or.inl rfl) hl hk
          (fun h => absurd h (justified_unreached W K tag0 s' a2 c hr)) a2,
        le_trans (fillMeasure_mark W s' c _ (Or.inl rfl) hl hr) a3⟩
  · exact ⟨h1, h2, h3⟩

/-- A scan never changes the tag of a reached chunk. -/
theorem scan_tag_of_reached (W : World) (b e : Nat) (fr : Bool) (tag : ScanTag) (s : ScanState)
    (c : Nat) (h : Reached (s.tag c)) :
    (ScanRangeForPointers W b e fr tag s).tag c = s.tag c := by
  apply scan_induct W b e fr tag (fun s' => s'.tag c = s.tag c)
  · intro pp s' _ hs'
    have : Reached (s'.tag c) := by rw [hs']; exact h
    rw [scanWord_tag_of_reached W b fr tag pp s' c this, hs']
  · rfl

/-- A scan changes the tag of a chunk only if a word of the range counts as a
pointer to it, and then to the tag of the scan. -/
theorem scan_tag_cases (W : World) (b e : Nat) (fr : Bool) (tag : ScanTag) (s : ScanState)
    (c : Nat) :
    (ScanRangeForPointers W b e fr tag s).tag c = s.tag c ∨
    ((ScanRangeForPointers W b e fr tag s).tag c = tag.toTag ∧ ¬ Reached (s.tag c) ∧
      RangePointsTo W b e c) := by
  apply scan_induct W b e fr tag (fun s' => s'.tag c = s.tag c ∨
    (s'.tag c = tag.toTag ∧ ¬ Reached (s.tag c) ∧ RangePointsTo W b e c))
  · intro pp s' hv hs'
    rcases scanWord_cases W b fr tag pp s' with h | ⟨c', hp, hr, h⟩
    · rw [h]; exact hs'
    · rw [h, tagAndPush_tag]
      by_cases hc : c = c'
      · subst hc
        simp only [if_true]
        right
        refine ⟨True.intro, ?_, ⟨pp, hv, hp⟩⟩
        rcases hs' with h1 | h1
        · rw [← h1]; exact hr
        · exact h1.2.1
      · simp only [hc, if_false]
        exact hs'
  · exact Or.inl rfl

theorem scan_frontier_mono (W : World) (b e : Nat) (fr : Bool) (tag : ScanTag) (s : ScanState)
    (x : Nat) (h : x ∈ s.frontier) : x ∈ (ScanRangeForPointers W b e fr tag s).frontier := by
  apply scan_induct W b e fr tag (fun s' => x ∈ s'.frontier)
  · intro pp s' _ hs'
    rcases scanWord_cases W b fr tag pp s' with h | ⟨c', _, _, h⟩
    · rw [h]; exact hs'
    · rw [h, tagAndPush_frontier]
      split
      · exact List.mem_cons_of_mem _ hs'
      · exact hs'
  · exact h

theorem scan_frontier_nil (W : World) (b e : Nat) (tag : ScanTag) (s : ScanState) :
    (ScanRangeForPointers W b e false tag s).frontier = s.frontier := by
  apply scan_induct W b e false tag (fun s' => s'.frontier = s.frontier)
  · intro pp s' _ hs'
    rcases scanWord_cases W b false tag pp s' with h | ⟨c', _, _, h⟩
    · rw [h]; exact hs'
    · rw [h, tagAndPush_frontier]; exact hs'
  · rfl

/-- After the word at `ppx` has been read, the chunk it points to carries the tag of
the scan, unless it was reached before the scan. -/
theorem scanLoop_hit (W : World) (b e : Nat) (fr : Bool) (tag : ScanTag) (c ppx : Nat)
    (hp : PointsTo W b ppx c) (hx : ppx + 8 ≤ e) (tag0 : Nat → ChunkTag) :
    ∀ (fuel pp : Nat) (s : ScanState), pp ≤ ppx → (ppx - pp) % W.flags.pointer_alignment = 0 →
      e ≤ pp + fuel → (s.tag c = tag0 c ∨ s.tag c = tag.toTag) →
      ((scanLoop W b e fr tag fuel pp s).tag c = tag0 c ∧ Reached (tag0 c)) ∨
        (scanLoop W b e fr tag fuel pp s).tag c = tag.toTag := by
  have hQ : ∀ (pp : Nat) (s : ScanState), ((s.tag c = tag0 c ∧ Reached (tag0 c)) ∨ s.tag c = tag.toTag) →
      (((scanWord W b fr tag pp s).tag c = tag0 c ∧ Reached (tag0 c)) ∨
        (scanWord W b fr tag pp s).tag c = tag.toTag) := by
    intro pp s hs
    rcases scanWord_cases W b fr tag pp s with h | ⟨c', _, hr, h⟩
    · rw [h]; exact hs
    · rw [h, tagAndPush_tag]
      by_cases hc : c = c'
      · simp [hc]
      · simp only [hc, if_false]; exact hs
  have ha := pointer_alignment_cases W
  intro fuel
  induction fuel with
  | zero => intro pp s h1 _ h3 _; omega
  | succ n ih =>
    intro pp s h1 h2 h3 hs
    simp only [scanLoop]
    have hle : pp + 8 ≤ e := by omega
    rw [if_pos hle]
    by_cases hpp : pp = ppx
    · subst hpp
      have hfirst : ((scanWord W b fr tag pp s).tag c = tag0 c ∧ Reached (tag0 c)) ∨
          (scanWord W b fr tag pp s).tag c = tag.toTag := by
        by_cases hr : Reached (s.tag c)
        · rw [scanWord_tag_of_reached W b fr tag pp s c hr]
          rcases hs with h | h
          · left; exact ⟨h, by rw [← h]; exact hr⟩
          · right; exact h
        · right
          rw [scanWord_hit W b fr tag pp s c hp hr, tagAndPush_tag]
          simp
      exact scanLoop_induct W b e fr tag
        (fun s' => (s'.tag c = tag0 c ∧ Reached (tag0 c)) ∨ s'.tag c = tag.toTag)
        (pp + W.flags.pointer_alignment) (fun q s' _ _ _ hs' => hQ q s' hs') n _ _ (le_refl _)
        (by simp) hfirst
    · apply ih
      · rcases ha with h | h <;> rw [h] at h2 ⊢ <;> omega
      · rcases ha with h | h <;> rw [h] at h2 ⊢ <;> omega
      · rcases ha with h | h <;> rw [h] <;> omega
      · rcases scanWord_cases W b fr tag pp s with h | ⟨c', _, _, h⟩
        · rw [h]; exact hs
        · rw [h, tagAndPush_tag]
          by_cases hc : c = c'
          · simp [hc]
          · simp only [hc, if_false]; exact hs

/-- After a scan, every chunk that a word of the range points to carries the tag of
the scan, unless it was reached before. -/
theorem scan_hit (W : World) (b e : Nat) (fr : Bool) (tag : ScanTag) (s : ScanState) (c : Nat)
    (h : RangePointsTo W b e c) :
    ((ScanRangeForPointers W b e fr tag s).tag c = s.tag c ∧ Reached (s.tag c)) ∨
      (ScanRangeForPointers W b e fr tag s).tag c = tag.toTag := by
  obtain ⟨pp, hv, hp⟩ := h
  obtain ⟨v1, v2, v3⟩ := (visits_iff W b e pp).mp hv
  unfold ScanRangeForPointers
  apply scanLoop_hit W b e fr tag c pp hp v2 s.tag _ _ s v1 v3
  · omega
  · exact Or.inl rfl

theorem scan_hit_reached (W : World) (b e : Nat) (fr : Bool) (s : ScanState) (c : Nat)
    (h : RangePointsTo W b e c) :
    Reached ((ScanRangeForPointers W b e fr .kReachable s).tag c) := by
  rcases scan_hit W b e fr .kReachable s c h with ⟨h1, h2⟩ | h1
  · rw [h1]; exact h2
  · rw [h1]; exact Or.inl rfl

theorem scan_reached_mono (W : World) (b e : Nat) (fr : Bool) (tag : ScanTag) (s : ScanState)
    (x : Nat) (h : Reached (s.tag x)) : Reached ((ScanRangeForPointers W b e fr tag s).tag x) := by
  rw [scan_tag_of_reached W b e fr tag s x h]; exact h

/-! ### Root scans -/

theorem scanRanges_append (W : World) (l1 l2 : List (Nat × Nat)) (s : ScanState) :
    scanRanges W (l1 ++ l2) s = scanRanges W l2 (scanRanges W l1 s) := by
  induction l1 generalizing s with
  | nil => rfl
  | cons r rest ih => simp only [List.cons_append, scanRanges]; exact ih _

theorem scanRanges_keeps (W : World) (hPIC : PointsIntoLive W) (K : Nat → Prop)
    (tag0 : Nat → ChunkTag) (P : Nat → Prop) (l : List (Nat × Nat))
    (hK : ∀ r ∈ l, ∀ c, RangePointsTo W r.1 r.2 c → K c) (s : ScanState) (n : Nat)
    (h1 : FillInv W P s) (h2 : Justified W K tag0 s) (h3 : fillMeasure W s ≤ n) :
    FillInv W P (scanRanges W l s) ∧ Justified W K tag0 (scanRanges W l s) ∧
      fillMeasure W (scanRanges W l s) ≤ n := by
  induction l generalizing s with
  | nil => exact ⟨h1, h2, h3⟩
  | cons r rest ih =>
    simp only [scanRanges]
    obtain ⟨a1, a2, a3⟩ := scan_reach_keeps W hPIC K tag0 P r.1 r.2
      (hK r (List.mem_cons_self _ _)) s n h1 h2 h3
    exact ih (fun r' hr' => hK r' (List.mem_cons_of_mem _ hr')) _ a1 a2 a3

theorem scanRanges_reached_mono (W : World) (l : List (Nat × Nat)) (s : ScanState) (x : Nat)
    (h : Reached (s.tag x)) : Reached ((scanRanges W l s).tag x) := by
  induction l generalizing s with
  | nil => exact h
  | cons r rest ih =>
    simp only [scanRanges]
    exact ih _ (scan_reached_mono W r.1 r.2 true .kReachable s x h)

theorem scanRanges_hit (W : World) (l : List (Nat × Nat)) (s : ScanState) (r : Nat × Nat)
    (hr : r ∈ l) (c : Nat) (h : RangePointsTo W r.1 r.2 c) :
    Reached ((scanRanges W l s).tag c) := by
  induction l generalizing s with
  | nil => cases hr
  | cons r' rest ih =>
    simp only [scanRanges]
    rcases List.mem_cons.mp hr with h1 | h1
    · subst h1
      exact scanRanges_reached_mono W rest _ c (scan_hit_reached W r.1 r.2 true s c h)
    · exact ih _ h1

theorem ScanGlobalRange_eq (W : World) (r : Nat × Nat) (s : ScanState)
    (hc : r.1 ≤ W.allocator_begin ∧ W.allocator_begin < r.2 →
      W.allocator_begin ≤ W.allocator_end ∧ W.allocator_end ≤ r.2) :
    ScanGlobalRange W r.1 r.2 s = .ok (scanRanges W (globalSubranges W r) s) := by
  unfold ScanGlobalRange globalSubranges
  by_cases h : r.1 ≤ W.allocator_begin ∧ W.allocator_begin < r.2
  · obtain ⟨c1, c2⟩ := hc h
    rw [if_pos h, if_pos h, if_neg (not_not.mpr c1), if_neg (not_not.mpr c2)]
    by_cases h1 : r.1 < W.allocator_begin <;> by_cases h2 : W.allocator_end < r.2 <;>
      simp [h1, h2, scanRanges]
  · rw [if_neg h, if_neg h]
    rfl

theorem foldlM_ScanGlobalRange (W : World) (l : List (Nat × Nat)) (s : ScanState)
    (hc : ∀ r ∈ l, r.1 ≤ W.allocator_begin ∧ W.allocator_begin < r.2 →
      W.allocator_begin ≤ W.allocator_end ∧ W.allocator_end ≤ r.2) :
    l.foldlM (fun st r => ScanGlobalRange W r.1 r.2 st) s =
      .ok (scanRanges W (l.flatMap (globalSubranges W)) s) := by
  induction l generalizing s with
  | nil => rfl
  | cons r rest ih =>
    rw [List.foldlM_cons, ScanGlobalRange_eq W r s (hc r (List.mem_cons_self _ _))]
    simp only [List.flatMap_cons, scanRanges_append]
    exact ih _ (fun r' hr' => hc r' (List.mem_cons_of_mem _ hr'))

theorem ProcessGlobalRegions_eq (W : World) (hg : GlobalChecksPass W) (s : ScanState) :
    ProcessGlobalRegions W s = .ok (scanRanges W
      (if W.flags.use_globals then W.global_ranges.flatMap (globalSubranges W) else []) s) := by
  unfold ProcessGlobalRegions
  cases hu : W.flags.use_globals with
  | false => simp [scanRanges]
  | true =>
    simp only [Bool.not_true, Bool.false_eq_true, if_false, if_true]
    exact foldlM_ScanGlobalRange W _ s (hg hu)

theorem ScanRootRegion_eq (W : World) (r : RootRegion) (seg : MemoryMappedSegment)
    (s : ScanState) :
    ScanRootRegion W r seg.start seg.end_ seg.readable s =
      scanRanges W (rootRegionSubrange r seg) s := by
  unfold ScanRootRegion rootRegionSubrange
  simp only
  split
  · rfl
  · split <;> rfl

theorem ProcessRootRegion_eq (W : World) (r : RootRegion) (l : List MemoryMappedSegment)
    (s : ScanState) :
    l.foldl (fun st seg => ScanRootRegion W r seg.start seg.end_ seg.readable st) s =
      scanRanges W (l.flatMap (rootRegionSubrange r)) s := by
  induction l generalizing s with
  | nil => rfl
  | cons seg rest ih =>
    simp only [List.foldl_cons, List.flatMap_cons, scanRanges_append]
    rw [ScanRootRegion_eq]
    exact ih _

theorem ProcessRootRegions_eq (W : World) (s : ScanState) :
    ProcessRootRegions W s = scanRanges W
      (if W.flags.use_root_regions then
        W.root_regions.flatMap (fun r => W.proc_maps.flatMap (rootRegionSubrange r)) else []) s := by
  unfold ProcessRootRegions
  cases hu : W.flags.use_root_regions with
  | false => simp [scanRanges]
  | true =>
    simp only [Bool.not_true, Bool.false_eq_true, if_false, if_true]
    generalize W.root_regions = l
    induction l generalizing s with
    | nil => rfl
    | cons r rest ih =>
      simp only [List.foldl_cons, List.flatMap_cons, scanRanges_append]
      rw [ih]
      congr 1
      unfold ProcessRootRegion
      exact ProcessRootRegion_eq W r W.proc_maps s

/-! ### Thread contexts -/

theorem registry_keeps (W : World) (hPIC : PointsIntoLive W) (K : Nat → Prop)
    (tag0 : Nat → ChunkTag) (P : Nat → Prop) (l : List Nat)
    (hl : ∀ ptr ∈ l, ptr ∈ W.thread_context_ptrs)
    (hK : ∀ ptr ∈ l, W.PointsIntoChunk ptr ≠ 0 → K (W.PointsIntoChunk ptr)) (s : ScanState)
    (n : Nat) (h1 : FillInv W P s) (h2 : Justified W K tag0 s) (h3 : fillMeasure W s ≤ n) :
    let s' := l.foldl (registryStep W) s
    FillInv W P s' ∧ Justified W K tag0 s' ∧ fillMeasure W s' ≤ n + l.length ∧
      (∀ x, Reached (s.tag x) → Reached (s'.tag x)) ∧
      (∀ ptr ∈ l, W.PointsIntoChunk ptr ≠ 0 → Reached (s'.tag (W.PointsIntoChunk ptr))) := by
  induction l generalizing s n with
  | nil => exact ⟨h1, h2, by simpa using h3, fun _ h => h, fun _ h => by cases h⟩
  | cons ptr rest ih =>
    simp only [List.foldl_cons]
    by_cases hz : W.PointsIntoChunk ptr = 0
    · have e0 : registryStep W s ptr = s := by simp [registryStep, hz]
      rw [e0]
      obtain ⟨a1, a2, a3, a4, a5⟩ := ih (fun p hp => hl p (List.mem_cons_of_mem _ hp))
        (fun p hp => hK p (List.mem_cons_of_mem _ hp)) s n h1 h2 h3
      refine ⟨a1, a2, by simp only [List.length_cons]; omega, a4, ?_⟩
      intro p hp hpz
      rcases List.mem_cons.mp hp with h | h
      · subst h; exact absurd hz hpz
      · exact a5 p h hpz
    · have hlv : Live W (W.PointsIntoChunk ptr) := hPIC ptr hz
      have e0 : registryStep W s ptr = (s.set_tag (W.PointsIntoChunk ptr) .kReachable).push_back
          (W.PointsIntoChunk ptr) := by
        simp [registryStep, hz, hlv.2]
      rw [e0]
      have hk := hK ptr (List.mem_cons_self _ _) hz
      have hm : fillMeasure W ((s.set_tag (W.PointsIntoChunk ptr) .kReachable).push_back
          (W.PointsIntoChunk ptr)) ≤ n + 1 := by
        have := unreachedCount_set_tag_le W s (W.PointsIntoChunk ptr) .kReachable (Or.inl rfl)
        have e : unreachedCount W ((s.set_tag (W.PointsIntoChunk ptr) .kReachable).push_back
          (W.PointsIntoChunk ptr)) = unreachedCount W (s.set_tag (W.PointsIntoChunk ptr) .kReachable) := rfl
        have e2 : ((s.set_tag (W.PointsIntoChunk ptr) .kReachable).push_back
          (W.PointsIntoChunk ptr)).frontier.length = s.frontier.length + 1 := rfl
        unfold fillMeasure at h3 ⊢
        rw [e, e2]
        omega
      obtain ⟨a1, a2, a3, a4, a5⟩ := ih (fun p hp => hl p (List.mem_cons_of_mem _ hp))
        (fun p hp => hK p (List.mem_cons_of_mem _ hp)) _ (n + 1)
        (fillInv_mark W P s _ _ (Or.inl rfl) h1)
        (justified_mark W K tag0 s _ _ (Or.inl rfl) hlv hk
          (fun _ => ⟨ptr, hl ptr (List.mem_cons_self _ _), rfl, hz⟩) h2) hm
      have hstep : ∀ x, Reached (s.tag x) →
          Reached (((s.set_tag (W.PointsIntoChunk ptr) .kReachable).push_back
            (W.PointsIntoChunk ptr)).tag x) := by
        intro x hx
        simp only [ScanState.push_back, ScanState.set_tag]
        split
        · exact Or.inl rfl
        · exact hx
      refine ⟨a1, a2, by simp only [List.length_cons]; omega, fun x hx => a4 x (hstep x hx), ?_⟩
      intro p hp hpz
      rcases List.mem_cons.mp hp with h | h
      · subst h
        apply a4
        simp [ScanState.push_back, ScanState.set_tag, Reached]
      · exact a5 p h hpz

/-! ### Flood fill -/

theorem justified_pop (W : World) (K : Nat → Prop) (tag0 tag : Nat → ChunkTag) (n : Nat)
    (rest : List Nat) (h : Justified W K tag0 ⟨tag, n :: rest⟩) :
    Justified W K tag0 ⟨tag, rest⟩ :=
  ⟨h.1, fun x hx => h.2 x (List.mem_cons_of_mem _ hx)⟩

/-- With fuel at least the termination measure, the flood fill returns with an
empty frontier, every live reached chunk closed, and no reached tag changed. -/
theorem floodFill_spec (W : World) (hPIC : PointsIntoLive W) (K : Nat → Prop)
    (tag0 : Nat → ChunkTag)
    (hbody : ∀ n c, Live W n → K n → RangePointsTo W n (n + W.requested_size n) c → K c) :
    ∀ (fuel : Nat) (s : ScanState), fillMeasure W s ≤ fuel → FillInv W (fun _ => False) s →
      Justified W K tag0 s →
      ∃ s', FloodFillTag W .kReachable fuel s = .ok s' ∧ s'.frontier = [] ∧
        FillInv W (fun _ => False) s' ∧ Justified W K tag0 s' ∧
        (∀ x, Reached (s.tag x) → s'.tag x = s.tag x) ∧ fillMeasure W s' ≤ fillMeasure W s := by
  intro fuel
  induction fuel with
  | zero =>
    intro s hm h1 h2
    have hf : s.frontier = [] := by
      unfold fillMeasure at hm
      exact List.length_eq_zero.mp (by omega)
    exact ⟨s, by simp [FloodFillTag, hf], hf, h1, h2, fun _ _ => rfl, le_refl _⟩
  | succ k ih =>
    intro s hm h1 h2
    obtain ⟨tag, fr⟩ := s
    cases fr with
    | nil => exact ⟨⟨tag, []⟩, rfl, rfl, h1, h2, fun _ _ => rfl, le_refl _⟩
    | cons n rest =>
      simp only [FloodFillTag]
      have hn : Live W n ∧ K n := h2.2 n (List.mem_cons_self _ _)
      have hm1 : fillMeasure W ⟨tag, rest⟩ ≤ k := by
        unfold fillMeasure at hm ⊢
        have e : unreachedCount W ⟨tag, rest⟩ = unreachedCount W ⟨tag, n :: rest⟩ := rfl
        have e2 : (⟨tag, n :: rest⟩ : ScanState).frontier.length = rest.length + 1 := rfl
        have e3 : (⟨tag, rest⟩ : ScanState).frontier.length = rest.length := rfl
        rw [e2] at hm
        rw [e, e3]
        omega
      have h1' : FillInv W (fun x => x = n) ⟨tag, rest⟩ := by
        intro x hx hr
        rcases h1 x hx hr with h | h | h
        · exact absurd h id
        · rcases List.mem_cons.mp h with h | h
          · exact Or.inl h
          · exact Or.inr (Or.inl h)
        · exact Or.inr (Or.inr h)
      obtain ⟨a1, a2, a3⟩ := scan_reach_keeps W hPIC K tag0 (fun x => x = n) n
        (n + W.requested_size n) (fun c hc => hbody n c hn.1 hn.2 hc) ⟨tag, rest⟩ k h1'
        (justified_pop W K tag0 tag n rest h2) hm1
      have a1' : FillInv W (fun _ => False)
          (ScanRangeForPointers W n (n + W.requested_size n) true .kReachable ⟨tag, rest⟩) := by
        intro x hx hr
        rcases a1 x hx hr with h | h | h
        · right; right
          subst h
          intro t ht
          exact scan_hit_reached W x (x + W.requested_size x) true ⟨tag, rest⟩ t ht
        · exact Or.inr (Or.inl h)
        · exact Or.inr (Or.inr h)
      obtain ⟨s', b1, b2, b3, b4, b5, b6⟩ := ih _ a3 a1' a2
      refine ⟨s', b1, b2, b3, b4, ?_, ?_⟩
      · intro x hx
        have hx' : Reached ((⟨tag, rest⟩ : ScanState).tag x) := hx
        have e := scan_tag_of_reached W n (n + W.requested_size n) true .kReachable ⟨tag, rest⟩ x hx'
        rw [b5 x (by rw [e]; exact hx'), e]
      · have : fillMeasure W ⟨tag, rest⟩ ≤ fillMeasure W ⟨tag, n :: rest⟩ := by
          unfold fillMeasure
          have e : unreachedCount W ⟨tag, rest⟩ = unreachedCount W ⟨tag, n :: rest⟩ := rfl
          have e2 : (⟨tag, n :: rest⟩ : ScanState).frontier.length = rest.length + 1 := rfl
          have e3 : (⟨tag, rest⟩ : ScanState).frontier.length = rest.length := rfl
          rw [e, e2, e3]
          omega
        have a3' := (scan_reach_keeps W hPIC K tag0 (fun x => x = n) n
          (n + W.requested_size n) (fun c hc => hbody n c hn.1 hn.2 hc) ⟨tag, rest⟩
          (fillMeasure W ⟨tag, rest⟩) h1' (justified_pop W K tag0 tag n rest h2) (le_refl _)).2.2
        omega

/-! ### The passes over all chunks -/

theorem suppressedHit_mem (suppressed : List Nat) (id : Nat) (h : suppressedHit suppressed id) :
    id ∈ suppressed := by
  unfold suppressedHit at h
  push_neg at h
  obtain ⟨h1, h2⟩ := h
  rw [h2]
  rw [List.getD_eq_getElem _ _ h1]
  exact List.getElem_mem _

theorem IgnoredSuppressedCb_cases (W : World) (suppressed : List Nat) (ch : Nat) (s : ScanState) :
    (IgnoredSuppressedCb W suppressed ch s = s ∧
      (W.allocated (W.GetUserBegin ch) = true → suppressedHit suppressed
        (W.stack_trace_id (W.GetUserBegin ch)) → s.tag (W.GetUserBegin ch) = .kIgnored)) ∨
    (W.allocated (W.GetUserBegin ch) = true ∧
      suppressedHit suppressed (W.stack_trace_id (W.GetUserBegin ch)) ∧
      IgnoredSuppressedCb W suppressed ch s = s.set_tag (W.GetUserBegin ch) .kIgnored) := by
  unfold IgnoredSuppressedCb
  simp only
  by_cases h1 : (!W.allocated (W.GetUserBegin ch)) = true ∨ s.tag (W.GetUserBegin ch) = .kIgnored
  · left
    rw [if_pos h1]
    refine ⟨rfl, fun ha _ => ?_⟩
    rcases h1 with h1 | h1
    · simp [ha] at h1
    · exact h1
  · rw [if_neg h1]
    have ha : W.allocated (W.GetUserBegin ch) = true := by
      by_contra hc
      apply h1
      left
      simp at hc
      simp [hc]
    by_cases h2 : suppressedHit suppressed (W.stack_trace_id (W.GetUserBegin ch))
    · right
      refine ⟨ha, h2, ?_⟩
      unfold suppressedHit at h2
      rw [if_neg h2]
    · left
      unfold suppressedHit at h2
      rw [if_pos (not_not.mp h2)]
      exact ⟨rfl, fun _ hh => absurd hh (by unfold suppressedHit; exact h2)⟩

/-- The pass of `IgnoredSuppressedCb` over a list of chunks: the frontier is
untouched, a tag changes only to `kIgnored` and only for an allocated chunk of
the list whose stack is in the vector, and every such chunk ends ignored. -/
theorem ignoredSuppressed_pass (W : World) (suppressed : List Nat) (l : List Nat) (s : ScanState) :
    let s' := l.foldl (fun st ch => IgnoredSuppressedCb W suppressed ch st) s
    s'.frontier = s.frontier ∧
    (∀ x, s'.tag x = s.tag x ∨ (x ∈ l.map W.GetUserBegin ∧ W.allocated x = true ∧
      W.stack_trace_id x ∈ suppressed ∧ s'.tag x = .kIgnored)) ∧
    (∀ x, s.tag x = .kIgnored → s'.tag x = .kIgnored) ∧
    (∀ ch ∈ l, W.allocated (W.GetUserBegin ch) = true →
      suppressedHit suppressed (W.stack_trace_id (W.GetUserBegin ch)) →
      s'.tag (W.GetUserBegin ch) = .kIgnored) := by
  induction l generalizing s with
  | nil => exact ⟨rfl, fun _ => Or.inl rfl, fun _ h => h, fun _ h => by cases h⟩
  | cons ch rest ih =>
    simp only [List.foldl_cons]
    obtain ⟨a1, a2, a3, a4⟩ := ih (IgnoredSuppressedCb W suppressed ch s)
    rcases IgnoredSuppressedCb_cases W suppressed ch s with ⟨h, hdone⟩ | ⟨ha, hh, h⟩
    · rw [h] at a1 a2 a3 a4 ⊢
      refine ⟨a1, ?_, a3, ?_⟩
      · intro x
        rcases a2 x with h1 | ⟨h1, h2, h3, h4⟩
        · exact Or.inl h1
        · exact Or.inr ⟨by simp only [List.map_cons, List.mem_cons]; exact Or.inr h1, h2, h3, h4⟩
      · intro c hc hal hhit
        rcases List.mem_cons.mp hc with h1 | h1
        · subst h1; exact a3 _ (hdone hal hhit)
        · exact a4 c h1 hal hhit
    · rw [h] at a1 a2 a3 a4 ⊢
      refine ⟨a1, ?_, ?_, ?_⟩
      · intro x
        by_cases hx : x = W.GetUserBegin ch
        · right
          subst hx
          refine ⟨by simp, ha, suppressedHit_mem _ _ hh, ?_⟩
          apply a3
          simp [ScanState.set_tag]
        · rcases a2 x with h1 | ⟨h1, h2, h3, h4⟩
          · left
            rw [h1]
            simp [ScanState.set_tag, hx]
          · exact Or.inr ⟨by simp only [List.map_cons, List.mem_cons]; exact Or.inr h1, h2, h3, h4⟩
      · intro x hx
        apply a3
        simp only [ScanState.set_tag]
        split
        · rfl
        · exact hx
      · intro c hc hal hhit
        rcases List.mem_cons.mp hc with h1 | h1
        · subst h1
          apply a3
          simp [ScanState.set_tag]
        · exact a4 c h1 hal hhit

/-- The pass of `CollectIgnoredCb` over a list of chunks: tags are untouched, the
frontier gains exactly allocated ignored chunks of the list, at most one per
chunk, and every such chunk is in it. -/
theorem collectIgnored_pass (W : World) (l : List Nat) (s : ScanState) :
    let s' := l.foldl (fun st ch => CollectIgnoredCb W ch st) s
    s'.tag = s.tag ∧
    (∀ x ∈ s'.frontier, x ∈ s.frontier ∨ (x ∈ l.map W.GetUserBegin ∧ W.allocated x = true ∧
      s.tag x = .kIgnored)) ∧
    (∀ x ∈ s.frontier, x ∈ s'.frontier) ∧
    (∀ ch ∈ l, W.allocated (W.GetUserBegin ch) = true → s.tag (W.GetUserBegin ch) = .kIgnored →
      W.GetUserBegin ch ∈ s'.frontier) ∧
    s'.frontier.length ≤ s.frontier.length + l.length := by
  induction l generalizing s with
  | nil =>
    refine ⟨rfl, fun x h => Or.inl h, fun _ h => h, ?_, by simp⟩
    intro ch hch
    cases hch
  | cons ch rest ih =>
    simp only [List.foldl_cons]
    obtain ⟨a1, a2, a3, a4, a5⟩ := ih (CollectIgnoredCb W ch s)
    by_cases hc : W.allocated (W.GetUserBegin ch) = true ∧ s.tag (W.GetUserBegin ch) = .kIgnored
    · have e : CollectIgnoredCb W ch s = s.push_back (W.GetUserBegin ch) := by
        unfold CollectIgnoredCb
        simp only
        rw [if_pos hc]
      rw [e] at a1 a2 a3 a4 a5 ⊢
      refine ⟨a1, ?_, ?_, ?_, ?_⟩
      · intro x hx
        rcases a2 x hx with h | ⟨h1, h2, h3⟩
        · simp only [ScanState.push_back, List.mem_cons] at h
          rcases h with h | h
          · right; subst h; exact ⟨by simp, hc.1, hc.2⟩
          · exact Or.inl h
        · exact Or.inr ⟨by simp only [List.map_cons, List.mem_cons]; exact Or.inr h1, h2, h3⟩
      · intro x hx
        apply a3
        simp only [ScanState.push_back, List.mem_cons]
        exact Or.inr hx
      · intro c hcm hal hig
        rcases List.mem_cons.mp hcm with h | h
        · subst h
          apply a3
          simp [ScanState.push_back]
        · exact a4 c h hal hig
      · simp only [ScanState.push_back, List.length_cons] at a5 ⊢
        omega
    · have e : CollectIgnoredCb W ch s = s := by
        unfold CollectIgnoredCb
        simp only
        rw [if_neg hc]
      rw [e] at a1 a2 a3 a4 a5 ⊢
      refine ⟨a1, ?_, a3, ?_, ?_⟩
      · intro x hx
        rcases a2 x hx with h | ⟨h1, h2, h3⟩
        · exact Or.inl h
        · exact Or.inr ⟨by simp only [List.map_cons, List.mem_cons]; exact Or.inr h1, h2, h3⟩
      · intro c hcm hal hig
        rcases List.mem_cons.mp hcm with h | h
        · subst h; exact absurd ⟨hal, hig⟩ hc
        · exact a4 c h hal hig
      · simp only [List.length_cons]
        omega

theorem MarkInvalidPCCb_cases (W : World) (skip : Bool) (ch : Nat) (s : ScanState) :
    (MarkInvalidPCCb W skip ch s = s ∧
      (W.allocated (W.GetUserBegin ch) = true →
        invalidPC W skip (W.stack_trace_id (W.GetUserBegin ch)) = true →
        Reached (s.tag (W.GetUserBegin ch)))) ∨
    (W.allocated (W.GetUserBegin ch) = true ∧ ¬ Reached (s.tag (W.GetUserBegin ch)) ∧
      invalidPC W skip (W.stack_trace_id (W.GetUserBegin ch)) = true ∧
      MarkInvalidPCCb W skip ch s =
        (s.set_tag (W.GetUserBegin ch) .kIgnored).push_back (W.GetUserBegin ch)) := by
  unfold MarkInvalidPCCb
  simp only
  by_cases h1 : W.allocated (W.GetUserBegin ch) = true ∧
      s.tag (W.GetUserBegin ch) ≠ .kReachable ∧ s.tag (W.GetUserBegin ch) ≠ .kIgnored
  · rw [if_pos h1]
    have hnr : ¬ Reached (s.tag (W.GetUserBegin ch)) := by
      intro hr
      rcases hr with hr | hr
      · exact h1.2.1 hr
      · exact h1.2.2 hr
    by_cases h2 : invalidPC W skip (W.stack_trace_id (W.GetUserBegin ch)) = true
    · right
      rw [if_pos h2]
      exact ⟨h1.1, hnr, h2, rfl⟩
    · left
      rw [if_neg h2]
      exact ⟨rfl, fun _ hh => absurd hh h2⟩
  · left
    rw [if_neg h1]
    refine ⟨rfl, fun ha _ => ?_⟩
    by_contra hr
    apply h1
    refine ⟨ha, fun h => hr (Or.inl h), fun h => hr (Or.inr h)⟩

/-- The pass of `MarkInvalidPCCb` over a list of enumerated chunks. -/
theorem markInvalidPC_pass (W : World) (skip : Bool) (K : Nat → Prop) (tag0 : Nat → ChunkTag)
    (P : Nat → Prop)
    (hK : ∀ c, Live W c → invalidPC W skip (W.stack_trace_id c) = true → K c)
    (l : List Nat) (hl : ∀ ch ∈ l, ch ∈ W.chunks) (s : ScanState) (n : Nat)
    (h1 : FillInv W P s) (h2 : Justified W K tag0 s) (h3 : fillMeasure W s ≤ n) :
    let s' := l.foldl (fun st ch => MarkInvalidPCCb W skip ch st) s
    FillInv W P s' ∧ Justified W K tag0 s' ∧ fillMeasure W s' ≤ n ∧
      (∀ x, Reached (s.tag x) → Reached (s'.tag x)) ∧
      (∀ ch ∈ l, W.allocated (W.GetUserBegin ch) = true →
        invalidPC W skip (W.stack_trace_id (W.GetUserBegin ch)) = true →
        Reached (s'.tag (W.GetUserBegin ch))) := by
  induction l generalizing s with
  | nil =>
    refine ⟨h1, h2, h3, fun _ h => h, ?_⟩
    intro ch hch
    cases hch
  | cons ch rest ih =>
    simp only [List.foldl_cons]
    have hl' : ∀ c ∈ rest, c ∈ W.chunks := fun c hc => hl c (List.mem_cons_of_mem _ hc)
    rcases MarkInvalidPCCb_cases W skip ch s with ⟨h, hdone⟩ | ⟨ha, hnr, hpc, h⟩
    · rw [h]
      obtain ⟨a1, a2, a3, a4, a5⟩ := ih hl' s h1 h2 h3
      refine ⟨a1, a2, a3, a4, ?_⟩
      intro c hc hal hinv
      rcases List.mem_cons.mp hc with h' | h'
      · subst h'; exact a4 _ (hdone hal hinv)
      · exact a5 c h' hal hinv
    · rw [h]
      have hlive : Live W (W.GetUserBegin ch) :=
        ⟨List.mem_map.mpr ⟨ch, hl ch (List.mem_cons_self _ _), rfl⟩, ha⟩
      obtain ⟨a1, a2, a3, a4, a5⟩ := ih hl' _
        (fillInv_mark W P s _ _ (Or.inr rfl) h1)
        (justified_mark W K tag0 s _ _ (Or.inr rfl) hlive (hK _ hlive hpc)
          (fun h => absurd h (justified_unreached W K tag0 s h2 _ hnr)) h2)
        (le_trans (fillMeasure_mark W s _ _ (Or.inr rfl) hlive hnr) h3)
      have hstep : ∀ x, Reached (s.tag x) →
          Reached (((s.set_tag (W.GetUserBegin ch) .kIgnored).push_back (W.GetUserBegin ch)).tag x) := by
        intro x hx
        simp only [ScanState.push_back, ScanState.set_tag]
        split
        · exact Or.inr rfl
        · exact hx
      refine ⟨a1, a2, a3, fun x hx => a4 x (hstep x hx), ?_⟩
      intro c hc hal hinv
      rcases List.mem_cons.mp hc with h' | h'
      · subst h'
        apply a4
        simp [ScanState.push_back, ScanState.set_tag, Reached]
      · exact a5 c h' hal hinv

theorem tagsReset_not_reachable (tag : Nat → ChunkTag) (h : TagsReset tag) (x : Nat)
    (hr : Reached (tag x)) : tag x = .kIgnored := by
  rcases h x with h1 | h1
  · rcases hr with h2 | h2 <;> rw [h1] at h2 <;> cases h2
  · exact h1

/-- The state after the two opening passes of `ClassifyAllChunks`. -/
theorem opening_passes (W : World) (suppressed : List Nat) (tag0 : Nat → ChunkTag)
    (K : Nat → Prop) (hreset : TagsReset tag0) (hA : Admits W suppressed tag0 K) :
    let s1 := if !suppressed.isEmpty then
      ForEachChunk W (IgnoredSuppressedCb W suppressed) ⟨tag0, []⟩ else ⟨tag0, []⟩
    let s2 := ForEachChunk W (CollectIgnoredCb W) s1
    FillInv W (fun _ => False) s2 ∧ Justified W K tag0 s2 ∧
      fillMeasure W s2 ≤ 2 * W.chunks.length ∧
      (∀ x, Reached (tag0 x) → Reached (s2.tag x)) ∧
      (∀ c, Live W c → suppressed.isEmpty = false →
        suppressedHit suppressed (W.stack_trace_id c) → Reached (s2.tag c)) := by
  intro s1 s2
  have hs1 : s1.frontier = [] ∧
      (∀ x, s1.tag x = tag0 x ∨ (Live W x ∧ W.stack_trace_id x ∈ suppressed ∧ s1.tag x = .kIgnored)) ∧
      (∀ x, tag0 x = .kIgnored → s1.tag x = .kIgnored) ∧
      (∀ c, Live W c → suppressed.isEmpty = false →
        suppressedHit suppressed (W.stack_trace_id c) → s1.tag c = .kIgnored) := by
    by_cases he : (!suppressed.isEmpty) = true
    · have e : s1 = ForEachChunk W (IgnoredSuppressedCb W suppressed) ⟨tag0, []⟩ := by
        simp only [s1]
        rw [if_pos he]
      obtain ⟨a1, a2, a3, a4⟩ := ignoredSuppressed_pass W suppressed W.chunks ⟨tag0, []⟩
      rw [e]
      refine ⟨a1, ?_, a3, ?_⟩
      · intro x
        rcases a2 x with h | ⟨h1, h2, h3, h4⟩
        · exact Or.inl h
        · exact Or.inr ⟨⟨h1, h2⟩, h3, h4⟩
      · intro c hc _ hh
        obtain ⟨ch, hch, hce⟩ := List.mem_map.mp hc.1
        subst hce
        exact a4 ch hch hc.2 hh
    · have e : s1 = ⟨tag0, []⟩ := by
        simp only [s1]
        rw [if_neg he]
      rw [e]
      refine ⟨rfl, fun _ => Or.inl rfl, fun _ h => h, ?_⟩
      intro c _ hne _
      simp [hne] at he
  obtain ⟨f1, f2, f3, f4⟩ := hs1
  obtain ⟨b1, b2, b3, b4, b5⟩ := collectIgnored_pass W W.chunks s1
  have hs2tag : s2.tag = s1.tag := b1
  have hreset1 : TagsReset s1.tag := by
    intro x
    rcases f2 x with h | ⟨_, _, h⟩
    · rw [h]; exact hreset x
    · exact Or.inr h
  refine ⟨?_, ⟨?_, ?_⟩, ?_, ?_, ?_⟩
  · intro x hx hr
    right; left
    rw [hs2tag] at hr
    have hig := tagsReset_not_reachable s1.tag hreset1 x hr
    obtain ⟨ch, hch, hce⟩ := List.mem_map.mp hx.1
    subst hce
    exact b4 ch hch hx.2 hig
  · intro x
    rw [hs2tag]
    rcases f2 x with h | ⟨h1, h2, h3⟩
    · exact Or.inl h
    · by_cases h0 : tag0 x = .kIgnored
      · left; rw [h3, h0]
      · right
        refine ⟨h1, hA.supp x h1 h2, by rw [h3]; exact Or.inr rfl, fun hr => ?_⟩
        exact absurd (tagsReset_not_reachable tag0 hreset x hr) h0
  · intro n hn
    rcases b2 n hn with h | ⟨h1, h2, h3⟩
    · rw [f1] at h; cases h
    · have hl : Live W n := ⟨h1, h2⟩
      refine ⟨hl, ?_⟩
      rcases f2 n with h | ⟨_, h5, _⟩
      · exact hA.init n hl (by rw [← h]; exact h3)
      · exact hA.supp n hl h5
  · unfold fillMeasure
    have := unreachedCount_le W s2
    rw [f1] at b5
    simp only [List.length_nil, Nat.zero_add] at b5
    have e : s2.frontier.length ≤ W.chunks.length := b5
    omega
  · intro x hx
    rw [hs2tag]
    have := f3 x (tagsReset_not_reachable tag0 hreset x hx)
    rw [this]
    exact Or.inr rfl
  · intro c hc hne hh
    rw [hs2tag, f4 c hc hne hh]
    exact Or.inr rfl

/-! ### The reachability phase as a whole -/

theorem mem_rootRanges (W : World) (r : Nat × Nat) :
    r ∈ rootRanges W ↔
      r ∈ (if W.flags.use_globals then W.global_ranges.flatMap (globalSubranges W) else []) ∨
      r ∈ W.threads.flatMap (threadRanges W) ∨
      r ∈ (if W.flags.use_root_regions then
        W.root_regions.flatMap (fun r => W.proc_maps.flatMap (rootRegionSubrange r)) else []) ∨
      r ∈ W.platform_ranges := by
  unfold rootRanges
  simp only [List.mem_append]
  tauto

/-- With enough fuel and the `CHECK`s of `ScanGlobalRange` satisfied, the reachability
phase of `ClassifyAllChunks`, started from reset tags and an empty frontier,
returns a state that meets `ReachableSpec`. -/
theorem findReachable_spec (W : World) (hPIC : PointsIntoLive W) (hg : GlobalChecksPass W)
    (suppressed : List Nat) (tag0 : Nat → ChunkTag) (K : Nat → Prop) (hreset : TagsReset tag0)
    (hA : Admits W suppressed tag0 K) (fuel : Nat) (hf : enoughFuel W ≤ fuel) :
    ∃ s9, findReachable W suppressed fuel ⟨tag0, []⟩ = .ok s9 ∧
      ReachableSpec W suppressed tag0 K s9 := by
  obtain ⟨o1, o2, o3, o4, o5⟩ := opening_passes W suppressed tag0 K hreset hA
  set s2 := ForEachChunk W (CollectIgnoredCb W) (if !suppressed.isEmpty then
      ForEachChunk W (IgnoredSuppressedCb W suppressed) ⟨tag0, []⟩ else ⟨tag0, []⟩) with hs2
  have hroots := hA.roots
  -- globals
  set G := (if W.flags.use_globals then W.global_ranges.flatMap (globalSubranges W) else [])
    with hG
  have hGK : ∀ r ∈ G, ∀ c, RangePointsTo W r.1 r.2 c → K c :=
    fun r hr => hroots r ((mem_rootRanges W r).mpr (Or.inl hr))
  obtain ⟨g1, g2, g3⟩ := scanRanges_keeps W hPIC K tag0 (fun _ => False) G hGK s2 _ o1 o2 o3
  set s3 := scanRanges W G s2 with hs3
  -- threads
  set T := W.threads.flatMap (threadRanges W) with hT
  have hTK : ∀ r ∈ T, ∀ c, RangePointsTo W r.1 r.2 c → K c :=
    fun r hr => hroots r ((mem_rootRanges W r).mpr (Or.inr (Or.inl hr)))
  obtain ⟨t1, t2, t3⟩ := scanRanges_keeps W hPIC K tag0 (fun _ => False) T hTK s3 _ g1 g2 g3
  obtain ⟨c1, c2, c3, c4, c5⟩ := registry_keeps W hPIC K tag0 (fun _ => False)
    W.thread_context_ptrs (fun _ h => h) hA.ctx (scanRanges W T s3) _ t1 t2 t3
  have hs4 : ProcessThreads W s3 = W.thread_context_ptrs.foldl (registryStep W) (scanRanges W T s3) := rfl
  set s4 := ProcessThreads W s3 with hs4'
  rw [← hs4] at c1 c2 c3 c4 c5
  -- root regions
  set R := (if W.flags.use_root_regions then
      W.root_regions.flatMap (fun r => W.proc_maps.flatMap (rootRegionSubrange r)) else []) with hR
  have hRK : ∀ r ∈ R, ∀ c, RangePointsTo W r.1 r.2 c → K c :=
    fun r hr => hroots r ((mem_rootRanges W r).mpr (Or.inr (Or.inr (Or.inl hr))))
  obtain ⟨r1, r2, r3⟩ := scanRanges_keeps W hPIC K tag0 (fun _ => False) R hRK s4 _ c1 c2 c3
  have hs5 : ProcessRootRegions W s4 = scanRanges W R s4 := ProcessRootRegions_eq W s4
  set s5 := ProcessRootRegions W s4 with hs5'
  rw [← hs5] at r1 r2 r3
  -- first flood fill
  have hfuel1 : fillMeasure W s5 ≤ fuel := by
    unfold enoughFuel at hf
    omega
  obtain ⟨s6, f1, f2, f3, f4, f5, f6⟩ := floodFill_spec W hPIC K tag0 hA.body fuel s5 hfuel1 r1 r2
  -- ProcessPC
  have hm6 : fillMeasure W s6 ≤ W.chunks.length := by
    unfold fillMeasure
    rw [f2]
    have := unreachedCount_le W s6
    simpa using this
  obtain ⟨p1, p2, p3, p4, p5⟩ := markInvalidPC_pass W (skipLinkerAllocations W) K tag0
    (fun _ => False) hA.pc W.chunks (fun _ h => h) s6 _ f3 f4 hm6
  have hs7 : ProcessPC W s6 =
      W.chunks.foldl (fun st ch => MarkInvalidPCCb W (skipLinkerAllocations W) ch st) s6 := rfl
  set s7 := ProcessPC W s6 with hs7'
  rw [← hs7] at p1 p2 p3 p4 p5
  -- platform ranges
  have hPK : ∀ r ∈ W.platform_ranges, ∀ c, RangePointsTo W r.1 r.2 c → K c :=
    fun r hr => hroots r ((mem_rootRanges W r).mpr (Or.inr (Or.inr (Or.inr hr))))
  obtain ⟨q1, q2, q3⟩ := scanRanges_keeps W hPIC K tag0 (fun _ => False) W.platform_ranges hPK s7 _
    p1 p2 p3
  have hs8 : ProcessPlatformSpecificAllocations W s7 = scanRanges W W.platform_ranges s7 := rfl
  set s8 := ProcessPlatformSpecificAllocations W s7 with hs8'
  rw [← hs8] at q1 q2 q3
  have hfuel2 : fillMeasure W s8 ≤ fuel := by
    unfold enoughFuel at hf
    omega
  obtain ⟨s9, e1, e2, e3, e4, e5, e6⟩ := floodFill_spec W hPIC K tag0 hA.body fuel s8 hfuel2 q1 q2
  -- monotonicity along the phase
  have m23 : ∀ x, Reached (s2.tag x) → Reached (s3.tag x) :=
    fun x hx => scanRanges_reached_mono W G s2 x hx
  have m34 : ∀ x, Reached (s3.tag x) → Reached (s4.tag x) :=
    fun x hx => c4 x (scanRanges_reached_mono W T s3 x hx)
  have m45 : ∀ x, Reached (s4.tag x) → Reached (s5.tag x) := by
    intro x hx; rw [hs5]; exact scanRanges_reached_mono W R s4 x hx
  have m56 : ∀ x, Reached (s5.tag x) → Reached (s6.tag x) := by
    intro x hx; rw [f5 x hx]; exact hx
  have m67 : ∀ x, Reached (s6.tag x) → Reached (s7.tag x) := p4
  have m78 : ∀ x, Reached (s7.tag x) → Reached (s8.tag x) := by
    intro x hx; rw [hs8]; exact scanRanges_reached_mono W _ s7 x hx
  have m89 : ∀ x, Reached (s8.tag x) → Reached (s9.tag x) := by
    intro x hx; rw [e5 x hx]; exact hx
  refine ⟨s9, ?_, ⟨e2, e3, e4, ?_, ?_, ?_, ?_, ?_⟩⟩
  · unfold findReachable
    simp only
    rw [← hs2, ProcessGlobalRegions_eq W hg s2]
    simp only
    rw [← hG, ← hs3, ← hs4', ← hs5', f1]
    simp only
    rw [if_neg (by rw [f2]; simp), ← hs7', ← hs8', e1]
  · intro r hr c hc
    rcases (mem_rootRanges W r).mp hr with h | h | h | h
    · exact m89 _ (m78 _ (m67 _ (m56 _ (m45 _ (m34 _ (scanRanges_hit W G s2 r h c hc))))))
    · exact m89 _ (m78 _ (m67 _ (m56 _ (m45 _ (c4 _ (scanRanges_hit W T s3 r h c hc))))))
    · have : Reached (s5.tag c) := by rw [hs5]; exact scanRanges_hit W R s4 r h c hc
      exact m89 _ (m78 _ (m67 _ (m56 _ this)))
    · have : Reached (s8.tag c) := by rw [hs8]; exact scanRanges_hit W _ s7 r h c hc
      exact m89 _ this
  · intro ptr hp hz
    exact m89 _ (m78 _ (m67 _ (m56 _ (m45 _ (c5 ptr hp hz)))))
  · intro c hc hne hh
    exact m89 _ (m78 _ (m67 _ (m56 _ (m45 _ (m34 _ (m23 _ (o5 c hc hne hh)))))))
  · intro x hx
    exact m89 _ (m78 _ (m67 _ (m56 _ (m45 _ (m34 _ (m23 _ (o4 x hx)))))))
  · intro c hc hinv
    obtain ⟨ch, hch, hce⟩ := List.mem_map.mp hc.1
    subst hce
    exact m89 _ (m78 _ (p5 ch hch hc.2 hinv))

/-! ### The indirect-leak pass and the collection of leaks -/

theorem MarkIndirectlyLeakedCb_eq (W : World) (ch : Nat) (s : ScanState) :
    MarkIndirectlyLeakedCb W ch s =
      if W.allocated (W.GetUserBegin ch) = true ∧ s.tag (W.GetUserBegin ch) ≠ .kReachable then
        ScanRangeForPointers W (W.GetUserBegin ch)
          (W.GetUserBegin ch + W.requested_size (W.GetUserBegin ch)) false .kIndirectlyLeaked s
      else s := rfl

/-- The pass of `MarkIndirectlyLeakedCb` over a list of chunks: reached tags are
untouched; a tag changes only to `kIndirectlyLeaked`, and only for a chunk that
the body of an allocated chunk of the list, not tagged reachable, points to;
every such chunk that was not reached ends indirectly leaked. -/
theorem markIndirect_pass (W : World) (l : List Nat) (s : ScanState) :
    let s' := l.foldl (fun st ch => MarkIndirectlyLeakedCb W ch st) s
    (∀ x, Reached (s.tag x) → s'.tag x = s.tag x) ∧
    (∀ x, s'.tag x = s.tag x ∨ (s'.tag x = .kIndirectlyLeaked ∧ ¬ Reached (s.tag x) ∧
      ∃ ch ∈ l, W.allocated (W.GetUserBegin ch) = true ∧ s.tag (W.GetUserBegin ch) ≠ .kReachable ∧
        RangePointsTo W (W.GetUserBegin ch)
          (W.GetUserBegin ch + W.requested_size (W.GetUserBegin ch)) x)) ∧
    (∀ ch ∈ l, W.allocated (W.GetUserBegin ch) = true → s.tag (W.GetUserBegin ch) ≠ .kReachable →
      ∀ x, RangePointsTo W (W.GetUserBegin ch)
          (W.GetUserBegin ch + W.requested_size (W.GetUserBegin ch)) x →
        ¬ Reached (s.tag x) → s'.tag x = .kIndirectlyLeaked) := by
  induction l generalizing s with
  | nil =>
    refine ⟨fun _ _ => rfl, fun _ => Or.inl rfl, ?_⟩
    intro ch hch
    cases hch
  | cons ch rest ih =>
    simp only [List.foldl_cons]
    obtain ⟨a1, a2, a3⟩ := ih (MarkIndirectlyLeakedCb W ch s)
    set b := W.GetUserBegin ch with hb
    -- facts about the first callback
    have hfirst_reached : ∀ x, Reached (s.tag x) → (MarkIndirectlyLeakedCb W ch s).tag x = s.tag x := by
      intro x hx
      rw [MarkIndirectlyLeakedCb_eq]
      split
      · exact scan_tag_of_reached W _ _ false .kIndirectlyLeaked s x hx
      · rfl
    have hfirst_cases : ∀ x, (MarkIndirectlyLeakedCb W ch s).tag x = s.tag x ∨
        ((MarkIndirectlyLeakedCb W ch s).tag x = .kIndirectlyLeaked ∧ ¬ Reached (s.tag x) ∧
          W.allocated b = true ∧ s.tag b ≠ .kReachable ∧
          RangePointsTo W b (b + W.requested_size b) x) := by
      intro x
      rw [MarkIndirectlyLeakedCb_eq]
      split
      · rename_i hc
        rcases scan_tag_cases W b (b + W.requested_size b) false .kIndirectlyLeaked s x with h | ⟨h1, h2, h3⟩
        · exact Or.inl h
        · exact Or.inr ⟨h1, h2, hc.1, hc.2, h3⟩
      · exact Or.inl rfl
    have hnr : ∀ x, ¬ Reached (s.tag x) → ¬ Reached ((MarkIndirectlyLeakedCb W ch s).tag x) := by
      intro x hx hr
      rcases hfirst_cases x with h | ⟨h, _⟩
      · rw [h] at hr; exact hx hr
      · rw [h] at hr
        rcases hr with hr | hr <;> cases hr
    have hreach_tag : ∀ x, (MarkIndirectlyLeakedCb W ch s).tag x = .kReachable ↔ s.tag x = .kReachable := by
      intro x
      constructor
      · intro h
        rcases hfirst_cases x with h1 | ⟨h1, _⟩
        · rw [← h1]; exact h
        · rw [h1] at h; cases h
      · intro h
        rw [hfirst_reached x (Or.inl h)]; exact h
    refine ⟨?_, ?_, ?_⟩
    · intro x hx
      rw [a1 x (by rw [hfirst_reached x hx]; exact hx), hfirst_reached x hx]
    · intro x
      rcases a2 x with h | ⟨h1, h2, ch', hch', h3, h4, h5⟩
      · rcases hfirst_cases x with h' | ⟨h1', h2', h3', h4', h5'⟩
        · exact Or.inl (h.trans h')
        · right
          exact ⟨h.trans h1', h2', ch, List.mem_cons_self _ _, h3', h4', h5'⟩
      · right
        refine ⟨h1, ?_, ch', List.mem_cons_of_mem _ hch', h3, ?_, h5⟩
        · intro hr
          exact h2 (by rw [hfirst_reached x hr]; exact hr)
        · intro hr
          exact h4 ((hreach_tag _).mpr hr)
    · intro c hc hal hnreach x hx hxr
      rcases List.mem_cons.mp hc with h | h
      · subst h
        have hscan : (MarkIndirectlyLeakedCb W c s).tag x = .kIndirectlyLeaked := by
          rw [MarkIndirectlyLeakedCb_eq, if_pos ⟨hal, hnreach⟩]
          rcases scan_hit W _ _ false .kIndirectlyLeaked s x hx with ⟨_, h2⟩ | h1
          · exact absurd h2 hxr
          · exact h1
        rcases a2 x with h | ⟨h1, _⟩
        · rw [h, hscan]
        · exact h1
      · exact a3 c h hal (fun hr => hnreach ((hreach_tag _).mp hr)) x hx (hnr x hxr)

theorem CollectLeaksCb_eq (W : World) (tag : Nat → ChunkTag) (ch : Nat) (leaks : List LeakedChunk) :
    CollectLeaksCb W tag ch leaks =
      if W.allocated (W.GetUserBegin ch) = true ∧
          (tag (W.GetUserBegin ch) = .kDirectlyLeaked ∨ tag (W.GetUserBegin ch) = .kIndirectlyLeaked) then
        leaks ++ [⟨W.GetUserBegin ch, W.stack_trace_id (W.GetUserBegin ch),
          W.requested_size (W.GetUserBegin ch), tag (W.GetUserBegin ch)⟩]
      else leaks := by
  unfold CollectLeaksCb
  simp only
  cases ha : W.allocated (W.GetUserBegin ch) with
  | false => simp
  | true =>
    simp only [Bool.not_true, Bool.false_eq_true, if_false, true_and]

/-- The leaks collected over a list of chunks, restricted to one chunk `c`. -/
theorem collectLeaks_filter (W : World) (tag : Nat → ChunkTag) (c : Nat) (l : List Nat)
    (init : List LeakedChunk) :
    (l.foldl (fun st ch => CollectLeaksCb W tag ch st) init).filter (fun x => decide (x.chunk = c)) =
      init.filter (fun x => decide (x.chunk = c)) ++
        if W.allocated c = true ∧ (tag c = .kDirectlyLeaked ∨ tag c = .kIndirectlyLeaked) then
          List.replicate ((l.map W.GetUserBegin).count c)
            ⟨c, W.stack_trace_id c, W.requested_size c, tag c⟩
        else [] := by
  induction l generalizing init with
  | nil => simp
  | cons ch rest ih =>
    simp only [List.foldl_cons, List.map_cons]
    rw [ih, CollectLeaksCb_eq]
    by_cases hch : W.GetUserBegin ch = c
    · subst hch
      by_cases hc : W.allocated (W.GetUserBegin ch) = true ∧
          (tag (W.GetUserBegin ch) = .kDirectlyLeaked ∨ tag (W.GetUserBegin ch) = .kIndirectlyLeaked)
      · rw [if_pos hc, if_pos hc, if_pos hc]
        simp [List.filter_append, List.count_cons_self, List.replicate_succ]
      · rw [if_neg hc, if_neg hc, if_neg hc]
    · have hcount : List.count c (W.GetUserBegin ch :: rest.map W.GetUserBegin) =
          List.count c (rest.map W.GetUserBegin) := by
        rw [List.count_cons_of_ne]
        exact fun h => hch h.symm
      rw [hcount]
      split
      · simp [List.filter_append, hch]
      · rfl

theorem collectLeaks_mem (W : World) (tag : Nat → ChunkTag) (c : Nat) (hl : Live W c)
    (ht : tag c = .kDirectlyLeaked ∨ tag c = .kIndirectlyLeaked) :
    (⟨c, W.stack_trace_id c, W.requested_size c, tag c⟩ : LeakedChunk) ∈
      ForEachChunk W (CollectLeaksCb W tag) [] := by
  have h := collectLeaks_filter W tag c W.chunks []
  rw [if_pos ⟨hl.2, ht⟩] at h
  have hpos : 0 < (W.chunks.map W.GetUserBegin).count c := List.count_pos_iff.mpr hl.1
  have hm : (⟨c, W.stack_trace_id c, W.requested_size c, tag c⟩ : LeakedChunk) ∈
      (W.chunks.foldl (fun st ch => CollectLeaksCb W tag ch st) []).filter
        (fun x => decide (x.chunk = c)) := by
    rw [h]
    simp only [List.filter_nil, List.nil_append, List.mem_replicate]
    exact ⟨by omega, True.intro⟩
  exact (List.mem_filter.mp hm).1

theorem collectLeaks_not_reached (W : World) (tag : Nat → ChunkTag) (c : Nat)
    (hr : Reached (tag c)) : ∀ x ∈ ForEachChunk W (CollectLeaksCb W tag) [], x.chunk ≠ c := by
  intro x hx hxc
  have h := collectLeaks_filter W tag c W.chunks []
  have hn : ¬ (W.allocated c = true ∧ (tag c = .kDirectlyLeaked ∨ tag c = .kIndirectlyLeaked)) := by
    intro ⟨_, h2⟩
    rcases hr with hr | hr <;> rcases h2 with h2 | h2 <;> rw [hr] at h2 <;> cases h2
  rw [if_neg hn] at h
  have hm : x ∈ (W.chunks.foldl (fun st ch => CollectLeaksCb W tag ch st) []).filter
      (fun x => decide (x.chunk = c)) := List.mem_filter.mpr ⟨hx, by simpa using hxc⟩
  rw [h] at hm
  simp at hm

/-! ### Soundness, completeness and the indirect-leak scenario -/

theorem admits_true (W : World) (suppressed : List Nat) (tag0 : Nat → ChunkTag) :
    Admits W suppressed tag0 (fun _ => True) :=
  ⟨fun _ _ _ _ => True.intro, fun _ _ _ _ _ => True.intro, fun _ _ _ => True.intro,
    fun _ _ _ => True.intro, fun _ _ _ => True.intro, fun _ _ _ => True.intro⟩

theorem rootReachable_live (W : World) (hPIC : PointsIntoLive W) (c : Nat)
    (h : RootReachable W c) : Live W c := by
  cases h with
  | root r _ _ hp =>
    obtain ⟨pp, _, hpt⟩ := hp
    exact pointsTo_live W hPIC _ pp c hpt
  | body c' _ _ hp =>
    obtain ⟨pp, _, hpt⟩ := hp
    exact pointsTo_live W hPIC _ pp c hpt

theorem reachableSpec_sound (W : World) (hPIC : PointsIntoLive W) (suppressed : List Nat)
    (tag0 : Nat → ChunkTag) (K : Nat → Prop) (s : ScanState)
    (hs : ReachableSpec W suppressed tag0 K s) (c : Nat) (h : RootReachable W c) :
    Reached (s.tag c) := by
  induction h with
  | root r c hr hp => exact hs.roots r hr c hp
  | body c' c hc hp ih =>
    have hl := rootReachable_live W hPIC c' hc
    rcases hs.closed c' hl ih with h | h | h
    · exact absurd h id
    · rw [hs.frontier_nil] at h; cases h
    · exact h c hp

theorem classify_unfold (W : World) (suppressed : List Nat) (fuel : Nat) (s s9 : ScanState)
    (h : findReachable W suppressed fuel s = .ok s9) :
    ClassifyAllChunks W suppressed fuel s = .ok (ForEachChunk W (MarkIndirectlyLeakedCb W) s9) := by
  unfold ClassifyAllChunks
  rw [h]

theorem callback_unfold (W : World) (suppressed : List Nat) (fuel : Nat) (tag0 : Nat → ChunkTag)
    (s9 : ScanState) (h : findReachable W suppressed fuel ⟨tag0, []⟩ = .ok s9) :
    CheckForLeaksCallback W suppressed fuel tag0 =
      .ok ((ForEachChunk W (ResetTagsCb W) (ForEachChunk W (MarkIndirectlyLeakedCb W) s9)).tag,
        ForEachChunk W (CollectLeaksCb W (ForEachChunk W (MarkIndirectlyLeakedCb W) s9).tag) []) := by
  unfold CheckForLeaksCallback
  rw [classify_unfold W suppressed fuel _ s9 h]

/-- C4 (amended): started from reset tags and an empty frontier, with enough fuel
and the `CHECK`s of `ScanGlobalRange` satisfied, `ClassifyAllChunks` returns,
and every chunk that an aligned, plausible, unpoisoned word of a scanned root
range points into (the range not beginning at the chunk itself), or that such a
word in the body of another chunk reachable in this sense points into, is
tagged `kReachable` or `kIgnored`; `CollectLeaksCb` collects no leak for it. -/
theorem classify_reachable_sound (W : World) (hPIC : PointsIntoLive W) (hg : GlobalChecksPass W)
    (suppressed : List Nat) (tag0 : Nat → ChunkTag) (hreset : TagsReset tag0) (fuel : Nat)
    (hf : enoughFuel W ≤ fuel) :
    ∃ s, ClassifyAllChunks W suppressed fuel ⟨tag0, []⟩ = .ok s ∧
      ∀ c, RootReachable W c →
        Reached (s.tag c) ∧ ∀ x ∈ ForEachChunk W (CollectLeaksCb W s.tag) [], x.chunk ≠ c := by
  obtain ⟨s9, h9, hs⟩ := findReachable_spec W hPIC hg suppressed tag0 (fun _ => True) hreset
    (admits_true W suppressed tag0) fuel hf
  refine ⟨_, classify_unfold W suppressed fuel _ s9 h9, ?_⟩
  intro c hc
  have hr9 := reachableSpec_sound W hPIC suppressed tag0 _ s9 hs c hc
  have hr : Reached ((ForEachChunk W (MarkIndirectlyLeakedCb W) s9).tag c) := by
    have := (markIndirect_pass W W.chunks s9).1 c hr9
    unfold ForEachChunk
    rw [this]
    exact hr9
  exact ⟨hr, collectLeaks_not_reached W _ c hr⟩

/-- C5 (amended): a live chunk that is enumerated once, starts tagged
`kDirectlyLeaked`, has a valid caller pc and a stack that is not suppressed,
and that no root word, no thread-context pointer and no body of another live
chunk points into, is collected exactly once by a classification pass, as a
direct leak. -/
theorem unreferenced_chunk_direct_leak (W : World) (hPIC : PointsIntoLive W)
    (hg : GlobalChecksPass W) (suppressed : List Nat) (tag0 : Nat → ChunkTag)
    (hreset : TagsReset tag0) (fuel : Nat) (hf : enoughFuel W ≤ fuel) (c : Nat)
    (hlive : Live W c) (hcount : (W.chunks.map W.GetUserBegin).count c = 1)
    (htag : tag0 c = .kDirectlyLeaked) (hsupp : W.stack_trace_id c ∉ suppressed)
    (hpc : invalidPC W (skipLinkerAllocations W) (W.stack_trace_id c) = false)
    (hctx : ∀ ptr ∈ W.thread_context_ptrs, W.PointsIntoChunk ptr ≠ c)
    (hroot : ∀ r ∈ rootRanges W, ¬ RangePointsTo W r.1 r.2 c)
    (hbody : ∀ n, Live W n → n ≠ c → ¬ RangePointsTo W n (n + W.requested_size n) c) :
    ∃ tags leaks, CheckForLeaksCallback W suppressed fuel tag0 = .ok (tags, leaks) ∧
      leaks.filter (fun x => decide (x.chunk = c)) =
        [⟨c, W.stack_trace_id c, W.requested_size c, .kDirectlyLeaked⟩] := by
  have hA : Admits W suppressed tag0 (fun x => x ≠ c) := by
    refine ⟨?_, ?_, ?_, ?_, ?_, ?_⟩
    · intro r hr x hx hxc
      subst hxc
      exact hroot r hr hx
    · intro n x hn hnc hx hxc
      subst hxc
      exact hbody n hn hnc hx
    · intro ptr hp _
      exact hctx ptr hp
    · intro x _ hx hxc
      subst hxc
      exact hsupp hx
    · intro x _ hx hxc
      subst hxc
      rw [htag] at hx
      cases hx
    · intro x _ hx hxc
      subst hxc
      rw [hpc] at hx
      cases hx
  obtain ⟨s9, h9, hs⟩ := findReachable_spec W hPIC hg suppressed tag0 (fun x => x ≠ c) hreset hA
    fuel hf
  have h9c : s9.tag c = .kDirectlyLeaked := by
    rcases hs.justified.1 c with h | ⟨_, h, _⟩
    · rw [h, htag]
    · exact absurd rfl h
  have hnr : ¬ Reached (s9.tag c) := by
    rw [h9c]
    intro h
    rcases h with h | h <;> cases h
  have h10c : (ForEachChunk W (MarkIndirectlyLeakedCb W) s9).tag c = .kDirectlyLeaked := by
    rcases (markIndirect_pass W W.chunks s9).2.1 c with h | ⟨_, _, ch, hch, h1, _, h3⟩
    · show (List.foldl (fun st chunk => MarkIndirectlyLeakedCb W chunk st) s9 W.chunks).tag c = _
      rw [h, h9c]
    · exfalso
      have hlv : Live W (W.GetUserBegin ch) := ⟨List.mem_map.mpr ⟨ch, hch, rfl⟩, h1⟩
      have hne : W.GetUserBegin ch ≠ c := by
        obtain ⟨pp, _, hpt⟩ := h3
        exact fun h => hpt.2.2.2.1 h.symm
      exact hbody _ hlv hne h3
  refine ⟨_, _, callback_unfold W suppressed fuel tag0 s9 h9, ?_⟩
  have h := collectLeaks_filter W (ForEachChunk W (MarkIndirectlyLeakedCb W) s9).tag c W.chunks []
  have e : ForEachChunk W (CollectLeaksCb W (ForEachChunk W (MarkIndirectlyLeakedCb W) s9).tag) []
      = List.foldl (fun st ch =>
          CollectLeaksCb W (ForEachChunk W (MarkIndirectlyLeakedCb W) s9).tag ch st) [] W.chunks :=
    rfl
  rw [e, h, if_pos ⟨hlive.2, Or.inl h10c⟩, hcount, h10c]
  rfl

/-- C6 (amended): let `s9` be the state after the reachability phase. If `A` and `B`
are live chunks not reached in `s9`, an aligned, plausible, unpoisoned word in
the body of `A` points into `B`, and no such word in the body of a live chunk
not reached in `s9` points into `A`, then the classification pass collects `A`
as a direct leak and `B` as an indirect leak, whatever the order of
`ForEachChunk`. -/
theorem indirect_leak_scenario (W : World) (hPIC : PointsIntoLive W) (hg : GlobalChecksPass W)
    (suppressed : List Nat) (tag0 : Nat → ChunkTag) (hreset : TagsReset tag0) (fuel : Nat)
    (hf : enoughFuel W ≤ fuel) (s9 : ScanState)
    (h9 : findReachable W suppressed fuel ⟨tag0, []⟩ = .ok s9) (A B : Nat)
    (hA : Live W A) (hB : Live W B) (hAu : ¬ Reached (s9.tag A)) (hBu : ¬ Reached (s9.tag B))
    (hAB : RangePointsTo W A (A + W.requested_size A) B)
    (hnoA : ∀ X, Live W X → ¬ Reached (s9.tag X) →
      ¬ RangePointsTo W X (X + W.requested_size X) A) :
    ∃ tags leaks, CheckForLeaksCallback W suppressed fuel tag0 = .ok (tags, leaks) ∧
      ⟨A, W.stack_trace_id A, W.requested_size A, .kDirectlyLeaked⟩ ∈ leaks ∧
      ⟨B, W.stack_trace_id B, W.requested_size B, .kIndirectlyLeaked⟩ ∈ leaks := by
  obtain ⟨s9', h9', hs⟩ := findReachable_spec W hPIC hg suppressed tag0 (fun _ => True) hreset
    (admits_true W suppressed tag0) fuel hf
  rw [h9] at h9'
  cases h9'
  have hdirect : ∀ x, ¬ Reached (s9.tag x) → s9.tag x = .kDirectlyLeaked := by
    intro x hx
    rcases hs.justified.1 x with h | ⟨_, _, h, _⟩
    · rcases hreset x with h0 | h0
      · rw [h, h0]
      · exfalso; apply hx; rw [h, h0]; exact Or.inr rfl
    · exact absurd h hx
  have h9A := hdirect A hAu
  obtain ⟨p1, p2, p3⟩ := markIndirect_pass W W.chunks s9
  have h10A : (ForEachChunk W (MarkIndirectlyLeakedCb W) s9).tag A = .kDirectlyLeaked := by
    rcases p2 A with h | ⟨_, _, ch, hch, h1, h2, h3⟩
    · unfold ForEachChunk
      rw [h, h9A]
    · exfalso
      have hlv : Live W (W.GetUserBegin ch) := ⟨List.mem_map.mpr ⟨ch, hch, rfl⟩, h1⟩
      by_cases hr : Reached (s9.tag (W.GetUserBegin ch))
      · rcases hs.closed _ hlv hr with h | h | h
        · exact h
        · rw [hs.frontier_nil] at h; cases h
        · exact hAu (h A h3)
      · exact hnoA _ hlv hr h3
  have h10B : (ForEachChunk W (MarkIndirectlyLeakedCb W) s9).tag B = .kIndirectlyLeaked := by
    obtain ⟨ch, hch, hce⟩ := List.mem_map.mp hA.1
    have := p3 ch hch (by rw [hce]; exact hA.2) (by rw [hce, h9A]; intro h; cases h) B
      (by rw [hce]; exact hAB) hBu
    exact this
  refine ⟨_, _, callback_unfold W suppressed fuel tag0 s9 h9, ?_, ?_⟩
  · have := collectLeaks_mem W (ForEachChunk W (MarkIndirectlyLeakedCb W) s9).tag A hA
      (Or.inl h10A)
    rw [h10A] at this
    exact this
  · have := collectLeaks_mem W (ForEachChunk W (MarkIndirectlyLeakedCb W) s9).tag B hB
      (Or.inr h10B)
    rw [h10B] at this
    exact this

/-! ### Two leak checks in a row -/

theorem ResetTagsCb_tag (W : World) (ch : Nat) (s : ScanState) (x : Nat) :
    (ResetTagsCb W ch s).tag x =
      if x = W.GetUserBegin ch ∧ W.allocated x = true ∧ s.tag x ≠ .kIgnored then .kDirectlyLeaked
      else s.tag x := by
  unfold ResetTagsCb
  simp only
  by_cases hc : W.allocated (W.GetUserBegin ch) = true ∧ s.tag (W.GetUserBegin ch) ≠ .kIgnored
  · rw [if_pos hc]
    unfold ScanState.set_tag
    simp only
    by_cases hx : x = W.GetUserBegin ch
    · subst hx
      rw [if_pos rfl, if_pos ⟨rfl, hc⟩]
    · rw [if_neg hx, if_neg (fun h => hx h.1)]
  · rw [if_neg hc, if_neg]
    intro h
    apply hc
    rw [← h.1]
    exact h.2

theorem resetTags_pass (W : World) (l : List Nat) (s : ScanState) (x : Nat) :
    (l.foldl (fun st ch => ResetTagsCb W ch st) s).tag x =
      if x ∈ l.map W.GetUserBegin ∧ W.allocated x = true ∧ s.tag x ≠ .kIgnored then
        .kDirectlyLeaked
      else s.tag x := by
  induction l generalizing s with
  | nil => simp
  | cons ch rest ih =>
    rw [List.foldl_cons, List.map_cons, ih]
    simp only [ResetTagsCb_tag, List.mem_cons]
    by_cases h1 : x = W.GetUserBegin ch ∧ W.allocated x = true ∧ s.tag x ≠ .kIgnored
    · simp only [if_pos h1]
      rw [if_pos (⟨Or.inl h1.1, h1.2⟩ :
        (x = W.GetUserBegin ch ∨ x ∈ rest.map W.GetUserBegin) ∧ W.allocated x = true ∧
          s.tag x ≠ .kIgnored)]
      by_cases h2 : x ∈ rest.map W.GetUserBegin ∧ W.allocated x = true ∧
          ChunkTag.kDirectlyLeaked ≠ .kIgnored
      · rw [if_pos h2]
      · rw [if_neg h2]
    · simp only [if_neg h1]
      by_cases h2 : x ∈ rest.map W.GetUserBegin ∧ W.allocated x = true ∧ s.tag x ≠ .kIgnored
      · rw [if_pos h2, if_pos ⟨Or.inr h2.1, h2.2⟩]
      · rw [if_neg h2, if_neg]
        rintro ⟨h | h, h3⟩
        · exact h1 ⟨h, h3⟩
        · exact h2 ⟨h, h3⟩

theorem collectLeaks_sound (W : World) (tag : Nat → ChunkTag) (l : List Nat)
    (init : List LeakedChunk) (a : LeakedChunk)
    (h : a ∈ l.foldl (fun st ch => CollectLeaksCb W tag ch st) init) :
    a ∈ init ∨ (a.chunk ∈ l.map W.GetUserBegin ∧ W.allocated a.chunk = true ∧
      (tag a.chunk = .kDirectlyLeaked ∨ tag a.chunk = .kIndirectlyLeaked)) := by
  induction l generalizing init with
  | nil => exact Or.inl h
  | cons ch rest ih =>
    simp only [List.foldl_cons] at h
    rcases ih _ h with h1 | ⟨h1, h2⟩
    · rw [CollectLeaksCb_eq] at h1
      by_cases hc : W.allocated (W.GetUserBegin ch) = true ∧
          (tag (W.GetUserBegin ch) = .kDirectlyLeaked ∨ tag (W.GetUserBegin ch) = .kIndirectlyLeaked)
      · rw [if_pos hc] at h1
        rcases List.mem_append.mp h1 with h3 | h3
        · exact Or.inl h3
        · right
          rw [List.mem_singleton] at h3
          subst h3
          exact ⟨List.mem_map.mpr ⟨ch, List.mem_cons_self _ _, rfl⟩, hc⟩
      · rw [if_neg hc] at h1
        exact Or.inl h1
    · right
      refine ⟨?_, h2⟩
      rw [List.map_cons]
      exact List.mem_cons_of_mem _ h1

/-- When a single live chunk carries a leak tag, the collected leaks are copies of its
record. -/
theorem collectLeaks_single (W : World) (tag : Nat → ChunkTag) (c : Nat) (hl : Live W c)
    (ht : tag c = .kDirectlyLeaked)
    (hothers : ∀ x, Live W x → x ≠ c → Reached (tag x)) :
    ∃ n, ForEachChunk W (CollectLeaksCb W tag) [] =
      List.replicate (n + 1) ⟨c, W.stack_trace_id c, W.requested_size c, .kDirectlyLeaked⟩ := by
  have hall : ∀ a ∈ ForEachChunk W (CollectLeaksCb W tag) [], a.chunk = c := by
    intro a ha
    by_contra hne
    rcases collectLeaks_sound W tag W.chunks [] a ha with h | ⟨h1, h2, h3⟩
    · cases h
    · have hr := hothers a.chunk ⟨h1, h2⟩ hne
      rcases hr with hr | hr <;> rcases h3 with h3 | h3 <;> rw [hr] at h3 <;> cases h3
  have hf := collectLeaks_filter W tag c W.chunks []
  rw [if_pos ⟨hl.2, Or.inl ht⟩, ht] at hf
  have hself : (ForEachChunk W (CollectLeaksCb W tag) []).filter (fun x => decide (x.chunk = c)) =
      ForEachChunk W (CollectLeaksCb W tag) [] := by
    rw [List.filter_eq_self]
    intro a ha
    simpa using hall a ha
  have hpos : 0 < (W.chunks.map W.GetUserBegin).count c := List.count_pos_iff.mpr hl.1
  refine ⟨(W.chunks.map W.GetUserBegin).count c - 1, ?_⟩
  rw [← hself]
  have e : (W.chunks.map W.GetUserBegin).count c - 1 + 1 = (W.chunks.map W.GetUserBegin).count c := by
    omega
  rw [e]
  exact hf

/-- When every live chunk is reached, nothing is collected. -/
theorem collectLeaks_nil (W : World) (tag : Nat → ChunkTag)
    (hall : ∀ x, Live W x → Reached (tag x)) :
    ForEachChunk W (CollectLeaksCb W tag) [] = [] := by
  rw [List.eq_nil_iff_forall_not_mem]
  intro a ha
  rcases collectLeaks_sound W tag W.chunks [] a ha with h | ⟨h1, h2, h3⟩
  · cases h
  · have hr := hall a.chunk ⟨h1, h2⟩
    rcases hr with hr | hr <;> rcases h3 with h3 | h3 <;> rw [hr] at h3 <;> cases h3

theorem addLeakedObject_leaks (W : World) (r : LeakReport) (i c sz : Nat) :
    (addLeakedObject W r i c sz).leaks_ = r.leaks_ := by
  unfold addLeakedObject
  by_cases h : W.flags.report_objects = true
  · rw [if_pos h]
  · rw [if_neg h]

theorem findLeak_single (l0 : Leak) (sid : Nat) (h1 : l0.stack_trace_id = sid)
    (h2 : l0.is_directly_leaked = true) : findLeak [l0] sid true = 0 := by
  unfold findLeak
  simp [List.findIdx_cons, h1, h2]

theorem AddLeakedChunks_cons_found (W : World) (hres : W.flags.resolution = 0) (leak : LeakedChunk)
    (rest : List LeakedChunk) (r : LeakReport) (l0 : Leak) (ht : leak.tag = .kDirectlyLeaked)
    (hr : r.leaks_ = [l0]) (h1 : l0.stack_trace_id = leak.stack_trace_id)
    (h2 : l0.is_directly_leaked = true) :
    AddLeakedChunks W (leak :: rest) r =
      AddLeakedChunks W rest (addLeakedObject W
        { r with leaks_ := bumpLeak r.leaks_ 0 leak.leaked_size } 0 leak.chunk leak.leaked_size) := by
  have hid : resolvedStackId W leak.stack_trace_id = leak.stack_trace_id := by
    unfold resolvedStackId
    rw [if_neg (by rw [hres]; exact fun h => h rfl)]
  have hi : findLeak r.leaks_ (resolvedStackId W leak.stack_trace_id)
      (decide (leak.tag = .kDirectlyLeaked)) = 0 := by
    rw [hid, hr, ht]
    exact findLeak_single l0 _ h1 h2
  rw [AddLeakedChunks]
  simp only [hi]
  rw [if_neg (by rw [ht]; exact fun h => h (Or.inl rfl)), if_neg (by rw [hr]; simp)]

theorem AddLeakedChunks_replicate (W : World) (hres : W.flags.resolution = 0) (leak : LeakedChunk)
    (ht : leak.tag = .kDirectlyLeaked) :
    ∀ (n : Nat) (r : LeakReport) (l0 : Leak), r.leaks_ = [l0] →
      l0.stack_trace_id = leak.stack_trace_id → l0.is_directly_leaked = true →
      l0.is_suppressed = false →
      ∃ r1 l1, AddLeakedChunks W (List.replicate n leak) r = .ok r1 ∧ r1.leaks_ = [l1] ∧
        l1.stack_trace_id = leak.stack_trace_id ∧ l1.is_directly_leaked = true ∧
        l1.is_suppressed = false := by
  intro n
  induction n with
  | zero =>
    intro r l0 hr h1 h2 h3
    exact ⟨r, l0, rfl, hr, h1, h2, h3⟩
  | succ n ih =>
    intro r l0 hr h1 h2 h3
    rw [List.replicate_succ, AddLeakedChunks_cons_found W hres leak _ r l0 ht hr h1 h2]
    apply ih _ { l0 with hit_count := (l0.hit_count + 1) % 2 ^ 64,
                         total_size := (l0.total_size + leak.leaked_size) % 2 ^ 64 }
    · rw [addLeakedObject_leaks, hr]
      rfl
    · exact h1
    · exact h2
    · exact h3

theorem AddLeakedChunks_first (W : World) (hres : W.flags.resolution = 0) (leak : LeakedChunk)
    (ht : leak.tag = .kDirectlyLeaked) (n : Nat) :
    ∃ r1 l1, AddLeakedChunks W (List.replicate (n + 1) leak) LeakReport.empty = .ok r1 ∧
      r1.leaks_ = [l1] ∧ l1.stack_trace_id = leak.stack_trace_id ∧
      l1.is_directly_leaked = true ∧ l1.is_suppressed = false := by
  have hid : resolvedStackId W leak.stack_trace_id = leak.stack_trace_id := by
    unfold resolvedStackId
    rw [if_neg (by rw [hres]; exact fun h => h rfl)]
  rw [List.replicate_succ, AddLeakedChunks]
  simp only [hid]
  rw [if_neg (by rw [ht]; exact fun h => h (Or.inl rfl))]
  have hi : findLeak LeakReport.empty.leaks_ leak.stack_trace_id
      (decide (leak.tag = .kDirectlyLeaked)) = LeakReport.empty.leaks_.length := rfl
  rw [if_pos hi, if_neg (by decide)]
  apply AddLeakedChunks_replicate W hres leak ht n _
    ⟨LeakReport.empty.next_id_, 1, leak.leaked_size, leak.stack_trace_id,
      decide (leak.tag = .kDirectlyLeaked), false⟩
  · rw [addLeakedObject_leaks]
    rfl
  · rfl
  · rw [ht]
    rfl
  · rfl

theorem SuppressByRule_hit (W : World) (ctx : LeakSuppressionContext) (hc tsz : Nat) :
    ∀ stack : List Nat,
      (∃ pc ∈ stack, (W.GetSuppressionForAddr (W.GetPreviousInstructionPc pc)).isSome = true) →
      (SuppressByRule W ctx stack hc tsz).1 = true ∧
        (SuppressByRule W ctx stack hc tsz).2.suppressed_stacks = ctx.suppressed_stacks := by
  intro stack
  induction stack with
  | nil =>
    rintro ⟨pc, hpc, _⟩
    cases hpc
  | cons pc rest ih =>
    intro h
    cases hm : W.GetSuppressionForAddr (W.GetPreviousInstructionPc pc) with
    | some rule =>
      simp only [SuppressByRule, hm]
      exact ⟨trivial, trivial⟩
    | none =>
      simp only [SuppressByRule, hm]
      apply ih
      obtain ⟨pc1, hpc1, hs⟩ := h
      rcases List.mem_cons.mp hpc1 with e | e
      · subst e
        rw [hm] at hs
        cases hs
      · exact ⟨pc1, e, hs⟩

theorem LazyInit_stacks (ctx : LeakSuppressionContext) :
    (LazyInit ctx).suppressed_stacks = ctx.suppressed_stacks := by
  unfold LazyInit
  cases ctx.parsed <;> rfl

theorem Suppress_hit (W : World) (ctx : LeakSuppressionContext) (sid hc tsz : Nat)
    (h : ∃ pc ∈ W.StackDepotGet sid,
      (W.GetSuppressionForAddr (W.GetPreviousInstructionPc pc)).isSome = true) :
    (Suppress W ctx sid hc tsz).1 = true ∧
      (Suppress W ctx sid hc tsz).2.suppressed_stacks = ctx.suppressed_stacks ++ [sid] ∧
      (Suppress W ctx sid hc tsz).2.suppressed_stacks_sorted = false := by
  obtain ⟨h1, h2⟩ := SuppressByRule_hit W (LazyInit ctx) hc tsz _ h
  unfold Suppress
  simp only [h1, Bool.not_true, Bool.false_eq_true, if_false]
  rw [h2, LazyInit_stacks]
  exact ⟨trivial, rfl, trivial⟩

theorem ApplySuppressions_single (W : World) (report : LeakReport) (ctx : LeakSuppressionContext)
    (l : Leak) (hr : report.leaks_ = [l])
    (h : ∃ pc ∈ W.StackDepotGet l.stack_trace_id,
      (W.GetSuppressionForAddr (W.GetPreviousInstructionPc pc)).isSome = true) :
    (ApplySuppressions W report ctx).1 = 1 ∧
      (ApplySuppressions W report ctx).2.1.leaks_ = [{ l with is_suppressed := true }] ∧
      (ApplySuppressions W report ctx).2.2.suppressed_stacks =
        ctx.suppressed_stacks ++ [l.stack_trace_id] ∧
      (ApplySuppressions W report ctx).2.2.suppressed_stacks_sorted = false := by
  obtain ⟨h1, h2, h3⟩ := Suppress_hit W ctx l.stack_trace_id l.hit_count l.total_size h
  unfold ApplySuppressions
  rw [hr]
  simp only [applySuppressionsLoop, h1, if_true]
  exact ⟨trivial, trivial, h2, h3⟩

theorem SortAndDedup_nil : SortAndDedup [] = [] := rfl

theorem SortAndDedup_single (a : Nat) : SortAndDedup [a] = [a] := by
  unfold SortAndDedup
  simp

theorem GetSortedSuppressedStacks_nil (ctx : LeakSuppressionContext)
    (h : ctx.suppressed_stacks = []) :
    (GetSortedSuppressedStacks ctx).1 = [] ∧
      (GetSortedSuppressedStacks ctx).2.suppressed_stacks = [] := by
  unfold GetSortedSuppressedStacks
  cases ctx.suppressed_stacks_sorted
  · simp only [Bool.not_false, if_true, h]
    exact ⟨rfl, rfl⟩
  · simp only [Bool.not_true, Bool.false_eq_true, if_false, h]
    exact ⟨trivial, trivial⟩

theorem GetSortedSuppressedStacks_single (ctx : LeakSuppressionContext) (a : Nat)
    (h : ctx.suppressed_stacks = [a]) (hs : ctx.suppressed_stacks_sorted = false) :
    (GetSortedSuppressedStacks ctx).1 = [a] ∧
      (GetSortedSuppressedStacks ctx).2.suppressed_stacks = [a] ∧
      (GetSortedSuppressedStacks ctx).2.suppressed_stacks_sorted = true := by
  unfold GetSortedSuppressedStacks
  simp only [hs, Bool.not_false, if_true, h, SortAndDedup_single]
  exact ⟨trivial, trivial, trivial⟩

theorem suppressedHit_single (a : Nat) : suppressedHit [a] a := by
  unfold suppressedHit
  simp [InternalLowerBound]

theorem checkForLeaksLoop_return (W : World) (fuel n i : Nat) (st : LsanState)
    (tag1 : Nat → ChunkTag) (leaks : List LeakedChunk) (rep : LeakReport)
    (hstop : W.StopTheWorld = true)
    (hcb : CheckForLeaksCallback W (GetSortedSuppressedStacks st.ctx).1 fuel st.tag =
      .ok (tag1, leaks))
    (hadd : AddLeakedChunks W leaks LeakReport.empty = .ok rep)
    (hdone : (ApplySuppressions W rep (GetSortedSuppressedStacks st.ctx).2).1 = 0 ∨
      IndirectUnsuppressedLeakCount
        (ApplySuppressions W rep (GetSortedSuppressedStacks st.ctx).2).2.1 = 0) :
    checkForLeaksLoop W fuel (n + 1) i st =
      .ok ⟨PrintResults (ApplySuppressions W rep (GetSortedSuppressedStacks st.ctx).2).2.1,
        some (ApplySuppressions W rep (GetSortedSuppressedStacks st.ctx).2).2.1,
        ⟨tag1, (ApplySuppressions W rep (GetSortedSuppressedStacks st.ctx).2).2.2⟩⟩ := by
  rw [checkForLeaksLoop]
  simp only [hstop, Bool.not_true, Bool.false_eq_true, if_false, hcb, hadd]
  by_cases h0 : (ApplySuppressions W rep (GetSortedSuppressedStacks st.ctx).2).1 = 0
  · rw [if_pos h0]
  · rw [if_neg h0]
    rcases hdone with h | h
    · exact absurd h h0
    · rw [if_pos h]

theorem CheckForLeaks_on (W : World) (fuel : Nat) (st : LsanState)
    (hoff : W.is_turned_off = false) :
    CheckForLeaks W fuel st = checkForLeaksLoop W fuel 9 0 st := by
  unfold CheckForLeaks
  rw [hoff]
  rfl

theorem tagsAfterCheck_eq (W : World) (s9 : ScanState) (x : Nat) :
    tagsAfterCheck W s9 x =
      if Live W x ∧ (ForEachChunk W (MarkIndirectlyLeakedCb W) s9).tag x ≠ .kIgnored then
        .kDirectlyLeaked
      else (ForEachChunk W (MarkIndirectlyLeakedCb W) s9).tag x := by
  unfold tagsAfterCheck
  have h := resetTags_pass W W.chunks (ForEachChunk W (MarkIndirectlyLeakedCb W) s9) x
  have e : ForEachChunk W (ResetTagsCb W) (ForEachChunk W (MarkIndirectlyLeakedCb W) s9) =
      W.chunks.foldl (fun st ch => ResetTagsCb W ch st)
        (ForEachChunk W (MarkIndirectlyLeakedCb W) s9) := rfl
  rw [e, h]
  by_cases hc : x ∈ W.chunks.map W.GetUserBegin ∧ W.allocated x = true ∧
      (ForEachChunk W (MarkIndirectlyLeakedCb W) s9).tag x ≠ .kIgnored
  · rw [if_pos hc, if_pos ⟨⟨hc.1, hc.2.1⟩, hc.2.2⟩]
  · rw [if_neg hc, if_neg]
    rintro ⟨⟨h1, h2⟩, h3⟩
    exact hc ⟨h1, h2, h3⟩

theorem markIndirect_reached (W : World) (s9 : ScanState) (x : Nat) (h : Reached (s9.tag x)) :
    (ForEachChunk W (MarkIndirectlyLeakedCb W) s9).tag x = s9.tag x :=
  (markIndirect_pass W W.chunks s9).1 x h

theorem markIndirect_not_live (W : World) (hPIC : PointsIntoLive W) (s9 : ScanState) (x : Nat)
    (h : ¬ Live W x) : (ForEachChunk W (MarkIndirectlyLeakedCb W) s9).tag x = s9.tag x := by
  rcases (markIndirect_pass W W.chunks s9).2.1 x with h1 | ⟨_, _, ch, _, _, _, hp⟩
  · exact h1
  · obtain ⟨pp, _, hpt⟩ := hp
    exact absurd (pointsTo_live W hPIC _ pp x hpt) h

/-- A leak check leaves every tag `kDirectlyLeaked` or `kIgnored`. -/
theorem tagsAfterCheck_reset (W : World) (hPIC : PointsIntoLive W) (suppressed : List Nat)
    (tag0 : Nat → ChunkTag) (hreset : TagsReset tag0) (s9 : ScanState)
    (hs : ReachableSpec W suppressed tag0 (fun _ => True) s9) :
    TagsReset (tagsAfterCheck W s9) := by
  intro x
  rw [tagsAfterCheck_eq]
  by_cases hc : Live W x ∧ (ForEachChunk W (MarkIndirectlyLeakedCb W) s9).tag x ≠ .kIgnored
  · rw [if_pos hc]
    exact Or.inl rfl
  · rw [if_neg hc]
    by_cases hl : Live W x
    · right
      by_contra hne
      exact hc ⟨hl, hne⟩
    · rw [markIndirect_not_live W hPIC s9 x hl]
      rcases hs.justified.1 x with h | ⟨h, _⟩
      · rw [h]
        exact hreset x
      · exact absurd h hl

/-- Monotonicity of the reachability phase across two checks: a live chunk reached in
a check without suppressed stacks is reached in the next check, whatever stacks
are suppressed then. -/
theorem rerun_reaches (W : World) (hPIC : PointsIntoLive W) (hg : GlobalChecksPass W)
    (tag0 : Nat → ChunkTag) (hreset : TagsReset tag0) (fuel : Nat) (hf : enoughFuel W ≤ fuel)
    (s9 : ScanState) (h9 : findReachable W [] fuel ⟨tag0, []⟩ = .ok s9)
    (suppressed : List Nat) (s9b : ScanState)
    (hsb : ReachableSpec W suppressed (tagsAfterCheck W s9) (fun _ => True) s9b) :
    ∀ x, Live W x → Reached (s9.tag x) → Reached (s9b.tag x) := by
  obtain ⟨s9a, h9a, hsT⟩ := findReachable_spec W hPIC hg [] tag0 (fun _ => True) hreset
    (admits_true W [] tag0) fuel hf
  rw [h9] at h9a
  cases h9a
  have hinit : ∀ c, Live W c → tag0 c = .kIgnored → Reached (s9b.tag c) := by
    intro c hc h0
    rcases hsT.justified.1 c with h | ⟨_, _, _, h⟩
    · apply hsb.init
      have h9c : s9.tag c = .kIgnored := by rw [h, h0]
      rw [tagsAfterCheck_eq, markIndirect_reached W s9 c (by rw [h9c]; exact Or.inr rfl), h9c]
      rw [if_neg (fun h => h.2 rfl)]
      exact Or.inr rfl
    · obtain ⟨ptr, hp, he, hne⟩ := h (by rw [h0]; exact Or.inr rfl)
      have := hsb.ctx ptr hp (by rw [he]; exact hne)
      rw [he] at this
      exact this
  have hA : Admits W [] tag0 (fun x => Reached (s9b.tag x)) := by
    refine ⟨hsb.roots, ?_, hsb.ctx, ?_, hinit, hsb.pc⟩
    · intro n c hn hk hp
      rcases hsb.closed n hn hk with h | h | h
      · exact absurd h id
      · rw [hsb.frontier_nil] at h
        cases h
      · exact h c hp
    · intro c _ h
      cases h
  obtain ⟨s9c, h9c, hsK⟩ := findReachable_spec W hPIC hg [] tag0 (fun x => Reached (s9b.tag x))
    hreset hA fuel hf
  rw [h9] at h9c
  cases h9c
  intro x hx hr
  rcases hsK.justified.1 x with h | ⟨_, h, _⟩
  · apply hinit x hx
    rw [h] at hr
    rcases hreset x with h0 | h0
    · rw [h0] at hr
      rcases hr with hr | hr <;> cases hr
    · exact h0
  · exact h

/-- C7 (amended): with `resolution = 0`, no stack suppressed yet, leak checking not
turned off and the world stopped successfully, let `L` be the only live chunk
that the reachability phase of the first check leaves unreached, and let a
suppression rule match a frame of its stack trace. Then `CheckForLeaks`
returns false twice in a row: the first check files `L` under one record,
marks it suppressed and remembers its stack trace id; in the second check
`IgnoredSuppressedCb` tags every live chunk with that stack trace id
`kIgnored`, and no leak is collected. -/
theorem suppressed_leak_two_checks (W : World) (hPIC : PointsIntoLive W)
    (hg : GlobalChecksPass W) (tag0 : Nat → ChunkTag) (hreset : TagsReset tag0) (fuel : Nat)
    (hf : enoughFuel W ≤ fuel) (ctx0 : LeakSuppressionContext)
    (hctx0 : ctx0.suppressed_stacks = []) (hoff : W.is_turned_off = false)
    (hstop : W.StopTheWorld = true) (hres : W.flags.resolution = 0) (s9 : ScanState)
    (h9 : findReachable W [] fuel ⟨tag0, []⟩ = .ok s9) (L : Nat) (hL : Live W L)
    (hLu : ¬ Reached (s9.tag L)) (honly : ∀ x, Live W x → x ≠ L → Reached (s9.tag x))
    (hrule : ∃ pc ∈ W.StackDepotGet (W.stack_trace_id L),
      (W.GetSuppressionForAddr (W.GetPreviousInstructionPc pc)).isSome = true) :
    ∃ o1 o2 r1 l1,
      CheckForLeaks W fuel ⟨tag0, ctx0⟩ = .ok o1 ∧ o1.have_leaks = false ∧
      o1.report = some r1 ∧ r1.leaks_ = [l1] ∧ l1.stack_trace_id = W.stack_trace_id L ∧
      l1.is_suppressed = true ∧ UnsuppressedLeakCount r1 = 0 ∧
      o1.state.ctx.suppressed_stacks = [W.stack_trace_id L] ∧
      (∀ c, Live W c → W.stack_trace_id c = W.stack_trace_id L →
        (ForEachChunk W (IgnoredSuppressedCb W [W.stack_trace_id L]) ⟨o1.state.tag, []⟩).tag c =
          .kIgnored) ∧
      CheckForLeaks W fuel o1.state = .ok o2 ∧ o2.have_leaks = false ∧
      o2.report = some LeakReport.empty := by
  -- the first check
  obtain ⟨s9a, h9a, hsT⟩ := findReachable_spec W hPIC hg [] tag0 (fun _ => True) hreset
    (admits_true W [] tag0) fuel hf
  rw [h9] at h9a
  cases h9a
  have h9L : s9.tag L = .kDirectlyLeaked := by
    rcases hsT.justified.1 L with h | ⟨_, _, h, _⟩
    · rcases hreset L with h0 | h0
      · rw [h, h0]
      · exfalso; apply hLu; rw [h, h0]; exact Or.inr rfl
    · exact absurd h hLu
  have h10L : (ForEachChunk W (MarkIndirectlyLeakedCb W) s9).tag L = .kDirectlyLeaked := by
    rcases (markIndirect_pass W W.chunks s9).2.1 L with h | ⟨_, _, ch, hch, h1, h2, h3⟩
    · exact h.trans h9L
    · exfalso
      have hlv : Live W (W.GetUserBegin ch) := ⟨List.mem_map.mpr ⟨ch, hch, rfl⟩, h1⟩
      by_cases he : W.GetUserBegin ch = L
      · obtain ⟨pp, _, hpt⟩ := h3
        exact hpt.2.2.2.1 he.symm
      · rcases hsT.closed _ hlv (honly _ hlv he) with h | h | h
        · exact h
        · rw [hsT.frontier_nil] at h; cases h
        · exact hLu (h L h3)
  have h10o : ∀ x, Live W x → x ≠ L →
      Reached ((ForEachChunk W (MarkIndirectlyLeakedCb W) s9).tag x) := by
    intro x hx hne
    rw [markIndirect_reached W s9 x (honly x hx hne)]
    exact honly x hx hne
  obtain ⟨n, hleaks⟩ := collectLeaks_single W _ L hL h10L h10o
  obtain ⟨rep, l0, hadd, hrep, hl0, _, _⟩ := AddLeakedChunks_first W hres
    ⟨L, W.stack_trace_id L, W.requested_size L, .kDirectlyLeaked⟩ rfl n
  have hsorted0 := GetSortedSuppressedStacks_nil ctx0 hctx0
  have hcb1 : CheckForLeaksCallback W (GetSortedSuppressedStacks ctx0).1 fuel tag0 =
      .ok (tagsAfterCheck W s9, List.replicate (n + 1)
        ⟨L, W.stack_trace_id L, W.requested_size L, .kDirectlyLeaked⟩) := by
    rw [hsorted0.1, callback_unfold W [] fuel tag0 s9 h9, hleaks]
    rfl
  obtain ⟨a1, a2, a3, a4⟩ := ApplySuppressions_single W rep (GetSortedSuppressedStacks ctx0).2 l0
    hrep (by rw [hl0]; exact hrule)
  have hind : IndirectUnsuppressedLeakCount
      (ApplySuppressions W rep (GetSortedSuppressedStacks ctx0).2).2.1 = 0 := by
    unfold IndirectUnsuppressedLeakCount
    rw [a2]
    rfl
  have hrun1 := checkForLeaksLoop_return W fuel 8 0 ⟨tag0, ctx0⟩ _ _ rep hstop hcb1 hadd
    (Or.inr hind)
  have hstacks : (ApplySuppressions W rep (GetSortedSuppressedStacks ctx0).2).2.2.suppressed_stacks =
      [W.stack_trace_id L] := by
    rw [a3, hsorted0.2, hl0]
    rfl
  -- the second check
  obtain ⟨b1, b2, b3⟩ := GetSortedSuppressedStacks_single _ _ hstacks a4
  have hreset1 := tagsAfterCheck_reset W hPIC [] tag0 hreset s9 hsT
  obtain ⟨s9b, h9b, hsb⟩ := findReachable_spec W hPIC hg [W.stack_trace_id L]
    (tagsAfterCheck W s9) (fun _ => True) hreset1 (admits_true W _ _) fuel hf
  have hall : ∀ x, Live W x → Reached ((ForEachChunk W (MarkIndirectlyLeakedCb W) s9b).tag x) := by
    intro x hx
    have hr : Reached (s9b.tag x) := by
      by_cases he : x = L
      · subst he
        exact hsb.supp x hx rfl (suppressedHit_single _)
      · exact rerun_reaches W hPIC hg tag0 hreset fuel hf s9 h9 _ s9b hsb x hx (honly x hx he)
    rw [markIndirect_reached W s9b x hr]
    exact hr
  have hcb2 : CheckForLeaksCallback W (GetSortedSuppressedStacks
      (ApplySuppressions W rep (GetSortedSuppressedStacks ctx0).2).2.2).1 fuel
      (tagsAfterCheck W s9) = .ok (tagsAfterCheck W s9b, []) := by
    rw [b1, callback_unfold W _ fuel _ s9b h9b, collectLeaks_nil W _ hall]
    rfl
  have hrun2 := checkForLeaksLoop_return W fuel 8 0
    ⟨tagsAfterCheck W s9, (ApplySuppressions W rep (GetSortedSuppressedStacks ctx0).2).2.2⟩
    _ _ LeakReport.empty hstop hcb2 rfl (Or.inl rfl)
  have hignored : ∀ c, Live W c → W.stack_trace_id c = W.stack_trace_id L →
      (ForEachChunk W (IgnoredSuppressedCb W [W.stack_trace_id L])
        ⟨tagsAfterCheck W s9, []⟩).tag c = .kIgnored := by
    intro c hc hsid
    obtain ⟨ch, hch, hce⟩ := List.mem_map.mp hc.1
    have := (ignoredSuppressed_pass W [W.stack_trace_id L] W.chunks ⟨tagsAfterCheck W s9, []⟩).2.2.2
      ch hch (by rw [hce]; exact hc.2) (by rw [hce, hsid]; exact suppressedHit_single _)
    rw [hce] at this
    exact this
  have p1 := (CheckForLeaks_on W fuel ⟨tag0, ctx0⟩ hoff).trans hrun1
  have p2 := (CheckForLeaks_on W fuel
    ⟨tagsAfterCheck W s9, (ApplySuppressions W rep (GetSortedSuppressedStacks ctx0).2).2.2⟩
    hoff).trans hrun2
  have hcount : UnsuppressedLeakCount
      (ApplySuppressions W rep (GetSortedSuppressedStacks ctx0).2).2.1 = 0 := by
    unfold UnsuppressedLeakCount
    rw [a2]
    rfl
  refine ⟨_, _, _, _, p1, ?_, rfl, a2, hl0, rfl, hcount, hstacks, hignored, p2, rfl, rfl⟩
  show PrintResults _ = false
  unfold PrintResults
  rw [hcount]
  rfl

/-! ### Concrete runs -/

theorem exampleWorld_live (mem : Nat → Nat) (poisoned : Nat → Bool) (rr : List RootRegion)
    (sid : Nat → Nat) (res : Nat) (rule : Nat → Option Nat) (x : Nat) :
    Live (exampleWorld mem poisoned rr sid res rule) x ↔ x = 20000 ∨ x = 30000 := by
  unfold Live exampleWorld
  simp only [List.map_cons, List.map_nil, List.mem_cons, List.mem_nil_iff, or_false,
    Bool.or_eq_true, beq_iff_eq, and_self]

theorem exampleWorld_pointsIntoLive (mem : Nat → Nat) (poisoned : Nat → Bool)
    (rr : List RootRegion) (sid : Nat → Nat) (res : Nat) (rule : Nat → Option Nat) :
    PointsIntoLive (exampleWorld mem poisoned rr sid res rule) := by
  intro p h
  rw [exampleWorld_live]
  simp only [exampleWorld] at h ⊢
  by_cases h1 : 20000 ≤ p ∧ p < 20016
  · rw [if_pos h1]; exact Or.inl rfl
  · rw [if_neg h1] at h ⊢
    by_cases h2 : 30000 ≤ p ∧ p < 30016
    · rw [if_pos h2]; exact Or.inr rfl
    · rw [if_neg h2] at h; exact absurd rfl h

theorem exampleWorld_globalChecksPass (mem : Nat → Nat) (poisoned : Nat → Bool)
    (rr : List RootRegion) (sid : Nat → Nat) (res : Nat) (rule : Nat → Option Nat) :
    GlobalChecksPass (exampleWorld mem poisoned rr sid res rule) := by
  intro _ r hr
  cases hr

theorem freshTags_reset : TagsReset freshTags := fun _ => Or.inl rfl

/-- C4, counterexample to the claim as stated: the chunk at 20000 is registered as a
root region and its first word, aligned, plausible and unpoisoned, points into
the chunk. The scan of the root region skips the word because the chunk begins
where the range begins, the chunk stays `kDirectlyLeaked` and is collected. -/
theorem root_region_self_pointer_counterexample :
    (20000, 20016) ∈ rootRanges selfRootWorld ∧
    Visits selfRootWorld 20000 20016 20000 ∧
    CanBeAHeapPointer (selfRootWorld.mem 20000) = true ∧
    selfRootWorld.WordIsPoisoned 20000 = false ∧
    selfRootWorld.PointsIntoChunk (selfRootWorld.mem 20000) = 20000 ∧
    selfRootWorld.allocated 20000 = true ∧
    classifyAndCollect selfRootWorld [] 4 freshTags 20000 =
      some (.kDirectlyLeaked,
        [⟨20000, 1, 16, .kDirectlyLeaked⟩, ⟨30000, 1, 16, .kDirectlyLeaked⟩]) :=
  ⟨by decide, by decide, by decide, rfl, by decide, rfl, by decide⟩

/-- Witness for C4 (amended): the chunk at 30000 is reachable from a root region
through the chunk at 20000. -/
theorem classify_reachable_sound_witness :
    RootReachable chainWorld 30000 ∧
    ∃ s, ClassifyAllChunks chainWorld [] 4 ⟨freshTags, []⟩ = .ok s ∧
      ∀ c, RootReachable chainWorld c →
        Reached (s.tag c) ∧
          ∀ x ∈ ForEachChunk chainWorld (CollectLeaksCb chainWorld s.tag) [], x.chunk ≠ c :=
  ⟨RootReachable.body 20000 30000
      (RootReachable.root (40000, 40008) 20000 (by decide) ⟨40000, by decide, by decide⟩)
      ⟨20000, by decide, by decide⟩,
    classify_reachable_sound chainWorld (exampleWorld_pointsIntoLive _ _ _ _ _ _)
      (exampleWorld_globalChecksPass _ _ _ _ _ _) [] freshTags freshTags_reset 4 (by decide)⟩

/-- C5, counterexample to the claim as stated: no word points to the two allocated
chunks and there is no suppression, but the chunks have no recorded stack
trace (id 0). `MarkInvalidPCCb` tags them `kIgnored` and nothing is collected. -/
theorem invalid_pc_counterexample :
    (orphanWorld 0).allocated 20000 = true ∧
    (∀ a, CanBeAHeapPointer ((orphanWorld 0).mem a) = false) ∧
    leaksOf (CheckForLeaksCallback (orphanWorld 0) [] 4 freshTags) = some [] :=
  ⟨rfl, fun _ => rfl, by decide⟩

/-- Witness for C5 (amended): the same heap with a recorded stack trace. -/
theorem unreferenced_chunk_direct_leak_witness :
    ∃ tags leaks, CheckForLeaksCallback (orphanWorld 1) [] 4 freshTags = .ok (tags, leaks) ∧
      leaks.filter (fun x => decide (x.chunk = 20000)) = [⟨20000, 1, 16, .kDirectlyLeaked⟩] :=
  unreferenced_chunk_direct_leak (orphanWorld 1) (exampleWorld_pointsIntoLive _ _ _ _ _ _)
    (exampleWorld_globalChecksPass _ _ _ _ _ _) [] freshTags freshTags_reset 4 (by decide) 20000
    (by decide) (by decide) rfl (by decide) (by decide)
    (fun _ h => by cases h)
    (fun _ h => by cases h)
    (fun _ _ _ h => by
      obtain ⟨pp, _, h, _⟩ := h
      have h0 : CanBeAHeapPointer ((orphanWorld 1).mem pp) = false := rfl
      rw [h0] at h
      cases h)

/-- C6, counterexample to the claim as stated: the first word of chunk A = 20000 is
an aligned pointer to chunk B = 30000, both chunks are unreachable and no word
points to A, but the word is poisoned and `use_poisoned` is off. Both chunks
are collected as direct leaks. -/
theorem poisoned_pointer_counterexample :
    (pairWorld true).mem 20000 = 30000 ∧
    (pairWorld true).PointsIntoChunk 30000 = 30000 ∧
    (∀ a, (pairWorld true).PointsIntoChunk ((pairWorld true).mem a) ≠ 20000) ∧
    leaksOf (CheckForLeaksCallback (pairWorld true) [] 4 freshTags) =
      some [⟨20000, 1, 16, .kDirectlyLeaked⟩, ⟨30000, 1, 16, .kDirectlyLeaked⟩] := by
  refine ⟨rfl, by decide, ?_, by decide⟩
  intro a
  by_cases h : a = 20000
  · subst h; decide
  · simp only [pairWorld, exampleWorld, if_neg h]
    decide

/-- Witness for C6 (amended): the same heap with the word unpoisoned. -/
theorem indirect_leak_scenario_witness :
    ∃ tags leaks, CheckForLeaksCallback (pairWorld false) [] 4 freshTags = .ok (tags, leaks) ∧
      ⟨20000, 1, 16, .kDirectlyLeaked⟩ ∈ leaks ∧ ⟨30000, 1, 16, .kIndirectlyLeaked⟩ ∈ leaks :=
  indirect_leak_scenario (pairWorld false) (exampleWorld_pointsIntoLive _ _ _ _ _ _)
    (exampleWorld_globalChecksPass _ _ _ _ _ _) [] freshTags freshTags_reset 4 (by decide) _ rfl
    20000 30000 (by decide) (by decide) (by decide) (by decide) ⟨20000, by decide, by decide⟩
    (fun X hl _ h => by
      obtain ⟨pp, hv, h1, _, _, h4, _⟩ := h
      rcases (exampleWorld_live _ _ _ _ _ _ X).mp hl with e | e
      · exact h4 e.symm
      · subst e
        have hpp : pp ≠ 20000 := by
          have := hv.1
          omega
        simp only [pairWorld, exampleWorld, if_neg hpp] at h1
        exact absurd h1 (by decide))

/-- C7, counterexample to the claim as stated: the only unreachable allocation (the
chunk at 20000) has a stack trace whose third frame matches a suppression
rule, but with `resolution = 1` its record is filed under the one-frame prefix
of the stack, which no rule matches. The first leak check leaves the record
unsuppressed and returns true. -/
theorem resolution_counterexample :
    (∃ pc ∈ (suppressedWorld 1).StackDepotGet ((suppressedWorld 1).stack_trace_id 20000),
      ((suppressedWorld 1).GetSuppressionForAddr
        ((suppressedWorld 1).GetPreviousInstructionPc pc)).isSome = true) ∧
    leaksOf (CheckForLeaksCallback (suppressedWorld 1) [] 4 freshTags) =
      some [⟨20000, 1, 16, .kDirectlyLeaked⟩] ∧
    outcomeOf (CheckForLeaks (suppressedWorld 1) 4 ⟨freshTags, freshContext⟩) =
      some (true, some ⟨1, [⟨0, 1, 16, 101, true, false⟩], []⟩, []) :=
  ⟨⟨3001, by decide, by decide⟩, by decide, by decide⟩

/-- Witness for C7 (amended): the same heap with `resolution = 0`. -/
theorem suppressed_leak_two_checks_witness :
    ∃ o1 o2 r1 l1,
      CheckForLeaks (suppressedWorld 0) 4 ⟨freshTags, freshContext⟩ = .ok o1 ∧
      o1.have_leaks = false ∧ o1.report = some r1 ∧ r1.leaks_ = [l1] ∧
      l1.stack_trace_id = (suppressedWorld 0).stack_trace_id 20000 ∧
      l1.is_suppressed = true ∧ UnsuppressedLeakCount r1 = 0 ∧
      o1.state.ctx.suppressed_stacks = [(suppressedWorld 0).stack_trace_id 20000] ∧
      (∀ c, Live (suppressedWorld 0) c →
        (suppressedWorld 0).stack_trace_id c = (suppressedWorld 0).stack_trace_id 20000 →
        (ForEachChunk (suppressedWorld 0)
          (IgnoredSuppressedCb (suppressedWorld 0) [(suppressedWorld 0).stack_trace_id 20000])
          ⟨o1.state.tag, []⟩).tag c = .kIgnored) ∧
      CheckForLeaks (suppressedWorld 0) 4 o1.state = .ok o2 ∧ o2.have_leaks = false ∧
      o2.report = some LeakReport.empty :=
  suppressed_leak_two_checks (suppressedWorld 0) (exampleWorld_pointsIntoLive _ _ _ _ _ _)
    (exampleWorld_globalChecksPass _ _ _ _ _ _) freshTags freshTags_reset 4 (by decide)
    freshContext rfl rfl rfl rfl _ rfl 20000 (by decide) (by decide)
    (fun x hx hne => by
      rcases (exampleWorld_live _ _ _ _ _ _ x).mp hx with e | e
      · exact absurd e hne
      · subst e
        decide)
    ⟨3001, by decide, by decide⟩

/-! ### The leak report: one record per pair, and the cap -/

theorem findLeak_eq_length (ls : List Leak) (sid : Nat) (b : Bool) :
    findLeak ls sid b = ls.length ↔ (sid, b) ∉ ls.map Leak.key := by
  unfold findLeak
  rw [List.findIdx_eq_length]
  constructor
  · intro h hm
    rcases List.mem_map.1 hm with ⟨l, hl, hk⟩
    have := h l hl
    unfold Leak.key at hk
    simp only [Prod.mk.injEq] at hk
    simp [hk.1, hk.2] at this
  · intro h l hl
    by_contra hc
    apply h
    simp only [Bool.not_eq_false, Bool.and_eq_true, decide_eq_true_eq, beq_iff_eq] at hc
    exact List.mem_map.2 ⟨l, hl, by unfold Leak.key; rw [hc.1, hc.2]⟩

theorem bump_key (l : Leak) (sz : Nat) : (l.bump sz).key = l.key := rfl

theorem bumpLeak_findLeak (sid : Nat) (b : Bool) (sz : Nat) :
    ∀ ls : List Leak, (ls.map Leak.key).Nodup →
      bumpLeak ls (findLeak ls sid b) sz =
        ls.map (fun l => if l.key = (sid, b) then l.bump sz else l) := by
  intro ls
  induction ls with
  | nil => intro _; rfl
  | cons l ls ih =>
    intro hnd
    rw [List.map_cons, List.nodup_cons] at hnd
    by_cases hk : l.key = (sid, b)
    · have hp : (decide (l.stack_trace_id = sid) && (l.is_directly_leaked == b)) = true := by
        unfold Leak.key at hk
        simp only [Prod.mk.injEq] at hk
        simp [hk.1, hk.2]
      have h0 : findLeak (l :: ls) sid b = 0 := by
        unfold findLeak
        rw [List.findIdx_cons, hp]
        rfl
      rw [h0, List.map_cons, if_pos hk]
      show l.bump sz :: ls = _
      congr 1
      symm
      refine (List.map_congr_left ?_).trans (List.map_id _)
      intro l2 hl2
      by_cases h2 : l2.key = (sid, b)
      · exact absurd (List.mem_map.2 ⟨l2, hl2, h2.trans hk.symm⟩) hnd.1
      · rw [if_neg h2]; rfl
    · have hp : (decide (l.stack_trace_id = sid) && (l.is_directly_leaked == b)) = false := by
        cases hq : (decide (l.stack_trace_id = sid) && (l.is_directly_leaked == b)) with
        | false => rfl
        | true =>
          exfalso
          apply hk
          simp only [Bool.and_eq_true, decide_eq_true_eq, beq_iff_eq] at hq
          unfold Leak.key
          rw [hq.1, hq.2]
      have h1 : findLeak (l :: ls) sid b = findLeak ls sid b + 1 := by
        unfold findLeak
        rw [List.findIdx_cons, hp]
        rfl
      rw [h1, List.map_cons, if_neg hk]
      show l :: bumpLeak ls (findLeak ls sid b) sz = _
      rw [ih hnd.2]

theorem fileLeak_new (W : World) (r : LeakReport) (leak : LeakedChunk)
    (h : leakKey W leak ∉ r.leaks_.map Leak.key) :
    (fileLeak W r leak).leaks_ = r.leaks_ ++
      [⟨r.next_id_, 1, leak.leaked_size, (leakKey W leak).1, (leakKey W leak).2, false⟩] := by
  have hi := (findLeak_eq_length r.leaks_ _ _).2 h
  unfold fileLeak
  simp only
  rw [if_pos hi, addLeakedObject_leaks]
  rfl

theorem fileLeak_old (W : World) (r : LeakReport) (leak : LeakedChunk)
    (hnd : (r.leaks_.map Leak.key).Nodup) (h : leakKey W leak ∈ r.leaks_.map Leak.key) :
    (fileLeak W r leak).leaks_ =
      r.leaks_.map (fun l => if l.key = leakKey W leak then l.bump leak.leaked_size else l) := by
  have hi : ¬ findLeak r.leaks_ (resolvedStackId W leak.stack_trace_id)
      (decide (leak.tag = .kDirectlyLeaked)) = r.leaks_.length :=
    fun hc => (findLeak_eq_length r.leaks_ _ _).1 hc h
  unfold fileLeak
  simp only
  rw [if_neg hi, addLeakedObject_leaks]
  exact bumpLeak_findLeak _ _ _ _ hnd

theorem map_bump_keys (k : Nat × Bool) (sz : Nat) (ls : List Leak) :
    (ls.map (fun l => if l.key = k then l.bump sz else l)).map Leak.key = ls.map Leak.key := by
  rw [List.map_map]
  apply List.map_congr_left
  intro l _
  show (if l.key = k then l.bump sz else l).key = l.key
  by_cases h : l.key = k
  · rw [if_pos h]; rfl
  · rw [if_neg h]

theorem fileLeak_keys_new (W : World) (r : LeakReport) (leak : LeakedChunk)
    (h : leakKey W leak ∉ r.leaks_.map Leak.key) :
    (fileLeak W r leak).leaks_.map Leak.key = r.leaks_.map Leak.key ++ [leakKey W leak] := by
  rw [fileLeak_new W r leak h, List.map_append]
  rfl

theorem fileLeak_keys_old (W : World) (r : LeakReport) (leak : LeakedChunk)
    (hnd : (r.leaks_.map Leak.key).Nodup) (h : leakKey W leak ∈ r.leaks_.map Leak.key) :
    (fileLeak W r leak).leaks_.map Leak.key = r.leaks_.map Leak.key := by
  rw [fileLeak_old W r leak hnd h, map_bump_keys]

theorem AddLeakedChunks_cons (W : World) (leak : LeakedChunk) (rest : List LeakedChunk)
    (r : LeakReport) (ht : LeakedTag leak)
    (hroom : leakKey W leak ∉ r.leaks_.map Leak.key → r.leaks_.length ≠ kMaxLeaksConsidered) :
    AddLeakedChunks W (leak :: rest) r = AddLeakedChunks W rest (fileLeak W r leak) := by
  rw [AddLeakedChunks]
  simp only
  rw [if_neg (fun hc => hc ht)]
  unfold fileLeak
  simp only
  by_cases hi : findLeak r.leaks_ (resolvedStackId W leak.stack_trace_id)
      (decide (leak.tag = .kDirectlyLeaked)) = r.leaks_.length
  · rw [if_pos hi, if_pos hi, if_neg (hroom ((findLeak_eq_length _ _ _).1 hi))]
  · rw [if_neg hi, if_neg hi]

theorem AddLeakedChunks_full (W : World) (leak : LeakedChunk) (rest : List LeakedChunk)
    (r : LeakReport) (ht : LeakedTag leak) (hnew : leakKey W leak ∉ r.leaks_.map Leak.key)
    (hfull : r.leaks_.length = kMaxLeaksConsidered) :
    AddLeakedChunks W (leak :: rest) r = .ok r := by
  rw [AddLeakedChunks]
  simp only
  rw [if_neg (fun hc => hc ht), if_pos ((findLeak_eq_length _ _ _).2 hnew), if_pos hfull]

theorem AddLeakedChunks_append (W : World) (tail : List LeakedChunk) :
    ∀ (pre : List LeakedChunk) (r : LeakReport), (∀ c ∈ pre, LeakedTag c) →
      (r.leaks_.map Leak.key).Nodup →
      (r.leaks_.map Leak.key ++ pre.map (leakKey W)).toFinset.card ≤ kMaxLeaksConsidered →
      AddLeakedChunks W (pre ++ tail) r = AddLeakedChunks W tail (pre.foldl (fileLeak W) r) := by
  intro pre
  induction pre with
  | nil => intro r _ _ _; rfl
  | cons leak pre ih =>
    intro r ht hnd hcard
    have hroom : leakKey W leak ∉ r.leaks_.map Leak.key →
        r.leaks_.length ≠ kMaxLeaksConsidered := by
      intro hnew
      have h1 : r.leaks_.length = (r.leaks_.map Leak.key).toFinset.card := by
        rw [List.toFinset_card_of_nodup hnd, List.length_map]
      have h2 : (insert (leakKey W leak) (r.leaks_.map Leak.key).toFinset).card ≤
          (r.leaks_.map Leak.key ++ (leak :: pre).map (leakKey W)).toFinset.card := by
        apply Finset.card_le_card
        intro k hk
        rw [Finset.mem_insert, List.mem_toFinset] at hk
        rw [List.mem_toFinset, List.mem_append, List.map_cons, List.mem_cons]
        rcases hk with hk | hk
        · exact Or.inr (Or.inl hk)
        · exact Or.inl hk
      rw [Finset.card_insert_of_not_mem (by rw [List.mem_toFinset]; exact hnew)] at h2
      omega
    rw [List.cons_append, AddLeakedChunks_cons W leak _ r (ht leak (List.mem_cons_self _ _)) hroom,
      List.foldl_cons]
    apply ih
    · exact fun c hc => ht c (List.mem_cons_of_mem _ hc)
    · by_cases hk : leakKey W leak ∈ r.leaks_.map Leak.key
      · rw [fileLeak_keys_old W r leak hnd hk]; exact hnd
      · rw [fileLeak_keys_new W r leak hk]
        rw [List.nodup_append]
        refine ⟨hnd, List.nodup_singleton _, ?_⟩
        intro a ha hb
        rw [List.mem_singleton] at hb
        exact hk (hb ▸ ha)
    · by_cases hk : leakKey W leak ∈ r.leaks_.map Leak.key
      · rw [fileLeak_keys_old W r leak hnd hk]
        refine le_trans (Finset.card_le_card ?_) hcard
        intro k
        simp only [List.mem_toFinset, List.mem_append, List.map_cons, List.mem_cons]
        rintro (h | h)
        · exact Or.inl h
        · exact Or.inr (Or.inr h)
      · rw [fileLeak_keys_new W r leak hk, List.append_assoc, List.singleton_append]
        exact hcard

theorem sizeSum_append (a b : List LeakedChunk) : sizeSum (a ++ b) = sizeSum a + sizeSum b := by
  unfold sizeSum
  rw [List.map_append, List.sum_append]

theorem sizeSum_filter_le (p : LeakedChunk → Bool) :
    ∀ l : List LeakedChunk, sizeSum (l.filter p) ≤ sizeSum l := by
  intro l
  induction l with
  | nil => exact Nat.le_refl _
  | cons a t ih =>
    have e : sizeSum (a :: t) = a.leaked_size + sizeSum t := rfl
    rw [List.filter_cons]
    by_cases h : p a = true
    · rw [if_pos h]
      have e2 : sizeSum (a :: t.filter p) = a.leaked_size + sizeSum (t.filter p) := rfl
      rw [e, e2]
      omega
    · rw [if_neg h, e]
      omega

theorem chunksOf_snoc_same (W : World) (done : List LeakedChunk) (leak : LeakedChunk) :
    chunksOf W (done ++ [leak]) (leakKey W leak) = chunksOf W done (leakKey W leak) ++ [leak] := by
  unfold chunksOf
  rw [List.filter_append]
  congr 1
  rw [List.filter_cons, if_pos (decide_eq_true rfl)]
  rfl

theorem chunksOf_snoc_other (W : World) (done : List LeakedChunk) (leak : LeakedChunk)
    (k : Nat × Bool) (h : k ≠ leakKey W leak) :
    chunksOf W (done ++ [leak]) k = chunksOf W done k := by
  unfold chunksOf
  rw [List.filter_append, List.filter_cons, if_neg (by simpa using fun hc => h hc.symm)]
  exact List.append_nil _

theorem chunksOf_absent (W : World) (done : List LeakedChunk) (k : Nat × Bool)
    (h : k ∉ done.map (leakKey W)) : chunksOf W done k = [] := by
  unfold chunksOf
  rw [List.filter_eq_nil_iff]
  intro a ha hc
  exact h (List.mem_map.2 ⟨a, ha, of_decide_eq_true hc⟩)

theorem Filed_step (W : World) (done : List LeakedChunk) (r : LeakReport) (leak : LeakedChunk)
    (hF : Filed W done r.leaks_) (hlen : (done ++ [leak]).length < 2 ^ 64)
    (hsum : sizeSum (done ++ [leak]) < 2 ^ 64) :
    Filed W (done ++ [leak]) (fileLeak W r leak).leaks_ := by
  obtain ⟨hnd, hmem, hval⟩ := hF
  by_cases hk : leakKey W leak ∈ r.leaks_.map Leak.key
  · refine ⟨?_, ?_, ?_⟩
    · rw [fileLeak_keys_old W r leak hnd hk]; exact hnd
    · intro k
      rw [fileLeak_keys_old W r leak hnd hk, List.map_append, List.mem_append, hmem k]
      constructor
      · exact Or.inl
      · rintro (h | h)
        · exact h
        · rw [List.map_singleton, List.mem_singleton] at h
          rw [h]
          exact (hmem _).1 hk
    · intro l2 hl2
      rw [fileLeak_old W r leak hnd hk] at hl2
      rcases List.mem_map.1 hl2 with ⟨l, hl, rfl⟩
      obtain ⟨v1, v2, v3⟩ := hval l hl
      by_cases hlk : l.key = leakKey W leak
      · simp only [if_pos hlk]
        rw [bump_key, hlk, chunksOf_snoc_same, List.length_append, sizeSum_append]
        rw [hlk] at v1 v2
        have b1 : (chunksOf W (done ++ [leak]) (leakKey W leak)).length ≤
            (done ++ [leak]).length := List.length_filter_le _ _
        have b2 : sizeSum (chunksOf W (done ++ [leak]) (leakKey W leak)) ≤
            sizeSum (done ++ [leak]) := sizeSum_filter_le _ _
        rw [chunksOf_snoc_same, List.length_append] at b1
        rw [chunksOf_snoc_same, sizeSum_append] at b2
        have e1 : sizeSum [leak] = leak.leaked_size := by
          show leak.leaked_size + 0 = leak.leaked_size
          omega
        have e2 : ([leak] : List LeakedChunk).length = 1 := rfl
        rw [e1] at b2 ⊢
        rw [e2] at b1 ⊢
        refine ⟨?_, ?_, v3⟩
        · show (l.hit_count + 1) % 2 ^ 64 = _
          rw [v1]
          exact Nat.mod_eq_of_lt (lt_of_le_of_lt b1 hlen)
        · show (l.total_size + leak.leaked_size) % 2 ^ 64 = _
          rw [v2]
          exact Nat.mod_eq_of_lt (lt_of_le_of_lt b2 hsum)
      · simp only [if_neg hlk]
        rw [chunksOf_snoc_other W done leak l.key hlk]
        exact ⟨v1, v2, v3⟩
  · have habs : leakKey W leak ∉ done.map (leakKey W) := fun hc => hk ((hmem _).2 hc)
    refine ⟨?_, ?_, ?_⟩
    · rw [fileLeak_keys_new W r leak hk, List.nodup_append]
      refine ⟨hnd, List.nodup_singleton _, ?_⟩
      intro a ha hb
      rw [List.mem_singleton] at hb
      exact hk (hb ▸ ha)
    · intro k
      rw [fileLeak_keys_new W r leak hk, List.map_append, List.mem_append, List.mem_append,
        hmem k]
      rfl
    · intro l2 hl2
      rw [fileLeak_new W r leak hk, List.mem_append, List.mem_singleton] at hl2
      rcases hl2 with hl | rfl
      · obtain ⟨v1, v2, v3⟩ := hval l2 hl
        have hne : l2.key ≠ leakKey W leak := fun hc => hk (hc ▸ List.mem_map.2 ⟨l2, hl, rfl⟩)
        rw [chunksOf_snoc_other W done leak l2.key hne]
        exact ⟨v1, v2, v3⟩
      · show (1 = (chunksOf W (done ++ [leak]) (leakKey W leak)).length) ∧
          (leak.leaked_size = sizeSum (chunksOf W (done ++ [leak]) (leakKey W leak))) ∧ _
        rw [chunksOf_snoc_same, chunksOf_absent W done _ habs]
        refine ⟨rfl, ?_, rfl⟩
        show leak.leaked_size = leak.leaked_size + 0
        omega

theorem Filed_fold (W : World) :
    ∀ done : List LeakedChunk, done.length < 2 ^ 64 → sizeSum done < 2 ^ 64 →
      Filed W done (done.foldl (fileLeak W) LeakReport.empty).leaks_ := by
  intro done
  induction done using List.reverseRecOn with
  | nil =>
    intro _ _
    refine ⟨List.nodup_nil, fun k => Iff.rfl, ?_⟩
    intro l hl
    cases hl
  | append_singleton done leak ih =>
    intro hlen hsum
    rw [List.foldl_append]
    have h1 : done.length < 2 ^ 64 := by
      rw [List.length_append] at hlen
      omega
    have h2 : sizeSum done < 2 ^ 64 := by
      rw [sizeSum_append] at hsum
      omega
    exact Filed_step W done _ leak (ih h1 h2) hlen hsum

theorem chunksOf_nodup (W : World) :
    ∀ pre : List LeakedChunk, (pre.map (leakKey W)).Nodup → ∀ c ∈ pre,
      chunksOf W pre (leakKey W c) = [c] := by
  intro pre
  induction pre with
  | nil => intro _ c hc; cases hc
  | cons a t ih =>
    intro hnd c hc
    rw [List.map_cons, List.nodup_cons] at hnd
    rcases List.mem_cons.1 hc with rfl | hc
    · unfold chunksOf
      rw [List.filter_cons, if_pos (decide_eq_true rfl)]
      congr 1
      exact chunksOf_absent W t _ hnd.1
    · have hne : leakKey W a ≠ leakKey W c := fun h => hnd.1 (h ▸ List.mem_map.2 ⟨c, hc, rfl⟩)
      have := ih hnd.2 c hc
      unfold chunksOf at this ⊢
      rw [List.filter_cons, if_neg (by simpa using hne)]
      exact this

theorem Filed_length (W : World) (done : List LeakedChunk) (ls : List Leak)
    (hF : Filed W done ls) (hnd : (done.map (leakKey W)).Nodup) : ls.length = done.length := by
  have hp := (List.perm_ext_iff_of_nodup hF.1 hnd).2 hF.2.1
  have := hp.length_eq
  rw [List.length_map, List.length_map] at this
  exact this

/-- Claim C18 (amended). The pair of a leaked chunk is taken with the stack trace id
under which the chunk is filed: its own id when `resolution` is 0, the id of
its stack cut to `resolution` frames otherwise. With fewer than
`kMaxLeaksConsidered` distinct pairs among leaked chunks whose number and
total size fit in a `uptr`, `AddLeakedChunks` on a fresh report returns a
report with exactly one record per distinct pair: the pairs of the records are
pairwise different, they are the pairs of the chunks, and each record holds
the number of chunks of its pair in `hit_count` and the sum of their sizes in
`total_size`. -/
theorem AddLeakedChunks_aggregates (W : World) (leaks : List LeakedChunk)
    (htag : ∀ c ∈ leaks, c.tag = .kDirectlyLeaked ∨ c.tag = .kIndirectlyLeaked)
    (hdistinct : (leaks.map (leakKey W)).toFinset.card < kMaxLeaksConsidered)
    (hlen : leaks.length < 2 ^ 64) (hsum : sizeSum leaks < 2 ^ 64) :
    ∃ r, AddLeakedChunks W leaks LeakReport.empty = .ok r ∧
      (r.leaks_.map Leak.key).Nodup ∧
      (∀ k, k ∈ r.leaks_.map Leak.key ↔ k ∈ leaks.map (leakKey W)) ∧
      ∀ l ∈ r.leaks_, l.hit_count = (chunksOf W leaks l.key).length ∧
        l.total_size = sizeSum (chunksOf W leaks l.key) := by
  have h := AddLeakedChunks_append W [] leaks LeakReport.empty htag List.nodup_nil
    (Nat.le_of_lt hdistinct)
  rw [List.append_nil] at h
  have hF := Filed_fold W leaks hlen hsum
  refine ⟨_, h, hF.1, hF.2.1, fun l hl => ⟨(hF.2.2 l hl).1, (hF.2.2 l hl).2.1⟩⟩

theorem sizeSum_le (m : Nat) :
    ∀ l : List LeakedChunk, (∀ c ∈ l, c.leaked_size ≤ m) → sizeSum l ≤ l.length * m := by
  intro l
  induction l with
  | nil => intro _; exact Nat.zero_le _
  | cons a t ih =>
    intro h
    have e : sizeSum (a :: t) = a.leaked_size + sizeSum t := rfl
    have h1 := h a (List.mem_cons_self _ _)
    have h2 := ih (fun c hc => h c (List.mem_cons_of_mem _ hc))
    rw [e, List.length_cons, Nat.succ_mul]
    omega

theorem AddLeakedChunks_capped (W : World) (pre : List LeakedChunk) (new : LeakedChunk)
    (rest : List LeakedChunk) (htag : ∀ c ∈ pre, LeakedTag c)
    (hnd : (pre.map (leakKey W)).Nodup) (hlen : pre.length = kMaxLeaksConsidered)
    (hsum : sizeSum pre < 2 ^ 64) (hnewtag : LeakedTag new)
    (hnew : leakKey W new ∉ pre.map (leakKey W)) :
    ∃ r, AddLeakedChunks W (pre ++ new :: rest) LeakReport.empty = .ok r ∧
      Filed W pre r.leaks_ ∧ r.leaks_.length = kMaxLeaksConsidered := by
  have hF := Filed_fold W pre (by rw [hlen]; unfold kMaxLeaksConsidered; norm_num) hsum
  have hl := Filed_length W pre _ hF hnd
  have h := AddLeakedChunks_append W (new :: rest) pre LeakReport.empty htag List.nodup_nil
    (by
      have := List.toFinset_card_le (pre.map (leakKey W))
      rw [List.length_map, hlen] at this
      exact this)
  refine ⟨_, ?_, hF, hl.trans hlen⟩
  rw [h]
  exact AddLeakedChunks_full W new rest _ hnewtag (fun hc => hnew ((hF.2.1 _).1 hc))
    (hl.trans hlen)

theorem leakKey_orphan (c : LeakedChunk) :
    leakKey (orphanWorld 1) c = (c.stack_trace_id, decide (c.tag = .kDirectlyLeaked)) := rfl

theorem distinctLeaks_keys (n : Nat) :
    (distinctLeaks n).map (leakKey (orphanWorld 1)) = (List.range n).map (fun i => (i + 1, true)) := by
  unfold distinctLeaks
  rw [List.map_map]
  rfl

theorem distinctLeaks_nodup (n : Nat) :
    ((distinctLeaks n).map (leakKey (orphanWorld 1))).Nodup := by
  rw [distinctLeaks_keys]
  refine List.Nodup.map ?_ (List.nodup_range n)
  intro a b h
  simp only [Prod.mk.injEq, and_true] at h
  omega

/-- Claim C19 at a failing input. The report is fed `kMaxLeaksConsidered` direct
leaks with pairwise different stack traces, then a leak with one more stack
trace, then a second leak with the stack trace 1, whose pair has had a record
since the first chunk. `AddLeakedChunks` returns at the chunk with the new
pair: the report keeps `kMaxLeaksConsidered` records and the record of the
pair (1, direct) still counts one chunk of 16 bytes, while the input holds two
chunks of that pair. -/
theorem cap_drops_chunk_of_known_pair :
    ∃ r, AddLeakedChunks (orphanWorld 1) cappedLeaks LeakReport.empty = .ok r ∧
      r.leaks_.length = kMaxLeaksConsidered ∧
      (chunksOf (orphanWorld 1) cappedLeaks (1, true)).length = 2 ∧
      ∃ l ∈ r.leaks_, l.key = (1, true) ∧ l.hit_count = 1 ∧ l.total_size = 16 := by
  have hlen : (distinctLeaks kMaxLeaksConsidered).length = kMaxLeaksConsidered := by
    unfold distinctLeaks
    rw [List.length_map, List.length_range]
  have hc0 : (⟨65536 + 16 * 0, 0 + 1, 16, .kDirectlyLeaked⟩ : LeakedChunk) ∈
      distinctLeaks kMaxLeaksConsidered :=
    List.mem_map.2 ⟨0, List.mem_range.2 (by unfold kMaxLeaksConsidered; norm_num), rfl⟩
  have hone := chunksOf_nodup (orphanWorld 1) _ (distinctLeaks_nodup kMaxLeaksConsidered) _ hc0
  have hone2 : chunksOf (orphanWorld 1) (distinctLeaks kMaxLeaksConsidered) (1, true) =
      [⟨65536 + 16 * 0, 0 + 1, 16, .kDirectlyLeaked⟩] := hone
  obtain ⟨r, hr, hF, hl⟩ := AddLeakedChunks_capped (orphanWorld 1)
    (distinctLeaks kMaxLeaksConsidered)
    ⟨65536 + 16 * kMaxLeaksConsidered, kMaxLeaksConsidered + 1, 16, .kDirectlyLeaked⟩
    [⟨65536 + 16 * (kMaxLeaksConsidered + 1), 1, 16, .kDirectlyLeaked⟩]
    (by
      intro c hc
      rcases List.mem_map.1 hc with ⟨i, _, rfl⟩
      exact Or.inl rfl)
    (distinctLeaks_nodup _) hlen
    (by
      have := sizeSum_le 16 (distinctLeaks kMaxLeaksConsidered) (by
        intro c hc
        rcases List.mem_map.1 hc with ⟨i, _, rfl⟩
        exact Nat.le_refl _)
      rw [hlen] at this
      have h5 : kMaxLeaksConsidered * 16 = 80000 := rfl
      rw [h5] at this
      omega)
    (Or.inl rfl)
    (by
      rw [distinctLeaks_keys]
      intro hc
      rcases List.mem_map.1 hc with ⟨i, hi, h⟩
      rw [List.mem_range] at hi
      have h1 : i + 1 = kMaxLeaksConsidered + 1 := congrArg Prod.fst h
      omega)
  refine ⟨r, hr, hl, ?_, ?_⟩
  · show (chunksOf (orphanWorld 1) (distinctLeaks kMaxLeaksConsidered ++ _) (1, true)).length = 2
    unfold chunksOf at hone2 ⊢
    rw [List.filter_append, hone2]
    rfl
  · have hk : ((1, true) : Nat × Bool) ∈ r.leaks_.map Leak.key :=
      (hF.2.1 _).2 (List.mem_map.2 ⟨_, hc0, rfl⟩)
    rcases List.mem_map.1 hk with ⟨l, hl1, hl2⟩
    obtain ⟨v1, v2, _⟩ := hF.2.2 l hl1
    rw [hl2, hone2] at v1 v2
    exact ⟨l, hl1, hl2, v1, v2⟩

set_option maxRecDepth 100000 in
/-- Witness for C18 (amended): two direct leaks of one stack trace and an indirect
leak of another. -/
theorem AddLeakedChunks_aggregates_witness :
    (∀ c ∈ sampleLeaks, c.tag = .kDirectlyLeaked ∨ c.tag = .kIndirectlyLeaked) ∧
    (sampleLeaks.map (leakKey (orphanWorld 1))).toFinset.card < kMaxLeaksConsidered ∧
    sampleLeaks.length < 2 ^ 64 ∧ sizeSum sampleLeaks < 2 ^ 64 ∧
    ∃ r, AddLeakedChunks (orphanWorld 1) sampleLeaks LeakReport.empty = .ok r ∧
      (r.leaks_.map Leak.key).Nodup ∧
      (∀ k, k ∈ r.leaks_.map Leak.key ↔ k ∈ sampleLeaks.map (leakKey (orphanWorld 1))) ∧
      ∀ l ∈ r.leaks_, l.hit_count = (chunksOf (orphanWorld 1) sampleLeaks l.key).length ∧
        l.total_size = sizeSum (chunksOf (orphanWorld 1) sampleLeaks l.key) :=
  ⟨by decide, by decide, by decide, by decide,
    AddLeakedChunks_aggregates (orphanWorld 1) sampleLeaks (by decide) (by decide) (by decide)
      (by decide)⟩

/-- Claim C18, counterexample to the claim as stated: with `resolution = 1` two
direct leaks whose stack trace ids differ but whose stack traces share the
first frame are two distinct pairs, and the report holds one record for both,
filed under the id of the one-frame stack. -/
theorem resolution_merges_pairs_counterexample :
    (twoStackLeaks.map
      (fun c => (c.stack_trace_id, decide (c.tag = .kDirectlyLeaked)))).toFinset.card = 2 ∧
    (twoStackLeaks.map
      (fun c => (c.stack_trace_id, decide (c.tag = .kDirectlyLeaked)))).toFinset.card
        < kMaxLeaksConsidered ∧
    reportOf (AddLeakedChunks sharedFrameWorld twoStackLeaks LeakReport.empty) =
      some ⟨1, [⟨0, 2, 32, 100, true, false⟩], []⟩ :=
  ⟨by decide, by decide, by decide⟩

/-! ### Where a tag `kIgnored` comes from -/

theorem scanRanges_ignored (W : World) (x : Nat) :
    ∀ (l : List (Nat × Nat)) (s : ScanState),
      (scanRanges W l s).tag x = .kIgnored → s.tag x = .kIgnored := by
  intro l
  induction l with
  | nil => intro s h; exact h
  | cons r rest ih =>
    intro s h
    have h1 := ih _ h
    rcases scan_tag_cases W r.1 r.2 true .kReachable s x with e | ⟨e, _, _⟩
    · rw [← e]; exact h1
    · rw [e] at h1; cases h1

theorem registryStep_ignored (W : World) (s : ScanState) (ptr x : Nat)
    (h : (registryStep W s ptr).tag x = .kIgnored) : s.tag x = .kIgnored := by
  unfold registryStep at h
  simp only at h
  by_cases h0 : W.PointsIntoChunk ptr = 0
  · rw [if_pos h0] at h; exact h
  · rw [if_neg h0] at h
    by_cases h1 : (!W.allocated (W.PointsIntoChunk ptr)) = true
    · rw [if_pos h1] at h; exact h
    · rw [if_neg h1] at h
      have e : ((s.set_tag (W.PointsIntoChunk ptr) .kReachable).push_back
          (W.PointsIntoChunk ptr)).tag x =
          if x = W.PointsIntoChunk ptr then .kReachable else s.tag x := rfl
      rw [e] at h
      by_cases hx : x = W.PointsIntoChunk ptr
      · rw [if_pos hx] at h; cases h
      · rw [if_neg hx] at h; exact h

theorem registry_ignored (W : World) (x : Nat) :
    ∀ (l : List Nat) (s : ScanState),
      (l.foldl (registryStep W) s).tag x = .kIgnored → s.tag x = .kIgnored := by
  intro l
  induction l with
  | nil => intro s h; exact h
  | cons p rest ih =>
    intro s h
    exact registryStep_ignored W s p x (ih _ h)

theorem floodFill_ignored (W : World) (x : Nat) :
    ∀ (fuel : Nat) (s s' : ScanState), FloodFillTag W .kReachable fuel s = .ok s' →
      s'.tag x = .kIgnored → s.tag x = .kIgnored := by
  intro fuel
  induction fuel with
  | zero =>
    intro s s' h hx
    unfold FloodFillTag at h
    by_cases hf : s.frontier = []
    · rw [if_pos hf] at h
      cases h
      exact hx
    · rw [if_neg hf] at h
      cases h
  | succ n ih =>
    intro s s' h hx
    unfold FloodFillTag at h
    cases hf : s.frontier with
    | nil =>
      rw [hf] at h
      cases h
      exact hx
    | cons c rest =>
      rw [hf] at h
      have h1 := ih _ _ h hx
      rcases scan_tag_cases W c (c + W.requested_size c) true .kReachable
        { s with frontier := rest } x with e | ⟨e, _, _⟩
      · rw [e] at h1; exact h1
      · rw [e] at h1; cases h1

theorem markInvalidPC_ignored (W : World) (skip : Bool) (x : Nat) :
    ∀ (l : List Nat) (s : ScanState), (∀ ch ∈ l, ch ∈ W.chunks) →
      (l.foldl (fun st ch => MarkInvalidPCCb W skip ch st) s).tag x = .kIgnored →
      s.tag x = .kIgnored ∨ (Live W x ∧ invalidPC W skip (W.stack_trace_id x) = true) := by
  intro l
  induction l with
  | nil => intro s _ h; exact Or.inl h
  | cons ch rest ih =>
    intro s hl h
    rcases ih _ (fun c hc => hl c (List.mem_cons_of_mem _ hc)) h with h1 | h1
    · replace h1 : (MarkInvalidPCCb W skip ch s).tag x = .kIgnored := h1
      rcases MarkInvalidPCCb_cases W skip ch s with ⟨e, _⟩ | ⟨ha, _, hi, e⟩
      · rw [e] at h1; exact Or.inl h1
      · rw [e] at h1
        have e2 : ((s.set_tag (W.GetUserBegin ch) .kIgnored).push_back (W.GetUserBegin ch)).tag x =
            if x = W.GetUserBegin ch then .kIgnored else s.tag x := rfl
        rw [e2] at h1
        by_cases hx : x = W.GetUserBegin ch
        · right
          rw [hx]
          exact ⟨⟨List.mem_map.2 ⟨ch, hl ch (List.mem_cons_self _ _), rfl⟩, ha⟩, hi⟩
        · rw [if_neg hx] at h1; exact Or.inl h1
    · exact Or.inr h1

theorem markIndirect_ignored (W : World) (l : List Nat) (s : ScanState) (x : Nat)
    (h : (l.foldl (fun st ch => MarkIndirectlyLeakedCb W ch st) s).tag x = .kIgnored) :
    s.tag x = .kIgnored := by
  rcases (markIndirect_pass W l s).2.1 x with e | ⟨e, _, _⟩
  · rw [← e]; exact h
  · rw [e] at h; cases h

theorem opening_ignored (W : World) (suppressed : List Nat) (s : ScanState) (x : Nat)
    (h : (ForEachChunk W (CollectIgnoredCb W) (if !suppressed.isEmpty then
      ForEachChunk W (IgnoredSuppressedCb W suppressed) s else s)).tag x = .kIgnored) :
    s.tag x = .kIgnored ∨ (Live W x ∧ W.stack_trace_id x ∈ suppressed) := by
  have e1 := (collectIgnored_pass W W.chunks (if !suppressed.isEmpty then
      ForEachChunk W (IgnoredSuppressedCb W suppressed) s else s)).1
  have e1b : (ForEachChunk W (CollectIgnoredCb W) (if !suppressed.isEmpty then
      ForEachChunk W (IgnoredSuppressedCb W suppressed) s else s)).tag =
      (if !suppressed.isEmpty then
        ForEachChunk W (IgnoredSuppressedCb W suppressed) s else s).tag := e1
  rw [e1b] at h
  by_cases hs : (!suppressed.isEmpty) = true
  · rw [if_pos hs] at h
    rcases (ignoredSuppressed_pass W suppressed W.chunks s).2.1 x with e | ⟨m, a, hit, _⟩
    · left
      rw [← e]
      exact h
    · exact Or.inr ⟨⟨m, a⟩, hit⟩
  · rw [if_neg hs] at h
    exact Or.inl h

theorem findReachable_ignored (W : World) (hg : GlobalChecksPass W) (suppressed : List Nat)
    (fuel : Nat) (s0 s9 : ScanState) (h : findReachable W suppressed fuel s0 = .ok s9) (x : Nat)
    (hx : s9.tag x = .kIgnored) :
    s0.tag x = .kIgnored ∨ (Live W x ∧ (W.stack_trace_id x ∈ suppressed ∨
      invalidPC W (skipLinkerAllocations W) (W.stack_trace_id x) = true)) := by
  unfold findReachable at h
  simp only at h
  rw [ProcessGlobalRegions_eq W hg] at h
  simp only at h
  generalize hs2 : ForEachChunk W (CollectIgnoredCb W) (if (!suppressed.isEmpty) = true then
      ForEachChunk W (IgnoredSuppressedCb W suppressed) s0 else s0) = s2 at h
  generalize hs3 : scanRanges W
    (if W.flags.use_globals = true then W.global_ranges.flatMap (globalSubranges W) else []) s2 =
      s3 at h
  cases h6 : FloodFillTag W .kReachable fuel (ProcessRootRegions W (ProcessThreads W s3)) with
  | error e => rw [h6] at h; cases h
  | ok s6 =>
    rw [h6] at h
    simp only at h
    by_cases hfr : s6.frontier.length ≠ 0
    · rw [if_pos hfr] at h; cases h
    · rw [if_neg hfr] at h
      have a8 := floodFill_ignored W x fuel _ _ h hx
      have a7 : (ProcessPC W s6).tag x = .kIgnored := scanRanges_ignored W x _ _ a8
      have hPC : ProcessPC W s6 =
          W.chunks.foldl (fun st ch => MarkInvalidPCCb W (skipLinkerAllocations W) ch st) s6 := rfl
      rw [hPC] at a7
      rcases markInvalidPC_ignored W _ x W.chunks s6 (fun _ hc => hc) a7 with a6 | ⟨hl, hi⟩
      · have a5 := floodFill_ignored W x fuel _ _ h6 a6
        rw [ProcessRootRegions_eq] at a5
        have a4 := scanRanges_ignored W x _ _ a5
        have a3 : s3.tag x = .kIgnored :=
          scanRanges_ignored W x _ _ (registry_ignored W x _ _ a4)
        rw [← hs3] at a3
        have a2 := scanRanges_ignored W x _ _ a3
        rw [← hs2] at a2
        rcases opening_ignored W suppressed s0 x a2 with a0 | ⟨hl, hi⟩
        · exact Or.inl a0
        · exact Or.inr ⟨hl, Or.inl hi⟩
      · exact Or.inr ⟨hl, Or.inr hi⟩

/-- Claim C20 (amended). A complete pass from reset tags returns, and it leaves the
tags reset: every chunk is tagged `kDirectlyLeaked` or `kIgnored`, so no
`kReachable` or `kIndirectlyLeaked` tag persists. An allocated chunk that was
not tagged `kIgnored` before the pass, whose stack trace id is not among the
suppressed stacks and whose caller pc `MarkInvalidPCCb` finds valid, is tagged
`kDirectlyLeaked` again. -/
theorem pass_restores_tags (W : World) (hPIC : PointsIntoLive W) (hg : GlobalChecksPass W)
    (suppressed : List Nat) (tag0 : Nat → ChunkTag) (hreset : TagsReset tag0) (fuel : Nat)
    (hf : enoughFuel W ≤ fuel) :
    ∃ tags leaks, CheckForLeaksCallback W suppressed fuel tag0 = .ok (tags, leaks) ∧
      TagsReset tags ∧
      ∀ x, Live W x → tag0 x ≠ .kIgnored → W.stack_trace_id x ∉ suppressed →
        invalidPC W (skipLinkerAllocations W) (W.stack_trace_id x) = false →
        tags x = .kDirectlyLeaked := by
  obtain ⟨s9, h9, hspec⟩ := findReachable_spec W hPIC hg suppressed tag0 (fun _ => True) hreset
    (admits_true W suppressed tag0) fuel hf
  have hres := tagsAfterCheck_reset W hPIC suppressed tag0 hreset s9 hspec
  refine ⟨_, _, callback_unfold W suppressed fuel tag0 s9 h9, hres, ?_⟩
  intro x hl h0 hsup hpc
  rcases hres x with hd | hi
  · exact hd
  · exfalso
    rw [tagsAfterCheck_eq] at hi
    by_cases hc : Live W x ∧ (ForEachChunk W (MarkIndirectlyLeakedCb W) s9).tag x ≠ .kIgnored
    · rw [if_pos hc] at hi; cases hi
    · rw [if_neg hc] at hi
      have h10 := markIndirect_ignored W W.chunks s9 x hi
      rcases findReachable_ignored W hg suppressed fuel _ s9 h9 x h10 with a | ⟨_, a | a⟩
      · exact h0 a
      · exact hsup a
      · rw [hpc] at a; cases a

/-- Claim C20, counterexample to the claim as stated: the allocated chunk at 20000
has the default tag before the pass and no recorded stack trace (id 0).
`MarkInvalidPCCb` tags it `kIgnored` during the pass, `ResetTagsCb` leaves
that tag, and the chunk is tagged `kIgnored` after the pass. -/
theorem ignored_tag_persists_counterexample :
    Live (orphanWorld 0) 20000 ∧ freshTags 20000 ≠ .kIgnored ∧
    tagLeftOf (CheckForLeaksCallback (orphanWorld 0) [] 4 freshTags) 20000 = some .kIgnored :=
  ⟨by decide, by decide, by decide⟩

/-- Witness for C20 (amended): both chunks are reached from a root region during the
pass and have a stack trace with a valid caller pc. -/
theorem pass_restores_tags_witness :
    Live chainWorld 20000 ∧ freshTags 20000 ≠ .kIgnored ∧
    invalidPC chainWorld (skipLinkerAllocations chainWorld) (chainWorld.stack_trace_id 20000) =
      false ∧
    ∃ tags leaks, CheckForLeaksCallback chainWorld [] 4 freshTags = .ok (tags, leaks) ∧
      TagsReset tags ∧
      ∀ x, Live chainWorld x → freshTags x ≠ .kIgnored → chainWorld.stack_trace_id x ∉ [] →
        invalidPC chainWorld (skipLinkerAllocations chainWorld) (chainWorld.stack_trace_id x) =
          false →
        tags x = .kDirectlyLeaked :=
  ⟨by decide, by decide, by decide,
    pass_restores_tags chainWorld (exampleWorld_pointsIntoLive _ _ _ _ _ _)
      (exampleWorld_globalChecksPass _ _ _ _ _ _) [] freshTags freshTags_reset 4 (by decide)⟩

theorem collectLeaks_tag (W : World) (tag : Nat → ChunkTag) (l : List Nat)
    (init : List LeakedChunk) (a : LeakedChunk)
    (h : a ∈ l.foldl (fun st ch => CollectLeaksCb W tag ch st) init) :
    a ∈ init ∨ a.tag = tag a.chunk := by
  induction l generalizing init with
  | nil => exact Or.inl h
  | cons ch rest ih =>
    simp only [List.foldl_cons] at h
    rcases ih _ h with h1 | h1
    · rw [CollectLeaksCb_eq] at h1
      by_cases hc : W.allocated (W.GetUserBegin ch) = true ∧
          (tag (W.GetUserBegin ch) = .kDirectlyLeaked ∨ tag (W.GetUserBegin ch) = .kIndirectlyLeaked)
      · rw [if_pos hc] at h1
        rcases List.mem_append.mp h1 with h3 | h3
        · exact Or.inl h3
        · right
          rw [List.mem_singleton] at h3
          subst h3
          rfl
      · rw [if_neg hc] at h1
        exact Or.inl h1
    · exact Or.inr h1

/-! ### Termination of the flood fill -/

theorem scan_measure_le (W : World) (hPIC : PointsIntoLive W) (b e : Nat) (s : ScanState) :
    fillMeasure W (ScanRangeForPointers W b e true .kReachable s) ≤ fillMeasure W s := by
  refine scan_induct W b e true .kReachable (fun s' => fillMeasure W s' ≤ fillMeasure W s) ?_ s
    (Nat.le_refl _)
  intro pp s' _ hs'
  rcases scanWord_cases W b true .kReachable pp s' with h | ⟨c, hp, hn, h⟩
  · rw [h]; exact hs'
  · rw [h]
    have hl := pointsTo_live W hPIC b pp c hp
    have := fillMeasure_mark W s' c .kReachable (Or.inl rfl) hl hn
    exact le_trans this hs'

theorem FloodFillTag_frontier_nil (W : World) (tag : ScanTag) :
    ∀ (fuel : Nat) (s s' : ScanState), FloodFillTag W tag fuel s = .ok s' → s'.frontier = [] := by
  intro fuel
  induction fuel with
  | zero =>
    intro s s' h
    unfold FloodFillTag at h
    by_cases hf : s.frontier = []
    · rw [if_pos hf] at h
      cases h
      exact hf
    · rw [if_neg hf] at h
      cases h
  | succ n ih =>
    intro s s' h
    unfold FloodFillTag at h
    cases hf : s.frontier with
    | nil =>
      rw [hf] at h
      cases h
      exact hf
    | cons c rest =>
      rw [hf] at h
      exact ih _ _ h

theorem FloodFillTag_error (W : World) (tag : ScanTag) :
    ∀ (fuel : Nat) (s : ScanState) (e : LsanError), FloodFillTag W tag fuel s = .error e →
      e = .OutOfFuel := by
  intro fuel
  induction fuel with
  | zero =>
    intro s e h
    unfold FloodFillTag at h
    by_cases hf : s.frontier = []
    · rw [if_pos hf] at h
      cases h
    · rw [if_neg hf] at h
      cases h
      rfl
  | succ n ih =>
    intro s e h
    unfold FloodFillTag at h
    cases hf : s.frontier with
    | nil =>
      rw [hf] at h
      cases h
    | cons c rest =>
      rw [hf] at h
      exact ih _ _ h

theorem FloodFillTag_enough (W : World) (hPIC : PointsIntoLive W) :
    ∀ (fuel : Nat) (s : ScanState), fillMeasure W s ≤ fuel →
      ∃ s', FloodFillTag W .kReachable fuel s = .ok s' ∧ s'.frontier = [] := by
  intro fuel
  induction fuel with
  | zero =>
    intro s h
    have hf : s.frontier = [] := by
      unfold fillMeasure at h
      exact List.length_eq_zero.1 (by omega)
    refine ⟨s, ?_, hf⟩
    unfold FloodFillTag
    rw [if_pos hf]
  | succ n ih =>
    intro s h
    unfold FloodFillTag
    cases hf : s.frontier with
    | nil => exact ⟨s, rfl, hf⟩
    | cons c rest =>
      simp only
      apply ih
      have h1 := scan_measure_le W hPIC c (c + W.requested_size c) { s with frontier := rest }
      have h2 : fillMeasure W { s with frontier := rest } + 1 = fillMeasure W s := by
        unfold fillMeasure
        rw [hf]
        show rest.length + unreachedCount W { s with frontier := rest } + 1 =
          (rest.length + 1) + unreachedCount W s
        have : unreachedCount W { s with frontier := rest } = unreachedCount W s := rfl
        omega
      omega

theorem ClassifyAllChunks_check (W : World) (hg : GlobalChecksPass W) (suppressed : List Nat)
    (fuel : Nat) (s : ScanState) :
    ClassifyAllChunks W suppressed fuel s ≠ .error .CheckFailed := by
  intro h
  unfold ClassifyAllChunks findReachable at h
  simp only at h
  rw [ProcessGlobalRegions_eq W hg] at h
  simp only at h
  generalize hs5 : ProcessRootRegions W (ProcessThreads W (scanRanges W
    (if W.flags.use_globals = true then W.global_ranges.flatMap (globalSubranges W) else [])
    (ForEachChunk W (CollectIgnoredCb W) (if (!suppressed.isEmpty) = true then
      ForEachChunk W (IgnoredSuppressedCb W suppressed) s else s)))) = s5 at h
  cases h6 : FloodFillTag W .kReachable fuel s5 with
  | error e =>
    rw [h6] at h
    have := FloodFillTag_error W _ _ _ _ h6
    subst this
    cases h
  | ok s6 =>
    rw [h6] at h
    simp only at h
    have hn := FloodFillTag_frontier_nil W _ _ _ _ h6
    rw [if_neg (by rw [hn]; simp)] at h
    cases h9 : FloodFillTag W .kReachable fuel
        (ProcessPlatformSpecificAllocations W (ProcessPC W s6)) with
    | error e =>
      rw [h9] at h
      have := FloodFillTag_error W _ _ _ _ h9
      subst this
      cases h
    | ok s9 =>
      rw [h9] at h
      cases h

/-- Claim C29. On a heap in which `PointsIntoChunk` only answers with enumerated,
allocated chunks, `FloodFillTag` with the fill tag `kReachable` started from
any tags and any frontier returns within as many pops as the frontier is long
plus the number of chunks, and it leaves the frontier empty. Whenever it
returns the frontier is empty, so when the `CHECK`s of `ScanGlobalRange` hold
`ClassifyAllChunks` never dies on a `CHECK`: the test of the frontier after the
first flood fill cannot fail. -/
theorem FloodFillTag_terminates (W : World) (hPIC : PointsIntoLive W) (s : ScanState)
    (fuel : Nat) (hf : s.frontier.length + W.chunks.length ≤ fuel) :
    (∃ s', FloodFillTag W .kReachable fuel s = .ok s' ∧ s'.frontier = []) ∧
    (∀ fuel1 s1 s2, FloodFillTag W .kReachable fuel1 s1 = .ok s2 → s2.frontier.length = 0) ∧
    (GlobalChecksPass W → ∀ suppressed fuel1 s1,
      ClassifyAllChunks W suppressed fuel1 s1 ≠ .error .CheckFailed) := by
  refine ⟨?_, ?_, ?_⟩
  · apply FloodFillTag_enough W hPIC
    have := unreachedCount_le W s
    unfold fillMeasure
    omega
  · intro fuel1 s1 s2 h
    rw [FloodFillTag_frontier_nil W _ _ _ _ h]
    rfl
  · intro hg suppressed fuel1 s1
    exact ClassifyAllChunks_check W hg suppressed fuel1 s1

/-- Witness for C29: the flood fill from the chunk at 20000, whose body points to the
chunk at 30000. -/
theorem FloodFillTag_terminates_witness :
    (⟨freshTags, [20000]⟩ : ScanState).frontier.length + chainWorld.chunks.length ≤ 3 ∧
    (∃ s', FloodFillTag chainWorld .kReachable 3 ⟨freshTags, [20000]⟩ = .ok s' ∧
      s'.frontier = []) ∧
    (∀ fuel1 s1 s2, FloodFillTag chainWorld .kReachable fuel1 s1 = .ok s2 →
      s2.frontier.length = 0) ∧
    (GlobalChecksPass chainWorld → ∀ suppressed fuel1 s1,
      ClassifyAllChunks chainWorld suppressed fuel1 s1 ≠ .error .CheckFailed) :=
  ⟨by decide, FloodFillTag_terminates chainWorld (exampleWorld_pointsIntoLive _ _ _ _ _ _)
    ⟨freshTags, [20000]⟩ 3 (by decide)⟩

/-! ### Indirect leaks, ignored chunks and self-pointers -/

theorem reachableSpec_tag_cases (W : World) (suppressed : List Nat) (tag0 : Nat → ChunkTag)
    (hreset : TagsReset tag0) (s9 : ScanState)
    (hs : ReachableSpec W suppressed tag0 (fun _ => True) s9) (x : Nat) :
    s9.tag x = .kDirectlyLeaked ∨ Reached (s9.tag x) := by
  rcases hs.justified.1 x with h | ⟨_, _, h, _⟩
  · rcases hreset x with h0 | h0
    · left; rw [h, h0]
    · right; rw [h, h0]; exact Or.inr rfl
  · exact Or.inr h

/-- Claim C21 (amended). A classification pass from reset tags returns, and every
chunk it collects as an indirect leak is pointed to by a word in the body of
another chunk that the same pass collects as a leak, direct or indirect. -/
theorem indirect_leak_has_leaked_parent (W : World) (hPIC : PointsIntoLive W)
    (hg : GlobalChecksPass W) (suppressed : List Nat) (tag0 : Nat → ChunkTag)
    (hreset : TagsReset tag0) (fuel : Nat) (hf : enoughFuel W ≤ fuel) :
    ∃ tags leaks, CheckForLeaksCallback W suppressed fuel tag0 = .ok (tags, leaks) ∧
      ∀ a ∈ leaks, a.tag = .kIndirectlyLeaked →
        ∃ b ∈ leaks, b.chunk ≠ a.chunk ∧
          RangePointsTo W b.chunk (b.chunk + W.requested_size b.chunk) a.chunk := by
  obtain ⟨s9, h9, hs⟩ := findReachable_spec W hPIC hg suppressed tag0 (fun _ => True) hreset
    (admits_true W suppressed tag0) fuel hf
  refine ⟨_, _, callback_unfold W suppressed fuel tag0 s9 h9, ?_⟩
  intro a ha hai
  have e : ForEachChunk W (CollectLeaksCb W (ForEachChunk W (MarkIndirectlyLeakedCb W) s9).tag) []
      = List.foldl (fun st ch =>
          CollectLeaksCb W (ForEachChunk W (MarkIndirectlyLeakedCb W) s9).tag ch st) [] W.chunks :=
    rfl
  have hmem := collectLeaks_tag W (ForEachChunk W (MarkIndirectlyLeakedCb W) s9).tag W.chunks []
    a (by rw [← e]; exact ha)
  rcases hmem with hmem | hmem
  · cases hmem
  have h10 : (ForEachChunk W (MarkIndirectlyLeakedCb W) s9).tag a.chunk = .kIndirectlyLeaked := by
    rw [← hmem, hai]
  have hne9 : s9.tag a.chunk ≠ .kIndirectlyLeaked := by
    intro hc
    rcases reachableSpec_tag_cases W suppressed tag0 hreset s9 hs a.chunk with h | h | h <;>
      rw [hc] at h <;> cases h
  rcases (markIndirect_pass W W.chunks s9).2.1 a.chunk with h | ⟨_, hnr, ch, hch, hal, hnot, hpt⟩
  · exfalso
    apply hne9
    rw [← h]
    exact h10
  · have hlv : Live W (W.GetUserBegin ch) := ⟨List.mem_map.mpr ⟨ch, hch, rfl⟩, hal⟩
    have hnr9 : ¬ Reached (s9.tag (W.GetUserBegin ch)) := by
      intro hr
      rcases hs.closed _ hlv hr with hF | hF | hF
      · exact hF
      · rw [hs.frontier_nil] at hF
        cases hF
      · exact hnr (hF _ hpt)
    have hd9 : s9.tag (W.GetUserBegin ch) = .kDirectlyLeaked := by
      rcases reachableSpec_tag_cases W suppressed tag0 hreset s9 hs (W.GetUserBegin ch) with h | h
      · exact h
      · exact absurd h hnr9
    have hleak : (ForEachChunk W (MarkIndirectlyLeakedCb W) s9).tag (W.GetUserBegin ch) =
          .kDirectlyLeaked ∨
        (ForEachChunk W (MarkIndirectlyLeakedCb W) s9).tag (W.GetUserBegin ch) =
          .kIndirectlyLeaked := by
      rcases (markIndirect_pass W W.chunks s9).2.1 (W.GetUserBegin ch) with h | ⟨h, _, _⟩
      · left
        show (List.foldl (fun st chunk => MarkIndirectlyLeakedCb W chunk st) s9 W.chunks).tag _ = _
        rw [h, hd9]
      · exact Or.inr h
    refine ⟨_, collectLeaks_mem W _ (W.GetUserBegin ch) hlv hleak, ?_, hpt⟩
    obtain ⟨pp, _, hp⟩ := hpt
    exact fun hc => hp.2.2.2.1 hc.symm

/-- Witness for C21 (amended): the chunk at 30000 is an indirect leak, pointed to by
the body of the direct leak at 20000. -/
theorem indirect_leak_has_leaked_parent_witness :
    enoughFuel (pairWorld false) ≤ 4 ∧
    ∃ tags leaks, CheckForLeaksCallback (pairWorld false) [] 4 freshTags = .ok (tags, leaks) ∧
      ∀ a ∈ leaks, a.tag = .kIndirectlyLeaked →
        ∃ b ∈ leaks, b.chunk ≠ a.chunk ∧
          RangePointsTo (pairWorld false) b.chunk
            (b.chunk + (pairWorld false).requested_size b.chunk) a.chunk :=
  ⟨by decide, indirect_leak_has_leaked_parent (pairWorld false)
    (exampleWorld_pointsIntoLive _ _ _ _ _ _) (exampleWorld_globalChecksPass _ _ _ _ _ _) []
    freshTags freshTags_reset 4 (by decide)⟩

/-- Claim C21, counterexample to the claim as stated: two chunks that nothing else
references point to each other. `MarkIndirectlyLeakedCb` scans the body of the
first and tags the second `kIndirectlyLeaked`, then scans the body of the
second and tags the first `kIndirectlyLeaked`: both are reported as indirect
leaks and the check reports no direct leak. -/
theorem leak_cycle_counterexample :
    leaksOf (CheckForLeaksCallback cycleWorld [] 4 freshTags) =
      some [⟨20000, 1, 16, .kIndirectlyLeaked⟩, ⟨30000, 1, 16, .kIndirectlyLeaked⟩] := by
  decide

/-! ### Ignored tags and thread-context pointers -/

theorem ignored_kept_of_not_ctx (W : World) (hPIC : PointsIntoLive W) (hg : GlobalChecksPass W)
    (suppressed : List Nat) (tag0 : Nat → ChunkTag) (hreset : TagsReset tag0) (fuel : Nat)
    (hf : enoughFuel W ≤ fuel) :
    ∃ tags leaks, CheckForLeaksCallback W suppressed fuel tag0 = .ok (tags, leaks) ∧
      ∀ x, tag0 x = .kIgnored → ¬ CtxTarget W x → tags x = .kIgnored := by
  obtain ⟨s9, h9, hs⟩ := findReachable_spec W hPIC hg suppressed tag0 (fun _ => True) hreset
    (admits_true W suppressed tag0) fuel hf
  refine ⟨_, _, callback_unfold W suppressed fuel tag0 s9 h9, ?_⟩
  intro x hx hctx
  have h9x : s9.tag x = .kIgnored := by
    rcases hs.justified.1 x with h | ⟨_, _, _, h⟩
    · rw [h, hx]
    · exact absurd (h (by rw [hx]; exact Or.inr rfl)) hctx
  have h10 := markIndirect_reached W s9 x (by rw [h9x]; exact Or.inr rfl)
  show tagsAfterCheck W s9 x = .kIgnored
  rw [tagsAfterCheck_eq, h10, h9x, if_neg (fun h => h.2 rfl)]

/-- Claim C27 at a failing input. The chunk at 20000 is allocated and tagged
`kIgnored` before the pass, and a thread context holds a pointer into it.
`ProcessThreadRegistry` sets its tag to `kReachable`, `ResetTagsCb` then
resets it, and the chunk is tagged `kDirectlyLeaked` when
`CheckForLeaksCallback` returns. -/
theorem thread_context_overwrites_ignored :
    Live ctxWorld 20000 ∧ ignoredFirst 20000 = .kIgnored ∧
    ctxWorld.PointsIntoChunk 20008 = 20000 ∧ 20008 ∈ ctxWorld.thread_context_ptrs ∧
    tagLeftOf (CheckForLeaksCallback ctxWorld [] 5 ignoredFirst) 20000 =
      some .kDirectlyLeaked :=
  ⟨by decide, by decide, by decide, by decide, by decide⟩

/-! ### Pointers to self -/

theorem scan_own_tag (W : World) (b e : Nat) (fr : Bool) (tag : ScanTag) (s : ScanState) :
    (ScanRangeForPointers W b e fr tag s).tag b = s.tag b := by
  rcases scan_tag_cases W b e fr tag s b with h | ⟨_, _, pp, _, hp⟩
  · exact h
  · exact absurd rfl hp.2.2.2.1

theorem unreferenced_direct_core (W : World) (hPIC : PointsIntoLive W)
    (hg : GlobalChecksPass W) (suppressed : List Nat) (tag0 : Nat → ChunkTag)
    (hreset : TagsReset tag0) (fuel : Nat) (hf : enoughFuel W ≤ fuel) (c : Nat)
    (hlive : Live W c) (hcount : (W.chunks.map W.GetUserBegin).count c = 1)
    (htag : tag0 c = .kDirectlyLeaked) (hsupp : W.stack_trace_id c ∉ suppressed)
    (hpc : invalidPC W (skipLinkerAllocations W) (W.stack_trace_id c) = false)
    (hctx : ∀ ptr ∈ W.thread_context_ptrs, W.PointsIntoChunk ptr ≠ c)
    (hroot : ∀ r ∈ rootRanges W, ¬ RangePointsTo W r.1 r.2 c)
    (hbody : ∀ n, Live W n → n ≠ c → ¬ RangePointsTo W n (n + W.requested_size n) c) :
    ∃ tags leaks, CheckForLeaksCallback W suppressed fuel tag0 = .ok (tags, leaks) ∧
      leaks.filter (fun x => decide (x.chunk = c)) =
        [⟨c, W.stack_trace_id c, W.requested_size c, .kDirectlyLeaked⟩] := by
  have hA : Admits W suppressed tag0 (fun x => x ≠ c) := by
    refine ⟨?_, ?_, ?_, ?_, ?_, ?_⟩
    · intro r hr x hx hxc
      subst hxc
      exact hroot r hr hx
    · intro n x hn hnc hx hxc
      subst hxc
      exact hbody n hn hnc hx
    · intro ptr hp _
      exact hctx ptr hp
    · intro x _ hx hxc
      subst hxc
      exact hsupp hx
    · intro x _ hx hxc
      subst hxc
      rw [htag] at hx
      cases hx
    · intro x _ hx hxc
      subst hxc
      rw [hpc] at hx
      cases hx
  obtain ⟨s9, h9, hs⟩ := findReachable_spec W hPIC hg suppressed tag0 (fun x => x ≠ c) hreset hA
    fuel hf
  have h9c : s9.tag c = .kDirectlyLeaked := by
    rcases hs.justified.1 c with h | ⟨_, h, _⟩
    · rw [h, htag]
    · exact absurd rfl h
  have hnr : ¬ Reached (s9.tag c) := by
    rw [h9c]
    intro h
    rcases h with h | h <;> cases h
  have h10c : (ForEachChunk W (MarkIndirectlyLeakedCb W) s9).tag c = .kDirectlyLeaked := by
    rcases (markIndirect_pass W W.chunks s9).2.1 c with h | ⟨_, _, ch, hch, h1, _, h3⟩
    · show (List.foldl (fun st chunk => MarkIndirectlyLeakedCb W chunk st) s9 W.chunks).tag c = _
      rw [h, h9c]
    · exfalso
      have hlv : Live W (W.GetUserBegin ch) := ⟨List.mem_map.mpr ⟨ch, hch, rfl⟩, h1⟩
      have hne : W.GetUserBegin ch ≠ c := by
        obtain ⟨pp, _, hpt⟩ := h3
        exact fun h => hpt.2.2.2.1 h.symm
      exact hbody _ hlv hne h3
  refine ⟨_, _, callback_unfold W suppressed fuel tag0 s9 h9, ?_⟩
  have h := collectLeaks_filter W (ForEachChunk W (MarkIndirectlyLeakedCb W) s9).tag c W.chunks []
  have e : ForEachChunk W (CollectLeaksCb W (ForEachChunk W (MarkIndirectlyLeakedCb W) s9).tag) []
      = List.foldl (fun st ch =>
          CollectLeaksCb W (ForEachChunk W (MarkIndirectlyLeakedCb W) s9).tag ch st) [] W.chunks :=
    rfl
  rw [e, h, if_pos ⟨hlive.2, Or.inl h10c⟩, hcount, h10c]
  rfl

/-- Claim C28 (amended). A scan of the range `[c, e)` never changes the tag of the
chunk `c`, whatever the fill tag: a word that resolves to the chunk at the
start of the range is skipped. Hence a live chunk that is enumerated once,
starts tagged `kDirectlyLeaked`, has a valid caller pc and a stack that is not
suppressed, and that no root word, no thread-context pointer and no body of
another live chunk points into, is collected exactly once, as a direct leak,
whatever its own body holds. -/
theorem self_pointer_skipped (W : World) (hPIC : PointsIntoLive W)
    (hg : GlobalChecksPass W) (suppressed : List Nat) (tag0 : Nat → ChunkTag)
    (hreset : TagsReset tag0) (fuel : Nat) (hf : enoughFuel W ≤ fuel) (c : Nat)
    (hlive : Live W c) (hcount : (W.chunks.map W.GetUserBegin).count c = 1)
    (htag : tag0 c = .kDirectlyLeaked) (hsupp : W.stack_trace_id c ∉ suppressed)
    (hpc : invalidPC W (skipLinkerAllocations W) (W.stack_trace_id c) = false)
    (hctx : ∀ ptr ∈ W.thread_context_ptrs, W.PointsIntoChunk ptr ≠ c)
    (hroot : ∀ r ∈ rootRanges W, ¬ RangePointsTo W r.1 r.2 c)
    (hbody : ∀ n, Live W n → n ≠ c → ¬ RangePointsTo W n (n + W.requested_size n) c) :
    (∀ e fr tag s, (ScanRangeForPointers W c e fr tag s).tag c = s.tag c) ∧
    ∃ tags leaks, CheckForLeaksCallback W suppressed fuel tag0 = .ok (tags, leaks) ∧
      leaks.filter (fun x => decide (x.chunk = c)) =
        [⟨c, W.stack_trace_id c, W.requested_size c, .kDirectlyLeaked⟩] :=
  ⟨fun e fr tag s => scan_own_tag W c e fr tag s,
    unreferenced_direct_core W hPIC hg suppressed tag0 hreset fuel hf c hlive hcount htag hsupp
      hpc hctx hroot hbody⟩

/-- Claim C28, counterexample to the claim as stated: the first word of the chunk at
20000 points to the chunk itself and no other word points anywhere, but the
chunk has no recorded stack trace (id 0): `MarkInvalidPCCb` tags it `kIgnored`
and it is not reported. -/
theorem self_pointer_not_reported_counterexample :
    CanBeAHeapPointer ((selfPointerWorld 0).mem 20000) = true ∧
    (selfPointerWorld 0).PointsIntoChunk ((selfPointerWorld 0).mem 20000) = 20000 ∧
    (∀ a, a ≠ 20000 → CanBeAHeapPointer ((selfPointerWorld 0).mem a) = false) ∧
    leaksOf (CheckForLeaksCallback (selfPointerWorld 0) [] 4 freshTags) = some [] := by
  refine ⟨by decide, by decide, ?_, by decide⟩
  intro a h
  simp only [selfPointerWorld, exampleWorld, if_neg h]
  decide

/-- Witness for C28 (amended): the same heap with a recorded stack trace; the chunk at
20000, whose first word points to itself, is collected once as a direct leak. -/
theorem self_pointer_skipped_witness :
    (selfPointerWorld 1).PointsIntoChunk ((selfPointerWorld 1).mem 20000) = 20000 ∧
    (∀ e fr tag s,
      (ScanRangeForPointers (selfPointerWorld 1) 20000 e fr tag s).tag 20000 = s.tag 20000) ∧
    ∃ tags leaks, CheckForLeaksCallback (selfPointerWorld 1) [] 4 freshTags = .ok (tags, leaks) ∧
      leaks.filter (fun x => decide (x.chunk = 20000)) =
        [⟨20000, (selfPointerWorld 1).stack_trace_id 20000,
          (selfPointerWorld 1).requested_size 20000, .kDirectlyLeaked⟩] :=
  ⟨by decide, self_pointer_skipped (selfPointerWorld 1) (exampleWorld_pointsIntoLive _ _ _ _ _ _)
    (exampleWorld_globalChecksPass _ _ _ _ _ _) [] freshTags freshTags_reset 4 (by decide) 20000
    (by decide) (by decide) rfl (by decide) (by decide)
    (fun _ h => by cases h)
    (fun _ h => by cases h)
    (fun X hl hne h => by
      obtain ⟨pp, hv, h1, _, _, _, _⟩ := h
      rcases (exampleWorld_live _ _ _ _ _ _ X).mp hl with e | e
      · exact hne e
      · subst e
        have hpp : pp ≠ 20000 := by
          have := hv.1
          omega
        simp only [selfPointerWorld, exampleWorld, if_neg hpp] at h1
        exact absurd h1 (by decide))⟩

/-! ### The rerun loop of `CheckForLeaks` -/

theorem AddLeakedChunks_returns (W : World) :
    ∀ (leaks : List LeakedChunk) (r : LeakReport), (∀ c ∈ leaks, LeakedTag c) →
      ∃ r1, AddLeakedChunks W leaks r = .ok r1 := by
  intro leaks
  induction leaks with
  | nil => intro r _; exact ⟨r, rfl⟩
  | cons leak rest ih =>
    intro r ht
    have hrest : ∀ c ∈ rest, LeakedTag c := fun c hc => ht c (List.mem_cons_of_mem _ hc)
    rw [AddLeakedChunks]
    simp only
    rw [if_neg (fun hc => hc (ht leak (List.mem_cons_self _ _)))]
    by_cases hi : findLeak r.leaks_ (resolvedStackId W leak.stack_trace_id)
        (decide (leak.tag = .kDirectlyLeaked)) = r.leaks_.length
    · rw [if_pos hi]
      by_cases hfull : r.leaks_.length = kMaxLeaksConsidered
      · rw [if_pos hfull]
        exact ⟨r, rfl⟩
      · rw [if_neg hfull]
        exact ih _ hrest
    · rw [if_neg hi]
      exact ih _ hrest

theorem callback_returns (W : World) (hPIC : PointsIntoLive W) (hg : GlobalChecksPass W)
    (suppressed : List Nat) (tag0 : Nat → ChunkTag) (hreset : TagsReset tag0) (fuel : Nat)
    (hf : enoughFuel W ≤ fuel) :
    ∃ tag1 leaks, CheckForLeaksCallback W suppressed fuel tag0 = .ok (tag1, leaks) ∧
      TagsReset tag1 ∧ ∀ c ∈ leaks, LeakedTag c := by
  obtain ⟨s9, h9, hs⟩ := findReachable_spec W hPIC hg suppressed tag0 (fun _ => True) hreset
    (admits_true W suppressed tag0) fuel hf
  refine ⟨_, _, callback_unfold W suppressed fuel tag0 s9 h9,
    tagsAfterCheck_reset W hPIC suppressed tag0 hreset s9 hs, ?_⟩
  intro a ha
  have e : ForEachChunk W (CollectLeaksCb W (ForEachChunk W (MarkIndirectlyLeakedCb W) s9).tag) []
      = List.foldl (fun st ch =>
          CollectLeaksCb W (ForEachChunk W (MarkIndirectlyLeakedCb W) s9).tag ch st) [] W.chunks :=
    rfl
  rw [e] at ha
  rcases collectLeaks_tag W _ W.chunks [] a ha with h | h
  · cases h
  rcases collectLeaks_sound W _ W.chunks [] a ha with h1 | ⟨_, _, h1⟩
  · cases h1
  · unfold LeakedTag
    rw [h]
    exact h1

theorem checkForLeaks_passes_spec (W : World) (hPIC : PointsIntoLive W) (hg : GlobalChecksPass W)
    (hstop : W.StopTheWorld = true) (fuel : Nat) (hf : enoughFuel W ≤ fuel) :
    ∀ (m i : Nat) (st : LsanState), i + m = 8 → TagsReset st.tag →
      ∃ o k, 1 ≤ k ∧ k ≤ m + 1 ∧ ∀ n, m + 1 ≤ n →
        checkForLeaksPasses W fuel n i st = .ok (o, k) ∧
        checkForLeaksLoop W fuel n i st = .ok o := by
  intro m
  induction m with
  | zero =>
    intro i st hi hreset
    obtain ⟨tag1, leaks, hcb, _, hlt⟩ := callback_returns W hPIC hg
      (GetSortedSuppressedStacks st.ctx).1 st.tag hreset fuel hf
    obtain ⟨rep, hadd⟩ := AddLeakedChunks_returns W leaks LeakReport.empty hlt
    refine ⟨(⟨PrintResults (ApplySuppressions W rep (GetSortedSuppressedStacks st.ctx).2).2.1,
        some (ApplySuppressions W rep (GetSortedSuppressedStacks st.ctx).2).2.1,
        ⟨tag1, (ApplySuppressions W rep (GetSortedSuppressedStacks st.ctx).2).2.2⟩⟩ : CheckOutcome),
      1, Nat.le_refl _, Nat.le_refl _, ?_⟩
    intro n hn
    obtain ⟨n1, rfl⟩ : ∃ n1, n = n1 + 1 := ⟨n - 1, by omega⟩
    have hi8 : i ≥ 8 := by omega
    constructor
    · rw [checkForLeaksPasses]
      simp only [hstop, Bool.not_true, Bool.false_eq_true, if_false, hcb, hadd]
      by_cases h0 : (ApplySuppressions W rep (GetSortedSuppressedStacks st.ctx).2).1 = 0
      · rw [if_pos h0]
      · rw [if_neg h0]
        by_cases h1 : IndirectUnsuppressedLeakCount
            (ApplySuppressions W rep (GetSortedSuppressedStacks st.ctx).2).2.1 = 0
        · rw [if_pos h1]
        · rw [if_neg h1, if_pos hi8]
    · rw [checkForLeaksLoop]
      simp only [hstop, Bool.not_true, Bool.false_eq_true, if_false, hcb, hadd]
      by_cases h0 : (ApplySuppressions W rep (GetSortedSuppressedStacks st.ctx).2).1 = 0
      · rw [if_pos h0]
      · rw [if_neg h0]
        by_cases h1 : IndirectUnsuppressedLeakCount
            (ApplySuppressions W rep (GetSortedSuppressedStacks st.ctx).2).2.1 = 0
        · rw [if_pos h1]
        · rw [if_neg h1, if_pos hi8]
  | succ m ih =>
    intro i st hi hreset
    obtain ⟨tag1, leaks, hcb, hres1, hlt⟩ := callback_returns W hPIC hg
      (GetSortedSuppressedStacks st.ctx).1 st.tag hreset fuel hf
    obtain ⟨rep, hadd⟩ := AddLeakedChunks_returns W leaks LeakReport.empty hlt
    have hi8 : ¬ i ≥ 8 := by omega
    by_cases hdone : (ApplySuppressions W rep (GetSortedSuppressedStacks st.ctx).2).1 = 0 ∨
        IndirectUnsuppressedLeakCount
          (ApplySuppressions W rep (GetSortedSuppressedStacks st.ctx).2).2.1 = 0
    · refine ⟨(⟨PrintResults (ApplySuppressions W rep (GetSortedSuppressedStacks st.ctx).2).2.1,
        some (ApplySuppressions W rep (GetSortedSuppressedStacks st.ctx).2).2.1,
        ⟨tag1, (ApplySuppressions W rep (GetSortedSuppressedStacks st.ctx).2).2.2⟩⟩ : CheckOutcome),
        1, Nat.le_refl _, by omega, ?_⟩
      intro n hn
      obtain ⟨n1, rfl⟩ : ∃ n1, n = n1 + 1 := ⟨n - 1, by omega⟩
      constructor
      · rw [checkForLeaksPasses]
        simp only [hstop, Bool.not_true, Bool.false_eq_true, if_false, hcb, hadd]
        by_cases h0 : (ApplySuppressions W rep (GetSortedSuppressedStacks st.ctx).2).1 = 0
        · rw [if_pos h0]
        · rw [if_neg h0]
          rcases hdone with h | h
          · exact absurd h h0
          · rw [if_pos h]
      · exact checkForLeaksLoop_return W fuel n1 i st tag1 leaks rep hstop hcb hadd hdone
    · have h0 : ¬ (ApplySuppressions W rep (GetSortedSuppressedStacks st.ctx).2).1 = 0 :=
        fun h => hdone (Or.inl h)
      have h1 : ¬ IndirectUnsuppressedLeakCount
          (ApplySuppressions W rep (GetSortedSuppressedStacks st.ctx).2).2.1 = 0 :=
        fun h => hdone (Or.inr h)
      obtain ⟨o, k, hk1, hk2, hrec⟩ := ih (i + 1)
        ⟨tag1, (ApplySuppressions W rep (GetSortedSuppressedStacks st.ctx).2).2.2⟩
        (by omega) hres1
      refine ⟨o, k + 1, by omega, by omega, ?_⟩
      intro n hn
      obtain ⟨n1, rfl⟩ : ∃ n1, n = n1 + 1 := ⟨n - 1, by omega⟩
      obtain ⟨r1, r2⟩ := hrec n1 (by omega)
      constructor
      · rw [checkForLeaksPasses]
        simp only [hstop, Bool.not_true, Bool.false_eq_true, if_false, hcb, hadd]
        rw [if_neg h0, if_neg h1, if_neg hi8, r1]
      · rw [checkForLeaksLoop]
        simp only [hstop, Bool.not_true, Bool.false_eq_true, if_false, hcb, hadd]
        rw [if_neg h0, if_neg h1, if_neg hi8, r2]

/-- Claim C30. When the world stops and no `CHECK` of the classification fails,
`CheckForLeaks` returns. When leak checking is not turned off, the loop runs
the stop-the-world classification `k` times with `1 ≤ k ≤ 9`, and it does so
for every bound on the number of iterations that is at least 9: the exit
`i >= 8` ends the loop at the latest in the ninth iteration. When leak
checking is turned off no classification runs. -/
theorem CheckForLeaks_returns (W : World) (hPIC : PointsIntoLive W) (hg : GlobalChecksPass W)
    (hstop : W.StopTheWorld = true) (fuel : Nat) (hf : enoughFuel W ≤ fuel) (st : LsanState)
    (hreset : TagsReset st.tag) :
    ∃ o, CheckForLeaks W fuel st = .ok o ∧
      (W.is_turned_off = true → o = ⟨false, none, st⟩) ∧
      (W.is_turned_off = false → ∃ k, 1 ≤ k ∧ k ≤ 9 ∧
        ∀ n, 9 ≤ n → checkForLeaksPasses W fuel n 0 st = .ok (o, k)) := by
  obtain ⟨o, k, hk1, hk2, h⟩ := checkForLeaks_passes_spec W hPIC hg hstop fuel hf 8 0 st rfl hreset
  cases hoff : W.is_turned_off with
  | true =>
    refine ⟨⟨false, none, st⟩, ?_, fun _ => rfl, fun hc => Bool.noConfusion hc⟩
    unfold CheckForLeaks
    rw [hoff]
    rfl
  | false =>
    refine ⟨o, ?_, fun hc => Bool.noConfusion hc, fun _ => ⟨k, hk1, hk2, fun n hn => (h n hn).1⟩⟩
    rw [CheckForLeaks_on W fuel st hoff]
    exact (h 9 (Nat.le_refl _)).2

/-- Witness for C30: a leak check over two unreferenced chunks. -/
theorem CheckForLeaks_returns_witness :
    (orphanWorld 1).StopTheWorld = true ∧ enoughFuel (orphanWorld 1) ≤ 4 ∧
    ∃ o, CheckForLeaks (orphanWorld 1) 4 ⟨freshTags, freshContext⟩ = .ok o ∧
      ((orphanWorld 1).is_turned_off = true → o = ⟨false, none, ⟨freshTags, freshContext⟩⟩) ∧
      ((orphanWorld 1).is_turned_off = false → ∃ k, 1 ≤ k ∧ k ≤ 9 ∧
        ∀ n, 9 ≤ n →
          checkForLeaksPasses (orphanWorld 1) 4 n 0 ⟨freshTags, freshContext⟩ = .ok (o, k)) :=
  ⟨rfl, by decide,
    CheckForLeaks_returns (orphanWorld 1) (exampleWorld_pointsIntoLive _ _ _ _ _ _)
      (exampleWorld_globalChecksPass _ _ _ _ _ _) rfl 4 (by decide) ⟨freshTags, freshContext⟩
      freshTags_reset⟩

/-! ### The words a scan reads -/

theorem scanLoop_reads (W : World) (b e : Nat) (fr : Bool) (tag : ScanTag) :
    ∀ (fuel pp : Nat) (s : ScanState),
      scanLoop W b e fr tag fuel pp s =
        (scanLoopReads W e fuel pp).foldl (fun st p => scanWord W b fr tag p st) s := by
  intro fuel
  induction fuel with
  | zero => intro pp s; rfl
  | succ n ih =>
    intro pp s
    simp only [scanLoop, scanLoopReads]
    by_cases h : pp + 8 ≤ e
    · rw [if_pos h, if_pos h, List.foldl_cons]
      exact ih _ _
    · rw [if_neg h, if_neg h]
      rfl

theorem mem_scanLoopReads (W : World) (e : Nat) :
    ∀ (fuel pp p : Nat), e ≤ pp + fuel →
      (p ∈ scanLoopReads W e fuel pp ↔
        pp ≤ p ∧ p + 8 ≤ e ∧ (p - pp) % W.flags.pointer_alignment = 0) := by
  intro fuel
  induction fuel with
  | zero =>
    intro pp p hf
    simp only [scanLoopReads, List.not_mem_nil, false_iff]
    omega
  | succ n ih =>
    intro pp p hf
    simp only [scanLoopReads]
    by_cases h : pp + 8 ≤ e
    · rw [if_pos h, List.mem_cons, ih (pp + W.flags.pointer_alignment) p
        (by rcases pointer_alignment_cases W with ha | ha <;> rw [ha] <;> omega)]
      rcases pointer_alignment_cases W with ha | ha <;> rw [ha] <;> constructor
      · rintro (h1 | ⟨h1, h2, h3⟩)
        · subst h1; exact ⟨le_refl _, h, Nat.mod_one _⟩
        · exact ⟨by omega, h2, Nat.mod_one _⟩
      · rintro ⟨h1, h2, _⟩
        by_cases hp : p = pp
        · exact Or.inl hp
        · exact Or.inr ⟨by omega, h2, Nat.mod_one _⟩
      · rintro (h1 | ⟨h1, h2, h3⟩)
        · subst h1; refine ⟨le_refl _, h, ?_⟩; simp
        · refine ⟨by omega, h2, ?_⟩; omega
      · rintro ⟨h1, h2, h3⟩
        by_cases hp : p = pp
        · exact Or.inl hp
        · exact Or.inr ⟨by omega, h2, by omega⟩
    · rw [if_neg h]
      simp only [List.not_mem_nil, false_iff]
      omega

theorem mem_ScanRangeReads (W : World) (b e : Nat) (r : Nat × Nat) :
    r ∈ ScanRangeReads W b e ↔ r.1 = b ∧ Visits W b e r.2 := by
  unfold ScanRangeReads
  rw [List.mem_map, visits_iff]
  constructor
  · rintro ⟨p, hp, rfl⟩
    exact ⟨rfl, (mem_scanLoopReads W e _ _ p (by omega)).mp hp⟩
  · rintro ⟨h1, h2⟩
    refine ⟨r.2, (mem_scanLoopReads W e _ _ r.2 (by omega)).mpr h2, ?_⟩
    rw [← h1]

theorem mem_ScanRangeReads_snd (W : World) (b e pp : Nat) :
    pp ∈ (ScanRangeReads W b e).map Prod.snd ↔ Visits W b e pp := by
  rw [List.mem_map]
  constructor
  · rintro ⟨r, hr, rfl⟩
    exact ((mem_ScanRangeReads W b e r).mp hr).2
  · intro h
    exact ⟨(b, pp), (mem_ScanRangeReads W b e (b, pp)).mpr ⟨rfl, h⟩, rfl⟩

theorem mem_reads_if (W : World) (c : Prop) [Decidable c] (b e pp : Nat) :
    pp ∈ (if c then ScanRangeReads W b e else []).map Prod.snd ↔ c ∧ Visits W b e pp := by
  by_cases h : c
  · rw [if_pos h, mem_ScanRangeReads_snd]
    exact ⟨fun hv => ⟨h, hv⟩, fun hv => hv.2⟩
  · rw [if_neg h]
    simp only [List.map_nil, List.not_mem_nil, false_iff]
    exact fun hv => h hv.1

theorem ScanRangeForPointers_replay (W : World) (b e : Nat) (s : ScanState) :
    ScanRangeForPointers W b e true .kReachable s = replayReads W (ScanRangeReads W b e) s := by
  unfold ScanRangeForPointers replayReads ScanRangeReads
  rw [scanLoop_reads, List.foldl_map]

theorem replayReads_append (W : World) (r1 r2 : List (Nat × Nat)) (s : ScanState) :
    replayReads W (r1 ++ r2) s = replayReads W r2 (replayReads W r1 s) := by
  unfold replayReads
  rw [List.foldl_append]

theorem replayReads_nil (W : World) (s : ScanState) : replayReads W [] s = s := rfl

theorem ScanRootRegion_replay (W : World) (r : RootRegion) (rb re : Nat) (readable : Bool)
    (s : ScanState) :
    ScanRootRegion W r rb re readable s =
      replayReads W (ScanRootRegionReads W r rb re readable) s := by
  unfold ScanRootRegion ScanRootRegionReads
  simp only
  by_cases h : max r.begin_ rb ≥ min re ((r.begin_ + r.size) % 2 ^ 64)
  · rw [if_pos h, if_pos h]; rfl
  · rw [if_neg h, if_neg h]
    cases readable with
    | true => simp only [if_true]; exact ScanRangeForPointers_replay W _ _ s
    | false => rfl

/-- Claim C31 (amended). When the `CHECK`s of `ScanGlobalRange` pass, the run is the loop
body replayed on its reads, and the words it reads are: if `allocator_begin` lies in
`[begin, end)`, exactly the aligned words lying wholly in `[begin, allocator_begin)` or
wholly in `[allocator_end, end)`; otherwise every aligned word of `[begin, end)`. -/
theorem ScanGlobalRange_reads (W : World) (begin_ end_ : Nat)
    (hc : begin_ ≤ W.allocator_begin ∧ W.allocator_begin < end_ →
      W.allocator_begin ≤ W.allocator_end ∧ W.allocator_end ≤ end_) :
    ∃ reads, ScanGlobalRangeReads W begin_ end_ = .ok reads ∧
      (∀ s, ScanGlobalRange W begin_ end_ s = .ok (replayReads W reads s)) ∧
      ∀ pp, pp ∈ reads.map Prod.snd ↔
        if begin_ ≤ W.allocator_begin ∧ W.allocator_begin < end_ then
          Visits W begin_ W.allocator_begin pp ∨ Visits W W.allocator_end end_ pp
        else Visits W begin_ end_ pp := by
  unfold ScanGlobalRangeReads ScanGlobalRange
  by_cases h : begin_ ≤ W.allocator_begin ∧ W.allocator_begin < end_
  · obtain ⟨c1, c2⟩ := hc h
    simp only [if_pos h, if_neg (not_not.mpr c1), if_neg (not_not.mpr c2)]
    refine ⟨_, rfl, ?_, ?_⟩
    · intro s
      rw [replayReads_append]
      by_cases h1 : begin_ < W.allocator_begin <;> by_cases h2 : W.allocator_end < end_ <;>
        simp only [h1, h2, if_true, if_false, replayReads_nil, ScanRangeForPointers_replay]
    · intro pp
      rw [List.map_append, List.mem_append, mem_reads_if, mem_reads_if]
      constructor
      · rintro (⟨_, hv⟩ | ⟨_, hv⟩)
        · exact Or.inl hv
        · exact Or.inr hv
      · rintro (hv | hv)
        · exact Or.inl ⟨by unfold Visits at hv; omega, hv⟩
        · exact Or.inr ⟨by unfold Visits at hv; omega, hv⟩
  · simp only [if_neg h]
    exact ⟨_, rfl, fun s => by rw [ScanRangeForPointers_replay], fun pp =>
      mem_ScanRangeReads_snd W _ _ pp⟩

/-- Witness for C31: the global range `[1504, 1600)` around the allocator range
`[1520, 1560)`. -/
theorem ScanGlobalRange_reads_witness :
    (insideWorld.allocator_begin ≤ insideWorld.allocator_end ∧
      insideWorld.allocator_end ≤ 1600) ∧
    ∃ reads, ScanGlobalRangeReads insideWorld 1504 1600 = .ok reads ∧
      (∀ s, ScanGlobalRange insideWorld 1504 1600 s = .ok (replayReads insideWorld reads s)) ∧
      ∀ pp, pp ∈ reads.map Prod.snd ↔
        if 1504 ≤ insideWorld.allocator_begin ∧ insideWorld.allocator_begin < 1600 then
          Visits insideWorld 1504 insideWorld.allocator_begin pp ∨
            Visits insideWorld insideWorld.allocator_end 1600 pp
        else Visits insideWorld 1504 1600 pp :=
  ⟨by decide, ScanGlobalRange_reads insideWorld 1504 1600 (fun _ => by decide)⟩

/-- Claim C31 fails as stated: the allocator range `[1000, 2000)` starts below the
global range `[1504, 1600)`, the run takes the last branch and reads the word at 1504,
which lies inside the allocator range; the chunk it points to becomes reachable. -/
theorem allocator_range_scanned_counterexample :
    1504 ∈ readsOf (ScanGlobalRangeReads overlapWorld 1504 1600) ∧
    overlapWorld.allocator_begin ≤ 1504 ∧ 1504 + 8 ≤ overlapWorld.allocator_end ∧
    tagAfter 20000 (ScanGlobalRange overlapWorld 1504 1600 leakedState) =
      some .kReachable := by
  decide

/-- Claim C32 (amended). `ScanRootRegion` is the loop body replayed on its reads, and it
reads exactly the aligned words lying wholly in the intersection of the segment
`[region_begin, region_end)` with `[begin, (begin + size) mod 2 ^ 64)`, when the segment is
readable, and none otherwise. -/
theorem ScanRootRegion_reads (W : World) (r : RootRegion) (rb re : Nat) (readable : Bool) :
    (∀ s, ScanRootRegion W r rb re readable s =
      replayReads W (ScanRootRegionReads W r rb re readable) s) ∧
    ∀ pp, pp ∈ (ScanRootRegionReads W r rb re readable).map Prod.snd ↔
      readable = true ∧ pp % W.flags.pointer_alignment = 0 ∧
        r.begin_ ≤ pp ∧ rb ≤ pp ∧ pp + 8 ≤ re ∧ pp + 8 ≤ (r.begin_ + r.size) % 2 ^ 64 := by
  refine ⟨ScanRootRegion_replay W r rb re readable, fun pp => ?_⟩
  unfold ScanRootRegionReads
  simp only
  generalize (r.begin_ + r.size) % 2 ^ 64 = e
  by_cases h : max r.begin_ rb ≥ min re e
  · rw [if_pos h]
    simp only [List.map_nil, List.not_mem_nil, false_iff]
    rintro ⟨_, _, h1, h2, h3, h4⟩
    have := le_max_iff.mp (le_refl (max r.begin_ rb))
    have h5 : max r.begin_ rb ≤ pp := max_le h1 h2
    have h6 : pp + 8 ≤ min re e := le_min h3 h4
    omega
  · rw [if_neg h]
    cases readable with
    | false => simp
    | true =>
      simp only [if_true, mem_ScanRangeReads_snd, true_and]
      unfold Visits
      rw [max_le_iff, le_min_iff]
      constructor
      · rintro ⟨⟨h1, h2⟩, ⟨h3, h4⟩, h5⟩
        exact ⟨h5, h1, h2, h3, h4⟩
      · rintro ⟨h5, h1, h2, h3, h4⟩
        exact ⟨⟨h1, h2⟩, ⟨h3, h4⟩, h5⟩

/-- Claim C32 fails as stated: for the root region `[2 ^ 64 - 65536, 2 ^ 64)` the sum
`begin + size` wraps to 0, so nothing is read although the aligned word at
`2 ^ 64 - 65536` lies in the region and in the readable segment. -/
theorem wrapping_root_region_counterexample :
    ScanRootRegionReads overlapWorld topRegion (2 ^ 64 - 65536) (2 ^ 64 - 4096) true = [] ∧
    ScanRootRegion overlapWorld topRegion (2 ^ 64 - 65536) (2 ^ 64 - 4096) true leakedState =
      leakedState ∧
    topRegion.begin_ ≤ 2 ^ 64 - 65536 ∧
    2 ^ 64 - 65536 + 8 ≤ topRegion.begin_ + topRegion.size ∧
    2 ^ 64 - 65536 + 8 ≤ 2 ^ 64 - 4096 ∧
    (2 ^ 64 - 65536) % overlapWorld.flags.pointer_alignment = 0 := by
  refine ⟨by decide, rfl, by decide, by decide, by decide, by decide⟩

end Lsan

namespace Primary32

/-! ### Region lookup -/

theorem RoundDownTo_pow (x k : Nat) : RoundDownTo x (2 ^ k) = x - x % 2 ^ k := by
  unfold RoundDownTo
  rw [Nat.and_pow_two_sub_one_eq_mod]

theorem region_div (R a p : Nat) (h1 : a * R ≤ p) (h2 : p < a * R + R) :
    p / R = a ∧ p % R = p - a * R := by
  have hd : p / R = a := by
    apply Nat.div_eq_of_lt_le
    · exact h1
    · rw [Nat.succ_mul]; exact h2
  refine ⟨hd, ?_⟩
  have := Nat.div_add_mod p R
  rw [hd, Nat.mul_comm] at this
  omega

theorem ComputeRegionId_ok (P : PrimaryParams) (mem id : Nat) (h : ComputeRegionId P mem = .ok id) :
    id = maskAddress P mem / 2 ^ P.kRegionSizeLog ∧ id < P.kNumPossibleRegions := by
  unfold ComputeRegionId at h
  simp only at h
  rw [Nat.shiftRight_eq_div_pow] at h
  by_cases hc : ¬ maskAddress P mem / 2 ^ P.kRegionSizeLog < P.kNumPossibleRegions
  · rw [if_pos hc] at h; cases h
  · rw [if_neg hc] at h
    cases h
    exact ⟨rfl, not_not.1 hc⟩

theorem maskAddress_region (P : PrimaryParams)
    (hpow : P.SANITIZER_SIGN_EXTENDED_ADDRESSES = true → ∃ k, P.kSpaceSize = 2 ^ k)
    (hreg : 0 < P.kNumPossibleRegions) (r p : Nat) (hal : r % P.kRegionSize = 0)
    (h1 : r ≤ p) (h2 : p < r + P.kRegionSize) :
    maskAddress P p / P.kRegionSize = maskAddress P r / P.kRegionSize ∧
    maskAddress P r ≤ maskAddress P p := by
  have hR : 0 < P.kRegionSize := Nat.two_pow_pos _
  obtain ⟨a, ha⟩ : ∃ a, r = a * P.kRegionSize := ⟨r / P.kRegionSize, by
    have := Nat.div_add_mod r P.kRegionSize
    rw [hal, Nat.mul_comm] at this
    omega⟩
  obtain ⟨hd, hm⟩ := region_div P.kRegionSize a p (ha ▸ h1) (ha ▸ h2)
  have hdr : r / P.kRegionSize = a := by rw [ha]; exact Nat.mul_div_cancel _ hR
  unfold maskAddress
  cases hs : P.SANITIZER_SIGN_EXTENDED_ADDRESSES with
  | false =>
    simp only [Bool.false_eq_true, if_false]
    exact ⟨by rw [hd, hdr], h1⟩
  | true =>
    simp only [if_true]
    obtain ⟨k, hk⟩ := hpow hs
    have hge : P.kRegionSize ≤ P.kSpaceSize := by
      unfold PrimaryParams.kNumPossibleRegions at hreg
      by_contra hlt
      rw [Nat.div_eq_of_lt (by omega)] at hreg
      exact absurd hreg (by decide)
    have hkl : P.kRegionSizeLog ≤ k := by
      unfold PrimaryParams.kRegionSize at hge
      rw [hk] at hge
      exact (Nat.pow_le_pow_iff_right (by norm_num)).1 hge
    have hS : P.kSpaceSize = P.kRegionSize * 2 ^ (k - P.kRegionSizeLog) := by
      unfold PrimaryParams.kRegionSize
      rw [hk, ← Nat.pow_add]
      congr 1
      omega
    rw [hk, Nat.and_pow_two_sub_one_eq_mod, Nat.and_pow_two_sub_one_eq_mod, ← hk, hS]
    constructor
    · rw [Nat.mod_mul_right_div_self, Nat.mod_mul_right_div_self, hd, hdr]
    · rw [Nat.mod_mul, Nat.mod_mul, hd, hdr, hal]
      omega

/-- Claim C22. When `AllocateRegion(class_id)` returns a non-zero region address
`r` for a class id below `kNumClasses` (at most 256 classes, so that the id
fits the byte map), `r` is a multiple of `kRegionSize`, and every address `p`
with `r <= p < r + kRegionSize` has `ComputeRegionBeg(p) = r` and
`GetSizeClass(p) = class_id`; when `class_id` is non-zero and the region is
not below `kSpaceBeg`, `PointerIsMine(p)` holds. -/
theorem AllocateRegion_region_lookup (P : PrimaryParams) (a a1 : SizeClassAllocator32) (res class_id r : Nat)
    (hpow : P.SANITIZER_SIGN_EXTENDED_ADDRESSES = true → ∃ k, P.kSpaceSize = 2 ^ k)
    (hclass : class_id < P.kNumClasses) (hnum : P.kNumClasses ≤ 256)
    (h : AllocateRegion P a res class_id = .ok (r, a1)) (hr : r ≠ 0) :
    r % P.kRegionSize = 0 ∧
    ∀ p, r ≤ p → p < r + P.kRegionSize →
      ComputeRegionBeg P p = r ∧ GetSizeClass P a1 p = .ok class_id ∧
      (class_id ≠ 0 → P.kSpaceBeg ≤ maskAddress P r → PointerIsMine P a1 p = .ok true) := by
  unfold AllocateRegion at h
  by_cases h0 : res = 0
  · rw [if_pos h0] at h
    cases h
    exact absurd rfl hr
  rw [if_neg h0] at h
  by_cases hal : ¬ Scudo.IsAligned res P.kRegionSize = true
  · rw [if_pos hal] at h; cases h
  rw [if_neg hal] at h
  have hal2 : res % P.kRegionSize = 0 := (Scudo.IsAligned_pow res P.kRegionSizeLog).1 (not_not.1 hal)
  cases hid : ComputeRegionId P res with
  | error e => rw [hid] at h; cases h
  | ok id =>
    rw [hid] at h
    simp only [Except.ok.injEq, Prod.mk.injEq] at h
    obtain ⟨hres, ha1⟩ := h
    subst hres
    obtain ⟨hidv, hidlt⟩ := ComputeRegionId_ok P res id hid
    have hR : 0 < P.kRegionSize := Nat.two_pow_pos _
    refine ⟨hal2, ?_⟩
    intro p hp1 hp2
    obtain ⟨hdiv, hle⟩ := maskAddress_region P hpow (by omega) res p hal2 hp1 hp2
    have hidp : ComputeRegionId P p = .ok id := by
      unfold ComputeRegionId
      simp only
      have e : maskAddress P p >>> P.kRegionSizeLog = id := by
        rw [Nat.shiftRight_eq_div_pow, hidv]
        exact hdiv
      rw [e, if_neg (not_not.2 hidlt)]
    have hcls : GetSizeClass P a1 p = .ok class_id := by
      unfold GetSizeClass
      rw [hidp, ← ha1]
      simp only [ByteMap.get, ByteMap.set, if_true]
      congr 1
      exact Nat.mod_eq_of_lt (by omega)
    refine ⟨?_, hcls, ?_⟩
    · unfold ComputeRegionBeg
      have e : P.kRegionSize = 2 ^ P.kRegionSizeLog := rfl
      rw [e, RoundDownTo_pow, ← e]
      obtain ⟨q, hq⟩ : ∃ q, res = q * P.kRegionSize := ⟨res / P.kRegionSize, by
        have := Nat.div_add_mod res P.kRegionSize
        rw [hal2, Nat.mul_comm] at this
        omega⟩
      obtain ⟨_, hm⟩ := region_div P.kRegionSize q p (hq ▸ hp1) (hq ▸ hp2)
      rw [hm, ← hq]
      omega
    · intro hc hlow
      unfold PointerIsMine
      simp only
      have hup : maskAddress P p < P.kSpaceBeg + P.kSpaceSize := by
        have hlt : maskAddress P p / P.kRegionSize < P.kSpaceSize / P.kRegionSize := by
          have e : P.kRegionSize = 2 ^ P.kRegionSizeLog := rfl
          rw [hdiv, e, ← hidv]
          exact hidlt
        have h3 : maskAddress P p < P.kSpaceSize := by
          by_contra hge
          have := Nat.div_le_div_right (c := P.kRegionSize) (Nat.le_of_not_lt hge)
          omega
        omega
      rw [if_neg (by omega), hcls]
      simp only [Except.ok.injEq, decide_eq_true_eq]
      exact hc

theorem exampleRegion_run :
    AllocateRegion examplePrimary emptyAllocator (3 * 2 ^ 20) 5 =
      .ok (3 * 2 ^ 20, ⟨emptyAllocator.possible_regions.set 3 5, 2 ^ 20⟩) := by
  rfl

/-- Witness for C22: the region mapped at 3 MiB for the class 5. -/
theorem AllocateRegion_region_lookup_witness :
    AllocateRegion examplePrimary emptyAllocator (3 * 2 ^ 20) 5 =
      .ok (3 * 2 ^ 20, ⟨emptyAllocator.possible_regions.set 3 5, 2 ^ 20⟩) ∧
    (3 * 2 ^ 20) % examplePrimary.kRegionSize = 0 ∧
    ∀ p, 3 * 2 ^ 20 ≤ p → p < 3 * 2 ^ 20 + examplePrimary.kRegionSize →
      ComputeRegionBeg examplePrimary p = 3 * 2 ^ 20 ∧
      GetSizeClass examplePrimary ⟨emptyAllocator.possible_regions.set 3 5, 2 ^ 20⟩ p = .ok 5 ∧
      (5 ≠ 0 → examplePrimary.kSpaceBeg ≤ maskAddress examplePrimary (3 * 2 ^ 20) →
        PointerIsMine examplePrimary ⟨emptyAllocator.possible_regions.set 3 5, 2 ^ 20⟩ p =
          .ok true) :=
  ⟨exampleRegion_run,
    AllocateRegion_region_lookup examplePrimary emptyAllocator _ (3 * 2 ^ 20) 5 (3 * 2 ^ 20)
      (fun h => Bool.noConfusion h) (by decide) (by decide) exampleRegion_run (by decide)⟩

/-! ### Size classes -/

theorem findIdx_mono (l : List Nat) (s1 s2 : Nat) (h : s1 ≤ s2) :
    l.findIdx (fun c => decide (s1 ≤ c)) ≤ l.findIdx (fun c => decide (s2 ≤ c)) := by
  induction l with
  | nil => exact Nat.le_refl _
  | cons a t ih =>
    rw [List.findIdx_cons, List.findIdx_cons]
    by_cases h1 : s1 ≤ a
    · rw [decide_eq_true h1]
      exact Nat.zero_le _
    · have h2 : ¬ s2 ≤ a := fun hc => h1 (le_trans h hc)
      rw [decide_eq_false h1, decide_eq_false h2]
      exact Nat.succ_le_succ ih

theorem getLastD_mem (l : List Nat) (h : l ≠ []) : l.getLastD 0 ∈ l := by
  cases l with
  | nil => exact absurd rfl h
  | cons a t =>
    rw [List.getLastD_cons]
    have := List.getLast_mem (l := a :: t) (by simp)
    rw [List.getLast_eq_getLastD] at this
    simpa using this

theorem ClassID_lt (M : SizeClassMap) (s : Nat) (hs : s ≤ M.kMaxSize) (hne : M.sizes ≠ []) :
    M.ClassID s < M.sizes.length ∧ s ≤ M.Size (M.ClassID s) := by
  unfold SizeClassMap.ClassID
  rw [if_neg (by omega)]
  have hex : ∃ x ∈ M.sizes, decide (s ≤ x) = true :=
    ⟨M.kMaxSize, getLastD_mem M.sizes hne, decide_eq_true hs⟩
  have hlt := List.findIdx_lt_length_of_exists hex
  refine ⟨hlt, ?_⟩
  unfold SizeClassMap.Size
  rw [List.getD_eq_getElem _ _ hlt]
  have := List.findIdx_getElem (w := hlt)
  exact of_decide_eq_true this

/-- Claim C23. With the size classes a table from which `ClassID` picks the first
class that holds the size, and the batch class not among the classes of the
table: for all sizes `s1 <= s2` up to `kMaxSize`, `ClassID(s1) <= ClassID(s2)`,
and for every size `s` up to `kMaxSize`, `ClassIdToSize(ClassID(s)) >= s`. -/
theorem ClassID_monotone_and_fits (M : SizeClassMap) (kBatchSize : Nat)
    (hbatch : M.sizes.length ≤ M.kBatchClassID) :
    (∀ s1 s2, s1 ≤ s2 → s2 ≤ M.kMaxSize → ClassID M s1 ≤ ClassID M s2) ∧
    (∀ s, s ≤ M.kMaxSize → ClassIdToSize M kBatchSize (ClassID M s) ≥ s) := by
  constructor
  · intro s1 s2 h12 h2
    unfold ClassID SizeClassMap.ClassID
    rw [if_neg (by omega), if_neg (by omega)]
    exact findIdx_mono M.sizes s1 s2 h12
  · intro s hs
    by_cases hne : M.sizes = []
    · have h0 : M.kMaxSize = 0 := by
        unfold SizeClassMap.kMaxSize
        rw [hne]
        rfl
      omega
    · obtain ⟨hlt, hfit⟩ := ClassID_lt M s hs hne
      unfold ClassIdToSize ClassID
      rw [if_neg (by omega)]
      exact hfit

/-- Witness for C23: the table of six classes up to 128 bytes. -/
theorem ClassID_monotone_and_fits_witness :
    exampleMap.sizes.length ≤ exampleMap.kBatchClassID ∧
    ClassID exampleMap 33 = 3 ∧ ClassIdToSize exampleMap 64 3 = 48 ∧
    (∀ s1 s2, s1 ≤ s2 → s2 ≤ exampleMap.kMaxSize → ClassID exampleMap s1 ≤ ClassID exampleMap s2) ∧
    (∀ s, s ≤ exampleMap.kMaxSize → ClassIdToSize exampleMap 64 (ClassID exampleMap s) ≥ s) :=
  ⟨by decide, by decide, by decide, ClassID_monotone_and_fits exampleMap 64 (by decide)⟩

/-! ### Block begin and metadata slot -/

theorem ComputeRegionBeg_spec (P : PrimaryParams) (p : Nat) :
    ComputeRegionBeg P p = p - p % P.kRegionSize ∧
    ComputeRegionBeg P p % P.kRegionSize = 0 ∧
    ComputeRegionBeg P p ≤ p ∧ p < ComputeRegionBeg P p + P.kRegionSize := by
  have hR : 0 < P.kRegionSize := Nat.two_pow_pos _
  have e : ComputeRegionBeg P p = p - p % P.kRegionSize := by
    unfold ComputeRegionBeg
    exact RoundDownTo_pow p P.kRegionSizeLog
  rw [e]
  have h1 := Nat.mod_lt p hR
  have h2 := Nat.mod_le p P.kRegionSize
  refine ⟨rfl, ?_, by omega, by omega⟩
  exact Nat.sub_mod_eq_zero_of_mod_eq (Nat.mod_mod _ _).symm

theorem ComputeRegionBeg_of_region (P : PrimaryParams) (r p : Nat)
    (hal : r % P.kRegionSize = 0) (h1 : r ≤ p) (h2 : p < r + P.kRegionSize) :
    ComputeRegionBeg P p = r := by
  rw [(ComputeRegionBeg_spec P p).1]
  obtain ⟨q, hq⟩ : ∃ q, r = q * P.kRegionSize := ⟨r / P.kRegionSize, by
    have := Nat.div_add_mod r P.kRegionSize
    rw [hal, Nat.mul_comm] at this
    omega⟩
  obtain ⟨_, hm⟩ := region_div P.kRegionSize q p (hq ▸ h1) (hq ▸ h2)
  rw [hm, ← hq]
  omega

/-- Ownership and size class are the same for every address of the region of an owned
pointer, when the region does not start below `kSpaceBeg`. -/
theorem region_owned (P : PrimaryParams) (a : SizeClassAllocator32) (r p q class_id : Nat)
    (hpow : P.SANITIZER_SIGN_EXTENDED_ADDRESSES = true → ∃ k, P.kSpaceSize = 2 ^ k)
    (hal : r % P.kRegionSize = 0) (hp1 : r ≤ p) (hp2 : p < r + P.kRegionSize)
    (hq1 : r ≤ q) (hq2 : q < r + P.kRegionSize)
    (hlow : P.kSpaceBeg ≤ maskAddress P r)
    (hmine : PointerIsMine P a p = .ok true) (hcls : GetSizeClass P a p = .ok class_id) :
    PointerIsMine P a q = .ok true ∧ GetSizeClass P a q = .ok class_id := by
  have hR : 0 < P.kRegionSize := Nat.two_pow_pos _
  have e : P.kRegionSize = 2 ^ P.kRegionSizeLog := rfl
  cases hid : ComputeRegionId P p with
  | error err =>
    unfold GetSizeClass at hcls
    rw [hid] at hcls
    cases hcls
  | ok id =>
    obtain ⟨hidv, hidlt⟩ := ComputeRegionId_ok P p id hid
    obtain ⟨hdp, _⟩ := maskAddress_region P hpow (by omega) r p hal hp1 hp2
    obtain ⟨hdq, hleq⟩ := maskAddress_region P hpow (by omega) r q hal hq1 hq2
    have hidq : ComputeRegionId P q = .ok id := by
      unfold ComputeRegionId
      simp only
      have e2 : maskAddress P q >>> P.kRegionSizeLog = id := by
        rw [Nat.shiftRight_eq_div_pow, hidv, ← e, hdq, hdp]
      rw [e2, if_neg (not_not.2 hidlt)]
    have hclsq : GetSizeClass P a q = .ok class_id := by
      unfold GetSizeClass at hcls ⊢
      rw [hid] at hcls
      rw [hidq]
      exact hcls
    refine ⟨?_, hclsq⟩
    have hc : class_id ≠ 0 := by
      unfold PointerIsMine at hmine
      simp only at hmine
      by_cases hb : maskAddress P p < P.kSpaceBeg ∨ maskAddress P p ≥ P.kSpaceBeg + P.kSpaceSize
      · rw [if_pos hb] at hmine; cases hmine
      · rw [if_neg hb, hcls] at hmine
        simp only [Except.ok.injEq, decide_eq_true_eq] at hmine
        exact hmine
    unfold PointerIsMine
    simp only
    have hup : maskAddress P q < P.kSpaceSize := by
      have hlt : maskAddress P q / P.kRegionSize < P.kSpaceSize / P.kRegionSize := by
        rw [hdq, ← hdp, e, ← hidv]
        exact hidlt
      by_contra hge
      have := Nat.div_le_div_right (c := P.kRegionSize) (Nat.le_of_not_lt hge)
      omega
    rw [if_neg (by omega), hclsq]
    simp only [Except.ok.injEq, decide_eq_true_eq]
    exact hc

/-- The run of `GetBlockBegin` on an owned pointer whose chunk size is a non-zero `u32`,
in a region of at most `2 ^ 32` bytes. -/
theorem GetBlockBegin_run (P : PrimaryParams) (M : SizeClassMap) (kBatchSize : Nat)
    (a : SizeClassAllocator32) (p class_id : Nat)
    (hlog : P.kRegionSizeLog ≤ 32) (hp : p < 2 ^ 64)
    (hmine : PointerIsMine P a p = .ok true) (hcls : GetSizeClass P a p = .ok class_id)
    (hs0 : 0 < ClassIdToSize M kBatchSize class_id)
    (hs : ClassIdToSize M kBatchSize class_id < 2 ^ 32) :
    GetBlockBegin P M kBatchSize a p =
      .ok (ComputeRegionBeg P p + (p - ComputeRegionBeg P p) /
        ClassIdToSize M kBatchSize class_id * ClassIdToSize M kBatchSize class_id) ∧
    p - ComputeRegionBeg P p < 2 ^ 32 ∧
    (p - ComputeRegionBeg P p) / ClassIdToSize M kBatchSize class_id *
      ClassIdToSize M kBatchSize class_id ≤ p - ComputeRegionBeg P p := by
  obtain ⟨_, hr0, hr1, hr2⟩ := ComputeRegionBeg_spec P p
  have hR : P.kRegionSize ≤ 2 ^ 32 := Nat.pow_le_pow_right (by norm_num) hlog
  generalize hrr : ComputeRegionBeg P p = r at *
  generalize hsz : ClassIdToSize M kBatchSize class_id = s at *
  have hoff : p - r < 2 ^ 32 := by omega
  have hmul : (p - r) / s * s ≤ p - r := Nat.div_mul_le_self _ _
  refine ⟨?_, hoff, hmul⟩
  unfold GetBlockBegin
  rw [hmine]
  simp only [Bool.not_true, Bool.false_eq_true, if_false]
  rw [hcls]
  simp only
  rw [hrr, hsz, Nat.mod_eq_of_lt hs, if_neg (by omega), Nat.mod_eq_of_lt hoff]
  generalize (p - r) / s * s = m at *
  rw [Nat.mod_eq_of_lt (by omega), Nat.mod_eq_of_lt (by omega)]

/-- Claim C38. For a pointer `p` the allocator owns (`PointerIsMine`), in the region
starting at `r = ComputeRegionBeg(p)` with chunk size `s` (a non-zero `u32`, regions of
at most `2 ^ 32` bytes that do not start below `kSpaceBeg`): `GetBlockBegin(p)` returns
`b = r + k * s` with `b <= p < b + s`, every `r + k * s <= p` is at most `b`, the offset
and the product fit 32 bits so that `b` is the untruncated `r + (p - r) / s * s`, and
`GetBlockBegin(b) = b`. -/
theorem GetBlockBegin_largest_block (P : PrimaryParams) (M : SizeClassMap) (kBatchSize : Nat)
    (a : SizeClassAllocator32) (p class_id : Nat)
    (hpow : P.SANITIZER_SIGN_EXTENDED_ADDRESSES = true → ∃ k, P.kSpaceSize = 2 ^ k)
    (hlog : P.kRegionSizeLog ≤ 32) (hp : p < 2 ^ 64)
    (hmine : PointerIsMine P a p = .ok true) (hcls : GetSizeClass P a p = .ok class_id)
    (hlow : P.kSpaceBeg ≤ maskAddress P (ComputeRegionBeg P p))
    (hs0 : 0 < ClassIdToSize M kBatchSize class_id)
    (hs : ClassIdToSize M kBatchSize class_id < 2 ^ 32) :
    ∃ b, GetBlockBegin P M kBatchSize a p = .ok b ∧
      (∃ k, b = ComputeRegionBeg P p + k * ClassIdToSize M kBatchSize class_id) ∧
      b ≤ p ∧ p < b + ClassIdToSize M kBatchSize class_id ∧
      (∀ k, ComputeRegionBeg P p + k * ClassIdToSize M kBatchSize class_id ≤ p →
        ComputeRegionBeg P p + k * ClassIdToSize M kBatchSize class_id ≤ b) ∧
      p - ComputeRegionBeg P p < 2 ^ 32 ∧
      (p - ComputeRegionBeg P p) / ClassIdToSize M kBatchSize class_id *
        ClassIdToSize M kBatchSize class_id < 2 ^ 32 ∧
      b = ComputeRegionBeg P p + (p - ComputeRegionBeg P p) /
        ClassIdToSize M kBatchSize class_id * ClassIdToSize M kBatchSize class_id ∧
      GetBlockBegin P M kBatchSize a b = .ok b := by
  obtain ⟨hrun, hoff, hmul⟩ := GetBlockBegin_run P M kBatchSize a p class_id hlog hp hmine hcls
    hs0 hs
  obtain ⟨_, hr0, hr1, hr2⟩ := ComputeRegionBeg_spec P p
  have hlt := Nat.lt_div_mul_add (a := p - ComputeRegionBeg P p) hs0
  have hb1 : ComputeRegionBeg P p ≤ ComputeRegionBeg P p + (p - ComputeRegionBeg P p) /
      ClassIdToSize M kBatchSize class_id * ClassIdToSize M kBatchSize class_id :=
    Nat.le_add_right _ _
  have hb2 : ComputeRegionBeg P p + (p - ComputeRegionBeg P p) /
      ClassIdToSize M kBatchSize class_id * ClassIdToSize M kBatchSize class_id <
      ComputeRegionBeg P p + P.kRegionSize := by omega
  obtain ⟨hmine2, hcls2⟩ := region_owned P a (ComputeRegionBeg P p) p _ class_id hpow hr0 hr1 hr2
    hb1 hb2 hlow hmine hcls
  have hbeg := ComputeRegionBeg_of_region P (ComputeRegionBeg P p) _ hr0 hb1 hb2
  obtain ⟨hrun2, _, _⟩ := GetBlockBegin_run P M kBatchSize a _ class_id hlog
    (show ComputeRegionBeg P p + (p - ComputeRegionBeg P p) /
      ClassIdToSize M kBatchSize class_id * ClassIdToSize M kBatchSize class_id < 2 ^ 64 by omega)
    hmine2 hcls2 hs0 hs
  refine ⟨_, hrun, ⟨_, rfl⟩, by omega, by omega, ?_, hoff, by omega, rfl, ?_⟩
  · intro k hk
    have h1 : k * ClassIdToSize M kBatchSize class_id ≤ p - ComputeRegionBeg P p := by omega
    have h2 : k ≤ (p - ComputeRegionBeg P p) / ClassIdToSize M kBatchSize class_id :=
      (Nat.le_div_iff_mul_le hs0).2 h1
    have h3 := Nat.mul_le_mul_right (ClassIdToSize M kBatchSize class_id) h2
    omega
  · rw [hrun2, hbeg, Nat.add_sub_cancel_left, Nat.mul_div_cancel _ hs0]

theorem smallBlock_owned :
    PointerIsMine smallPrimary smallAllocator 2100 = .ok true ∧
    GetSizeClass smallPrimary smallAllocator 2100 = .ok 1 := by
  constructor <;> rfl

/-- Witness for C38: the pointer 2100 in the region at 2048 with 16-byte chunks lies in
the block at 2096. -/
theorem GetBlockBegin_largest_block_witness :
    PointerIsMine smallPrimary smallAllocator 2100 = .ok true ∧
    GetBlockBegin smallPrimary exampleMap 128 smallAllocator 2100 = .ok 2096 ∧
    GetBlockBegin smallPrimary exampleMap 128 smallAllocator 2096 = .ok 2096 := by
  obtain ⟨b, h1, _, _, _, _, _, _, h2, h3⟩ := GetBlockBegin_largest_block smallPrimary exampleMap
    128 smallAllocator 2100 1 (fun h => (by cases h)) (by decide) (by decide)
    smallBlock_owned.1 smallBlock_owned.2 (by decide) (by decide) (by decide)
  have e : b = 2096 := by rw [h2]; decide
  rw [e] at h1 h3
  exact ⟨smallBlock_owned.1, h1, h3⟩

/-- The run of `GetMetaData` on a pointer into chunk `i` of the region at `r`. -/
theorem GetMetaData_run (P : PrimaryParams) (M : SizeClassMap) (kBatchSize kMetadataSize : Nat)
    (a : SizeClassAllocator32) (r class_id i d : Nat)
    (hpow : P.SANITIZER_SIGN_EXTENDED_ADDRESSES = true → ∃ k, P.kSpaceSize = 2 ^ k)
    (hlog : P.kRegionSizeLog ≤ 32) (hal : r % P.kRegionSize = 0)
    (htop : r + P.kRegionSize ≤ 2 ^ 64) (hlow : P.kSpaceBeg ≤ maskAddress P r)
    (hmine : PointerIsMine P a r = .ok true) (hcls : GetSizeClass P a r = .ok class_id)
    (hs0 : 0 < ClassIdToSize M kBatchSize class_id)
    (hm0 : 0 < kMetadataSize)
    (hi : i < P.kRegionSize / (ClassIdToSize M kBatchSize class_id + kMetadataSize))
    (hd : d < ClassIdToSize M kBatchSize class_id) :
    GetMetaData P M kBatchSize kMetadataSize a (r + i * ClassIdToSize M kBatchSize class_id + d) =
      .ok (r + P.kRegionSize - (i + 1) * kMetadataSize) := by
  have hR : P.kRegionSize ≤ 2 ^ 32 := Nat.pow_le_pow_right (by norm_num) hlog
  generalize hsz : ClassIdToSize M kBatchSize class_id = s at *
  have hN := Nat.div_mul_le_self P.kRegionSize (s + kMetadataSize)
  generalize P.kRegionSize / (s + kMetadataSize) = N at *
  have h1 : (i + 1) * s ≤ N * s := Nat.mul_le_mul_right _ hi
  have h2 : (i + 1) * kMetadataSize ≤ N * kMetadataSize := Nat.mul_le_mul_right _ hi
  have hx0 : 0 < (i + 1) * kMetadataSize := Nat.mul_pos (Nat.succ_pos i) hm0
  rw [Nat.mul_add] at hN
  rw [Nat.add_mul, Nat.one_mul] at h1
  have hp1 : r ≤ r + i * s + d := by omega
  have hp2 : r + i * s + d < r + P.kRegionSize := by omega
  obtain ⟨hmine2, hcls2⟩ := region_owned P a r r (r + i * s + d) class_id hpow hal (le_refl _)
    (by have := Nat.two_pow_pos P.kRegionSizeLog; unfold PrimaryParams.kRegionSize; omega)
    hp1 hp2 hlow hmine hcls
  have hbeg := ComputeRegionBeg_of_region P r _ hal hp1 hp2
  unfold GetMetaData
  rw [if_neg (by omega), hmine2]
  simp only [Bool.not_true, Bool.false_eq_true, if_false]
  rw [hcls2]
  simp only
  have hs32 : s < 2 ^ 32 := by omega
  have hoff : i * s + d < 2 ^ 32 := by omega
  rw [hbeg, hsz, Nat.mod_eq_of_lt hs32, if_neg (by omega), Nat.add_assoc, Nat.add_sub_cancel_left,
    Nat.mod_eq_of_lt hoff]
  have hdiv : (i * s + d) / s = i := by
    apply Nat.div_eq_of_lt_le
    · omega
    · rw [Nat.succ_mul]; omega
  rw [hdiv]
  generalize (i + 1) * kMetadataSize = x at *
  rw [Nat.mod_eq_of_lt (show x < 2 ^ 64 by omega)]
  congr 1
  rcases Nat.lt_or_ge (r + P.kRegionSize) (2 ^ 64) with hlt | hge
  · rw [Nat.mod_eq_of_lt hlt]
    omega
  · have e : r + P.kRegionSize = 2 ^ 64 := le_antisymm htop hge
    rw [e, Nat.mod_self]
    omega

/-- Claim C34. In a region at `r` owned by a class of chunk size `s` (with
`kMetadataSize > 0`, regions of at most `2 ^ 32` bytes that end at or below `2 ^ 64` and
do not start below `kSpaceBeg`), for every chunk index `i < kRegionSize / (s +
kMetadataSize)` and every pointer into that chunk: `GetMetaData` returns
`r + kRegionSize - (i + 1) * kMetadataSize`; the slot lies inside the region, starts at
or after the end of every handed-out chunk, and is disjoint from the slot of every other
handed-out chunk. -/
theorem GetMetaData_slot (P : PrimaryParams) (M : SizeClassMap) (kBatchSize kMetadataSize : Nat)
    (a : SizeClassAllocator32) (r class_id i d : Nat)
    (hpow : P.SANITIZER_SIGN_EXTENDED_ADDRESSES = true → ∃ k, P.kSpaceSize = 2 ^ k)
    (hlog : P.kRegionSizeLog ≤ 32) (hal : r % P.kRegionSize = 0)
    (htop : r + P.kRegionSize ≤ 2 ^ 64) (hlow : P.kSpaceBeg ≤ maskAddress P r)
    (hmine : PointerIsMine P a r = .ok true) (hcls : GetSizeClass P a r = .ok class_id)
    (hs0 : 0 < ClassIdToSize M kBatchSize class_id)
    (hm0 : 0 < kMetadataSize)
    (hi : i < P.kRegionSize / (ClassIdToSize M kBatchSize class_id + kMetadataSize))
    (hd : d < ClassIdToSize M kBatchSize class_id) :
    ∃ slot, GetMetaData P M kBatchSize kMetadataSize a
        (r + i * ClassIdToSize M kBatchSize class_id + d) = .ok slot ∧
      slot = r + P.kRegionSize - (i + 1) * kMetadataSize ∧
      r ≤ slot ∧ slot + kMetadataSize ≤ r + P.kRegionSize ∧
      ∀ j, j < P.kRegionSize / (ClassIdToSize M kBatchSize class_id + kMetadataSize) →
        r + j * ClassIdToSize M kBatchSize class_id + ClassIdToSize M kBatchSize class_id ≤ slot ∧
        ∃ other, GetMetaData P M kBatchSize kMetadataSize a
            (r + j * ClassIdToSize M kBatchSize class_id) = .ok other ∧
          (j ≠ i → other + kMetadataSize ≤ slot ∨ slot + kMetadataSize ≤ other) := by
  have hrun := GetMetaData_run P M kBatchSize kMetadataSize a r class_id i d hpow hlog hal htop
    hlow hmine hcls hs0 hm0 hi hd
  refine ⟨_, hrun, rfl, ?_⟩
  have hother : ∀ j, j < P.kRegionSize / (ClassIdToSize M kBatchSize class_id + kMetadataSize) →
      GetMetaData P M kBatchSize kMetadataSize a (r + j * ClassIdToSize M kBatchSize class_id) =
        .ok (r + P.kRegionSize - (j + 1) * kMetadataSize) := fun j hj =>
    GetMetaData_run P M kBatchSize kMetadataSize a r class_id j 0 hpow hlog hal htop
      hlow hmine hcls hs0 hm0 hj hs0
  generalize ClassIdToSize M kBatchSize class_id = s at *
  have hN := Nat.div_mul_le_self P.kRegionSize (s + kMetadataSize)
  generalize P.kRegionSize / (s + kMetadataSize) = N at *
  have h2 : (i + 1) * kMetadataSize ≤ N * kMetadataSize := Nat.mul_le_mul_right _ hi
  have h3 : (i + 1) * kMetadataSize = i * kMetadataSize + kMetadataSize := Nat.succ_mul _ _
  rw [Nat.mul_add] at hN
  refine ⟨by omega, by omega, ?_⟩
  intro j hj
  have h4 : (j + 1) * s ≤ N * s := Nat.mul_le_mul_right _ hj
  have h5 : (j + 1) * s = j * s + s := Nat.succ_mul _ _
  refine ⟨by omega, _, hother j hj, ?_⟩
  intro hne
  have h6 : (j + 1) * kMetadataSize = j * kMetadataSize + kMetadataSize := Nat.succ_mul _ _
  have h7 : (j + 1) * kMetadataSize ≤ N * kMetadataSize := Nat.mul_le_mul_right _ hj
  rcases Nat.lt_or_gt_of_ne hne with hlt | hgt
  · right
    have h8 : (j + 1) * kMetadataSize ≤ i * kMetadataSize := Nat.mul_le_mul_right _ hlt
    omega
  · left
    have h8 : (i + 1) * kMetadataSize ≤ j * kMetadataSize := Nat.mul_le_mul_right _ hgt
    omega

theorem smallRegion_owned :
    PointerIsMine smallPrimary smallAllocator 2048 = .ok true ∧
    GetSizeClass smallPrimary smallAllocator 2048 = .ok 1 := by
  constructor <;> rfl

/-- Witness for C34: a pointer into chunk 3 of the region at 2048, with 8 bytes of
metadata per chunk. -/
theorem GetMetaData_slot_witness :
    PointerIsMine smallPrimary smallAllocator 2048 = .ok true ∧
    GetMetaData smallPrimary exampleMap 128 8 smallAllocator (2048 + 3 * 16 + 4) =
      .ok (2048 + 1024 - 4 * 8) := by
  obtain ⟨slot, h1, h2, _⟩ := GetMetaData_slot smallPrimary exampleMap 128 8 smallAllocator 2048 1
    3 4 (fun h => (by cases h)) (by decide) (by decide) (by decide) (by decide)
    smallRegion_owned.1 smallRegion_owned.2 (by decide) (by decide) (by decide) (by decide)
  rw [h2] at h1
  exact ⟨smallRegion_owned.1, h1⟩

/-! ### Filling the free list -/

theorem batchPointers_append (l1 l2 : List TransferBatch) :
    batchPointers (l1 ++ l2) = batchPointers l1 ++ batchPointers l2 := by
  unfold batchPointers
  exact List.flatMap_append _ _ _

theorem batchPointers_single (b : TransferBatch) : batchPointers [b] = b.batch_ := by
  unfold batchPointers
  simp

theorem currentBatch_some (E : PopulateEnv) (c mc : Nat) (b : Option TransferBatch) (ptr : Nat)
    (b1 : TransferBatch) (hmc : 0 < mc) (hb : OpenBatch mc b)
    (h : currentBatch E c b ptr = some b1) :
    b1.batch_ = pendingOf b ∧ b1.Count < mc := by
  unfold currentBatch at h
  cases b with
  | some x =>
    simp only [Option.some.injEq] at h
    subst h
    exact ⟨rfl, (hb _ rfl).2⟩
  | none =>
    simp only at h
    cases hc : E.CreateBatch c ptr with
    | none => rw [hc] at h; cases h
    | some addr =>
      rw [hc] at h
      simp only [Option.some.injEq] at h
      subst h
      exact ⟨rfl, hmc⟩

theorem batchLoop_spec (E : PopulateEnv) (c mc : Nat) (hmc : 0 < mc) :
    ∀ (ptrs : List Nat) (fl : List TransferBatch) (b : Option TransferBatch), OpenBatch mc b →
      ∃ new, (batchLoop E c mc ptrs fl b).2.1 = fl ++ new ∧ (∀ x ∈ new, x.Count = mc) ∧
        ((batchLoop E c mc ptrs fl b).1 = true →
          batchPointers new ++ pendingOf (batchLoop E c mc ptrs fl b).2.2 = pendingOf b ++ ptrs ∧
          OpenBatch mc (batchLoop E c mc ptrs fl b).2.2) := by
  intro ptrs
  induction ptrs with
  | nil =>
    intro fl b hb
    refine ⟨[], by simp [batchLoop], by simp, fun _ => ?_⟩
    simp only [batchLoop, batchPointers, List.flatMap_nil, List.nil_append, List.append_nil]
    exact ⟨trivial, hb⟩
  | cons ptr rest ih =>
    intro fl b hb
    cases hcb : currentBatch E c b ptr with
    | none =>
      refine ⟨[], by simp [batchLoop, hcb], by simp, fun h => ?_⟩
      simp [batchLoop, hcb] at h
    | some b1 =>
      obtain ⟨hb1, hb1c⟩ := currentBatch_some E c mc b ptr b1 hmc hb hcb
      have hstep : batchLoop E c mc (ptr :: rest) fl b =
          batchLoop E c mc rest (pushIfFull mc fl (b1.Add ptr)).1
            (pushIfFull mc fl (b1.Add ptr)).2 := by
        simp only [batchLoop, hcb]
      rw [hstep]
      have hadd : (b1.Add ptr).batch_ = pendingOf b ++ [ptr] := by
        unfold TransferBatch.Add
        simp only
        rw [hb1]
      have haddc : (b1.Add ptr).Count = b1.Count + 1 := by
        unfold TransferBatch.Count TransferBatch.Add
        simp
      by_cases hfull : (b1.Add ptr).Count = mc
      · have hp : pushIfFull mc fl (b1.Add ptr) = (fl ++ [b1.Add ptr], none) := by
          unfold pushIfFull; rw [if_pos hfull]
        rw [hp]
        obtain ⟨new, h1, h2, h3⟩ := ih (fl ++ [b1.Add ptr]) none (fun x hx => by cases hx)
        refine ⟨b1.Add ptr :: new, ?_, ?_, ?_⟩
        · rw [h1]; simp
        · intro x hx
          rcases List.mem_cons.mp hx with hx | hx
          · rw [hx]; exact hfull
          · exact h2 x hx
        · intro ht
          obtain ⟨h4, h5⟩ := h3 ht
          refine ⟨?_, h5⟩
          have e : batchPointers (b1.Add ptr :: new) = (b1.Add ptr).batch_ ++ batchPointers new := by
            unfold batchPointers; simp
          rw [e, hadd, List.append_assoc, h4]
          simp [pendingOf]
      · have hp : pushIfFull mc fl (b1.Add ptr) = (fl, some (b1.Add ptr)) := by
          unfold pushIfFull; rw [if_neg hfull]
        rw [hp]
        obtain ⟨new, h1, h2, h3⟩ := ih fl (some (b1.Add ptr)) (fun x hx => by
          simp only [Option.some.injEq] at hx
          subst hx
          omega)
        refine ⟨new, h1, h2, ?_⟩
        intro ht
        obtain ⟨h4, h5⟩ := h3 ht
        refine ⟨?_, h5⟩
        rw [h4]
        have e : pendingOf (some (b1.Add ptr)) = (b1.Add ptr).batch_ := rfl
        rw [e, hadd, List.append_assoc]
        rfl

theorem PopulateBatches_spec (E : PopulateEnv) (kb : Nat) (sci : SizeClassInfo) (c mc : Nat)
    (b : Option TransferBatch) (arr : List Nat) (hmc : 0 < mc) (hb : OpenBatch mc b)
    (hperm : ∀ l st, (E.RandomShuffle l st).1.Perm l) :
    ∃ new, (PopulateBatches E kb sci c b mc arr).2.1.free_list = sci.free_list ++ new ∧
      (∀ x ∈ new, x.Count = mc) ∧
      ((PopulateBatches E kb sci c b mc arr).1 = true →
        (batchPointers new ++ pendingOf (PopulateBatches E kb sci c b mc arr).2.2).Perm
          (pendingOf b ++ arr) ∧
        OpenBatch mc (PopulateBatches E kb sci c b mc arr).2.2) := by
  unfold PopulateBatches
  simp only
  generalize hsh : (if (E.kRandomShuffleChunks &&
      (!E.kUseSeparateSizeClassForBatch || decide (c ≠ kb))) = true then
      E.RandomShuffle arr sci.rand_state else (arr, sci.rand_state)) = sh
  have hp : sh.1.Perm arr := by
    rw [← hsh]
    split
    · exact hperm _ _
    · exact List.Perm.refl _
  obtain ⟨new, h1, h2, h3⟩ := batchLoop_spec E c mc hmc sh.1 sci.free_list b hb
  refine ⟨new, h1, h2, fun ht => ?_⟩
  obtain ⟨h4, h5⟩ := h3 ht
  refine ⟨?_, h5⟩
  rw [h4]
  exact List.Perm.append_left _ hp

theorem chunkAddresses_succ (region size k : Nat) :
    chunkAddresses region size (k + 1) = chunkAddresses region size k ++ [region + k * size] := by
  unfold chunkAddresses
  rw [List.range_succ, List.map_append]
  rfl

theorem fillLoop_spec (E : PopulateEnv) (kb c mc size region n : Nat) (hmc : 0 < mc)
    (hsize : 0 < size) (hperm : ∀ l st, (E.RandomShuffle l st).1.Perm l)
    (hend : region + n * size < 2 ^ 64) (fl0 : List TransferBatch) :
    ∀ (fuel k : Nat) (arr : List Nat) (b : Option TransferBatch) (sci : SizeClassInfo)
      (new0 : List TransferBatch), k ≤ n → n ≤ fuel + k → OpenBatch mc b →
      sci.free_list = fl0 ++ new0 → (∀ x ∈ new0, x.Count = mc) →
      (batchPointers new0 ++ pendingOf b ++ arr).Perm (chunkAddresses region size k) →
      ∃ r, fillLoop E kb c mc size (region + n * size) fuel (region + k * size) arr b sci = .ok r ∧
        ∃ new, r.2.2.2.free_list = fl0 ++ new ∧ (∀ x ∈ new, x.Count = mc) ∧
          (r.1 = true →
            (batchPointers new ++ pendingOf r.2.2.1 ++ r.2.1).Perm (chunkAddresses region size n) ∧
            OpenBatch mc r.2.2.1) := by
  intro fuel
  induction fuel with
  | zero =>
    intro k arr b sci new0 hk hf hb hfl hfull hp
    have e : k = n := by omega
    subst e
    refine ⟨(true, arr, b, sci), ?_, new0, hfl, hfull, fun _ => ⟨hp, hb⟩⟩
    simp only [fillLoop]
    rw [if_neg (by omega)]
  | succ fuel ih =>
    intro k arr b sci new0 hk hf hb hfl hfull hp
    by_cases hlt : k < n
    · have h1 : region + k * size < region + n * size := by
        have := Nat.mul_lt_mul_of_pos_right hlt hsize
        omega
      have h2 : (k + 1) * size ≤ n * size := Nat.mul_le_mul_right _ hlt
      have h3 : (k + 1) * size = k * size + size := Nat.succ_mul _ _
      have hnext : (region + k * size + size) % 2 ^ 64 = region + (k + 1) * size := by
        rw [Nat.mod_eq_of_lt (by omega)]
        omega
      simp only [fillLoop]
      rw [if_pos h1, hnext]
      by_cases hlen : (arr ++ [region + k * size]).length = kShuffleArraySize
      · rw [if_pos hlen]
        obtain ⟨new1, q1, q2, q3⟩ := PopulateBatches_spec E kb sci c mc b
          (arr ++ [region + k * size]) hmc hb hperm
        generalize PopulateBatches E kb sci c b mc (arr ++ [region + k * size]) = pb at *
        cases hr : pb.1 with
        | false =>
          simp only [Bool.not_false, if_true]
          refine ⟨_, rfl, new0 ++ new1, ?_, ?_, fun h => (by cases h)⟩
          · simp only
            rw [q1, hfl, List.append_assoc]
          · intro x hx
            rcases List.mem_append.mp hx with hx | hx
            · exact hfull x hx
            · exact q2 x hx
        | true =>
          simp only [Bool.not_true, Bool.false_eq_true, if_false]
          obtain ⟨q4, q5⟩ := q3 hr
          apply ih (k + 1) [] pb.2.2 pb.2.1 (new0 ++ new1) (by omega) (by omega) q5
          · rw [q1, hfl, List.append_assoc]
          · intro x hx
            rcases List.mem_append.mp hx with hx | hx
            · exact hfull x hx
            · exact q2 x hx
          · rw [chunkAddresses_succ, List.append_nil, batchPointers_append, List.append_assoc]
            have e1 : (batchPointers new0 ++ (batchPointers new1 ++ pendingOf pb.2.2)).Perm
                (batchPointers new0 ++ (pendingOf b ++ (arr ++ [region + k * size]))) :=
              List.Perm.append_left _ q4
            refine e1.trans ?_
            rw [← List.append_assoc, ← List.append_assoc]
            rw [List.append_assoc (batchPointers new0 ++ pendingOf b)] at *
            rw [← List.append_assoc (batchPointers new0 ++ pendingOf b)]
            exact List.Perm.append_right _ hp
      · rw [if_neg hlen]
        apply ih (k + 1) (arr ++ [region + k * size]) b sci new0 (by omega) (by omega) hb hfl hfull
        rw [chunkAddresses_succ, ← List.append_assoc]
        exact List.Perm.append_right _ hp
    · have e : k = n := by omega
      subst e
      refine ⟨(true, arr, b, sci), ?_, new0, hfl, hfull, fun _ => ⟨hp, hb⟩⟩
      simp only [fillLoop]
      rw [if_neg (by omega)]

theorem fillFinish_spec (E : PopulateEnv) (kb c mc : Nat) (hmc : 0 < mc)
    (hperm : ∀ l st, (E.RandomShuffle l st).1.Perm l) (target : List Nat)
    (fl0 new0 : List TransferBatch) (arr : List Nat) (b : Option TransferBatch)
    (sci : SizeClassInfo) (hb : OpenBatch mc b) (hfl : sci.free_list = fl0 ++ new0)
    (hfull : ∀ x ∈ new0, x.Count = mc)
    (hp : (batchPointers new0 ++ pendingOf b ++ arr).Perm target) :
    ∃ f, fillFinish E kb c mc arr b sci = .ok f ∧
      ∃ new, f.2.free_list = fl0 ++ new ∧
        (f.1 = true → (batchPointers new).Perm target ∧
          ∀ x ∈ new, 1 ≤ x.Count ∧ x.Count ≤ mc) := by
  unfold fillFinish
  simp only
  generalize hr : (if arr.length ≠ 0 then PopulateBatches E kb sci c b mc arr
    else (true, sci, b)) = r
  have hspec : ∃ new1, r.2.1.free_list = sci.free_list ++ new1 ∧ (∀ x ∈ new1, x.Count = mc) ∧
      (r.1 = true → (batchPointers new1 ++ pendingOf r.2.2).Perm (pendingOf b ++ arr) ∧
        OpenBatch mc r.2.2) := by
    rw [← hr]
    by_cases hlen : arr.length ≠ 0
    · rw [if_pos hlen]
      exact PopulateBatches_spec E kb sci c mc b arr hmc hb hperm
    · rw [if_neg hlen]
      have e : arr = [] := List.length_eq_zero.mp (not_not.mp hlen)
      refine ⟨[], by simp, by simp, fun _ => ⟨?_, hb⟩⟩
      rw [e]
      simp [batchPointers]
  obtain ⟨new1, q1, q2, q3⟩ := hspec
  have hall : ∀ x ∈ new0 ++ new1, 1 ≤ x.Count ∧ x.Count ≤ mc := by
    intro x hx
    rcases List.mem_append.mp hx with hx | hx
    · have := hfull x hx; omega
    · have := q2 x hx; omega
  cases h1 : r.1 with
  | false =>
    simp only [Bool.not_false, if_true]
    refine ⟨_, rfl, new0 ++ new1, ?_, fun h => (by cases h)⟩
    simp only
    rw [q1, hfl, List.append_assoc]
  | true =>
    simp only [Bool.not_true, Bool.false_eq_true, if_false]
    obtain ⟨q4, q5⟩ := q3 h1
    have hperm2 : (batchPointers new0 ++ (batchPointers new1 ++ pendingOf r.2.2)).Perm target := by
      refine (List.Perm.append_left _ q4).trans ?_
      rw [← List.append_assoc]
      exact hp
    cases h2 : r.2.2 with
    | none =>
      simp only
      refine ⟨_, rfl, new0 ++ new1, ?_, fun _ => ⟨?_, hall⟩⟩
      · simp only
        rw [q1, hfl, List.append_assoc]
      · rw [h2] at hperm2
        rw [batchPointers_append]
        simpa [pendingOf] using hperm2
    | some x =>
      simp only
      obtain ⟨c1, c2⟩ := q5 x h2
      rw [if_neg (by omega)]
      refine ⟨_, rfl, new0 ++ new1 ++ [x], ?_, fun _ => ⟨?_, ?_⟩⟩
      · simp only
        rw [q1, hfl, List.append_assoc, List.append_assoc, List.append_assoc]
      · rw [h2] at hperm2
        rw [batchPointers_append, batchPointers_append, batchPointers_single, List.append_assoc]
        exact hperm2
      · intro y hy
        rcases List.mem_append.mp hy with hy | hy
        · exact hall y hy
        · rw [List.mem_singleton.mp hy]
          omega

theorem AllocateRegion_result (P : PrimaryParams) (a : SizeClassAllocator32) (res class_id : Nat)
    (ra : Nat × SizeClassAllocator32) (h : AllocateRegion P a res class_id = .ok ra) :
    ra.1 = res := by
  unfold AllocateRegion at h
  by_cases h0 : res = 0
  · rw [if_pos h0] at h
    cases h
    exact h0.symm
  rw [if_neg h0] at h
  by_cases hal : ¬ Scudo.IsAligned res P.kRegionSize = true
  · rw [if_pos hal] at h; cases h
  rw [if_neg hal] at h
  cases hid : ComputeRegionId P res with
  | error e => rw [hid] at h; cases h
  | ok id =>
    rw [hid] at h
    cases h
    rfl

theorem AllocateRegion_fuel (P : PrimaryParams) (a : SizeClassAllocator32) (res class_id : Nat) :
    AllocateRegion P a res class_id ≠ .error .OutOfFuel := by
  unfold AllocateRegion
  by_cases h0 : res = 0
  · rw [if_pos h0]; intro h; cases h
  rw [if_neg h0]
  by_cases hal : ¬ Scudo.IsAligned res P.kRegionSize = true
  · rw [if_pos hal]; intro h; cases h
  rw [if_neg hal]
  unfold ComputeRegionId
  simp only
  split
  · rename_i e heq
    split at heq
    · cases heq; intro h; cases h
    · cases heq
  · intro h; cases h

theorem chunkAddresses_nodup (region size n : Nat) (hsize : 0 < size) :
    (chunkAddresses region size n).Nodup := by
  unfold chunkAddresses
  apply List.Nodup.map
  · intro i j hij
    simp only at hij
    have : i * size = j * size := by omega
    exact Nat.eq_of_mul_eq_mul_right hsize this
  · exact List.nodup_range n

/-- Claim C33. For a class with chunk size `s > 0` and `MaxCached(s) > 0`, with
`RandomShuffle` a permutation and a region that ends below `2 ^ 64`: the loop of
`PopulateFreeList` ends within `n_chunks = kRegionSize / (s + kMetadataSize)` iterations,
and when `PopulateFreeList` returns true the free list is the old one followed by new
batches whose pointers are a permutation of the distinct addresses `region + i * s`,
`i < n_chunks`, each batch holding at least 1 and at most `MaxCached(s)` pointers. -/
theorem PopulateFreeList_batches (P : PrimaryParams) (M : SizeClassMap) (E : PopulateEnv)
    (a : SizeClassAllocator32) (sci : SizeClassInfo) (res class_id : Nat)
    (hsize : 0 < ClassIdToSize M E.kBatchSize class_id)
    (hmc : 0 < E.MaxCached (ClassIdToSize M E.kBatchSize class_id))
    (hperm : ∀ l st, (E.RandomShuffle l st).1.Perm l)
    (htop : res + P.kRegionSize < 2 ^ 64) :
    PopulateFreeList P M E a sci res class_id ≠ .error .OutOfFuel ∧
    ∀ out, PopulateFreeList P M E a sci res class_id = .ok out → out.1 = true →
      ∃ new, out.2.1.free_list = sci.free_list ++ new ∧
        (batchPointers new).Perm (chunkAddresses res (ClassIdToSize M E.kBatchSize class_id)
          (P.kRegionSize / (ClassIdToSize M E.kBatchSize class_id + E.kMetadataSize))) ∧
        (chunkAddresses res (ClassIdToSize M E.kBatchSize class_id)
          (P.kRegionSize / (ClassIdToSize M E.kBatchSize class_id + E.kMetadataSize))).Nodup ∧
        ∀ b ∈ new, 1 ≤ b.Count ∧ b.Count ≤ E.MaxCached (ClassIdToSize M E.kBatchSize class_id) := by
  unfold PopulateFreeList
  cases hA : AllocateRegion P a res class_id with
  | error e =>
    simp only
    refine ⟨?_, fun out h => (by cases h)⟩
    intro h
    cases h
    exact AllocateRegion_fuel P a res class_id hA
  | ok ra =>
    simp only
    have hreg := AllocateRegion_result P a res class_id ra hA
    rw [hreg]
    by_cases h0 : res = 0
    · rw [if_pos h0]
      refine ⟨fun h => (by cases h), fun out h ht => ?_⟩
      cases h
      cases ht
    rw [if_neg h0, if_neg (by omega)]
    generalize hsz : ClassIdToSize M E.kBatchSize class_id = s at *
    have hN := Nat.div_mul_le_self P.kRegionSize (s + E.kMetadataSize)
    generalize P.kRegionSize / (s + E.kMetadataSize) = n at *
    have hend : res + n * s < 2 ^ 64 := by
      rw [Nat.mul_add] at hN
      omega
    rw [Nat.mod_eq_of_lt hend]
    generalize hs1 : (if (E.kRandomShuffleChunks && decide (sci.rand_state = 0)) = true then
      ({ sci with rand_state := E.seed } : SizeClassInfo) else sci) = sci1
    have hfl1 : sci1.free_list = sci.free_list ++ [] := by
      rw [← hs1, List.append_nil]
      split <;> rfl
    obtain ⟨r, hrun, new1, q1, q2, q3⟩ := fillLoop_spec E M.kBatchClassID class_id (E.MaxCached s)
      s res n hmc hsize hperm hend sci.free_list n 0 [] none sci1 [] (Nat.zero_le _) (by omega)
      (fun x hx => (by cases hx)) hfl1 (by simp) (by simp [batchPointers, pendingOf, chunkAddresses])
    rw [Nat.zero_mul, Nat.add_zero] at hrun
    rw [hrun]
    simp only
    cases hr1 : r.1 with
    | false =>
      simp only [Bool.not_false, if_true]
      refine ⟨fun h => (by cases h), fun out h ht => ?_⟩
      cases h
      cases ht
    | true =>
      simp only [Bool.not_true, Bool.false_eq_true, if_false]
      obtain ⟨q4, q5⟩ := q3 hr1
      obtain ⟨f, hf, new, p1, p2⟩ := fillFinish_spec E M.kBatchClassID class_id (E.MaxCached s) hmc
        hperm (chunkAddresses res s n) sci.free_list new1 r.2.1 r.2.2.1 r.2.2.2 q5 q1 q2 q4
      rw [hf]
      simp only
      refine ⟨fun h => (by cases h), fun out h ht => ?_⟩
      cases h
      obtain ⟨p3, p4⟩ := p2 ht
      exact ⟨new, p1, p3, chunkAddresses_nodup res s n hsize, p4⟩

theorem exampleEnv_shuffle (l : List Nat) (st : Nat) : (exampleEnv.RandomShuffle l st).1.Perm l :=
  List.reverse_perm l

set_option maxRecDepth 100000 in
theorem smallPopulate_run :
    PopulateFreeList smallPrimary exampleMap exampleEnv emptyAllocator ⟨[], 0⟩ 2048 1 =
      .ok (true, ⟨freeListOf (PopulateFreeList smallPrimary exampleMap exampleEnv emptyAllocator
        ⟨[], 0⟩ 2048 1), 2⟩, smallAllocator) := by
  rfl

/-- Witness for C33: the region at 2048 of the small allocator, 42 chunks of 16 bytes. -/
theorem PopulateFreeList_batches_witness :
    (∀ l st, (exampleEnv.RandomShuffle l st).1.Perm l) ∧
    ∃ new, freeListOf (PopulateFreeList smallPrimary exampleMap exampleEnv emptyAllocator
        ⟨[], 0⟩ 2048 1) = [] ++ new ∧
      (batchPointers new).Perm (chunkAddresses 2048 16 42) := by
  obtain ⟨new, h1, h2, _⟩ := (PopulateFreeList_batches smallPrimary exampleMap exampleEnv
    emptyAllocator ⟨[], 0⟩ 2048 1 (by decide) (by decide) exampleEnv_shuffle (by decide)).2 _
    smallPopulate_run rfl
  exact ⟨exampleEnv_shuffle, new, h1, h2⟩

end Primary32

namespace StackDepot

/-! ### Ids are unique and stay valid -/

theorem id_split (low part k : Nat) (h : low < 2 ^ k) :
    low ||| (part <<< k) = 2 ^ k * part + low := by
  rw [Nat.shiftLeft_eq, Nat.lor_comm, Nat.mul_comm, ← Nat.mul_add_lt_is_or h]

theorem id_part (low part k : Nat) (h : low < 2 ^ k) :
    (2 ^ k * part + low) / 2 ^ k = part ∧ (2 ^ k * part + low) % 2 ^ k = low := by
  constructor
  · rw [Nat.mul_add_div (Nat.two_pow_pos k), Nat.div_eq_of_lt h, Nat.add_zero]
  · rw [Nat.mul_add_mod, Nat.mod_eq_of_lt h]

theorem kTabSize_parts (P : DepotParams) (h8 : 8 ≤ P.kTabSizeLog) :
    P.kTabSize = P.kPartSize * kPartCount ∧ 0 < P.kPartSize := by
  unfold DepotParams.kPartSize DepotParams.kTabSize kPartCount kPartBits
  have e : 2 ^ P.kTabSizeLog = 2 ^ (P.kTabSizeLog - 8) * 2 ^ 8 := by
    rw [← Nat.pow_add]
    congr 1
    omega
  rw [e, Nat.mul_div_cancel _ (by norm_num)]
  exact ⟨rfl, Nat.two_pow_pos _⟩

theorem part_lt (P : DepotParams) (h8 : 8 ≤ P.kTabSizeLog) (idx : Nat) (h : idx < P.kTabSize) :
    idx / P.kPartSize < kPartCount := by
  obtain ⟨e, hp⟩ := kTabSize_parts P h8
  rw [e] at h
  exact Nat.div_lt_of_lt_mul h

theorem kPartShift_le (P : DepotParams) : P.kPartShift + 8 ≤ 32 := by
  unfold DepotParams.kPartShift kPartBits
  omega

theorem Put_invalid {α : Type} (P : DepotParams) (ops : NodeOps α) (d : Depot α) (args : α)
    (h : ops.is_valid args = false) : Put P ops d args = .ok (0, d) := by
  unfold Put
  rw [h]
  rfl

/-- The two ways in which `Put` of a valid value returns: an existing node that `eq`
accepts, or a new node at the head of the bucket. -/
theorem Put_cases {α : Type} (P : DepotParams) (ops : NodeOps α) (d d1 : Depot α) (args : α) (id : Nat)
    (h8 : 8 ≤ P.kTabSizeLog) (hs : ∀ p, d.seq p < P.kMaxId)
    (hv : ops.is_valid args = true) (h : Put P ops d args = .ok (id, d1)) :
    (d1 = d ∧ ∃ n ∈ d.tab (ops.hash args % P.kTabSize), n.id = id ∧
        ops.eq n.hash n.args (ops.hash args) args = true) ∨
    (find ops (d.tab (ops.hash args % P.kTabSize)) args (ops.hash args) = none ∧
      d.seq (ops.hash args % P.kTabSize / P.kPartSize) + 1 < P.kMaxId ∧
      id = 2 ^ P.kPartShift * (ops.hash args % P.kTabSize / P.kPartSize) +
        (d.seq (ops.hash args % P.kTabSize / P.kPartSize) + 1) ∧
      id ≠ 0 ∧ id &&& ((2 ^ 32 - 1) >>> P.kReservedBits) = id ∧
      d1.tab = (fun i => if i = ops.hash args % P.kTabSize then
        ⟨id, ops.hash args, args⟩ :: d.tab (ops.hash args % P.kTabSize) else d.tab i) ∧
      d1.seq = (fun p => if p = ops.hash args % P.kTabSize / P.kPartSize then
        d.seq (ops.hash args % P.kTabSize / P.kPartSize) + 1 else d.seq p)) := by
  have hidx : ops.hash args % P.kTabSize < P.kTabSize := Nat.mod_lt _ (Nat.two_pow_pos _)
  have hpart := part_lt P h8 _ hidx
  generalize hI : ops.hash args % P.kTabSize = idx at *
  generalize hQ : idx / P.kPartSize = part at *
  have hsq := hs part
  have hmax : P.kMaxId ≤ 2 ^ 24 := by
    unfold DepotParams.kMaxId DepotParams.kPartShift kPartBits
    exact Nat.pow_le_pow_right (by norm_num) (by omega)
  have hlow : (d.seq part + 1) % 2 ^ 32 = d.seq part + 1 := Nat.mod_eq_of_lt (by omega)
  unfold Put at h
  rw [hv] at h
  simp only [Bool.not_true, Bool.false_eq_true, if_false, hI, hQ, hlow] at h
  cases hfind : find ops (d.tab idx) args (ops.hash args) with
  | some node =>
    rw [hfind] at h
    simp only [Except.ok.injEq, Prod.mk.injEq] at h
    left
    refine ⟨h.2.symm, node, ?_, h.1, ?_⟩
    · unfold find at hfind
      exact List.mem_of_find?_eq_some hfind
    · unfold find at hfind
      have e := List.find?_some hfind
      exact e
  | none =>
    rw [hfind] at h
    simp only at h
    right
    by_cases c1 : ¬ d.seq part + 1 < P.kMaxId
    · rw [if_pos c1] at h; cases h
    rw [if_neg c1] at h
    have c1b : d.seq part + 1 < 2 ^ P.kPartShift := not_not.1 c1
    have hid : (d.seq part + 1 ||| part <<< P.kPartShift) % 2 ^ 32 =
        2 ^ P.kPartShift * part + (d.seq part + 1) := by
      rw [id_split _ _ _ c1b]
      apply Nat.mod_eq_of_lt
      have h1 : 2 ^ P.kPartShift * part + (d.seq part + 1) < 2 ^ P.kPartShift * (part + 1) := by
        rw [Nat.mul_add, Nat.mul_one]
        omega
      have h2 : 2 ^ P.kPartShift * (part + 1) ≤ 2 ^ P.kPartShift * 2 ^ 8 :=
        Nat.mul_le_mul_left _ hpart
      have h3 : 2 ^ P.kPartShift * 2 ^ 8 ≤ 2 ^ 32 := by
        rw [← Nat.pow_add]
        exact Nat.pow_le_pow_right (by norm_num) (kPartShift_le P)
      omega
    rw [hid] at h
    by_cases c2 : 2 ^ P.kPartShift * part + (d.seq part + 1) = 0
    · rw [if_pos c2] at h; cases h
    rw [if_neg c2] at h
    by_cases c3 : (2 ^ P.kPartShift * part + (d.seq part + 1)) &&&
        ((2 ^ 32 - 1) >>> P.kReservedBits) ≠ 2 ^ P.kPartShift * part + (d.seq part + 1)
    · rw [if_pos c3] at h; cases h
    rw [if_neg c3] at h
    simp only [Except.ok.injEq, Prod.mk.injEq] at h
    obtain ⟨h1, h2⟩ := h
    subst h1
    refine ⟨rfl, not_not.1 c1, rfl, c2, not_not.1 c3, ?_, ?_⟩
    · rw [← h2]
    · rw [← h2]

theorem Inv_empty (α : Type) (P : DepotParams) : Inv P (Depot.empty α) :=
  ⟨fun _ _ h => (by cases h), fun _ _ _ _ h => (by cases h), fun _ => Nat.two_pow_pos _⟩

theorem Put_keeps {α : Type} (P : DepotParams) (ops : NodeOps α) (d d1 : Depot α) (args : α) (id : Nat)
    (h8 : 8 ≤ P.kTabSizeLog) (hinv : Inv P d) (h : Put P ops d args = .ok (id, d1)) :
    Inv P d1 ∧ (∀ idx n, n ∈ d.tab idx → n ∈ d1.tab idx) ∧
    (ops.is_valid args = true → id ≠ 0 ∧ ∃ idx n, n ∈ d1.tab idx ∧ n.id = id ∧
      (n.args = args ∨ ops.eq n.hash n.args (ops.hash args) args = true)) := by
  cases hv : ops.is_valid args with
  | false =>
    rw [Put_invalid P ops d args hv] at h
    simp only [Except.ok.injEq, Prod.mk.injEq] at h
    rw [← h.2]
    exact ⟨hinv, fun _ _ hn => hn, fun hc => Bool.noConfusion hc⟩
  | true =>
    rcases Put_cases P ops d d1 args id h8 hinv.seq hv h with
      ⟨e, n, hn, hid, heq⟩ | ⟨_, hroom, hid, hne, hmask, htab, hseq⟩
    · rw [e]
      exact ⟨hinv, fun _ _ hn => hn, fun _ =>
        ⟨by rw [← hid]; exact (hinv.node _ n hn).2.1, _, n, hn, hid, Or.inr heq⟩⟩
    · have hidx : ops.hash args % P.kTabSize < P.kTabSize := Nat.mod_lt _ (Nat.two_pow_pos _)
      generalize hI : ops.hash args % P.kTabSize = idx at *
      generalize hQ : idx / P.kPartSize = part at *
      have hlow : d.seq part + 1 < 2 ^ P.kPartShift := hroom
      obtain ⟨hp1, hp2⟩ := id_part (d.seq part + 1) part P.kPartShift hlow
      have hnew : id >>> P.kPartShift = part ∧ id % 2 ^ P.kPartShift = d.seq part + 1 := by
        rw [Nat.shiftRight_eq_div_pow, hid]
        exact ⟨hp1, hp2⟩
      have hmono : ∀ p, d.seq p ≤ d1.seq p := by
        intro p
        rw [hseq]
        by_cases hp : p = part
        · simp only [if_pos hp]; rw [hp]; omega
        · simp only [if_neg hp]; exact Nat.le_refl _
      have hold : ∀ i n, n ∈ d1.tab i → n ∈ d.tab i ∨ (i = idx ∧ n = ⟨id, ops.hash args, args⟩) := by
        intro i n hn
        rw [htab] at hn
        by_cases hi : i = idx
        · simp only [if_pos hi] at hn
          rcases List.mem_cons.1 hn with e | e
          · exact Or.inr ⟨hi, e⟩
          · exact Or.inl (hi ▸ e)
        · simp only [if_neg hi] at hn
          exact Or.inl hn
      have hfresh : ∀ j m, m ∈ d.tab j → m.id ≠ id := by
        intro j m hm hc
        obtain ⟨_, _, _, m1, m2⟩ := hinv.node j m hm
        rw [hc, hnew.1] at m1
        rw [hc, hnew.2, ← m1] at m2
        omega
      refine ⟨⟨?_, ?_, ?_⟩, ?_, ?_⟩
      · intro i n hn
        rcases hold i n hn with ho | ⟨hi, hn2⟩
        · obtain ⟨n1, n2, n3, n4, n5⟩ := hinv.node i n ho
          exact ⟨n1, n2, n3, n4, le_trans n5 (hmono _)⟩
        · subst hn2
          rw [hi]
          refine ⟨hidx, hne, hmask, by rw [hQ]; exact hnew.1, ?_⟩
          rw [hQ, hseq]
          simp only [if_true]
          rw [hnew.2]
      · intro i j n m hn hm hnm
        rcases hold i n hn with ho | ⟨_, hn2⟩ <;> rcases hold j m hm with hp | ⟨_, hm2⟩
        · exact hinv.uniq i j n m ho hp hnm
        · subst hm2
          exact absurd hnm (hfresh i n ho)
        · subst hn2
          exact absurd hnm.symm (hfresh j m hp)
        · rw [hn2, hm2]
      · intro p
        rw [hseq]
        by_cases hp : p = part
        · simp only [if_pos hp]; exact hroom
        · simp only [if_neg hp]; exact hinv.seq p
      · intro i n hn
        rw [htab]
        by_cases hi : i = idx
        · simp only [if_pos hi]
          exact List.mem_cons_of_mem _ (hi ▸ hn)
        · simp only [if_neg hi]
          exact hn
      · intro _
        refine ⟨hne, idx, ⟨id, ops.hash args, args⟩, ?_, rfl, Or.inl rfl⟩
        rw [htab]
        simp only [if_true]
        exact List.mem_cons_self _ _

theorem putAll_keeps {α : Type} (P : DepotParams) (ops : NodeOps α) (h8 : 8 ≤ P.kTabSizeLog) :
    ∀ (l : List α) (d d1 : Depot α), Inv P d → putAll P ops l d = .ok d1 →
      Inv P d1 ∧ ∀ idx n, n ∈ d.tab idx → n ∈ d1.tab idx := by
  intro l
  induction l with
  | nil =>
    intro d d1 hinv h
    cases h
    exact ⟨hinv, fun _ _ hn => hn⟩
  | cons a rest ih =>
    intro d d1 hinv h
    rw [putAll] at h
    cases hp : Put P ops d a with
    | error e => rw [hp] at h; cases h
    | ok r =>
      rw [hp] at h
      obtain ⟨k1, k2, _⟩ := Put_keeps P ops d r.2 a r.1 h8 hinv hp
      obtain ⟨k3, k4⟩ := ih r.2 d1 k1 h
      exact ⟨k3, fun idx n hn => k4 idx n (k2 idx n hn)⟩

theorem getLoop_finds {α : Type} (P : DepotParams) (ops : NodeOps α) (d : Depot α) (id part : Nat)
    (hb : ∀ j, j < P.kPartSize → part * P.kPartSize + j < P.kTabSize) :
    ∀ (n i : Nat), n + i = P.kPartSize →
      (∃ j, i ≤ j ∧ j < P.kPartSize ∧ ∃ s ∈ d.tab (part * P.kPartSize + j), s.id = id) →
      ∃ j m, m ∈ d.tab (part * P.kPartSize + j) ∧ m.id = id ∧
        getLoop P ops d id part n i = .ok m.args := by
  intro n
  induction n with
  | zero =>
    intro i hi ⟨j, h1, h2, _⟩
    omega
  | succ n ih =>
    intro i hi ⟨j, h1, h2, s, hs, hsid⟩
    rw [getLoop, if_neg (not_not.2 (hb i (by omega)))]
    cases hf : (d.tab (part * P.kPartSize + i)).find? (fun s => decide (s.id = id)) with
    | some m =>
      refine ⟨i, m, List.mem_of_find?_eq_some hf, ?_, rfl⟩
      have e := List.find?_some hf
      exact of_decide_eq_true e
    | none =>
      apply ih (i + 1) (by omega)
      have hji : j ≠ i := by
        intro hc
        subst hc
        have := List.find?_eq_none.1 hf s hs
        exact this (decide_eq_true hsid)
      exact ⟨j, by omega, h2, s, hs, hsid⟩

theorem Get_of_node {α : Type} (P : DepotParams) (ops : NodeOps α) (d : Depot α)
    (h8 : 8 ≤ P.kTabSizeLog) (hinv : Inv P d) (idx : Nat) (n : Node α) (hn : n ∈ d.tab idx) :
    Get P ops d n.id = .ok n.args := by
  obtain ⟨n1, n2, n3, n4, _⟩ := hinv.node idx n hn
  obtain ⟨e, hp⟩ := kTabSize_parts P h8
  have hpart := part_lt P h8 idx n1
  unfold Get
  rw [if_neg n2, if_neg (not_not.2 n3), n4]
  have hb : ∀ j, j < P.kPartSize → idx / P.kPartSize * P.kPartSize + j < P.kTabSize := by
    intro j hj
    rw [e]
    have : (idx / P.kPartSize + 1) * P.kPartSize ≤ kPartCount * P.kPartSize :=
      Nat.mul_le_mul_right _ hpart
    rw [Nat.succ_mul] at this
    rw [Nat.mul_comm P.kPartSize kPartCount]
    omega
  obtain ⟨j, m, hm, hmid, hget⟩ := getLoop_finds P ops d n.id (idx / P.kPartSize) hb
    P.kPartSize 0 (by omega)
    ⟨idx % P.kPartSize, Nat.zero_le _, Nat.mod_lt _ hp, n, by
      have := Nat.div_add_mod idx P.kPartSize
      rw [Nat.mul_comm] at this
      rw [this]
      exact hn, rfl⟩
  rw [hget, hinv.uniq _ _ m n hm hn hmid]

theorem mask_keeps (r x : Nat) (hr : r ≤ 24) (hx : x < 2 ^ (32 - r)) :
    x &&& ((2 ^ 32 - 1) >>> r) = x := by
  have e : (2 ^ 32 - 1) >>> r = 2 ^ (32 - r) - 1 := by
    rw [Nat.shiftRight_eq_div_pow]
    interval_cases r <;> rfl
  rw [e, Nat.and_pow_two_sub_one_eq_mod, Nat.mod_eq_of_lt hx]

theorem Put_returns {α : Type} (P : DepotParams) (ops : NodeOps α) (d : Depot α) (args : α)
    (h8 : 8 ≤ P.kTabSizeLog)
    (hroom : d.seq (ops.hash args % P.kTabSize / P.kPartSize) + 1 < P.kMaxId) :
    ∃ r, Put P ops d args = .ok r := by
  cases hv : ops.is_valid args with
  | false => exact ⟨_, Put_invalid P ops d args hv⟩
  | true =>
    have hidx : ops.hash args % P.kTabSize < P.kTabSize := Nat.mod_lt _ (Nat.two_pow_pos _)
    have hpart := part_lt P h8 _ hidx
    generalize hI : ops.hash args % P.kTabSize = idx at *
    generalize hQ : idx / P.kPartSize = part at *
    have hmax : P.kMaxId ≤ 2 ^ 24 := by
      unfold DepotParams.kMaxId DepotParams.kPartShift kPartBits
      exact Nat.pow_le_pow_right (by norm_num) (by omega)
    have hlow : (d.seq part + 1) % 2 ^ 32 = d.seq part + 1 := Nat.mod_eq_of_lt (by omega)
    have c1b : d.seq part + 1 < 2 ^ P.kPartShift := hroom
    have hr : P.kReservedBits ≤ 23 := by
      by_contra hc
      have h0 : P.kPartShift = 0 := by
        unfold DepotParams.kPartShift kPartBits
        omega
      rw [h0] at c1b
      omega
    have hsh : P.kPartShift + 8 = 32 - P.kReservedBits := by
      unfold DepotParams.kPartShift kPartBits
      omega
    have hlt : 2 ^ P.kPartShift * part + (d.seq part + 1) < 2 ^ (32 - P.kReservedBits) := by
      have h1 : 2 ^ P.kPartShift * part + (d.seq part + 1) < 2 ^ P.kPartShift * (part + 1) := by
        rw [Nat.mul_add, Nat.mul_one]
        omega
      have h2 : 2 ^ P.kPartShift * (part + 1) ≤ 2 ^ P.kPartShift * 2 ^ 8 :=
        Nat.mul_le_mul_left _ hpart
      rw [← hsh, Nat.pow_add]
      omega
    have hid : (d.seq part + 1 ||| part <<< P.kPartShift) % 2 ^ 32 =
        2 ^ P.kPartShift * part + (d.seq part + 1) := by
      rw [id_split _ _ _ c1b]
      apply Nat.mod_eq_of_lt
      have : 2 ^ (32 - P.kReservedBits) ≤ 2 ^ 32 := Nat.pow_le_pow_right (by norm_num) (by omega)
      omega
    unfold Put
    rw [hv]
    simp only [Bool.not_true, Bool.false_eq_true, if_false, hI, hQ, hlow]
    cases hfind : find ops (d.tab idx) args (ops.hash args) with
    | some node => exact ⟨_, rfl⟩
    | none =>
      simp only
      rw [if_neg (not_not.2 hroom), hid, if_neg (by omega),
        if_neg (not_not.2 (mask_keeps _ _ (by omega) hlt))]
      exact ⟨_, rfl⟩

/-- Claim C25. In a depot reached from the initial state by `Put` calls, a `Put` of a
valid value that returns gives a non-zero id; `Get` of that id returns the
value, at once and after any further `Put` calls that return. `Get(0)` returns
the empty value. A `Put` returns whenever the id generator of the part of the
value has an id left below `kMaxId`. The node type is a parameter whose `eq`
only accepts a node that stores the value asked for. -/
theorem Put_Get_roundtrip {α : Type} (P : DepotParams) (ops : NodeOps α) (h8 : 8 ≤ P.kTabSizeLog)
    (hsound : ∀ sh sa h a, ops.eq sh sa h a = true → sa = a)
    (before after : List α) (args : α) (hv : ops.is_valid args = true)
    (d1 d2 d3 : Depot α) (id : Nat)
    (h1 : putAll P ops before (Depot.empty α) = .ok d1)
    (h2 : Put P ops d1 args = .ok (id, d2))
    (h3 : putAll P ops after d2 = .ok d3) :
    id ≠ 0 ∧ Get P ops d2 id = .ok args ∧ Get P ops d3 id = .ok args ∧
    (∀ d : Depot α, Get P ops d 0 = .ok ops.empty) ∧
    (∀ (d : Depot α) (a : α), d.seq (ops.hash a % P.kTabSize / P.kPartSize) + 1 < P.kMaxId →
      ∃ r, Put P ops d a = .ok r) := by
  obtain ⟨i1, _⟩ := putAll_keeps P ops h8 before _ d1 (Inv_empty α P) h1
  obtain ⟨i2, _, hput⟩ := Put_keeps P ops d1 d2 args id h8 i1 h2
  obtain ⟨hne, idx, n, hn, hid, hargs⟩ := hput hv
  obtain ⟨i3, hkeep⟩ := putAll_keeps P ops h8 after d2 d3 i2 h3
  have hna : n.args = args := by
    rcases hargs with e | e
    · exact e
    · exact hsound _ _ _ _ e
  refine ⟨hne, ?_, ?_, fun d => rfl, fun d a hroom => Put_returns P ops d a h8 hroom⟩
  · rw [← hid, ← hna]
    exact Get_of_node P ops d2 h8 i2 idx n hn
  · rw [← hid, ← hna]
    exact Get_of_node P ops d3 h8 i3 idx n (hkeep idx n hn)

theorem traceOps_sound (sh : Nat) (sa : List Nat) (h : Nat) (a : List Nat)
    (he : traceOps.eq sh sa h a = true) : sa = a := by
  unfold traceOps at he
  simp only [Bool.and_eq_true, decide_eq_true_eq] at he
  exact he.2

/-- Witness for C25: a trace put between other traces; its id is the first id of the
part 119, and the later `Put` of a trace in the same bucket does not disturb
it. -/
theorem Put_Get_roundtrip_witness :
    traceOps.is_valid exampleTrace = true ∧ exampleId = 119 * 2 ^ 23 + 1 ∧
    valueOf (Get exampleDepot traceOps exampleD3 exampleId) = some exampleTrace ∧
    exampleId ≠ 0 ∧ Get exampleDepot traceOps exampleD2 exampleId = .ok exampleTrace ∧
    Get exampleDepot traceOps exampleD3 exampleId = .ok exampleTrace ∧
    (∀ d : Depot (List Nat), Get exampleDepot traceOps d 0 = .ok traceOps.empty) ∧
    (∀ (d : Depot (List Nat)) (a : List Nat),
      d.seq (traceOps.hash a % exampleDepot.kTabSize / exampleDepot.kPartSize) + 1 <
        exampleDepot.kMaxId →
      ∃ r, Put exampleDepot traceOps d a = .ok r) :=
  ⟨rfl, by decide, by decide,
    Put_Get_roundtrip exampleDepot traceOps (by decide) traceOps_sound exampleBefore exampleAfter
      exampleTrace rfl exampleD1 exampleD2 exampleD3 exampleId rfl rfl rfl⟩

end StackDepot

namespace Asan

/-! ### The scariness of a deadly signal -/

/-- Claim C26. The constructor leaves exactly one call of `Scare` in the scariness,
whatever it held before: 10 null-deref for a memory access below the page
size; otherwise 60 wild-jump when the address equals the pc; otherwise 30
wild-addr-write for a write, 20 wild-addr-read for a read and 25 wild-addr
when the kind is unknown; and 10 signal when the signal is not a memory
access. -/
theorem deadly_signal_scariness (PageSize : Nat) (scariness0 : ScarinessScoreBase)
    (signo_ : Int) (sig : SignalContext) (tid_ : Nat) :
    ((ErrorDeadlySignal.new PageSize scariness0 signo_ sig tid_).scariness.scares.length
      = 1) ∧
    (sig.is_memory_access = true → sig.addr < PageSize →
      (ErrorDeadlySignal.new PageSize scariness0 signo_ sig tid_).scariness.scares =
        [(10, "null-deref")]) ∧
    (sig.is_memory_access = true → PageSize ≤ sig.addr → sig.addr = sig.pc →
      (ErrorDeadlySignal.new PageSize scariness0 signo_ sig tid_).scariness.scares =
        [(60, "wild-jump")]) ∧
    (sig.is_memory_access = true → PageSize ≤ sig.addr → sig.addr ≠ sig.pc →
      sig.write_flag = .WRITE →
      (ErrorDeadlySignal.new PageSize scariness0 signo_ sig tid_).scariness.scares =
        [(30, "wild-addr-write")]) ∧
    (sig.is_memory_access = true → PageSize ≤ sig.addr → sig.addr ≠ sig.pc →
      sig.write_flag = .READ →
      (ErrorDeadlySignal.new PageSize scariness0 signo_ sig tid_).scariness.scares =
        [(20, "wild-addr-read")]) ∧
    (sig.is_memory_access = true → PageSize ≤ sig.addr → sig.addr ≠ sig.pc →
      sig.write_flag = .UNKNOWN →
      (ErrorDeadlySignal.new PageSize scariness0 signo_ sig tid_).scariness.scares =
        [(25, "wild-addr")]) ∧
    (sig.is_memory_access = false →
      (ErrorDeadlySignal.new PageSize scariness0 signo_ sig tid_).scariness.scares =
        [(10, "signal")]) := by
  unfold ErrorDeadlySignal.new
  simp only [ScarinessScoreBase.Clear, ScarinessScoreBase.Scare, List.nil_append]
  refine ⟨?_, ?_, ?_, ?_, ?_, ?_, ?_⟩
  · by_cases h1 : sig.is_memory_access = true
    · rw [if_pos h1]
      by_cases h2 : sig.addr < PageSize
      · rw [if_pos h2]; rfl
      · rw [if_neg h2]
        by_cases h3 : sig.addr = sig.pc
        · rw [if_pos h3]; rfl
        · rw [if_neg h3]
          by_cases h4 : sig.write_flag = .WRITE
          · rw [if_pos h4]; rfl
          · rw [if_neg h4]
            by_cases h5 : sig.write_flag = .READ
            · rw [if_pos h5]; rfl
            · rw [if_neg h5]; rfl
    · rw [if_neg h1]; rfl
  · intro h1 h2
    rw [if_pos h1, if_pos h2]
  · intro h1 h2 h3
    rw [if_pos h1, if_neg (by omega), if_pos h3]
  · intro h1 h2 h3 h4
    rw [if_pos h1, if_neg (by omega), if_neg h3, if_pos h4]
  · intro h1 h2 h3 h4
    rw [if_pos h1, if_neg (by omega), if_neg h3, if_neg (by rw [h4]; decide), if_pos h4]
  · intro h1 h2 h3 h4
    rw [if_pos h1, if_neg (by omega), if_neg h3, if_neg (by rw [h4]; decide),
      if_neg (by rw [h4]; decide)]
  · intro h1
    rw [if_neg (by rw [h1]; decide)]

/-- The cases 19 to 23 of `scariness_score_test.cc` on a machine with 4096-byte
pages: a write through a null pointer, a write and a read at a wild address, a
signal that is no memory access (`abort`), and a jump to a wild address. -/
theorem scariness_test_cases :
    (ErrorDeadlySignal.new 4096 ⟨[]⟩ 11 ⟨0, 0, 4198400, 0, 0, true, .WRITE⟩ 0).scariness.scares =
      [(10, "null-deref")] ∧
    (ErrorDeadlySignal.new 4096 ⟨[]⟩ 11 ⟨0, 268435456, 4198400, 0, 0, true, .WRITE⟩
      0).scariness.scares = [(30, "wild-addr-write")] ∧
    (ErrorDeadlySignal.new 4096 ⟨[]⟩ 11 ⟨0, 268435456, 4198400, 0, 0, true, .READ⟩
      0).scariness.scares = [(20, "wild-addr-read")] ∧
    (ErrorDeadlySignal.new 4096 ⟨[]⟩ 6 ⟨0, 0, 4198400, 0, 0, false, .UNKNOWN⟩
      0).scariness.scares = [(10, "signal")] ∧
    (ErrorDeadlySignal.new 4096 ⟨[]⟩ 11 ⟨0, 268435456, 268435456, 0, 0, true, .UNKNOWN⟩
      0).scariness.scares = [(60, "wild-jump")] := by
  decide

end Asan

namespace FpLib

theorem toBool_le (x : Nat) : toBool x ≤ 1 := by
  unfold toBool; split <;> omega

theorem toBool_congr (x y : Nat) (h : x = 0 ↔ y = 0) : toBool x = toBool y := by
  unfold toBool
  by_cases hx : x = 0
  · rw [if_neg (not_not.mpr hx), if_neg (not_not.mpr (h.mp hx))]
  · rw [if_pos hx, if_pos (fun hy => hx (h.mpr hy))]

/-- `(x * 2 ^ d) mod 2 ^ (c + d)` keeps the low `c` bits of `x`. -/
theorem shl_mod (x c d : Nat) : (x * 2 ^ d) % 2 ^ (c + d) = x % 2 ^ c * 2 ^ d := by
  rw [Nat.pow_add, Nat.mul_mod_mul_right]

theorem or_sticky (T A x s : Nat) (w : Nat) (hT : T = 2 ^ w) (hw : 0 < w) (hx : x < T)
    (hs : s ≤ 1) : (T * A + x) ||| s = T * A + (x ||| s) ∧ (x ||| s) < T := by
  subst hT
  have hs2 : s < 2 ^ w := by
    have : 2 ^ 1 ≤ 2 ^ w := Nat.pow_le_pow_right (by norm_num) hw
    omega
  have hxs : x ||| s < 2 ^ w := Nat.or_lt_two_pow hx hs2
  refine ⟨?_, hxs⟩
  rw [Nat.mul_add_lt_is_or hx, Nat.lor_assoc, ← Nat.mul_add_lt_is_or hxs]

theorem or_eq_zero (a b : Nat) : a ||| b = 0 ↔ a = 0 ∧ b = 0 := by
  constructor
  · intro h
    have key : ∀ i, a.testBit i = false ∧ b.testBit i = false := by
      intro i
      have := congrArg (fun x => Nat.testBit x i) h
      simp only [Nat.testBit_or, Nat.zero_testBit, Bool.or_eq_false_iff] at this
      exact this
    constructor
    · apply Nat.eq_of_testBit_eq
      intro i
      rw [(key i).1, Nat.zero_testBit]
    · apply Nat.eq_of_testBit_eq
      intro i
      rw [(key i).2, Nat.zero_testBit]
  · rintro ⟨h1, h2⟩
    rw [h1, h2]
    rfl

theorem add_eq_or (d a b : Nat) (hb : b < 2 ^ d) : a * 2 ^ d + b = a * 2 ^ d ||| b := by
  rw [Nat.mul_comm, Nat.mul_add_lt_is_or hb]

theorem wide_div (w hi lo : Nat) (hlo : lo < 2 ^ w) : wide w hi lo / 2 ^ w = hi := by
  unfold wide
  rw [Nat.mul_comm, Nat.mul_add_div (Nat.two_pow_pos w), Nat.div_eq_of_lt hlo, Nat.add_zero]

theorem wide_mod (w hi lo : Nat) (hlo : lo < 2 ^ w) : wide w hi lo % 2 ^ w = lo := by
  unfold wide
  rw [Nat.mul_comm, Nat.mul_add_mod, Nat.mod_eq_of_lt hlo]

/-- A shift by fewer than `typeWidth` bits, other than 0. -/
theorem shift_below_width (w hi lo c : Nat) (hhi : hi < 2 ^ w) (hlo : lo < 2 ^ w)
    (h0 : 0 < c) (hc : c < w) :
    ∃ r, wideRightShiftWithSticky w hi lo c = .ok r ∧ r.1 < 2 ^ w ∧ r.2 < 2 ^ w ∧
      wide w r.1 r.2 = shiftedWithSticky (wide w hi lo) c := by
  have hrun : wideRightShiftWithSticky w hi lo c =
      .ok (hi >>> c, (hi <<< (w - c)) % 2 ^ w ||| lo >>> c ||| toBool ((lo <<< (w - c)) % 2 ^ w)) := by
    have h1 : w - c < w := by omega
    simp only [wideRightShiftWithSticky, shl, shr, if_pos hc, if_pos h1]
  refine ⟨_, hrun, ?_⟩
  simp only
  obtain ⟨d, hd⟩ : ∃ d, w = c + d := ⟨w - c, by omega⟩
  subst hd
  have hd0 : 0 < d := by omega
  rw [Nat.add_sub_cancel_left, Nat.shiftLeft_eq, Nat.shiftLeft_eq, Nat.shiftRight_eq_div_pow,
    Nat.shiftRight_eq_div_pow, shl_mod, shl_mod]
  have hb : lo / 2 ^ c < 2 ^ d := by
    apply Nat.div_lt_of_lt_mul
    rw [← Nat.pow_add]
    exact hlo
  have ha : hi % 2 ^ c * 2 ^ d + lo / 2 ^ c < 2 ^ (c + d) := by
    have h1 : hi % 2 ^ c < 2 ^ c := Nat.mod_lt _ (Nat.two_pow_pos c)
    have h2 : (hi % 2 ^ c + 1) * 2 ^ d ≤ 2 ^ c * 2 ^ d := Nat.mul_le_mul_right _ h1
    rw [Nat.add_mul, Nat.one_mul, ← Nat.pow_add] at h2
    omega
  have hs : toBool (hi % 2 ^ c * 2 ^ d) ≤ 1 := toBool_le _
  have hsl : toBool (lo % 2 ^ c * 2 ^ d) = toBool (lo % 2 ^ c) := by
    apply toBool_congr
    constructor
    · intro h
      rcases Nat.mul_eq_zero.mp h with h | h
      · exact h
      · exact absurd h (Nat.pos_iff_ne_zero.mp (Nat.two_pow_pos d))
    · intro h; rw [h, Nat.zero_mul]
  rw [hsl, ← add_eq_or d _ _ hb]
  obtain ⟨e1, e2⟩ := or_sticky (2 ^ (c + d)) (hi / 2 ^ c) (hi % 2 ^ c * 2 ^ d + lo / 2 ^ c)
    (toBool (lo % 2 ^ c)) (c + d) rfl (by omega) ha (toBool_le _)
  refine ⟨?_, e2, ?_⟩
  · apply Nat.div_lt_of_lt_mul
    calc hi < 2 ^ (c + d) := hhi
      _ ≤ 2 ^ c * 2 ^ (c + d) := Nat.le_mul_of_pos_left _ (Nat.two_pow_pos c)
  · unfold shiftedWithSticky wide
    rw [Nat.shiftRight_eq_div_pow]
    have hv : (hi * 2 ^ (c + d) + lo) / 2 ^ c = 2 ^ (c + d) * (hi / 2 ^ c) +
        (hi % 2 ^ c * 2 ^ d + lo / 2 ^ c) := by
      have h1 : hi * 2 ^ (c + d) = 2 ^ c * (hi * 2 ^ d) := by
        rw [Nat.pow_add]; ring
      rw [h1, Nat.mul_add_div (Nat.two_pow_pos c)]
      have h2 : hi * 2 ^ d = 2 ^ (c + d) * (hi / 2 ^ c) + hi % 2 ^ c * 2 ^ d := by
        have := Nat.div_add_mod hi (2 ^ c)
        calc hi * 2 ^ d = (2 ^ c * (hi / 2 ^ c) + hi % 2 ^ c) * 2 ^ d := by rw [this]
          _ = 2 ^ (c + d) * (hi / 2 ^ c) + hi % 2 ^ c * 2 ^ d := by rw [Nat.pow_add]; ring
      rw [h2, Nat.add_assoc]
    have hm : (hi * 2 ^ (c + d) + lo) % 2 ^ c = lo % 2 ^ c := by
      have h1 : hi * 2 ^ (c + d) = 2 ^ c * (hi * 2 ^ d) := by
        rw [Nat.pow_add]; ring
      rw [h1, Nat.mul_add_mod]
    rw [hv, hm, e1, Nat.mul_comm]

/-- A shift by more than `typeWidth` and fewer than `2 * typeWidth` bits. -/
theorem shift_above_width (w hi lo c : Nat) (hhi : hi < 2 ^ w) (hlo : lo < 2 ^ w)
    (h0 : w < c) (hc : c < 2 * w) :
    ∃ r, wideRightShiftWithSticky w hi lo c = .ok r ∧ r.1 < 2 ^ w ∧ r.2 < 2 ^ w ∧
      wide w r.1 r.2 = shiftedWithSticky (wide w hi lo) c := by
  have hrun : wideRightShiftWithSticky w hi lo c =
      .ok (0, hi >>> (c - w) ||| toBool ((hi <<< (2 * w - c)) % 2 ^ w ||| lo)) := by
    have h1 : ¬ c < w := by omega
    have h2 : 2 * w - c < w := by omega
    have h3 : c - w < w := by omega
    simp only [wideRightShiftWithSticky, shl, shr, if_neg h1, if_pos hc, if_pos h2, if_pos h3]
  refine ⟨_, hrun, ?_⟩
  simp only
  obtain ⟨e, he⟩ : ∃ e, c = w + e := ⟨c - w, by omega⟩
  subst he
  have he0 : 0 < e := by omega
  obtain ⟨d, hd⟩ : ∃ d, w = e + d := ⟨w - e, by omega⟩
  have h2 : 2 * w - (w + e) = d := by omega
  have hw0 : 0 < w := by omega
  rw [Nat.add_sub_cancel_left, h2, Nat.shiftLeft_eq, Nat.shiftRight_eq_div_pow]
  have hsm : (hi * 2 ^ d) % 2 ^ w = hi % 2 ^ e * 2 ^ d := by
    rw [hd]; exact shl_mod hi e d
  rw [hsm]
  have ha : hi / 2 ^ e < 2 ^ w := lt_of_le_of_lt (Nat.div_le_self _ _) hhi
  obtain ⟨e1, e2⟩ := or_sticky (2 ^ w) 0 (hi / 2 ^ e) (toBool (hi % 2 ^ e * 2 ^ d ||| lo)) w rfl
    hw0 ha (toBool_le _)
  refine ⟨Nat.two_pow_pos w, e2, ?_⟩
  unfold shiftedWithSticky
  rw [Nat.shiftRight_eq_div_pow, Nat.pow_add, ← Nat.div_div_eq_div_mul, wide_div w hi lo hlo,
    Nat.mod_mul, wide_mod w hi lo hlo, wide_div w hi lo hlo]
  have hst : toBool (hi % 2 ^ e * 2 ^ d ||| lo) = toBool (lo + 2 ^ w * (hi % 2 ^ e)) := by
    apply toBool_congr
    rw [or_eq_zero]
    constructor
    · rintro ⟨h3, h4⟩
      rcases Nat.mul_eq_zero.mp h3 with h | h
      · rw [h, h4]; rfl
      · exact absurd h (Nat.pos_iff_ne_zero.mp (Nat.two_pow_pos d))
    · intro h
      have h5 : lo = 0 := by omega
      have h6 : 2 ^ w * (hi % 2 ^ e) = 0 := by omega
      rcases Nat.mul_eq_zero.mp h6 with h | h
      · exact absurd h (Nat.pos_iff_ne_zero.mp (Nat.two_pow_pos w))
      · exact ⟨by rw [h, Nat.zero_mul], h5⟩
  rw [hst]
  unfold wide
  rw [Nat.zero_mul, Nat.zero_add]

/-- A shift by `2 * typeWidth` bits or more. -/
theorem shift_all_out (w hi lo c : Nat) (hhi : hi < 2 ^ w) (hlo : lo < 2 ^ w)
    (hw : 0 < w) (hc : 2 * w ≤ c) :
    wideRightShiftWithSticky w hi lo c = .ok (0, toBool (wide w hi lo)) ∧
    toBool (wide w hi lo) < 2 ^ w ∧
    wide w 0 (toBool (wide w hi lo)) = shiftedWithSticky (wide w hi lo) c := by
  have hst : toBool (hi ||| lo) = toBool (wide w hi lo) := by
    apply toBool_congr
    rw [or_eq_zero]
    unfold wide
    constructor
    · rintro ⟨h1, h2⟩; rw [h1, h2]; simp
    · intro h
      have h5 : lo = 0 := by omega
      have h6 : hi * 2 ^ w = 0 := by omega
      rcases Nat.mul_eq_zero.mp h6 with h | h
      · exact ⟨h, h5⟩
      · exact absurd h (Nat.pos_iff_ne_zero.mp (Nat.two_pow_pos w))
  have hrun : wideRightShiftWithSticky w hi lo c = .ok (0, toBool (wide w hi lo)) := by
    have h1 : ¬ c < w := by omega
    have h2 : ¬ c < 2 * w := by omega
    simp only [wideRightShiftWithSticky, if_neg h1, if_neg h2, hst]
  have hb : toBool (wide w hi lo) < 2 ^ w := by
    have : 2 ^ 1 ≤ 2 ^ w := Nat.pow_le_pow_right (by norm_num) hw
    have := toBool_le (wide w hi lo)
    omega
  refine ⟨hrun, hb, ?_⟩
  have hv : wide w hi lo < 2 ^ c := by
    have h1 : wide w hi lo < 2 ^ w * 2 ^ w := by
      unfold wide
      have : (hi + 1) * 2 ^ w ≤ 2 ^ w * 2 ^ w := Nat.mul_le_mul_right _ hhi
      rw [Nat.add_mul, Nat.one_mul] at this
      omega
    rw [← Nat.pow_add] at h1
    exact lt_of_lt_of_le h1 (Nat.pow_le_pow_right (by norm_num) (by omega))
  unfold shiftedWithSticky
  rw [Nat.shiftRight_eq_div_pow, Nat.div_eq_of_lt hv, Nat.mod_eq_of_lt hv, Nat.zero_or]
  unfold wide
  rw [Nat.zero_mul, Nat.zero_add]

/-- Claim C40, for the counts at which every shift of the code is defined (`count`
other than 0 and `typeWidth`): for `hi`, `lo` below `2 ^ typeWidth`,
`wideRightShiftWithSticky` returns halves `hi'`, `lo'` below `2 ^ typeWidth` with `hi':lo'`
equal to `hi:lo` shifted right by `count` bits, the lowest bit OR-ed with 1 exactly when
a bit shifted out was 1; for `count >= 2 * typeWidth` the result is `hi' = 0` and
`lo' = 1` if the value was non-zero, else 0. -/
theorem wideRightShiftWithSticky_spec (w hi lo count : Nat) (hw : 0 < w)
    (hhi : hi < 2 ^ w) (hlo : lo < 2 ^ w) (h0 : count ≠ 0) (h1 : count ≠ w) :
    ∃ r, wideRightShiftWithSticky w hi lo count = .ok r ∧ r.1 < 2 ^ w ∧ r.2 < 2 ^ w ∧
      wide w r.1 r.2 = shiftedWithSticky (wide w hi lo) count ∧
      (2 * w ≤ count → r = (0, toBool (wide w hi lo))) := by
  rcases Nat.lt_or_ge count w with hc | hc
  · obtain ⟨r, q1, q2, q3, q4⟩ := shift_below_width w hi lo count hhi hlo (by omega) hc
    exact ⟨r, q1, q2, q3, q4, fun h => (by omega)⟩
  · rcases Nat.lt_or_ge count (2 * w) with hc2 | hc2
    · obtain ⟨r, q1, q2, q3, q4⟩ := shift_above_width w hi lo count hhi hlo (by omega) hc2
      exact ⟨r, q1, q2, q3, q4, fun h => (by omega)⟩
    · obtain ⟨q1, q2, q3⟩ := shift_all_out w hi lo count hhi hlo hw hc2
      exact ⟨_, q1, Nat.two_pow_pos w, q2, q3, fun _ => rfl⟩

/-- Witness for C40: the value `5:3` of two 64-bit halves shifted by 65 bits. -/
theorem wideRightShiftWithSticky_spec_witness :
    wideOf 64 (wideRightShiftWithSticky 64 5 3 65) = some (shiftedWithSticky (wide 64 5 3) 65) := by
  obtain ⟨r, q1, _, _, q4, _⟩ := wideRightShiftWithSticky_spec 64 5 3 65 (by decide) (by decide)
    (by decide) (by decide) (by decide)
  rw [q1]
  exact congrArg some q4

/-- Claim C40 at its two failing counts, `typeWidth = 64`: for `count = 0` the first
branch evaluates `lo << 64`, and for `count = 64` the second branch evaluates `hi << 64`;
both shift a 64-bit value by its full width, which C leaves undefined. -/
theorem full_width_shift_undefined :
    wideRightShiftWithSticky 64 1 0 0 = .error .UndefinedShift ∧
    wideRightShiftWithSticky 64 2 0 64 = .error .UndefinedShift := by
  constructor <;> rfl

/-- For every width, the counts 0 and `typeWidth` make the code shift by the full width. -/
theorem wideRightShiftWithSticky_undefined (w hi lo count : Nat) (hw : 0 < w)
    (hc : count = 0 ∨ count = w) :
    wideRightShiftWithSticky w hi lo count = .error .UndefinedShift := by
  rcases hc with hc | hc
  · subst hc
    have h1 : ¬ w - 0 < w := by omega
    simp only [wideRightShiftWithSticky, shl, if_pos hw, if_neg h1]
  · subst hc
    have h1 : ¬ count < count := by omega
    have h2 : count < 2 * count := by omega
    have h3 : ¬ 2 * count - count < count := by omega
    simp only [wideRightShiftWithSticky, shl, if_neg h1, if_pos h2, if_neg h3]

end FpLib

namespace Linux

theorem intersect_iff (a n b m : Nat) : Intersect a n b m ↔ ∃ x, a ≤ x ∧ x < a + n ∧ b ≤ x ∧ x < b + m := by
  unfold Intersect
  constructor
  · intro h
    refine ⟨max a b, le_max_left _ _, ?_, le_max_right _ _, ?_⟩
    · exact lt_of_lt_of_le h (min_le_left _ _)
    · exact lt_of_lt_of_le h (min_le_right _ _)
  · rintro ⟨x, h1, h2, h3, h4⟩
    exact lt_of_le_of_lt (max_le h1 h3) (lt_min h2 h4)

/-- For a non-main thread whose reported values do not wrap
(`stack_bottom <= stack_top < 2 ^ 64`, `tls_addr + tls_size < 2 ^ 64`):
`GetThreadStackAndTls` returns unless the TLS starts strictly inside the stack and ends
above its top, and the ranges it returns intersect exactly when the TLS starts at or
below the stack bottom and reaches into a non-empty stack. -/
theorem GetThreadStackAndTls_disjoint_iff (tls_addr tls_size stack_top stack_bottom : Nat)
    (hst : stack_bottom ≤ stack_top) (htop : stack_top < 2 ^ 64)
    (htls : tls_addr + tls_size < 2 ^ 64) :
    (¬ (stack_bottom < tls_addr ∧ tls_addr < stack_top ∧ stack_top < tls_addr + tls_size) →
      ∃ r, GetThreadStackAndTls false tls_addr tls_size stack_top stack_bottom = .ok r) ∧
    ∀ r, GetThreadStackAndTls false tls_addr tls_size stack_top stack_bottom = .ok r →
      (Intersect r.stk_addr r.stk_size r.tls_addr r.tls_size ↔
        tls_addr ≤ stack_bottom ∧ stack_bottom < tls_addr + tls_size ∧
          stack_bottom < stack_top) := by
  have e1 : (stack_top + 2 ^ 64 - stack_bottom) % 2 ^ 64 = stack_top - stack_bottom := by
    have : stack_top + 2 ^ 64 - stack_bottom = (stack_top - stack_bottom) + 2 ^ 64 := by omega
    rw [this, Nat.add_mod_right, Nat.mod_eq_of_lt (by omega)]
  have e2 : (stack_bottom + (stack_top - stack_bottom)) % 2 ^ 64 = stack_top := by
    rw [Nat.add_sub_cancel' hst, Nat.mod_eq_of_lt htop]
  have e3 : (tls_addr + tls_size) % 2 ^ 64 = tls_addr + tls_size := Nat.mod_eq_of_lt htls
  unfold GetThreadStackAndTls
  simp only [Bool.not_false, if_true, e1, e2, e3]
  by_cases hin : tls_addr > stack_bottom ∧ tls_addr < stack_top
  · rw [if_pos hin, if_neg (by omega)]
    by_cases hend : tls_addr + tls_size ≤ stack_top
    · rw [if_neg (not_not.mpr hend)]
      have e4 : (stack_top - stack_bottom + 2 ^ 64 - tls_size) % 2 ^ 64 =
          stack_top - stack_bottom - tls_size := by
        have : stack_top - stack_bottom + 2 ^ 64 - tls_size =
            (stack_top - stack_bottom - tls_size) + 2 ^ 64 := by omega
        rw [this, Nat.add_mod_right, Nat.mod_eq_of_lt (by omega)]
      have e5 : (stack_bottom + (stack_top - stack_bottom - tls_size)) % 2 ^ 64 =
          stack_top - tls_size := by
        rw [Nat.mod_eq_of_lt (by omega)]
        omega
      rw [e4, e5]
      refine ⟨fun _ => ⟨_, rfl⟩, fun r hr => ?_⟩
      cases hr
      simp only
      unfold Intersect
      rw [max_lt_iff, lt_min_iff, lt_min_iff]
      constructor
      · rintro ⟨⟨_, _⟩, ⟨_, _⟩⟩; omega
      · rintro ⟨_, _, _⟩; omega
    · rw [if_pos hend]
      refine ⟨fun h => absurd ⟨hin.1, hin.2, by omega⟩ h, fun r hr => (by cases hr)⟩
  · rw [if_neg hin]
    refine ⟨fun _ => ⟨_, rfl⟩, fun r hr => ?_⟩
    cases hr
    simp only
    unfold Intersect
    rw [max_lt_iff, lt_min_iff, lt_min_iff]
    constructor
    · rintro ⟨⟨_, _⟩, ⟨_, _⟩⟩; omega
    · rintro ⟨_, _, _⟩
      refine ⟨⟨?_, ?_⟩, ⟨?_, ?_⟩⟩ <;> omega

/-- Claim C36. For a non-main thread, take reported values that do not wrap
(`stack_bottom <= stack_top < 2 ^ 64`, `tls_addr + tls_size < 2 ^ 64`) and a TLS block that
starts above the stack bottom or ends at or below it: the block lies in the upper part of
the thread's stack mapping, where glibc places it, or in a mapping of its own. Then
`GetThreadStackAndTls` returns unless the TLS block starts strictly inside the stack and
ends above its top, and whenever it returns, the stack range and the TLS range it reports
have no address in common. -/
theorem GetThreadStackAndTls_disjoint (tls_addr tls_size stack_top stack_bottom : Nat)
    (hst : stack_bottom ≤ stack_top) (htop : stack_top < 2 ^ 64)
    (htls : tls_addr + tls_size < 2 ^ 64)
    (hplace : stack_bottom < tls_addr ∨ tls_addr + tls_size ≤ stack_bottom) :
    (¬ (stack_bottom < tls_addr ∧ tls_addr < stack_top ∧ stack_top < tls_addr + tls_size) →
      ∃ r, GetThreadStackAndTls false tls_addr tls_size stack_top stack_bottom = .ok r) ∧
    ∀ r, GetThreadStackAndTls false tls_addr tls_size stack_top stack_bottom = .ok r →
      ¬ Intersect r.stk_addr r.stk_size r.tls_addr r.tls_size := by
  obtain ⟨h1, h2⟩ := GetThreadStackAndTls_disjoint_iff tls_addr tls_size stack_top stack_bottom
    hst htop htls
  refine ⟨h1, fun r hr hi => ?_⟩
  have h3 := (h2 r hr).mp hi
  omega

/-- Witness for C36: a TLS block `[7936, 8192)` at the top of the stack `[4096, 8192)`;
the call returns, the reported stack is cut down to `[4096, 7936)` and does not meet the
TLS block. -/
theorem GetThreadStackAndTls_disjoint_witness :
    (4096 < 7936 ∨ 7936 + 256 ≤ 4096) ∧
    reportedOf (GetThreadStackAndTls false 7936 256 8192 4096) = some ⟨4096, 3840, 7936, 256⟩ ∧
    ¬ Intersect 4096 3840 7936 256 :=
  ⟨by decide, rfl,
    (GetThreadStackAndTls_disjoint 7936 256 8192 4096 (by decide) (by decide) (by decide)
      (by decide)).2 ⟨4096, 3840, 7936, 256⟩ rfl⟩

/-- The placement hypothesis of C36 cannot be dropped: a TLS block `[4096, 4352)` that
starts at the bottom of the stack `[4096, 8192)` does not satisfy `tls_addr > stk_addr`, is
reported unchanged, and meets the reported stack. -/
theorem tls_at_stack_bottom_unchanged :
    reportedOf (GetThreadStackAndTls false 4096 256 8192 4096) = some ⟨4096, 4096, 4096, 256⟩ ∧
    reportedIntersect (GetThreadStackAndTls false 4096 256 8192 4096) = true := by
  constructor <;> rfl

end Linux

namespace Tsan

theorem getD_mem (l : List Desc) (i : Nat) (h : i < l.length) : l.getD i Desc.zero ∈ l := by
  rw [List.getD_eq_getElem l Desc.zero h]
  exact List.getElem_mem h

theorem mem_without (l : List Desc) (i : Nat) (d : Desc) (h : d ∈ without l i) : d ∈ l := by
  unfold without at h
  have h1 := List.dropLast_subset _ h
  rcases List.mem_or_eq_of_mem_set h1 with h2 | h2
  · exact h2
  · rw [h2]
    have hpos : 0 < l.length := by
      rcases l with _ | ⟨a, t⟩
      · simp at h
      · simp
    exact getD_mem l _ (by omega)

theorem length_without (l : List Desc) (i : Nat) : (without l i).length = l.length - 1 := by
  unfold without
  rw [List.length_dropLast, List.length_set]

theorem RemovePos_ok (s : MutexSet) (i : Nat) (h : i < s.descs_.length) :
    RemovePos s i = .ok ⟨without s.descs_ i, s.seq_⟩ := by
  unfold RemovePos without
  rw [if_neg (not_not.mpr h)]

theorem pushDesc_ok (P : MutexSetParams) (s : MutexSet) (d : Desc)
    (h : s.descs_.length < P.kMaxSize) :
    pushDesc P s d = .ok ⟨s.descs_ ++ [{ d with seq := s.seq_, count := 1 }],
      (s.seq_ + 1) % 2 ^ P.seqBits⟩ := by
  unfold pushDesc
  rw [if_neg (not_not.mpr h)]

theorem findIdx_lt (l : List Desc) (p : Desc → Bool) (i : Nat) (h : l.findIdx? p = some i) :
    i < l.length := by
  obtain ⟨h1, _⟩ := List.findIdx?_eq_some_iff_getElem.mp h
  exact h1

theorem minEpochLoop_spec :
    ∀ (l : List Desc) (i : Nat) (acc : Nat × Nat),
      (minEpochLoop l i acc = acc ∧ ∀ d ∈ l, acc.1 ≤ d.epoch) ∨
      ∃ j, j < l.length ∧ minEpochLoop l i acc = ((l.getD j Desc.zero).epoch, i + j) ∧
        (l.getD j Desc.zero).epoch < acc.1 ∧ ∀ d ∈ l, (l.getD j Desc.zero).epoch ≤ d.epoch := by
  intro l
  induction l with
  | nil => intro i acc; left; exact ⟨rfl, fun d hd => by cases hd⟩
  | cons d rest ih =>
    intro i acc
    simp only [minEpochLoop]
    by_cases hlt : d.epoch < acc.1
    · rw [if_pos hlt]
      right
      rcases ih (i + 1) (d.epoch, i) with ⟨h1, h2⟩ | ⟨j, hj, h1, h2, h3⟩
      · refine ⟨0, by simp, ?_, ?_, ?_⟩
        · rw [h1]; simp
        · simpa using hlt
        · intro x hx
          rcases List.mem_cons.mp hx with hx | hx
          · rw [hx]; simp
          · simpa using h2 x hx
      · refine ⟨j + 1, by simp; omega, ?_, ?_, ?_⟩
        · rw [h1]
          simp only [List.getD_cons_succ, Prod.mk.injEq, true_and]
          omega
        · simp only [List.getD_cons_succ]
          simp only at h2
          omega
        · intro x hx
          simp only [List.getD_cons_succ]
          rcases List.mem_cons.mp hx with hx | hx
          · rw [hx]; simp only at h2; omega
          · exact h3 x hx
    · rw [if_neg hlt]
      rcases ih (i + 1) acc with ⟨h1, h2⟩ | ⟨j, hj, h1, h2, h3⟩
      · left
        refine ⟨h1, ?_⟩
        intro x hx
        rcases List.mem_cons.mp hx with hx | hx
        · rw [hx]; omega
        · exact h2 x hx
      · right
        refine ⟨j + 1, by simp; omega, ?_, ?_, ?_⟩
        · rw [h1]
          simp only [List.getD_cons_succ, Prod.mk.injEq, true_and]
          omega
        · simpa using h2
        · intro x hx
          simp only [List.getD_cons_succ]
          rcases List.mem_cons.mp hx with hx | hx
          · rw [hx]; omega
          · exact h3 x hx

theorem minSeqLoop_spec (descs : List Desc) :
    ∀ (fuel i m : Nat), m < descs.length → i + fuel ≤ descs.length →
      (∀ j, j < i → (descs.getD m Desc.zero).seq ≤ (descs.getD j Desc.zero).seq) →
      minSeqLoop descs fuel i m < descs.length ∧
      ∀ j, j < i + fuel →
        (descs.getD (minSeqLoop descs fuel i m) Desc.zero).seq ≤ (descs.getD j Desc.zero).seq := by
  intro fuel
  induction fuel with
  | zero => intro i m hm _ hmin; exact ⟨hm, fun j hj => hmin j (by omega)⟩
  | succ n ih =>
    intro i m hm hi hmin
    simp only [minSeqLoop]
    by_cases hlt : (descs.getD i Desc.zero).seq < (descs.getD m Desc.zero).seq
    · rw [if_pos hlt]
      obtain ⟨h1, h2⟩ := ih (i + 1) i (by omega) (by omega) (fun j hj => by
        rcases Nat.lt_or_ge j i with h | h
        · have := hmin j h; omega
        · have e : j = i := by omega
          rw [e])
      exact ⟨h1, fun j hj => h2 j (by omega)⟩
    · rw [if_neg hlt]
      obtain ⟨h1, h2⟩ := ih (i + 1) m hm (by omega) (fun j hj => by
        rcases Nat.lt_or_ge j i with h | h
        · exact hmin j h
        · have e : j = i := by omega
          rw [e]; omega)
      exact ⟨h1, fun j hj => h2 j (by omega)⟩

theorem dropLast_set_last (l : List Desc) (x : Desc) :
    (l.set (l.length - 1) x).dropLast = l.dropLast := by
  induction l with
  | nil => rfl
  | cons a t ih =>
    rcases t with _ | ⟨b, t2⟩
    · rfl
    · have e : (a :: b :: t2).length - 1 = (b :: t2).length - 1 + 1 := by simp
      rw [e, List.set_cons_succ]
      have hne : (b :: t2).set ((b :: t2).length - 1) x ≠ [] := by
        intro h
        have := congrArg List.length h
        simp at this
      obtain ⟨c, t3, hc⟩ := List.exists_cons_of_ne_nil hne
      rw [hc, List.dropLast_cons₂, ← hc, ih]
      rfl

theorem mem_without_set (l : List Desc) (i : Nat) (z d : Desc) (hi : i < l.length)
    (h : d ∈ without (l.set i z) i) : d ∈ l := by
  unfold without at h
  rw [List.length_set, List.set_set] at h
  by_cases hlast : i = l.length - 1
  · rw [hlast, dropLast_set_last] at h
    exact List.dropLast_subset _ h
  · have e : (l.set i z).getD (l.length - 1) Desc.zero = l.getD (l.length - 1) Desc.zero := by
      rw [List.getD_eq_getElem _ _ (by rw [List.length_set]; omega),
        List.getD_eq_getElem _ _ (by omega), List.getElem_set_ne hlast]
    rw [e] at h
    exact mem_without l i d h

theorem findIdx_none (l : List Desc) (p : Desc → Bool) (h : ∀ d ∈ l, p d = false) :
    l.findIdx? p = none :=
  List.findIdx?_eq_none_iff.mpr h

/-- `Add` of a new id on a full set drops the first descriptor with the smallest epoch. -/
theorem Add_full (P : MutexSetParams) (s : MutexSet) (id : Nat) (write : Bool) (epoch : Nat)
    (hk : 0 < P.kMaxSize) (hfull : s.descs_.length = P.kMaxSize)
    (hep : ∀ d ∈ s.descs_, d.epoch < 2 ^ 64 - 1)
    (hnew : ∀ d ∈ s.descs_, d.id ≠ id) :
    ∃ mini, mini < s.descs_.length ∧
      (∀ d ∈ s.descs_, (s.descs_.getD mini Desc.zero).epoch ≤ d.epoch) ∧
      Add P s id write epoch = .ok ⟨without s.descs_ mini ++
        [⟨0, P.kInvalidStackID, id, write, epoch, s.seq_, 1⟩], (s.seq_ + 1) % 2 ^ P.seqBits⟩ := by
  have hf : s.descs_.findIdx? (fun d => d.id == id) = none :=
    findIdx_none _ _ (fun d hd => beq_eq_false_iff_ne.mpr (hnew d hd))
  rcases minEpochLoop_spec s.descs_ 0 (2 ^ 64 - 1, 2 ^ 64 - 1) with ⟨_, h2⟩ | ⟨j, hj, h1, _, h3⟩
  · exfalso
    have hm := getD_mem s.descs_ 0 (by omega)
    have := h2 _ hm
    have := hep _ hm
    simp only at *
    omega
  · refine ⟨j, hj, h3, ?_⟩
    simp only [Add, hf, if_pos hfull, h1, Nat.zero_add, RemovePos_ok s j hj]
    have hl : (without s.descs_ j).length = P.kMaxSize - 1 := by
      rw [length_without, hfull]
    rw [if_neg (not_not.mpr hl)]
    rw [pushDesc_ok P ⟨without s.descs_ j, s.seq_⟩ _ (by simp only; omega)]

/-- `AddAddr` of a new address on a full set drops the first descriptor with the smallest
`seq`. -/
theorem AddAddr_full (P : MutexSetParams) (s : MutexSet) (addr stack_id : Nat) (write : Bool)
    (hk : 0 < P.kMaxSize) (hfull : s.descs_.length = P.kMaxSize)
    (hnew : ∀ d ∈ s.descs_, d.addr ≠ addr) :
    ∃ min, min < s.descs_.length ∧
      (∀ d ∈ s.descs_, (s.descs_.getD min Desc.zero).seq ≤ d.seq) ∧
      AddAddr P s addr stack_id write = .ok ⟨without s.descs_ min ++
        [⟨addr, stack_id, 0, write, 0, s.seq_, 1⟩], (s.seq_ + 1) % 2 ^ P.seqBits⟩ := by
  have hf : s.descs_.findIdx? (fun d => d.addr == addr) = none :=
    findIdx_none _ _ (fun d hd => beq_eq_false_iff_ne.mpr (hnew d hd))
  obtain ⟨h1, h2⟩ := minSeqLoop_spec s.descs_ s.descs_.length 0 0 (by omega) (by omega)
    (fun j hj => by omega)
  refine ⟨_, h1, ?_, ?_⟩
  · intro d hd
    obtain ⟨j, hj, rfl⟩ := List.mem_iff_getElem.mp hd
    have := h2 j (by omega)
    rw [List.getD_eq_getElem _ _ hj] at this
    exact this
  · simp only [AddAddr, hf, if_pos hfull, RemovePos_ok s _ h1]
    have hl : (without s.descs_ (minSeqLoop s.descs_ s.descs_.length 0 0)).length =
        P.kMaxSize - 1 := by
      rw [length_without, hfull]
    rw [if_neg (not_not.mpr hl)]
    rw [pushDesc_ok P ⟨without s.descs_ _, s.seq_⟩ _ (by simp only; omega)]

theorem Held_mono (P : MutexSetParams) (k : Nat) (s : MutexSet) (h : Held P k s) :
    Held P (k + 1) s :=
  ⟨h.1, fun d hd => ⟨(h.2 d hd).1, by have := (h.2 d hd).2.1; omega, (h.2 d hd).2.2⟩⟩

theorem Held_without (P : MutexSetParams) (k : Nat) (s : MutexSet) (i : Nat) (h : Held P k s) :
    Held P (k + 1) ⟨without s.descs_ i, s.seq_⟩ := by
  refine ⟨?_, fun d hd => ?_⟩
  · simp only [length_without]
    have := h.1
    omega
  · have := h.2 d (mem_without _ _ _ hd)
    exact ⟨this.1, by omega, this.2.2⟩

theorem Held_set (P : MutexSetParams) (k : Nat) (s : MutexSet) (i : Nat) (x : Desc) (q : Nat)
    (h : Held P k s) (hx : 1 ≤ x.count ∧ x.count ≤ k + 1 ∧ x.epoch < 2 ^ 64 - 1) :
    Held P (k + 1) ⟨s.descs_.set i x, q⟩ := by
  refine ⟨?_, fun d hd => ?_⟩
  · simp only [List.length_set]
    exact h.1
  · rcases List.mem_or_eq_of_mem_set hd with h1 | h1
    · have := h.2 d h1
      exact ⟨this.1, by omega, this.2.2⟩
    · rw [h1]; exact hx

theorem Held_push (P : MutexSetParams) (k : Nat) (l : List Desc) (x : Desc) (q : Nat)
    (hl : l.length < P.kMaxSize)
    (h : ∀ d ∈ l, 1 ≤ d.count ∧ d.count ≤ k + 1 ∧ d.epoch < 2 ^ 64 - 1)
    (hx : 1 ≤ x.count ∧ x.count ≤ k + 1 ∧ x.epoch < 2 ^ 64 - 1) :
    Held P (k + 1) ⟨l ++ [x], q⟩ := by
  refine ⟨?_, fun d hd => ?_⟩
  · simp only [List.length_append, List.length_singleton]
    omega
  · rcases List.mem_append.mp hd with h1 | h1
    · exact h d h1
    · rw [List.mem_singleton.mp h1]; exact hx

theorem dec_count (bits c k : Nat) (h1 : 1 ≤ c) (h2 : c ≤ k) (hk : k + 1 < 2 ^ bits) :
    (c + 2 ^ bits - 1) % 2 ^ bits = c - 1 := by
  have : c + 2 ^ bits - 1 = (c - 1) + 2 ^ bits := by omega
  rw [this, Nat.add_mod_right, Nat.mod_eq_of_lt (by omega)]

/-- The decrement of `Del` and `DelAddr` at a held descriptor. -/
theorem dec_step (P : MutexSetParams) (k : Nat) (s : MutexSet) (i : Nat)
    (h : Held P k s) (hk : k + 1 < 2 ^ P.countBits) (hi : i < s.descs_.length) :
    ∃ s1, (if ((s.descs_.getD i Desc.zero).count + 2 ^ P.countBits - 1) % 2 ^ P.countBits = 0 then
        RemovePos ⟨s.descs_.set i { s.descs_.getD i Desc.zero with count := 0 }, s.seq_⟩ i
      else
        .ok ⟨s.descs_.set i { s.descs_.getD i Desc.zero with
          count := ((s.descs_.getD i Desc.zero).count + 2 ^ P.countBits - 1) % 2 ^ P.countBits },
          s.seq_⟩) = .ok s1 ∧ Held P (k + 1) s1 := by
  obtain ⟨c1, c2, c3⟩ := h.2 _ (getD_mem s.descs_ i hi)
  rw [dec_count P.countBits _ k c1 c2 hk]
  by_cases h0 : (s.descs_.getD i Desc.zero).count - 1 = 0
  · rw [if_pos h0, RemovePos_ok _ i (by simp only [List.length_set]; exact hi)]
    refine ⟨_, rfl, ?_, fun d hd => ?_⟩
    · simp only [length_without, List.length_set]
      have := h.1
      omega
    · have := h.2 d (mem_without_set _ _ _ _ hi hd)
      exact ⟨this.1, by omega, this.2.2⟩
  · rw [if_neg h0]
    exact ⟨_, rfl, Held_set P k s i _ _ h ⟨by simp only; omega, by simp only; omega, c3⟩⟩

theorem step_Held (P : MutexSetParams) (k : Nat) (s : MutexSet) (op : Op)
    (hmax : 0 < P.kMaxSize) (h : Held P k s) (hk : k + 1 < 2 ^ P.countBits) (hop : op.epochOk) :
    ∃ s1, step P s op = .ok s1 ∧ Held P (k + 1) s1 := by
  cases op with
  | Add id write epoch =>
    have hep : epoch < 2 ^ 64 - 1 := hop
    simp only [step]
    cases hf : s.descs_.findIdx? (fun d => d.id == id) with
    | some i =>
      have hi := findIdx_lt _ _ _ hf
      obtain ⟨c1, c2, _⟩ := h.2 _ (getD_mem s.descs_ i hi)
      simp only [Add, hf]
      refine ⟨_, rfl, Held_set P k s i _ _ h ⟨?_, ?_, hep⟩⟩
      · simp only
        rw [Nat.mod_eq_of_lt (by omega)]
        omega
      · simp only
        rw [Nat.mod_eq_of_lt (by omega)]
        omega
    | none =>
      by_cases hfull : s.descs_.length = P.kMaxSize
      · have hnew : ∀ d ∈ s.descs_, d.id ≠ id := fun d hd =>
          beq_eq_false_iff_ne.mp (List.findIdx?_eq_none_iff.mp hf d hd)
        obtain ⟨mini, _, _, hrun⟩ := Add_full P s id write epoch hmax hfull
          (fun d hd => (h.2 d hd).2.2) hnew
        rw [hrun]
        refine ⟨_, rfl, Held_push P k _ _ _ (by rw [length_without]; omega)
          (fun d hd => ?_) ⟨le_refl _, by simp only; omega, hep⟩⟩
        have := h.2 d (mem_without _ _ _ hd)
        exact ⟨this.1, by omega, this.2.2⟩
      · simp only [Add, hf, if_neg hfull]
        have hl : s.descs_.length < P.kMaxSize := lt_of_le_of_ne h.1 hfull
        rw [pushDesc_ok P s _ hl]
        refine ⟨_, rfl, Held_push P k _ _ _ hl (fun d hd => ?_)
          ⟨le_refl _, by simp only; omega, hep⟩⟩
        have := h.2 d hd
        exact ⟨this.1, by omega, this.2.2⟩
  | Del id write =>
    simp only [step]
    cases hf : s.descs_.findIdx? (fun d => d.id == id) with
    | some i =>
      simp only [Del, hf]
      exact dec_step P k s i h hk (findIdx_lt _ _ _ hf)
    | none =>
      simp only [Del, hf]
      exact ⟨_, rfl, Held_mono P k s h⟩
  | Remove id =>
    simp only [step]
    cases hf : s.descs_.findIdx? (fun d => d.id == id) with
    | some i =>
      simp only [Remove, hf]
      rw [RemovePos_ok s i (findIdx_lt _ _ _ hf)]
      exact ⟨_, rfl, Held_without P k s i h⟩
    | none =>
      simp only [Remove, hf]
      exact ⟨_, rfl, Held_mono P k s h⟩
  | AddAddr addr stack_id write =>
    simp only [step]
    cases hf : s.descs_.findIdx? (fun d => d.addr == addr) with
    | some i =>
      have hi := findIdx_lt _ _ _ hf
      obtain ⟨c1, c2, c3⟩ := h.2 _ (getD_mem s.descs_ i hi)
      simp only [AddAddr, hf]
      refine ⟨_, rfl, Held_set P k s i _ _ h ⟨?_, ?_, c3⟩⟩
      · simp only
        rw [Nat.mod_eq_of_lt (by omega)]
        omega
      · simp only
        rw [Nat.mod_eq_of_lt (by omega)]
        omega
    | none =>
      by_cases hfull : s.descs_.length = P.kMaxSize
      · have hnew : ∀ d ∈ s.descs_, d.addr ≠ addr := fun d hd =>
          beq_eq_false_iff_ne.mp (List.findIdx?_eq_none_iff.mp hf d hd)
        obtain ⟨min, _, _, hrun⟩ := AddAddr_full P s addr stack_id write hmax hfull hnew
        rw [hrun]
        refine ⟨_, rfl, Held_push P k _ _ _ (by rw [length_without]; omega)
          (fun d hd => ?_) ⟨le_refl _, by simp only; omega, by simp only; omega⟩⟩
        have := h.2 d (mem_without _ _ _ hd)
        exact ⟨this.1, by omega, this.2.2⟩
      · simp only [AddAddr, hf, if_neg hfull]
        have hl : s.descs_.length < P.kMaxSize := lt_of_le_of_ne h.1 hfull
        rw [pushDesc_ok P s _ hl]
        refine ⟨_, rfl, Held_push P k _ _ _ hl (fun d hd => ?_)
          ⟨le_refl _, by simp only; omega, by simp only; omega⟩⟩
        have := h.2 d hd
        exact ⟨this.1, by omega, this.2.2⟩
  | DelAddr addr destroy =>
    simp only [step]
    cases hf : s.descs_.findIdx? (fun d => d.addr == addr) with
    | some i =>
      simp only [DelAddr, hf]
      cases destroy with
      | true =>
        simp only [if_true]
        rw [RemovePos_ok s i (findIdx_lt _ _ _ hf)]
        exact ⟨_, rfl, Held_without P k s i h⟩
      | false =>
        simp only [Bool.false_eq_true, if_false]
        exact dec_step P k s i h hk (findIdx_lt _ _ _ hf)
    | none =>
      simp only [DelAddr, hf]
      exact ⟨_, rfl, Held_mono P k s h⟩

theorem run_Held (P : MutexSetParams) (hmax : 0 < P.kMaxSize) :
    ∀ (ops : List Op) (k : Nat) (s : MutexSet), Held P k s → k + ops.length < 2 ^ P.countBits →
      (∀ op ∈ ops, op.epochOk) →
      ∃ s1, run P ops s = .ok s1 ∧ Held P (k + ops.length) s1 := by
  intro ops
  induction ops with
  | nil => intro k s h _ _; exact ⟨s, rfl, h⟩
  | cons op rest ih =>
    intro k s h hk hops
    simp only [List.length_cons] at hk
    obtain ⟨s1, h1, h2⟩ := step_Held P k s op hmax h (by omega)
      (hops op (List.mem_cons_self _ _))
    obtain ⟨s2, h3, h4⟩ := ih (k + 1) s1 h2 (by omega)
      (fun o ho => hops o (List.mem_cons_of_mem _ ho))
    refine ⟨s2, ?_, ?_⟩
    · simp only [run, h1]
      exact h3
    · simp only [List.length_cons]
      have e : k + (rest.length + 1) = k + 1 + rest.length := by omega
      rw [e]
      exact h4

/-- The example run: the fifth lock finds four descriptors held and replaces the one with
the smallest epoch, the address lock with epoch 0. -/
theorem exampleOps_run :
    setOf (run smallSet exampleOps MutexSet.empty) =
      some ⟨[⟨0, 0, 1, true, 10, 0, 1⟩, ⟨0, 0, 5, true, 50, 4, 1⟩, ⟨0, 0, 3, true, 5, 3, 1⟩], 5⟩ := by
  decide

/-- Repeated `Add` of the id a lone descriptor holds: each call increments its `count`
in the width of the field. -/
theorem run_Add_again (P : MutexSetParams) (id : Nat) (write : Bool) (epoch q : Nat) (n : Nat) :
    ∀ c, c < 2 ^ P.countBits →
      run P (List.replicate n (Op.Add id write epoch))
          ⟨[⟨0, P.kInvalidStackID, id, write, epoch, 0, c⟩], q⟩ =
        .ok ⟨[⟨0, P.kInvalidStackID, id, write, epoch, 0, (c + n) % 2 ^ P.countBits⟩], q⟩ := by
  induction n with
  | zero => intro c hc; simp only [List.replicate, run, Nat.add_zero, Nat.mod_eq_of_lt hc]
  | succ n ih =>
    intro c _
    have hstep : step P ⟨[⟨0, P.kInvalidStackID, id, write, epoch, 0, c⟩], q⟩
        (Op.Add id write epoch) =
        .ok ⟨[⟨0, P.kInvalidStackID, id, write, epoch, 0, (c + 1) % 2 ^ P.countBits⟩], q⟩ := by
      simp [step, Add, List.findIdx?]
    simp only [List.replicate, run, hstep]
    rw [ih _ (Nat.mod_lt _ (Nat.two_pow_pos _)), Nat.mod_add_mod]
    have e : c + 1 + n = c + (n + 1) := by omega
    rw [e]

/-- The first `Add` on an empty set, then the same id again: after `n > 0` calls the
descriptor holds `n` in the width of `count`. -/
theorem run_Add_same (P : MutexSetParams) (hmax : 0 < P.kMaxSize) (h1 : 1 < 2 ^ P.countBits)
    (id : Nat) (write : Bool) (epoch : Nat) (n : Nat) (hn : 0 < n) :
    run P (List.replicate n (Op.Add id write epoch)) MutexSet.empty =
      .ok ⟨[⟨0, P.kInvalidStackID, id, write, epoch, 0, n % 2 ^ P.countBits⟩],
        1 % 2 ^ P.seqBits⟩ := by
  obtain ⟨m, rfl⟩ : ∃ m, n = m + 1 := ⟨n - 1, by omega⟩
  have hstep : step P MutexSet.empty (Op.Add id write epoch) =
      .ok ⟨[⟨0, P.kInvalidStackID, id, write, epoch, 0, 1⟩], 1 % 2 ^ P.seqBits⟩ := by
    have hne : ¬ (0 = P.kMaxSize) := by omega
    simp [step, Add, MutexSet.empty, pushDesc, hmax, hne]
  simp only [List.replicate, run, hstep]
  rw [run_Add_again P id write epoch _ m 1 h1, Nat.add_comm 1 m]

end Tsan

namespace Sanitizer

theorem allocszOf_bounds (P : StoreParams) (c pk : Nat) (hpage : P.PageSize = 2 ^ pk)
    (hpk : pk ≤ 32) (hc : c * P.sizeofUptr + P.sizeofBlockInfo ≤ 2 ^ 62) :
    c * P.sizeofUptr + P.sizeofBlockInfo ≤ allocszOf P c ∧ 65536 ≤ allocszOf P c ∧
    allocszOf P c < 2 ^ 63 := by
  unfold allocszOf
  rw [hpage, Nat.mod_eq_of_lt (by omega)]
  have hk : 2 ^ pk ≤ 2 ^ 32 := Nat.pow_le_pow_right (by norm_num) hpk
  have h1 : max (c * P.sizeofUptr + P.sizeofBlockInfo) (64 * 1024) ≤ 2 ^ 62 :=
    max_le hc (by norm_num)
  have hb := Scudo.RoundUpTo_bounds (max (c * P.sizeofUptr + P.sizeofBlockInfo) (64 * 1024)) pk
    (by omega)
  have h2 := le_max_left (c * P.sizeofUptr + P.sizeofBlockInfo) (64 * 1024)
  have h3 := le_max_right (c * P.sizeofUptr + P.sizeofBlockInfo) (64 * 1024)
  refine ⟨by omega, by omega, by omega⟩

theorem tryAlloc_hit (P : StoreParams) (s : StackStore) (c : Nat) (h0 : s.region_pos ≠ 0)
    (h1 : s.region_pos + c * P.sizeofUptr ≤ s.region_end)
    (h2 : s.region_pos + c * P.sizeofUptr < 2 ^ 64) :
    tryAlloc P s c =
      (some s.region_pos, { s with region_pos := s.region_pos + c * P.sizeofUptr }) := by
  unfold tryAlloc
  simp only
  rw [Nat.mod_eq_of_lt (show c * P.sizeofUptr < 2 ^ 64 by omega), Nat.mod_eq_of_lt h2,
    if_neg (by omega)]

theorem tryAlloc_miss (P : StoreParams) (s : StackStore) (c : Nat)
    (h : s.region_pos = 0 ∨
      (s.region_end < s.region_pos + c * P.sizeofUptr ∧ s.region_pos + c * P.sizeofUptr < 2 ^ 64)) :
    tryAlloc P s c = (none, s) := by
  unfold tryAlloc
  simp only
  rcases h with h | ⟨h1, h2⟩
  · rw [if_pos (Or.inl h)]
  · rw [Nat.mod_eq_of_lt (show c * P.sizeofUptr < 2 ^ 64 by omega), Nat.mod_eq_of_lt h2,
      if_pos (Or.inr h1)]

/-- A round of `refillAndAlloc` that maps a block at a non-null address below the top of
the address space ends the call: the retry of `tryAlloc` succeeds in the new block. -/
theorem refill_round (P : StoreParams) (s : StackStore) (c pk mem : Nat) (rest : List Nat)
    (hpage : P.PageSize = 2 ^ pk) (hpk : pk ≤ 32)
    (hc : c * P.sizeofUptr + P.sizeofBlockInfo ≤ 2 ^ 62)
    (hm0 : mem ≠ 0) (hm : mem + allocszOf P c < 2 ^ 64) :
    refillAndAlloc P rest (mapBlock P s c mem) c =
      .ok (mem, { mapBlock P s c mem with region_pos := mem + c * P.sizeofUptr }, rest) ∧
    (mapBlock P s c mem).region_end + P.sizeofBlockInfo = mem + allocszOf P c := by
  obtain ⟨a1, a2, a3⟩ := allocszOf_bounds P c pk hpage hpk hc
  have hend : (mapBlock P s c mem).region_end = mem + (allocszOf P c - P.sizeofBlockInfo) := by
    unfold mapBlock
    simp only
    have e : allocszOf P c + 2 ^ 64 - P.sizeofBlockInfo =
        (allocszOf P c - P.sizeofBlockInfo) + 2 ^ 64 := by omega
    rw [e, Nat.add_mod_right, Nat.mod_eq_of_lt (by omega), Nat.mod_eq_of_lt (by omega)]
  have hpos : (mapBlock P s c mem).region_pos = mem := rfl
  have hhit := tryAlloc_hit P (mapBlock P s c mem) c (by rw [hpos]; exact hm0)
    (by rw [hpos, hend]; omega) (by rw [hpos]; omega)
  rw [hpos] at hhit
  refine ⟨?_, by rw [hend]; omega⟩
  cases rest with
  | nil => simp only [refillAndAlloc, hhit]
  | cons m2 r2 => simp only [refillAndAlloc, hhit]

theorem apart_of_spaced (P : StoreParams) (B : Nat) (r1 r2 : Nat × Nat) (b1 b2 : BlockInfo)
    (h1 : InBlock P r1 b1) (h2 : InBlock P r2 b2) (s1 : b1.size ≤ B) (s2 : b2.size ≤ B)
    (hsp : Spaced B b1.ptr b2.ptr) : Apart P.sizeofUptr r1 r2 := by
  unfold InBlock at h1 h2
  unfold Spaced at hsp
  unfold Apart
  omega

theorem spaced_symm (B a b : Nat) (h : Spaced B a b) : Spaced B b a := by
  unfold Spaced at *
  omega

theorem alloc_step (P : StoreParams) (B n : Nat) (s : StackStore) (hist : List (Nat × Nat))
    (mems : List Nat) (c pk : Nat) (hpage : P.PageSize = 2 ^ pk) (hpk : pk ≤ 32)
    (hc : c * P.sizeofUptr + P.sizeofBlockInfo ≤ 2 ^ 62) (hcB : allocszOf P c ≤ B)
    (hI : StoreInv P B (n + 1) s hist mems) :
    ∃ p s1 rest, alloc P mems s c = .ok (p, s1, rest) ∧
      StoreInv P B n s1 (hist ++ [(p, c)]) rest ∧
      ((rest = mems ∧ s1.curr = s.curr) ∨
        (mems = p :: rest ∧ s1.curr = ⟨p, allocszOf P c⟩ :: s.curr)) := by
  obtain ⟨a1, a2, a3⟩ := allocszOf_bounds P c pk hpage hpk hc
  have hBpos : 0 < B := by omega
  -- the refill path
  have hrefill : tryAlloc P s c = (none, s) →
      ∃ p s1 rest, alloc P mems s c = .ok (p, s1, rest) ∧
        StoreInv P B n s1 (hist ++ [(p, c)]) rest ∧
        ((rest = mems ∧ s1.curr = s.curr) ∨
          (mems = p :: rest ∧ s1.curr = ⟨p, allocszOf P c⟩ :: s.curr)) := by
    intro hmiss
    obtain ⟨hsp, hmem, hlen⟩ := hI.supply
    rcases mems with _ | ⟨m, rest⟩
    · simp at hlen
    obtain ⟨hm0, hm2⟩ := hmem m (List.mem_cons_self _ _)
    obtain ⟨hrun, hend⟩ := refill_round P s c pk m rest hpage hpk hc hm0 (by omega)
    have hcurr : (mapBlock P s c m).curr = ⟨m, allocszOf P c⟩ :: s.curr := rfl
    have hsum : (s.curr.length + 1) * B ≤ (s.curr.length + (n + 1)) * B :=
      Nat.mul_le_mul_right _ (by omega)
    have htot := hI.total
    have hsl := hI.sum_le
    refine ⟨m, { mapBlock P s c m with region_pos := m + c * P.sizeofUptr }, rest, ?_, ?_,
      Or.inr ⟨rfl, rfl⟩⟩
    · simp only [alloc, refillAndAlloc, hmiss]
      exact hrun
    · constructor
      · simp only [hcurr, List.length_cons]
        have e : s.curr.length + 1 + n = s.curr.length + (n + 1) := by omega
        rw [e]; exact htot
      · simp only [hcurr, List.map_cons, List.sum_cons, List.length_cons]
        rw [Nat.succ_mul]
        omega
      · simp only [hcurr, List.map_cons, List.sum_cons]
        show (s.mapped_size + allocszOf P c) % 2 ^ 64 = _
        rw [hI.mapped, Nat.succ_mul] at *
        rw [Nat.mod_eq_of_lt (by omega)]
        omega
      · intro b hb
        simp only [hcurr] at hb
        rcases List.mem_cons.mp hb with hb | hb
        · rw [hb]
          refine ⟨hcB, hm0, hm2, fun m2 hm2 => ?_⟩
          exact (List.pairwise_cons.mp hsp).1 m2 hm2
        · obtain ⟨q1, q2, q3, q4⟩ := hI.blocks b hb
          exact ⟨q1, q2, q3, fun m2 hm2 => q4 m2 (List.mem_cons_of_mem _ hm2)⟩
      · simp only [hcurr]
        refine List.pairwise_cons.mpr ⟨fun b hb => ?_, hI.spaced⟩
        exact spaced_symm _ _ _ ((hI.blocks b hb).2.2.2 m (List.mem_cons_self _ _))
      · right
        refine ⟨⟨m, allocszOf P c⟩, s.curr, rfl, ?_, ?_, ?_⟩
        · show m ≤ m + c * P.sizeofUptr
          omega
        · show m + c * P.sizeofUptr ≤ (mapBlock P s c m).region_end
          omega
        · show (mapBlock P s c m).region_end + P.sizeofBlockInfo = m + allocszOf P c
          exact hend
      · intro r hr
        rcases List.mem_append.mp hr with hr | hr
        · obtain ⟨b, hb, q1, _⟩ := hI.handed r hr
          refine ⟨b, List.mem_cons_of_mem _ hb, q1, fun rest2 h2 => ?_⟩
          exfalso
          simp only [hcurr] at h2
          have e : (⟨m, allocszOf P c⟩ : BlockInfo) = b := (List.cons.inj h2).1
          have := (hI.blocks b hb).2.2.2 m (List.mem_cons_self _ _)
          rw [← e] at this
          unfold Spaced at this
          simp only at this
          omega
        · rw [List.mem_singleton.mp hr]
          refine ⟨⟨m, allocszOf P c⟩, List.mem_cons_self _ _, ?_, fun _ _ => ?_⟩
          · unfold InBlock; simp only; omega
          · simp only; omega
      · refine List.pairwise_append.mpr ⟨hI.apart, List.pairwise_singleton _ _, fun a ha x hx => ?_⟩
        rw [List.mem_singleton.mp hx]
        obtain ⟨b, hb, q1, _⟩ := hI.handed a ha
        have q2 := hI.blocks b hb
        refine apart_of_spaced P B a (m, c) b ⟨m, allocszOf P c⟩ q1 ?_ q2.1 hcB
          (q2.2.2.2 m (List.mem_cons_self _ _))
        unfold InBlock; simp only; omega
      · exact ⟨(List.pairwise_cons.mp hsp).2, fun m2 h2 => hmem m2 (List.mem_cons_of_mem _ h2),
          by simp only [List.length_cons] at hlen; omega⟩
  rcases hI.region with ⟨_, hz⟩ | ⟨b, rest, hcurr, r1, r2, r3⟩
  · exact hrefill (tryAlloc_miss P s c (Or.inl hz))
  · obtain ⟨b1, b2, b3, b4⟩ := hI.blocks b (by rw [hcurr]; exact List.mem_cons_self _ _)
    by_cases hfit : s.region_pos + c * P.sizeofUptr ≤ s.region_end
    · have hhit := tryAlloc_hit P s c (by omega) hfit (by omega)
      refine ⟨s.region_pos, { s with region_pos := s.region_pos + c * P.sizeofUptr }, mems, ?_, ?_,
        Or.inl ⟨rfl, rfl⟩⟩
      · simp only [alloc, hhit]
      · constructor
        · have := hI.total
          have h1 : (s.curr.length + n) * B ≤ (s.curr.length + (n + 1)) * B :=
            Nat.mul_le_mul_right _ (by omega)
          exact lt_of_le_of_lt h1 this
        · exact hI.sum_le
        · exact hI.mapped
        · exact hI.blocks
        · exact hI.spaced
        · right
          exact ⟨b, rest, hcurr, by simp only; omega, hfit, r3⟩
        · intro r hr
          rcases List.mem_append.mp hr with hr | hr
          · obtain ⟨b', hb', q1, q2⟩ := hI.handed r hr
            refine ⟨b', hb', q1, fun rest2 h2 => ?_⟩
            have := q2 rest2 h2
            simp only
            omega
          · rw [List.mem_singleton.mp hr]
            refine ⟨b, by rw [hcurr]; exact List.mem_cons_self _ _, ?_, fun _ _ => le_refl _⟩
            unfold InBlock; simp only; omega
        · refine List.pairwise_append.mpr ⟨hI.apart, List.pairwise_singleton _ _,
            fun a ha x hx => ?_⟩
          rw [List.mem_singleton.mp hx]
          obtain ⟨b', hb', q1, q2⟩ := hI.handed a ha
          rw [hcurr] at hb'
          rcases List.mem_cons.mp hb' with hb' | hb'
          · have := q2 rest (by rw [hcurr, hb'])
            unfold Apart
            simp only
            omega
          · have hs := hI.spaced
            rw [hcurr] at hs
            have hsp := spaced_symm _ _ _ ((List.pairwise_cons.mp hs).1 b' hb')
            refine apart_of_spaced P B a (s.region_pos, c) b' b q1 ?_
              (hI.blocks b' (by rw [hcurr]; exact List.mem_cons_of_mem _ hb')).1 b1 hsp
            unfold InBlock; simp only; omega
        · exact ⟨hI.supply.1, hI.supply.2.1, by have := hI.supply.2.2; omega⟩
    · exact hrefill (tryAlloc_miss P s c (Or.inr ⟨by omega, by omega⟩))

theorem allocAll_inv (P : StoreParams) (B pk : Nat) (hpage : P.PageSize = 2 ^ pk) (hpk : pk ≤ 32) :
    ∀ (counts mems : List Nat) (s : StackStore) (hist : List (Nat × Nat)),
      (∀ c ∈ counts, c * P.sizeofUptr + P.sizeofBlockInfo ≤ 2 ^ 62 ∧ allocszOf P c ≤ B) →
      StoreInv P B counts.length s hist mems →
      ∃ ptrs s1 rest, allocAll P counts mems s = .ok (ptrs, s1, rest) ∧
        StoreInv P B 0 s1 (hist ++ ptrs) rest ∧ ptrs.map Prod.snd = counts ∧
        s1.curr.length ≤ s.curr.length + counts.length := by
  intro counts
  induction counts with
  | nil =>
    intro mems s hist _ hI
    exact ⟨[], s, mems, rfl, by rw [List.append_nil]; exact hI, rfl, by simp⟩
  | cons c cs ih =>
    intro mems s hist hc hI
    obtain ⟨hc1, hc2⟩ := hc c (List.mem_cons_self _ _)
    obtain ⟨p, s1, rest1, h1, h2, h3⟩ := alloc_step P B cs.length s hist mems c pk hpage hpk
      hc1 hc2 hI
    obtain ⟨ptrs, s2, rest2, h4, h5, h6, h7⟩ := ih rest1 s1 (hist ++ [(p, c)])
      (fun x hx => hc x (List.mem_cons_of_mem _ hx)) h2
    refine ⟨(p, c) :: ptrs, s2, rest2, ?_, ?_, ?_, ?_⟩
    · simp only [allocAll, h1, h4]
    · rw [List.append_assoc] at h5
      exact h5
    · simp only [List.map_cons, h6]
    · have : s1.curr.length ≤ s.curr.length + 1 := by
        rcases h3 with ⟨_, h⟩ | ⟨_, h⟩ <;> rw [h] <;> simp
      simp only [List.length_cons]
      omega

theorem tryAlloc_curr (P : StoreParams) (s : StackStore) (c : Nat) :
    (tryAlloc P s c).2.curr = s.curr := by
  unfold tryAlloc
  simp only
  split <;> rfl

/-- Claim C35. In a sequential run from an empty store, with `mmap` answers that are
non-null, at least `B` apart and more than `2 * B` below the top of the address space,
where `B` bounds every block size of the run, and with sizes that do not wrap: the calls
return, the returned ranges are pairwise disjoint, each lies inside one mapped block below
its trailing `BlockInfo` record, `allocated()` is the sum of the sizes of the mapped
blocks, and no more blocks are mapped than calls made; a `refillAndAlloc` call takes at
most one `mmap` answer. -/
theorem StackStore_alloc_disjoint (P : StoreParams) (B pk : Nat) (counts mems : List Nat)
    (hpage : P.PageSize = 2 ^ pk) (hpk : pk ≤ 32)
    (hcounts : ∀ c ∈ counts,
      c * P.sizeofUptr + P.sizeofBlockInfo ≤ 2 ^ 62 ∧ allocszOf P c ≤ B)
    (htotal : counts.length * B < 2 ^ 64)
    (hsp : mems.Pairwise (Spaced B)) (hmem : ∀ m ∈ mems, m ≠ 0 ∧ m + 2 * B < 2 ^ 64)
    (hlen : counts.length ≤ mems.length) :
    (∃ ptrs s rest, allocAll P counts mems StackStore.empty = .ok (ptrs, s, rest) ∧
      ptrs.map Prod.snd = counts ∧
      ptrs.Pairwise (Apart P.sizeofUptr) ∧
      (∀ r ∈ ptrs, ∃ b ∈ s.curr, InBlock P r b) ∧
      allocated s = (s.curr.map BlockInfo.size).sum ∧
      s.curr.length ≤ counts.length) ∧
    ∀ (s0 : StackStore) (c m : Nat) (ms : List Nat),
      c * P.sizeofUptr + P.sizeofBlockInfo ≤ 2 ^ 62 → m ≠ 0 → m + allocszOf P c < 2 ^ 64 →
      ∃ p s1, (refillAndAlloc P (m :: ms) s0 c = .ok (p, s1, m :: ms) ∧ s1.curr = s0.curr) ∨
        (refillAndAlloc P (m :: ms) s0 c = .ok (p, s1, ms) ∧
          s1.curr = ⟨m, allocszOf P c⟩ :: s0.curr) := by
  constructor
  · have h0 : StoreInv P B counts.length StackStore.empty [] mems :=
      { total := by simpa [StackStore.empty] using htotal
        sum_le := by simp [StackStore.empty]
        mapped := by simp [StackStore.empty]
        blocks := fun b hb => (by cases hb)
        spaced := List.Pairwise.nil
        region := Or.inl ⟨rfl, rfl⟩
        handed := fun r hr => (by cases hr)
        apart := List.Pairwise.nil
        supply := ⟨hsp, hmem, hlen⟩ }
    obtain ⟨ptrs, s, rest, h1, h2, h3, h4⟩ := allocAll_inv P B pk hpage hpk counts mems
      StackStore.empty [] hcounts h0
    rw [List.nil_append] at h2
    refine ⟨ptrs, s, rest, h1, h3, h2.apart, fun r hr => ?_, h2.mapped, ?_⟩
    · obtain ⟨b, hb, q, _⟩ := h2.handed r hr
      exact ⟨b, hb, q⟩
    · simpa [StackStore.empty] using h4
  · intro s0 c m ms hc hm0 hm
    cases ht : (tryAlloc P s0 c).1 with
    | some p =>
      refine ⟨p, (tryAlloc P s0 c).2, Or.inl ⟨?_, tryAlloc_curr P s0 c⟩⟩
      simp only [refillAndAlloc, ht]
    | none =>
      obtain ⟨hrun, _⟩ := refill_round P s0 c pk m ms hpage hpk hc hm0 hm
      refine ⟨m, { mapBlock P s0 c m with region_pos := m + c * P.sizeofUptr },
        Or.inr ⟨?_, rfl⟩⟩
      simp only [refillAndAlloc, ht]
      exact hrun

/-- Witness for C35: four calls on the 64-bit sizes, with blocks of 64 KiB. -/
theorem StackStore_alloc_disjoint_witness :
    (exampleMems.Pairwise (Spaced 65536) ∧ ∀ m ∈ exampleMems, m ≠ 0 ∧ m + 2 * 65536 < 2 ^ 64) ∧
    ∃ ptrs s rest, allocAll exampleStore exampleCounts exampleMems StackStore.empty =
        .ok (ptrs, s, rest) ∧
      ptrs.map Prod.snd = exampleCounts ∧ ptrs.Pairwise (Apart exampleStore.sizeofUptr) ∧
      allocated s = (s.curr.map BlockInfo.size).sum := by
  obtain ⟨⟨ptrs, s, rest, h1, h2, h3, _, h5, _⟩, _⟩ := StackStore_alloc_disjoint exampleStore 65536
    12 exampleCounts exampleMems (by decide) (by decide) (by decide) (by decide) (by decide)
    (by decide) (by decide)
  exact ⟨⟨by decide, by decide⟩, ptrs, s, rest, h1, h2, h3, h5⟩

/-- The example run: the third call maps the second block. -/
theorem exampleCounts_run :
    storeOf (allocAll exampleStore exampleCounts exampleMems StackStore.empty) =
      some ([(1048576, 3), (1048600, 8000), (2097152, 8000), (2161152, 5)],
        ⟨2161192, 2162664, 131072, [⟨2097152, 65536⟩, ⟨1048576, 65536⟩]⟩,
        [3145728, 4194304]) := by
  decide

end Sanitizer
